import Mathlib

/-!
# bufpipe: a shallow embedding of `Pipe`, `LineIndexedPipe` and the mock store

The Go sources embedded here are `pipe.go`, `lineindexed.go`, `mock/basic.go` and
`mock/syncable.go`.  Conventions:

* a Go `[]byte` argument or result is a `List Byte`; `len` of a Go slice is the list length;
* `int64` and `int` values are `Int`, arithmetic that can overflow goes through `wrap64`;
* a Go `error` value is an `Option Error` (`none` is Go's `nil`);
* a call that can panic, park on the condition variable, or (in the model) exhaust an
  iteration bound returns an `Outcome`;
* the mutex is not modelled: every operation is one atomic step on the pipe state, which is
  what holding `l.l` for the duration of the call provides.
-/

set_option autoImplicit false

namespace Bufpipe

/-! ## Basic types -/

/-- One byte. -/
abbrev Byte := Fin 256

/-- Go error values the program can produce or receive. -/
inductive Error where
  /-- `io.EOF` -/
  | EOF
  /-- `io.ErrUnexpectedEOF` -/
  | ErrUnexpectedEOF
  /-- `io.ErrClosedPipe` -/
  | ErrClosedPipe
  /-- `io.ErrShortBuffer` -/
  | ErrShortBuffer
  /-- `io.ErrNoProgress` -/
  | ErrNoProgress
  /-- `bufio.ErrTooLong` -/
  | ErrTooLong
  /-- `bufio.ErrNegativeAdvance` -/
  | ErrNegativeAdvance
  /-- `bufio.ErrAdvanceTooFar` -/
  | ErrAdvanceTooFar
  /-- `bytes.ErrTooLarge` -/
  | ErrTooLarge
  /-- `bufpipe.ErrBadSeekOffset` -/
  | ErrBadSeekOffset
  /-- a Go runtime error (index or slice bounds out of range), as a panic value -/
  | runtimeError
  /-- an error made by the caller with `errors.New`, e.g. the tests' `errUnseekable` -/
  | custom (id : Nat)
  deriving DecidableEq, Repr

/-- How a call ends. -/
inductive Outcome (α : Type) where
  /-- the call returns -/
  | ret (a : α)
  /-- the call panics with the given value -/
  | panic (v : Error)
  /-- the call parks on the condition variable (`l.rwait.Wait()`); when it is woken it
  re-runs its loop on the state of that moment -/
  | block
  /-- the iteration bound of the model was exhausted -/
  | nofuel
  deriving Repr

/-- Sequencing of calls: anything but a return ends the caller as well. -/
def Outcome.bind {α β : Type} (x : Outcome α) (f : α → Outcome β) : Outcome β :=
  match x with
  | .ret a => f a
  | .panic v => .panic v
  | .block => .block
  | .nofuel => .nofuel

instance : Monad Outcome where
  pure := Outcome.ret
  bind := Outcome.bind

/-- Two's-complement wrap-around of a mathematical integer into the `int64` range. -/
def wrap64 (x : Int) : Int :=
  (x + 9223372036854775808) % 18446744073709551616 - 9223372036854775808

/-- `os.SEEK_SET` -/
def SEEK_SET : Int := 0
/-- `os.SEEK_CUR` -/
def SEEK_CUR : Int := 1
/-- `os.SEEK_END` -/
def SEEK_END : Int := 2

/-- The store interface a pipe consumes: Go's `io.ReadWriteSeeker`, and `Sync` when the
dynamic type also implements `Syncer` (`none` when it does not).  `Read` gets the caller's
buffer and returns its contents after the call. -/
class ReadWriteSeeker (σ : Type) where
  /-- `Read(b []byte) (n int, err error)` -/
  Read : σ → List Byte → Outcome (σ × List Byte × Int × Option Error)
  /-- `Write(b []byte) (n int, err error)` -/
  Write : σ → List Byte → Outcome (σ × Int × Option Error)
  /-- `Seek(offset int64, whence int) (int64, error)` -/
  Seek : σ → Int → Int → Outcome (σ × Int × Option Error)
  /-- `Sync() error`, when the store has it -/
  Sync : Option (σ → Outcome (σ × Option Error))

/-! ## `mock/basic.go` -/

namespace Mock

/-- A non-nil Go `[]byte`: its backing array (whose length is the capacity) and its
length.  The visible bytes are the first `len` of `arr`. -/
structure Slice where
  arr : List Byte
  len : Nat
  deriving DecidableEq, Repr

/-- The data fields of `ReadWriteSeekable`: `buf` (`none` is the nil slice) and `off`. -/
structure Buffer where
  buf : Option Slice
  off : Int
  deriving DecidableEq, Repr

/-- `len(rws.buf)` -/
def Buffer.blen (b : Buffer) : Nat :=
  match b.buf with
  | none => 0
  | some s => s.len

/-- `cap(rws.buf)` -/
def Buffer.bcap (b : Buffer) : Nat :=
  match b.buf with
  | none => 0
  | some s => s.arr.length

/-- `Bytes()`: the contents of the buffer. -/
def Buffer.Bytes (b : Buffer) : List Byte :=
  match b.buf with
  | none => []
  | some s => s.arr.take s.len

/-- The mock store.  An override is a Go closure over the store; here it is a function of
the store's data fields. -/
structure ReadWriteSeekable extends Buffer where
  ReadFunc : Option (Buffer → List Byte → Outcome (Buffer × List Byte × Int × Option Error))
  WriteFunc : Option (Buffer → List Byte → Outcome (Buffer × Int × Option Error))
  SeekFunc : Option (Buffer → Int → Int → Outcome (Buffer × Int × Option Error))

/-- `&mock.ReadWriteSeekable{}`: the zero value, with a nil buffer. -/
def zeroValue : ReadWriteSeekable :=
  { buf := none, off := 0, ReadFunc := none, WriteFunc := none, SeekFunc := none }

/-- `NewReadWriteSeekable(buf)` for a non-nil `buf` with `cap(buf) = len(buf)`. -/
def NewReadWriteSeekable (buf : List Byte) : ReadWriteSeekable :=
  { buf := some ⟨buf, buf.length⟩, off := 0,
    ReadFunc := none, WriteFunc := none, SeekFunc := none }

/-- The default `Read`: `copy(b, rws.buf[rws.off:])`. -/
def Buffer.Read (rws : Buffer) (b : List Byte) :
    Outcome (Buffer × List Byte × Int × Option Error) :=
  if rws.buf = none ∨ rws.off ≥ (rws.blen : Int) then
    .ret (rws, b, 0, some .EOF)
  else if rws.off < 0 then
    .panic .runtimeError
  else
    let src := rws.Bytes.drop rws.off.toNat
    let n := min b.length src.length
    .ret ({ rws with off := wrap64 (rws.off + n) }, src.take n ++ b.drop n, n, none)

/-- `grow(n)`.  A slice expression past the capacity panics; the deferred `recover`
turns any panic into `panic(bytes.ErrTooLarge)`.  `append` past the capacity allocates a
new array; the model gives it exactly the requested size (Go may round the capacity up,
the extra elements are zero and beyond the length). -/
def Buffer.grow (rws : Buffer) (n : Nat) : Outcome Buffer :=
  let bl := rws.blen
  let s : Option Slice :=
    if bl + n > rws.bcap then
      match rws.buf with
      | none => some ⟨List.replicate 64 0, 64⟩
      | some s => some ⟨s.arr.take s.len ++ List.replicate (n * 2) 0, s.len + n * 2⟩
    else rws.buf
  match s with
  | none => if bl + n > 0 then .panic .ErrTooLarge else .ret { rws with buf := none }
  | some s =>
    if bl + n > s.arr.length then .panic .ErrTooLarge
    else .ret { rws with buf := some ⟨s.arr, bl + n⟩ }

/-- The default `Write`: grow when fewer than `len(b)` bytes remain after `off`, then
`copy(rws.buf[rws.off:], b)`.  The offset is not advanced. -/
def Buffer.Write (rws : Buffer) (b : List Byte) : Outcome (Buffer × Int × Option Error) :=
  let r : Int := wrap64 ((rws.blen : Int) - rws.off)
  let l : Int := b.length
  let grown : Outcome Buffer := if r < l then rws.grow (wrap64 (l - r)).toNat else .ret rws
  grown.bind fun rws =>
    if rws.off < 0 ∨ rws.off > (rws.blen : Int) then .panic .runtimeError
    else
      match rws.buf with
      | none => .ret (rws, 0, none)
      | some s =>
        let o := rws.off.toNat
        let n := min (s.len - o) b.length
        .ret ({ rws with buf := some ⟨s.arr.take o ++ b.take n ++ s.arr.drop (o + n), s.len⟩ },
              n, none)

/-- The default `Seek`: the new offset is clamped into `[0, len(buf)]`. -/
def Buffer.Seek (rws : Buffer) (offset : Int) (whence : Int) :
    Outcome (Buffer × Int × Option Error) :=
  let l : Int := rws.blen
  let off :=
    if whence = SEEK_END then wrap64 (l - offset)
    else if whence = SEEK_SET then offset
    else if whence = SEEK_CUR then wrap64 (rws.off + offset)
    else rws.off
  let off := if off > l then l else off
  let off := if off < 0 then 0 else off
  .ret ({ rws with off := off }, off, none)

/-- `Read`, with the override. -/
def ReadWriteSeekable.Read (rws : ReadWriteSeekable) (b : List Byte) :
    Outcome (ReadWriteSeekable × List Byte × Int × Option Error) :=
  match rws.ReadFunc with
  | some f => (f rws.toBuffer b).bind fun (s, b, n, e) => .ret ({ rws with toBuffer := s }, b, n, e)
  | none => (rws.toBuffer.Read b).bind fun (s, b, n, e) => .ret ({ rws with toBuffer := s }, b, n, e)

/-- `Write`, with the override. -/
def ReadWriteSeekable.Write (rws : ReadWriteSeekable) (b : List Byte) :
    Outcome (ReadWriteSeekable × Int × Option Error) :=
  match rws.WriteFunc with
  | some f => (f rws.toBuffer b).bind fun (s, n, e) => .ret ({ rws with toBuffer := s }, n, e)
  | none => (rws.toBuffer.Write b).bind fun (s, n, e) => .ret ({ rws with toBuffer := s }, n, e)

/-- `Seek`, with the override. -/
def ReadWriteSeekable.Seek (rws : ReadWriteSeekable) (offset whence : Int) :
    Outcome (ReadWriteSeekable × Int × Option Error) :=
  match rws.SeekFunc with
  | some f =>
    (f rws.toBuffer offset whence).bind fun (s, n, e) => .ret ({ rws with toBuffer := s }, n, e)
  | none =>
    (rws.toBuffer.Seek offset whence).bind fun (s, n, e) => .ret ({ rws with toBuffer := s }, n, e)

instance : ReadWriteSeeker ReadWriteSeekable where
  Read := ReadWriteSeekable.Read
  Write := ReadWriteSeekable.Write
  Seek := ReadWriteSeekable.Seek
  Sync := none

/-- `mock/syncable.go`: the mock store with a `Sync` method.  `SyncFunc` is the error the
callback returns (`none` for no callback). -/
structure SyncReadWriteSeekable where
  rws : ReadWriteSeekable
  SyncFunc : Option (Option Error)

/-- `Sync()`: the callback's error, `nil` without a callback. -/
def SyncReadWriteSeekable.Sync (s : SyncReadWriteSeekable) :
    Outcome (SyncReadWriteSeekable × Option Error) :=
  match s.SyncFunc with
  | some e => .ret (s, e)
  | none => .ret (s, none)

instance : ReadWriteSeeker SyncReadWriteSeekable where
  Read s b := (s.rws.Read b).bind fun (r, b, n, e) => .ret ({ s with rws := r }, b, n, e)
  Write s b := (s.rws.Write b).bind fun (r, n, e) => .ret ({ s with rws := r }, n, e)
  Seek s o w := (s.rws.Seek o w).bind fun (r, n, e) => .ret ({ s with rws := r }, n, e)
  Sync := some SyncReadWriteSeekable.Sync

end Mock

/-! ## `pipe.go` -/

open ReadWriteSeeker in
/-- `syncWriter`: `Sync()` when the store implements `Syncer`, `nil` otherwise. -/
def syncWriter {σ : Type} [ReadWriteSeeker σ] (w : σ) : Outcome (σ × Option Error) :=
  match (Sync : Option (σ → Outcome (σ × Option Error))) with
  | some sync => sync w
  | none => .ret (w, none)

/-- The fields of `Pipe` (the mutex and the condition variable are not state of the
model). -/
structure Pipe (σ : Type) where
  data : σ
  readIndex : Int
  size : Int
  rerr : Option Error
  werr : Option Error

namespace Pipe

variable {σ : Type} [ReadWriteSeeker σ]

/-- `NewPipe`: the size is the store's end offset; a failing seek panics with the error. -/
def NewPipe (data : σ) : Outcome (Pipe σ) := do
  let (data, size, err) ← ReadWriteSeeker.Seek data 0 SEEK_END
  match err with
  | some e => .panic e
  | none => pure { data := data, readIndex := 0, size := size, rerr := none, werr := none }

/-- The locked section of `Read`.  The loop either leaves with an error, breaks when
`readIndex < size`, or waits. -/
def readLocked (l : Pipe σ) (d : List Byte) :
    Outcome (Pipe σ × List Byte × Int × Option Error) :=
  if l.rerr ≠ none then pure (l, d, 0, some .ErrClosedPipe)
  else if l.werr ≠ none then pure (l, d, 0, l.werr)
  else if l.readIndex < l.size then do
    let (data, _, err) ← ReadWriteSeeker.Seek l.data l.readIndex SEEK_SET
    let l := { l with data := data }
    if err ≠ none then pure (l, d, 0, err)
    else
      let (data, d, n, err) ← ReadWriteSeeker.Read l.data d
      pure ({ l with data := data, readIndex := wrap64 (l.readIndex + n) }, d, n, err)
  else .block

/-- `Read`: the locked section, then a non-nil error is recorded in `rerr`. -/
def Read (l : Pipe σ) (d : List Byte) : Outcome (Pipe σ × List Byte × Int × Option Error) := do
  let (l, d, n, err) ← readLocked l d
  if err ≠ none then pure ({ l with rerr := err }, d, n, err)
  else pure (l, d, n, err)

/-- The locked section of `Write`. -/
def writeLocked (l : Pipe σ) (d : List Byte) : Outcome (Pipe σ × Int × Option Error) :=
  if l.rerr ≠ none then pure (l, 0, l.rerr)
  else if l.werr ≠ none then pure (l, 0, some .ErrClosedPipe)
  else do
    let (data, _, err) ← ReadWriteSeeker.Seek l.data 0 SEEK_END
    let l := { l with data := data }
    if err ≠ none then pure (l, 0, err)
    else
      let (data, n, err) ← ReadWriteSeeker.Write l.data d
      let l := { l with data := data }
      let (data, err) ← (if err = none then syncWriter l.data else pure (l.data, err))
      pure ({ l with data := data, size := wrap64 (l.size + n) }, n, err)

/-- `Write`: the locked section, then a non-nil error is recorded in `werr`. -/
def Write (l : Pipe σ) (d : List Byte) : Outcome (Pipe σ × Int × Option Error) := do
  let (l, n, err) ← writeLocked l d
  if err ≠ none then pure ({ l with werr := err }, n, err)
  else pure (l, n, err)

/-- `Seek`: moves the read index only; an unknown `whence` leaves it as it is before the
clamping. -/
def Seek (l : Pipe σ) (offset : Int) (whence : Int) : Pipe σ × Int × Option Error :=
  let ri :=
    if whence = SEEK_END then wrap64 (l.size - offset)
    else if whence = SEEK_SET then offset
    else if whence = SEEK_CUR then wrap64 (l.readIndex + offset)
    else l.readIndex
  let ri := if ri > l.size then l.size else ri
  let ri := if ri < 0 then 0 else ri
  ({ l with readIndex := ri }, ri, none)

/-- `DataSize` -/
def DataSize (l : Pipe σ) : Int × Option Error := (l.size, none)

/-- `close` -/
def close (l : Pipe σ) : Pipe σ :=
  { l with rerr := some .ErrClosedPipe, werr := some .ErrClosedPipe }

end Pipe

/-! ## `encoding/binary`, `io.ReadFull` -/

/-- The `k` low bytes of `u`, least significant first. -/
def putUintLE : Nat → Nat → List Byte
  | 0, _ => []
  | k + 1, u => Fin.ofNat (u % 256) :: putUintLE k (u / 256)

/-- The number a little-endian byte string stands for. -/
def getUintLE : List Byte → Nat
  | [] => 0
  | b :: bs => b.val + 256 * getUintLE bs

/-- `binary.LittleEndian.PutUint64(bs, uint64(v))`: the 8 bytes of an `int64`. -/
def putInt64LE (v : Int) : List Byte :=
  putUintLE 8 (v % 18446744073709551616).toNat

/-- `int64(binary.LittleEndian.Uint64(bs))` -/
def getInt64LE (bs : List Byte) : Int :=
  wrap64 (getUintLE bs)

/-- The bound on the iterations of `io.ReadAtLeast`'s loop in the model.  A store that
answers `(0, nil)` more often than this while 8 bytes are wanted ends in `nofuel`. -/
def readFullFuel : Nat := 16

/-- The loop of `io.ReadAtLeast(r, buf, min)`: `for n < min && err == nil`, each turn
reads into `buf[n:]`. -/
def readAtLeastLoop {τ : Type} [ReadWriteSeeker τ] (min : Int) :
    Nat → τ → List Byte → Int → Option Error → Outcome (τ × List Byte × Int × Option Error)
  | 0, r, buf, n, err =>
    if n < min ∧ err = none then .nofuel else .ret (r, buf, n, err)
  | fuel + 1, r, buf, n, err =>
    if n < min ∧ err = none then
      if n < 0 ∨ n > buf.length then .panic .runtimeError
      else
        (ReadWriteSeeker.Read r (buf.drop n.toNat)).bind fun (r, sub, nn, err) =>
          readAtLeastLoop min fuel r (buf.take n.toNat ++ sub) (wrap64 (n + nn)) err
    else .ret (r, buf, n, err)

/-- `io.ReadFull(r, buf)`, that is `io.ReadAtLeast(r, buf, len(buf))`. -/
def ReadFull {τ : Type} [ReadWriteSeeker τ] (r : τ) (buf : List Byte) :
    Outcome (τ × List Byte × Int × Option Error) :=
  (readAtLeastLoop (buf.length : Int) readFullFuel r buf 0 none).bind fun (r, buf, n, err) =>
    if n ≥ (buf.length : Int) then .ret (r, buf, n, none)
    else if n > 0 ∧ err = some .EOF then .ret (r, buf, n, some .ErrUnexpectedEOF)
    else .ret (r, buf, n, err)

/-- `binary.Read(r, binary.LittleEndian, &v)` for `v int64`: the decoded value, or the
error of `io.ReadFull` (then the target is not assigned). -/
def binaryRead {τ : Type} [ReadWriteSeeker τ] (r : τ) : Outcome (τ × Option Int × Option Error) :=
  (ReadFull r (List.replicate 8 0)).bind fun (r, bs, _, err) =>
    match err with
    | some e => .ret (r, none, some e)
    | none => .ret (r, some (getInt64LE bs), none)

/-- `binary.Write(w, binary.LittleEndian, v)` for `v int64`: one `Write` of the 8 bytes,
whose count is dropped. -/
def binaryWrite {τ : Type} [ReadWriteSeeker τ] (w : τ) (v : Int) : Outcome (τ × Option Error) :=
  (ReadWriteSeeker.Write w (putInt64LE v)).bind fun (w, _, err) => .ret (w, err)

/-! ## `bufio.Scanner` over `bytes.NewReader(p)` with `scanLines` as split function -/

/-- The line terminator `'\n'`. -/
def newline : Byte := 10

/-- `bytes.IndexByte`: index of the first occurrence, `-1` when there is none. -/
def IndexByte : List Byte → Byte → Int
  | [], _ => -1
  | b :: bs, c =>
    if b = c then 0
    else
      let i := IndexByte bs c
      if i < 0 then -1 else i + 1

/-- `scanLines(data, atEOF)`: `(advance, token, err)`; a `nil` token is `none`. -/
def scanLines (data : List Byte) (atEOF : Bool) : Int × Option (List Byte) × Option Error :=
  if atEOF ∧ data.length = 0 then (0, none, none)
  else
    let i := IndexByte data newline
    if i ≥ 0 then (i + 1, some (data.take (i + 1).toNat), none)
    else if atEOF then (data.length, some data, none)
    else (0, none, none)

/-- `bufio.MaxScanTokenSize` -/
def MaxScanTokenSize : Nat := 64 * 1024

/-- `bufio`'s `startBufSize` -/
def startBufSize : Nat := 4096

/-- The state of a `bufio.Scanner` reading from a `bytes.Reader`.  `r` is what the reader
has not handed out yet, `held` is `s.buf[s.start:s.end]`, `bufLen` is `len(s.buf)`; the
rest of the buffer's contents never reaches a token and is not kept. -/
structure Scanner where
  r : List Byte
  held : List Byte
  start : Nat
  bufLen : Nat
  token : Option (List Byte)
  err : Option Error
  deriving DecidableEq, Repr

namespace Scanner

/-- `bufio.NewScanner(bytes.NewReader(p))`: no buffer is allocated yet. -/
def NewScanner (p : List Byte) : Scanner :=
  { r := p, held := [], start := 0, bufLen := 0, token := none, err := none }

/-- `s.end` -/
def bufEnd (s : Scanner) : Nat := s.start + s.held.length

/-- `setErr`: records the first non-EOF error. -/
def setErr (s : Scanner) (e : Error) : Scanner :=
  if s.err = none ∨ s.err = some .EOF then { s with err := some e } else s

/-- `Err()`: the first non-EOF error. -/
def Err (s : Scanner) : Option Error :=
  if s.err = some .EOF then none else s.err

/-- `Bytes()`: the most recent token. -/
def Bytes (s : Scanner) : List Byte := s.token.getD []

/-- The head of `Scan`'s loop: when data is held or the input has ended, ask the split
function.  `Sum.inl` is a return from `Scan`, `Sum.inr` means no token yet.  (`scanLines`
returns no error and no token without advancing, so `ErrFinalToken` and the count of empty
tokens play no part.) -/
def trySplit (s : Scanner) : (Bool × Scanner) ⊕ Scanner :=
  if s.held ≠ [] ∨ s.err ≠ none then
    let (advance, token, err) := scanLines s.held (s.err ≠ none)
    match err with
    | some e => .inl (false, s.setErr e)
    | none =>
      if advance < 0 then .inl (false, s.setErr .ErrNegativeAdvance)
      else if advance > s.held.length then .inl (false, s.setErr .ErrAdvanceTooFar)
      else
        let s := { s with start := s.start + advance.toNat,
                          held := s.held.drop advance.toNat, token := token }
        if token ≠ none then .inl (true, s) else .inr s
  else .inr s

/-- Shift the held data to the beginning of the buffer when there is lots of empty space
or space is needed. -/
def shift (s : Scanner) : Scanner :=
  if s.start > 0 ∧ (s.bufEnd = s.bufLen ∨ s.start > s.bufLen / 2) then { s with start := 0 }
  else s

/-- When the buffer is full: double it up to `MaxScanTokenSize`; `none` when it is
already that large (`ErrTooLong`). -/
def resize (s : Scanner) : Option Scanner :=
  if s.bufEnd = s.bufLen then
    if s.bufLen ≥ MaxScanTokenSize then none
    else
      let newSize := s.bufLen * 2
      let newSize := if newSize = 0 then startBufSize else newSize
      let newSize := if newSize > MaxScanTokenSize then MaxScanTokenSize else newSize
      some { s with bufLen := newSize, start := 0 }
  else some s

/-- Read from the `bytes.Reader` into `s.buf[s.end:len(s.buf)]`: at the end of the input
the reader answers `(0, io.EOF)`, otherwise it copies what fits.  A reader that keeps
answering `(0, nil)` ends the inner loop with `io.ErrNoProgress`. -/
def fill (s : Scanner) : Scanner :=
  if s.r = [] then s.setErr .EOF
  else
    let n := min (s.bufLen - s.bufEnd) s.r.length
    if n = 0 then s.setErr .ErrNoProgress
    else { s with held := s.held ++ s.r.take n, r := s.r.drop n }

/-- `Scan()`: loop until there is a token (`true`) or the scan stops (`false`); `none`
when the iteration bound is exhausted. -/
def Scan : Nat → Scanner → Option (Bool × Scanner)
  | 0, _ => none
  | fuel + 1, s =>
    match s.trySplit with
    | .inl res => some res
    | .inr s =>
      if s.err ≠ none then some (false, { s with start := 0, held := [] })
      else
        let s := s.shift
        match s.resize with
        | none => some (false, s.setErr .ErrTooLong)
        | some s => Scan fuel s.fill

end Scanner

/-! ## `lineindexed.go` -/

/-- `int64Size` -/
def int64Size : Int := 8

/-- The fields of `LineIndexedPipe`; `pipe` is the embedded `*Pipe`. -/
structure LineIndexedPipe (σ τ : Type) where
  pipe : Pipe σ
  index : τ
  lastIndex : Int

namespace LineIndexedPipe

variable {σ τ : Type} [ReadWriteSeeker σ] [ReadWriteSeeker τ]

/-- `NewLineIndexedPipe` -/
def NewLineIndexedPipe (data : σ) (index : τ) : Outcome (LineIndexedPipe σ τ) := do
  let pipe ← Pipe.NewPipe data
  pure { pipe := pipe, index := index, lastIndex := 0 }

/-- `writeIndex`: append `lastIndex` to the index, sync it, then set `lastIndex` to the end
offset of the data store (the assignment happens whether or not that seek fails). -/
def writeIndex (l : LineIndexedPipe σ τ) : Outcome (LineIndexedPipe σ τ × Option Error) := do
  let (index, _, err) ← ReadWriteSeeker.Seek l.index 0 SEEK_END
  let l := { l with index := index }
  if err ≠ none then pure (l, err)
  else
    let (index, err) ← binaryWrite l.index l.lastIndex
    let l := { l with index := index }
    if err ≠ none then pure (l, err)
    else
      let (index, err) ← syncWriter l.index
      let l := { l with index := index }
      if err ≠ none then pure (l, err)
      else
        let (data, last, err) ← ReadWriteSeeker.Seek l.pipe.data 0 SEEK_END
        pure ({ l with pipe := { l.pipe with data := data }, lastIndex := last }, err)

/-- The body of the scan loop of `Write` for the token `output`, with `n` the count so
far: write the token to the data store, write the index when the token ends in `'\n'`,
then advance `size`.  A non-nil error in the result is a `return` out of `Write`. -/
def writeToken (l : LineIndexedPipe σ τ) (output : List Byte) (n : Int) :
    Outcome (LineIndexedPipe σ τ × Int × Option Error) :=
  (ReadWriteSeeker.Write l.pipe.data output).bind fun (data, wn, err) =>
    let l := { l with pipe := { l.pipe with data := data } }
    let n := wrap64 (n + wn)
    if err ≠ none then .ret (l, n, err)
    else
      match output.getLast? with
      | none => .panic .runtimeError
      | some c =>
        let indexed : Outcome (LineIndexedPipe σ τ × Option Error) :=
          if c = newline then l.writeIndex else .ret (l, none)
        indexed.bind fun (l, err) =>
          if err ≠ none then .ret (l, wrap64 (n - wn), err)
          else
            .ret ({ l with pipe := { l.pipe with size := wrap64 (l.pipe.size + wn) } }, n, none)

/-- The scan loop of `Write`: `for scanner.Scan() { ... }`, then `err = scanner.Err()`.
`scanFuel` bounds each `Scan`, the first argument bounds the number of tokens. -/
def writeLoop (scanFuel : Nat) :
    Nat → LineIndexedPipe σ τ → Scanner → Int →
      Outcome (LineIndexedPipe σ τ × Int × Option Error)
  | 0, _, _, _ => .nofuel
  | fuel + 1, l, scanner, n =>
    match scanner.Scan scanFuel with
    | none => .nofuel
    | some (false, scanner) => .ret (l, n, scanner.Err)
    | some (true, scanner) =>
      (writeToken l scanner.Bytes n).bind fun (l, n, err) =>
        if err ≠ none then .ret (l, n, err)
        else writeLoop scanFuel fuel l scanner n

/-- The locked section of `Write`.  The bounds given to the loop are enough for every
`p` (`writeLoop_eq`). -/
def writeLocked (l : LineIndexedPipe σ τ) (p : List Byte) :
    Outcome (LineIndexedPipe σ τ × Int × Option Error) :=
  if l.pipe.rerr ≠ none then pure (l, 0, l.pipe.rerr)
  else if l.pipe.werr ≠ none then pure (l, 0, some .ErrClosedPipe)
  else do
    let (data, _, err) ← ReadWriteSeeker.Seek l.pipe.data l.pipe.size SEEK_SET
    let l := { l with pipe := { l.pipe with data := data } }
    if err ≠ none then pure (l, 0, err)
    else writeLoop (p.length + 2) (p.length + 1) l (Scanner.NewScanner p) 0

/-- `Write`: the locked section, then a non-nil error is recorded in `werr`. -/
def Write (l : LineIndexedPipe σ τ) (p : List Byte) :
    Outcome (LineIndexedPipe σ τ × Int × Option Error) := do
  let (l, n, err) ← writeLocked l p
  if err ≠ none then pure ({ l with pipe := { l.pipe with werr := err } }, n, err)
  else pure (l, n, err)

/-- `SeekLine`: seek the index to `line*8` and read the read index from it; a non-nil
error is recorded in `rerr`. -/
def SeekLine (l : LineIndexedPipe σ τ) (line : Int) :
    Outcome (LineIndexedPipe σ τ × Option Error) := do
  let (index, _, err) ← ReadWriteSeeker.Seek l.index (wrap64 (line * int64Size)) SEEK_SET
  let l := { l with index := index }
  let (l, err) ←
    (if err ≠ none then (pure (l, err) : Outcome (LineIndexedPipe σ τ × Option Error))
     else do
      let (index, v, err) ← binaryRead l.index
      let l := { l with index := index }
      match v with
      | some v => pure ({ l with pipe := { l.pipe with readIndex := v } }, err)
      | none => pure (l, err))
  if err ≠ none then pure ({ l with pipe := { l.pipe with rerr := err } }, err)
  else pure (l, err)

/-- `IndexSize`: the end offset of the index store. -/
def IndexSize (l : LineIndexedPipe σ τ) : Outcome (LineIndexedPipe σ τ × Int × Option Error) := do
  let (index, size, err) ← ReadWriteSeeker.Seek l.index 0 SEEK_END
  pure ({ l with index := index }, size, err)

/-- `CountLines`: `IndexSize() / 8` (Go's division truncates). -/
def CountLines (l : LineIndexedPipe σ τ) : Outcome (LineIndexedPipe σ τ × Int × Option Error) := do
  let (l, size, err) ← l.IndexSize
  pure (l, size.tdiv int64Size, err)

/-- The embedded `Read`. -/
def Read (l : LineIndexedPipe σ τ) (d : List Byte) :
    Outcome (LineIndexedPipe σ τ × List Byte × Int × Option Error) := do
  let (pipe, d, n, err) ← l.pipe.Read d
  pure ({ l with pipe := pipe }, d, n, err)

/-- The embedded `Seek`. -/
def Seek (l : LineIndexedPipe σ τ) (offset whence : Int) : LineIndexedPipe σ τ × Int × Option Error :=
  let (pipe, n, err) := l.pipe.Seek offset whence
  ({ l with pipe := pipe }, n, err)

/-- The embedded `close`. -/
def close (l : LineIndexedPipe σ τ) : LineIndexedPipe σ τ :=
  { l with pipe := l.pipe.close }

end LineIndexedPipe

/-! ## Predicates used to state the theorems -/

namespace Mock

/-- The store has no override: every call runs the default code. -/
def ReadWriteSeekable.Plain (s : ReadWriteSeekable) : Prop :=
  s.ReadFunc = none ∧ s.WriteFunc = none ∧ s.SeekFunc = none

/-- The state of a buffer that only the mock's own methods have touched: the offset lies
within the buffer, the length within the capacity, and the length fits an `int64`. -/
structure Buffer.Wf (b : Buffer) : Prop where
  off_nonneg : 0 ≤ b.off
  off_le : b.off ≤ (b.blen : Int)
  len_le_cap : b.blen ≤ b.bcap
  len_lt : (b.blen : Int) < 9223372036854775808

/-- The state of a mock store without overrides that only its own methods have touched. -/
structure ReadWriteSeekable.Good (s : ReadWriteSeekable) : Prop where
  plain : s.Plain
  wf : s.toBuffer.Wf

/-- The store after its offset has been set. -/
def ReadWriteSeekable.setOff (s : ReadWriteSeekable) (o : Int) : ReadWriteSeekable :=
  { s with off := o }

/-- The first write to a nil buffer allocates 64 bytes and cannot take more; an allocated
buffer grows as needed. -/
def ReadWriteSeekable.Room (s : ReadWriteSeekable) (n : Nat) : Prop :=
  s.buf ≠ none ∨ n ≤ 64

end Mock

/-- A pipe over a mock store without overrides, whose size is the length of the store. -/
structure Pipe.Ok (l : Pipe Mock.ReadWriteSeekable) : Prop where
  good : l.data.Good
  size_eq : l.size = (l.data.Bytes.length : Int)

/-- Neither error slot of the pipe is set. -/
def Pipe.Open {σ : Type} (l : Pipe σ) : Prop :=
  l.rerr = none ∧ l.werr = none

/-- The position a `Seek` asks for, before any wrap-around and clamping: `offset` from the
start, `readIndex + offset` from the current position, `size - offset` from the end. -/
def Pipe.seekTarget {σ : Type} (l : Pipe σ) (offset whence : Int) : Int :=
  if whence = SEEK_SET then offset
  else if whence = SEEK_CUR then l.readIndex + offset
  else l.size - offset

/-- The value `t` clamped into `[0, size]`. -/
def clampTo (size t : Int) : Int :=
  max 0 (min t size)

/-! ## Sequences of calls on a pipe -/

/-- One call on a pipe. -/
inductive Pipe.Op where
  /-- `Read(d)` -/
  | read (d : List Byte)
  /-- `Write(d)` -/
  | write (d : List Byte)
  /-- `Seek(offset, whence)` -/
  | seek (offset whence : Int)
  deriving DecidableEq, Repr

/-- What a call returned. -/
inductive Pipe.Event where
  /-- `Read` returned `(n, err)`; `got` is `d[:n]` -/
  | read (got : List Byte) (n : Int) (err : Option Error)
  /-- `Write` returned `(n, err)` -/
  | write (n : Int) (err : Option Error)
  /-- `Seek` returned `(pos, err)` -/
  | seek (pos : Int) (err : Option Error)
  deriving DecidableEq, Repr

/-- The byte count a call reported as written: the `n` of a `Write`, 0 for other calls. -/
def Pipe.Event.written : Pipe.Event → Int
  | .write n _ => n
  | _ => 0

/-- The call succeeded: it returned a nil error. -/
def Pipe.Event.ok : Pipe.Event → Prop
  | .read _ _ err => err = none
  | .write _ err => err = none
  | .seek _ err => err = none

/-- The bytes a sequence of calls asks to write, in order. -/
def Pipe.Op.writes : List Pipe.Op → List Byte
  | [] => []
  | .write d :: ops => d ++ Pipe.Op.writes ops
  | _ :: ops => Pipe.Op.writes ops

/-- Every `Write` of the sequence has at most 64 bytes. -/
def Pipe.Op.small : List Pipe.Op → Prop
  | [] => True
  | .write d :: ops => d.length ≤ 64 ∧ Pipe.Op.small ops
  | _ :: ops => Pipe.Op.small ops

/-- One call. -/
def Pipe.step {σ : Type} [ReadWriteSeeker σ] (l : Pipe σ) : Pipe.Op → Outcome (Pipe σ × Pipe.Event)
  | .read d => (l.Read d).bind fun (l, d, n, err) => .ret (l, .read (d.take n.toNat) n err)
  | .write d => (l.Write d).bind fun (l, n, err) => .ret (l, .write n err)
  | .seek offset whence =>
    let (l, pos, err) := l.Seek offset whence
    .ret (l, .seek pos err)

/-- A sequence of calls, each made when the one before has returned; the log is what they
returned. -/
def Pipe.run {σ : Type} [ReadWriteSeeker σ] (l : Pipe σ) : List Pipe.Op → Outcome (Pipe σ × List Pipe.Event)
  | [] => .ret (l, [])
  | op :: ops =>
    (l.step op).bind fun (l, ev) =>
      (Pipe.run l ops).bind fun (l, evs) => .ret (l, ev :: evs)

/-! ## The index as a sequence of records -/

/-- The value of index record `k`: the little-endian `int64` in bytes `8k .. 8k+7` of the
index store. -/
def indexRecord (index : List Byte) (k : Nat) : Int :=
  getInt64LE ((index.drop (8 * k)).take 8)

/-- The bytes of `"\nHello World\n\n"`, the test input of `TestWriteReadIndexedPipe`. -/
def helloWorld : List Byte :=
  [10, 72, 101, 108, 108, 111, 32, 87, 111, 114, 108, 100, 10, 10]

namespace LineIndexedPipe

open Mock

/-- The state `SeekLine(k)` leaves behind when it succeeds: the read index is the value of
index record `k`, the index store's cursor stands behind that record, the rest is as
before. -/
def afterSeekLine (l : LineIndexedPipe ReadWriteSeekable ReadWriteSeekable) (k : Nat) :
    LineIndexedPipe ReadWriteSeekable ReadWriteSeekable :=
  { l with index := (l.index.setOff (8 * (k : Int))).setOff (8 * (k : Int) + 8),
           pipe := { l.pipe with readIndex := indexRecord l.index.Bytes k } }

/-- The pipe of `TestWriteReadIndexedPipe` after its `Write`: a line-indexed pipe over two
zero-value mock stores into which `"\nHello World\n\n"` has been written. -/
def helloPipe : LineIndexedPipe ReadWriteSeekable ReadWriteSeekable :=
  match (NewLineIndexedPipe zeroValue zeroValue).bind fun l => l.Write helloWorld with
  | .ret (l, _, _) => l
  | _ => ⟨⟨zeroValue, 0, 0, none, none⟩, zeroValue, 0⟩

end LineIndexedPipe

/-! ## What the scan of a byte sequence yields -/

/-- The state of a scanner between two calls of `Scan`: the held data lies within the
buffer and the buffer is no longer than `MaxScanTokenSize`. -/
structure Scanner.Inv (s : Scanner) : Prop where
  end_le : s.start + s.held.length ≤ s.bufLen
  len_le : s.bufLen ≤ MaxScanTokenSize

/-- A byte sequence cut after every `'\n'`: every piece but possibly the last ends in the
only `'\n'` it has, the last piece may be an unterminated rest. -/
def splitLines : List Byte → List (List Byte)
  | [] => []
  | b :: bs =>
    if b = newline then [b] :: splitLines bs
    else
      match splitLines bs with
      | [] => [[b]]
      | t :: ts => (b :: t) :: ts

/-- A piece the scanner can deliver: a terminated line of at most `MaxScanTokenSize` bytes,
or an unterminated rest of fewer than `MaxScanTokenSize` bytes. -/
def tokenFits (t : List Byte) : Bool :=
  if t.getLast? = some newline then decide (t.length ≤ MaxScanTokenSize)
  else decide (t.length < MaxScanTokenSize)

/-- The tokens the scanner delivers for `p`: the pieces of `p` up to the first one that does
not fit. -/
def scanTokens (p : List Byte) : List (List Byte) :=
  (splitLines p).takeWhile tokenFits

/-- The error the scan of `p` ends with: `bufio.ErrTooLong` when a piece does not fit. -/
def scanErr (p : List Byte) : Option Error :=
  if (splitLines p).all tokenFits then none else some .ErrTooLong

/-- The scan loop of `Write` as a fold over the tokens the scanner delivers: `toks` are the
tokens still to come, `e` is the error the scan ends with. -/
def LineIndexedPipe.writeTokens {σ τ : Type} [ReadWriteSeeker σ] [ReadWriteSeeker τ] :
    List (List Byte) → Option Error → LineIndexedPipe σ τ → Int →
      Outcome (LineIndexedPipe σ τ × Int × Option Error)
  | [], e, l, n => .ret (l, n, e)
  | t :: ts, e, l, n =>
    (l.writeToken t n).bind fun (l, n, err) =>
      if err ≠ none then .ret (l, n, err)
      else LineIndexedPipe.writeTokens ts e l n

/-! ## The index a sequence of writes should produce -/

/-- The offsets of the `'\n'` bytes of a byte sequence whose first byte is at offset
`base`. -/
def newlineOffsets : Nat → List Byte → List Nat
  | _, [] => []
  | base, b :: bs =>
    if b = newline then base :: newlineOffsets (base + 1) bs
    else newlineOffsets (base + 1) bs

/-- The line boundaries after appending `bytes` at offset `base` when the boundary before
was `last`: `last`, then 1 + the offset of each `'\n'` of `bytes`. -/
def boundaries (last : Int) (base : Nat) (bytes : List Byte) : List Int :=
  last :: (newlineOffsets base bytes).map fun (o : Nat) => (o : Int) + 1

/-- The index records appending `bytes` calls for: one per `'\n'`, each the boundary
before that line. -/
def recordsFor (last : Int) (base : Nat) (bytes : List Byte) : List Int :=
  (boundaries last base bytes).take (newlineOffsets base bytes).length

/-- The line boundary after appending `bytes`: 1 + the offset of the last `'\n'`, or
`last` when `bytes` has none. -/
def boundaryAfter (last : Int) (base : Nat) (bytes : List Byte) : Int :=
  (boundaries last base bytes).getLastD last

/-- The starting offsets of the complete lines of `content`: record 0 is 0 and record `i`
is 1 + the offset of the `(i-1)`-th `'\n'`; there is one record per `'\n'`. -/
def lineStarts (content : List Byte) : List Int :=
  recordsFor 0 0 content

/-- The index store contents for a list of records: 8 little-endian bytes each. -/
def encodeRecords : List Int → List Byte
  | [] => []
  | r :: rs => putInt64LE r ++ encodeRecords rs

/-- The bytes of the tokens the scanner delivers for `p`: all of `p`, or `p` up to the
first piece that does not fit. -/
def scanned (p : List Byte) : List Byte :=
  (scanTokens p).flatten

/-- A line-indexed pipe over two mock stores without overrides, the data store's cursor at
its end (where `Write` puts it before the scan). -/
structure LineIndexedPipe.Ready
    (l : LineIndexedPipe Mock.ReadWriteSeekable Mock.ReadWriteSeekable) : Prop where
  data_good : l.pipe.data.Good
  index_good : l.index.Good
  data_end : l.pipe.data.off = (l.pipe.data.blen : Int)

/-- The state `l'` is `l` after `bytes` have been appended and indexed: the data store holds
the old contents followed by `bytes`, the index store the old contents followed by one
record per `'\n'` of `bytes`, `lastIndex` is the boundary after `bytes`, `size` has grown
by `len(bytes)`, and the read index and the error slots are as before. -/
structure LineIndexedPipe.Wrote
    (l l' : LineIndexedPipe Mock.ReadWriteSeekable Mock.ReadWriteSeekable)
    (bytes : List Byte) : Prop where
  data_good : l'.pipe.data.Good
  index_good : l'.index.Good
  data_bytes : l'.pipe.data.Bytes = l.pipe.data.Bytes ++ bytes
  index_bytes : l'.index.Bytes = l.index.Bytes
    ++ encodeRecords (recordsFor l.lastIndex l.pipe.data.Bytes.length bytes)
  last : l'.lastIndex = boundaryAfter l.lastIndex l.pipe.data.Bytes.length bytes
  size : l'.pipe.size = l.pipe.size + (bytes.length : Int)
  readIndex : l'.pipe.readIndex = l.pipe.readIndex
  rerr : l'.pipe.rerr = l.pipe.rerr
  werr : l'.pipe.werr = l.pipe.werr
  data_buf : l.pipe.data.buf ≠ none ∨ bytes ≠ [] → l'.pipe.data.buf ≠ none

/-- Every line of `p` fits the scanner's buffer: a terminated line has at most
`MaxScanTokenSize` bytes with its `'\n'`, an unterminated last line fewer than
`MaxScanTokenSize`. -/
def LinesFit (p : List Byte) : Prop :=
  ∀ t ∈ splitLines p, tokenFits t = true

instance (p : List Byte) : Decidable (LinesFit p) := by
  unfold LinesFit
  infer_instance

/-- A line-indexed pipe over two mock stores without overrides whose size is the length of
the data store. -/
structure LineIndexedPipe.Ok
    (l : LineIndexedPipe Mock.ReadWriteSeekable Mock.ReadWriteSeekable) : Prop where
  data_good : l.pipe.data.Good
  index_good : l.index.Good
  size_eq : l.pipe.size = (l.pipe.data.Bytes.length : Int)

/-- A sequence of `Write` calls, each made when the one before has returned; the log is
what they returned. -/
def LineIndexedPipe.writeAll {σ τ : Type} [ReadWriteSeeker σ] [ReadWriteSeeker τ]
    (l : LineIndexedPipe σ τ) :
    List (List Byte) → Outcome (LineIndexedPipe σ τ × List (Int × Option Error))
  | [] => .ret (l, [])
  | p :: ps =>
    (l.Write p).bind fun (l, n, err) =>
      (LineIndexedPipe.writeAll l ps).bind fun (l, log) => .ret (l, (n, err) :: log)

/-- The pipe `NewLineIndexedPipe(&mock.ReadWriteSeekable{}, &mock.ReadWriteSeekable{})`
returns: a new line-indexed pipe over two empty zero-value stores. -/
def LineIndexedPipe.emptyPipe : LineIndexedPipe Mock.ReadWriteSeekable Mock.ReadWriteSeekable :=
  ⟨⟨Mock.zeroValue, 0, 0, none, none⟩, Mock.zeroValue, 0⟩

/-- A line of 65536 bytes `'a'` and its terminator: 65537 bytes. -/
def longLine : List Byte :=
  List.replicate 65536 97 ++ [newline]

/-! ## A write that fails at a token -/

/-- The index step of `Write` (`writeIndex`) fails with the error `e` and leaves the pipe as
`l'`: at the seek of the index store, at the write of the record, at the sync of the index
store, or at the seek of the data store that ends the step. -/
inductive LineIndexedPipe.IndexFails {σ τ : Type} [ReadWriteSeeker σ] [ReadWriteSeeker τ]
    (l : LineIndexedPipe σ τ) : Error → LineIndexedPipe σ τ → Prop where
  /-- the index seek fails -/
  | seek (i1 : τ) (pos : Int) (e : Error) :
      ReadWriteSeeker.Seek l.index 0 SEEK_END = .ret (i1, pos, some e) →
      IndexFails l e { l with index := i1 }
  /-- the index write fails -/
  | write (i1 i2 : τ) (pos : Int) (e : Error) :
      ReadWriteSeeker.Seek l.index 0 SEEK_END = .ret (i1, pos, none) →
      binaryWrite i1 l.lastIndex = .ret (i2, some e) →
      IndexFails l e { l with index := i2 }
  /-- the index sync fails -/
  | sync (i1 i2 i3 : τ) (pos : Int) (e : Error) :
      ReadWriteSeeker.Seek l.index 0 SEEK_END = .ret (i1, pos, none) →
      binaryWrite i1 l.lastIndex = .ret (i2, none) →
      syncWriter i2 = .ret (i3, some e) →
      IndexFails l e { l with index := i3 }
  /-- the data seek inside the index step fails -/
  | dataSeek (i1 i2 i3 : τ) (d1 : σ) (pos last : Int) (e : Error) :
      ReadWriteSeeker.Seek l.index 0 SEEK_END = .ret (i1, pos, none) →
      binaryWrite i1 l.lastIndex = .ret (i2, none) →
      syncWriter i2 = .ret (i3, none) →
      ReadWriteSeeker.Seek l.pipe.data 0 SEEK_END = .ret (d1, last, some e) →
      IndexFails l e { l with index := i3, pipe := { l.pipe with data := d1 }, lastIndex := last }

/-- A mock data store whose `Write` override takes the first byte of what it is given and
then fails: it returns `(1, io.ErrUnexpectedEOF)` for a non-empty argument. -/
def Mock.shortWriteStore : Mock.ReadWriteSeekable :=
  { Mock.zeroValue with
    WriteFunc := some fun rws b =>
      (rws.Write (b.take 1)).bind fun (rws, n, _) => .ret (rws, n, some .ErrUnexpectedEOF) }

/-- A mock data store whose `Write` override works while the store is empty and fails with
`(0, io.ErrUnexpectedEOF)` once it holds data. -/
def Mock.fullStore : Mock.ReadWriteSeekable :=
  { Mock.zeroValue with
    WriteFunc := some fun rws b =>
      if rws.blen = 0 then rws.Write b else .ret (rws, 0, some .ErrUnexpectedEOF) }

/-- A new line-indexed pipe over `fullStore` as data store and a zero-value index store. -/
def LineIndexedPipe.fullPipe : LineIndexedPipe Mock.ReadWriteSeekable Mock.ReadWriteSeekable :=
  ⟨⟨Mock.fullStore, 0, 0, none, none⟩, Mock.zeroValue, 0⟩

/-! ## The failing stores of the tests -/

/-- The tests' `errUnseekable`, made with `errors.New`. -/
def errUnseekable : Error := .custom 0

/-- The tests' `unseekableFunc`: a `Seek` override that returns `(0, errUnseekable)` and
leaves the store alone. -/
def Mock.unseekableFunc (rws : Mock.Buffer) (_offset _whence : Int) :
    Outcome (Mock.Buffer × Int × Option Error) :=
  .ret (rws, 0, some errUnseekable)

/-- The store of `TestLateSeekFailWritePipe` and `TestLateSeekFailReadPipe` as it is
constructed: `mock.NewReadWriteSeekable` of the bytes 0..9. -/
def Mock.tenBytes : Mock.ReadWriteSeekable :=
  Mock.NewReadWriteSeekable [0, 1, 2, 3, 4, 5, 6, 7, 8, 9]

/-- The pipe of `TestLateSeekFailWritePipe` and `TestLateSeekFailReadPipe` after
`buf.SeekFunc = unseekableFunc`: built over the bytes 0..9 while the store could still seek,
so its size is 10. -/
def Pipe.lateSeekFail : Pipe Mock.ReadWriteSeekable :=
  { data := { Mock.tenBytes with off := 10, SeekFunc := some Mock.unseekableFunc },
    readIndex := 0, size := 10, rerr := none, werr := none }

/-- The error slots and the read index of a line-indexed pipe: what `Write` reads of the
pipe's state besides its stores, its size and its line boundary. -/
def LineIndexedPipe.slots {σ τ : Type} (l : LineIndexedPipe σ τ) :
    Option Error × Option Error × Int :=
  (l.pipe.rerr, l.pipe.werr, l.pipe.readIndex)

/-- The line-indexed pipe of `TestLateDataSeekFailWriteIndexedPipe`, here over a data store
that already holds the bytes 0..9, after `data.SeekFunc = unseekableFunc`. -/
def LineIndexedPipe.lateSeekFail :
    LineIndexedPipe Mock.ReadWriteSeekable Mock.ReadWriteSeekable :=
  ⟨Pipe.lateSeekFail, Mock.zeroValue, 0⟩

/-- The store of `TestSyncPipe`: a zero-value mock store with a `Sync` whose callback
returns nil. -/
def Mock.syncStore : Mock.SyncReadWriteSeekable :=
  { rws := Mock.zeroValue, SyncFunc := some none }

/-- A store like that of `TestSyncPipe` whose `Sync` callback fails with
`io.ErrUnexpectedEOF` (the callback of `TestIndexSyncFailureIndexedPipe`). -/
def Mock.syncFailStore : Mock.SyncReadWriteSeekable :=
  { rws := Mock.zeroValue, SyncFunc := some (some .ErrUnexpectedEOF) }

/-! ## Sequences of calls on a line-indexed pipe -/

/-- One call on a line-indexed pipe. -/
inductive LineIndexedPipe.Op where
  /-- `Read(d)` -/
  | read (d : List Byte)
  /-- `Write(p)` -/
  | write (p : List Byte)
  /-- `Seek(offset, whence)` -/
  | seek (offset whence : Int)
  /-- `SeekLine(line)` -/
  | seekLine (line : Int)
  /-- `close()` -/
  | close
  deriving DecidableEq, Repr

/-- What a call on a line-indexed pipe returned. -/
inductive LineIndexedPipe.Event where
  /-- what `Read`, `Write` or `Seek` returned -/
  | io (ev : Pipe.Event)
  /-- `SeekLine` returned `err` -/
  | seekLine (err : Option Error)
  /-- `close` returned -/
  | close
  deriving DecidableEq, Repr

/-- One call. -/
def LineIndexedPipe.step {σ τ : Type} [ReadWriteSeeker σ] [ReadWriteSeeker τ]
    (l : LineIndexedPipe σ τ) : LineIndexedPipe.Op → Outcome (LineIndexedPipe σ τ × LineIndexedPipe.Event)
  | .read d => (l.Read d).bind fun (l, d, n, err) => .ret (l, .io (.read (d.take n.toNat) n err))
  | .write p => (l.Write p).bind fun (l, n, err) => .ret (l, .io (.write n err))
  | .seek offset whence =>
    let (l, pos, err) := l.Seek offset whence
    .ret (l, .io (.seek pos err))
  | .seekLine line => (l.SeekLine line).bind fun (l, err) => .ret (l, .seekLine err)
  | .close => .ret (l.close, .close)

/-- A sequence of calls, each made when the one before has returned; the log is what they
returned. -/
def LineIndexedPipe.run {σ τ : Type} [ReadWriteSeeker σ] [ReadWriteSeeker τ]
    (l : LineIndexedPipe σ τ) :
    List LineIndexedPipe.Op → Outcome (LineIndexedPipe σ τ × List LineIndexedPipe.Event)
  | [] => .ret (l, [])
  | op :: ops =>
    (l.step op).bind fun (l, ev) =>
      (LineIndexedPipe.run l ops).bind fun (l, evs) => .ret (l, ev :: evs)

/-! ## The calls that follow a failed write -/

/-- A `Read` or a `Write`. -/
inductive Pipe.Call where
  /-- `Read(d)` -/
  | read (d : List Byte)
  /-- `Write(d)` -/
  | write (d : List Byte)
  deriving DecidableEq, Repr

/-- The call as a call on a base pipe. -/
def Pipe.Call.op : Pipe.Call → Pipe.Op
  | .read d => .read d
  | .write d => .write d

/-- The call as a call on a line-indexed pipe. -/
def Pipe.Call.indexedOp : Pipe.Call → LineIndexedPipe.Op
  | .read d => .read d
  | .write d => .write d

/-- Where the calls after a failed write stand: no call has been made yet (`fresh`); the
first call was a `Read`, which was handed the error, and only `Write`s have followed
(`handed`); anything else (`closed`). -/
inductive Pipe.Phase where
  | fresh
  | handed
  | closed
  deriving DecidableEq, Repr

/-- What the `Read`s and `Write`s that follow a write failure `e` return: every call returns
the count 0 and an error; the error is `e` for a `Read` made as the next call and for the
`Write`s between that `Read` and the following `Read`, and `io.ErrClosedPipe` for every
other call. -/
def Pipe.repliesAfter (e : Error) : Pipe.Phase → List Pipe.Call → List Pipe.Event
  | _, [] => []
  | .fresh, .read _ :: calls => .read [] 0 (some e) :: repliesAfter e .handed calls
  | .handed, .write _ :: calls => .write 0 (some e) :: repliesAfter e .handed calls
  | _, .read _ :: calls => .read [] 0 (some .ErrClosedPipe) :: repliesAfter e .closed calls
  | _, .write _ :: calls => .write 0 (some .ErrClosedPipe) :: repliesAfter e .closed calls

/-- The error slots of a pipe in each phase after a write failure `e`. -/
def Pipe.Phase.slots (e : Error) : Pipe.Phase → Option Error → Option Error → Prop
  | .fresh, rerr, werr => rerr = none ∧ werr = some e
  | .handed, rerr, werr => rerr = some e ∧ werr = some e
  | .closed, rerr, werr =>
    (rerr = none ∧ werr = some .ErrClosedPipe) ∨ rerr = some .ErrClosedPipe

/-- The state `SeekLine(k)` leaves behind when `k` lies beyond the last record: the index
store's cursor stands at its end and `io.EOF` is the read-side error; the rest is as
before. -/
def LineIndexedPipe.afterSeekPastEnd {σ : Type} (l : LineIndexedPipe σ Mock.ReadWriteSeekable) :
    LineIndexedPipe σ Mock.ReadWriteSeekable :=
  { l with index := l.index.setOff l.index.blen,
           pipe := { l.pipe with rerr := some .EOF } }

/-- `SeekLine(line)` fails with the error `e` and leaves the index store as `index`: at the
seek of the index store, or at the read of the record (`binary.Read`, that is
`io.ReadFull` of 8 bytes). -/
inductive LineIndexedPipe.SeekLineFails {σ τ : Type} [ReadWriteSeeker τ]
    (l : LineIndexedPipe σ τ) (line : Int) : Error → τ → Prop where
  /-- the index seek fails -/
  | seek (i1 : τ) (pos : Int) (e : Error) :
      ReadWriteSeeker.Seek l.index (wrap64 (line * int64Size)) SEEK_SET = .ret (i1, pos, some e) →
      SeekLineFails l line e i1
  /-- the read of the record fails -/
  | read (i1 i2 : τ) (pos n : Int) (bs : List Byte) (e : Error) :
      ReadWriteSeeker.Seek l.index (wrap64 (line * int64Size)) SEEK_SET = .ret (i1, pos, none) →
      ReadFull i1 (List.replicate 8 0) = .ret (i2, bs, n, some e) →
      SeekLineFails l line e i2

/-- The pipe of `TestWriteReadIndexedPipe` after `index.SeekFunc = unseekableFunc`. -/
def LineIndexedPipe.helloUnseekable :
    LineIndexedPipe Mock.ReadWriteSeekable Mock.ReadWriteSeekable :=
  { LineIndexedPipe.helloPipe with
    index := { LineIndexedPipe.helloPipe.index with SeekFunc := some Mock.unseekableFunc } }

/-! ## The index as whole records -/

/-- The index store is a mock store without overrides that holds whole 8-byte records. -/
structure LineIndexedPipe.Whole {σ : Type} (l : LineIndexedPipe σ Mock.ReadWriteSeekable) :
    Prop where
  index_good : l.index.Good
  whole : l.index.Bytes.length % 8 = 0

/-- The number of bytes a sequence of calls asks to write. -/
def LineIndexedPipe.Op.asked : List LineIndexedPipe.Op → Nat
  | [] => 0
  | .write p :: ops => p.length + LineIndexedPipe.Op.asked ops
  | _ :: ops => LineIndexedPipe.Op.asked ops

/-! ## A store that counts its `Sync` calls -/

/-- A `mock.SyncReadWriteSeekable` whose `SyncFunc` counts its calls and returns nil (the
callback of `TestSyncPipe` records its call in a flag): `synced` is the number of calls so
far. -/
structure Mock.SyncProbe where
  rws : Mock.ReadWriteSeekable
  synced : Nat

instance : ReadWriteSeeker Mock.SyncProbe where
  Read s b := (s.rws.Read b).bind fun (r, b, n, e) => .ret ({ s with rws := r }, b, n, e)
  Write s b := (s.rws.Write b).bind fun (r, n, e) => .ret ({ s with rws := r }, n, e)
  Seek s o w := (s.rws.Seek o w).bind fun (r, n, e) => .ret ({ s with rws := r }, n, e)
  Sync := some fun s => .ret ({ s with synced := s.synced + 1 }, none)

/-- An empty counting store on which `Sync` has not been called. -/
def Mock.probe : Mock.SyncProbe :=
  { rws := Mock.zeroValue, synced := 0 }

/-! ## Error slots that stay set -/

/-- Every error slot that is set in `l` is set in `l'`. -/
def Pipe.KeepsErrors {σ : Type} (l l' : Pipe σ) : Prop :=
  (l.rerr ≠ none → l'.rerr ≠ none) ∧ (l.werr ≠ none → l'.werr ≠ none)

/-! ## The scan on its own -/

/-- The scan loop of `Write` with its body left out: `for scanner.Scan() { ... }` collecting
`scanner.Bytes()` of every turn, then `scanner.Err()`.  `scanFuel` bounds each `Scan`, the
first argument bounds the number of tokens; `none` when a bound is exhausted. -/
def Scanner.scanAll (scanFuel : Nat) : Nat → Scanner → Option (List (List Byte) × Option Error)
  | 0, _ => none
  | fuel + 1, scanner =>
    match scanner.Scan scanFuel with
    | none => none
    | some (false, scanner) => some ([], scanner.Err)
    | some (true, scanner) =>
      (Scanner.scanAll scanFuel fuel scanner).map fun (toks, err) => (scanner.Bytes :: toks, err)

/-- A terminated line: a run of bytes other than `'\n'` followed by one `'\n'`. -/
def IsLine (t : List Byte) : Prop :=
  ∃ pre : List Byte, t = pre ++ [newline] ∧ newline ∉ pre

/-! ## Lines that fit, byte by byte -/

/-- Whether the lines of `p` fit the scanner's buffer when `run` bytes of the current line
came before `p`: every `'\n'` is reached with at most `MaxScanTokenSize` bytes in its line,
and the input ends with fewer than `MaxScanTokenSize` bytes in an open line. -/
def fitsFrom : Nat → List Byte → Bool
  | run, [] => decide (run < MaxScanTokenSize)
  | run, b :: bs =>
    if b = newline then decide (run + 1 ≤ MaxScanTokenSize) && fitsFrom 0 bs
    else fitsFrom (run + 1) bs

/-- An unterminated run of 65535 bytes `'a'`: the longest unterminated input the scanner
takes. -/
def longRest : List Byte :=
  List.replicate 65535 97

/-- A new line-indexed pipe over an empty data store with an allocated buffer
(`mock.NewReadWriteSeekable([]byte{})`) and a zero-value index store. -/
def LineIndexedPipe.allocPipe : LineIndexedPipe Mock.ReadWriteSeekable Mock.ReadWriteSeekable :=
  ⟨⟨Mock.NewReadWriteSeekable [], 0, 0, none, none⟩, Mock.zeroValue, 0⟩

/-! ## The read cursor stays within the committed size -/

/-- The state of a line-indexed pipe over two mock stores without overrides of which the
index has been written by the pipe alone: the size is the length of the data store, the read
index and the line boundary lie within `[0, size]`, and the index store holds whole records
whose values are offsets of the data store, `0 ≤ r < size` (a record is the start of a line
that has been written, terminator included). -/
structure LineIndexedPipe.Sound
    (l : LineIndexedPipe Mock.ReadWriteSeekable Mock.ReadWriteSeekable) : Prop where
  data_good : l.pipe.data.Good
  index_good : l.index.Good
  size_eq : l.pipe.size = (l.pipe.data.Bytes.length : Int)
  cursor_nonneg : 0 ≤ l.pipe.readIndex
  cursor_le : l.pipe.readIndex ≤ l.pipe.size
  last_nonneg : 0 ≤ l.lastIndex
  last_le : l.lastIndex ≤ l.pipe.size
  records : ∃ rs : List Int, l.index.Bytes = encodeRecords rs ∧
    ∀ r ∈ rs, 0 ≤ r ∧ r < l.pipe.size

/-- The first token of every `Write` of the sequence has at most 64 bytes (what the first
write to a nil mock buffer can take). -/
def LineIndexedPipe.Op.roomy (ops : List LineIndexedPipe.Op) : Prop :=
  ∀ p : List Byte, LineIndexedPipe.Op.write p ∈ ops → ∀ t ∈ (splitLines p).head?, t.length ≤ 64

/-! ## The calls that follow a failed write, `Seek` calls among them -/

/-- The `Read` and `Write` calls of a sequence of calls, in order. -/
def Pipe.Op.calls : List Pipe.Op → List Pipe.Call
  | [] => []
  | .read d :: ops => .read d :: Pipe.Op.calls ops
  | .write d :: ops => .write d :: Pipe.Op.calls ops
  | .seek _ _ :: ops => Pipe.Op.calls ops

/-- What the `Read` and `Write` calls of a log returned, in order: the log without what the
`Seek` calls returned. -/
def Pipe.Event.replies : List Pipe.Event → List Pipe.Event
  | [] => []
  | .seek _ _ :: evs => Pipe.Event.replies evs
  | .read got n err :: evs => .read got n err :: Pipe.Event.replies evs
  | .write n err :: evs => .write n err :: Pipe.Event.replies evs

/-- The call as a call on a line-indexed pipe. -/
def Pipe.Op.indexed : Pipe.Op → LineIndexedPipe.Op
  | .read d => .read d
  | .write d => .write d
  | .seek offset whence => .seek offset whence

/-! # Theorems -/

/-! ## Outcomes and wrap-around -/

@[simp] theorem Outcome.bind_ret {α β : Type} (a : α) (f : α → Outcome β) :
    (Outcome.ret a).bind f = f a := rfl

@[simp] theorem Outcome.bind_panic {α β : Type} (v : Error) (f : α → Outcome β) :
    (Outcome.panic v : Outcome α).bind f = .panic v := rfl

@[simp] theorem Outcome.bind_block {α β : Type} (f : α → Outcome β) :
    (Outcome.block : Outcome α).bind f = .block := rfl

@[simp] theorem Outcome.bind_nofuel {α β : Type} (f : α → Outcome β) :
    (Outcome.nofuel : Outcome α).bind f = .nofuel := rfl

@[simp] theorem Outcome.pure_eq {α : Type} (a : α) : (pure a : Outcome α) = .ret a := rfl

@[simp] theorem Outcome.bind_eq {α β : Type} (x : Outcome α) (f : α → Outcome β) :
    (x >>= f) = x.bind f := rfl

theorem wrap64_of_range {x : Int} (h0 : -9223372036854775808 ≤ x)
    (h1 : x < 9223372036854775808) : wrap64 x = x := by
  unfold wrap64
  omega

theorem wrap64_ge (x : Int) : -9223372036854775808 ≤ wrap64 x := by
  unfold wrap64
  omega

theorem wrap64_lt (x : Int) : wrap64 x < 9223372036854775808 := by
  unfold wrap64
  omega

namespace Mock

theorem Buffer.bytes_length (b : Buffer) (h : b.Wf) : b.Bytes.length = b.blen := by
  have := h.len_le_cap
  unfold Buffer.Bytes Buffer.blen
  unfold Buffer.blen Buffer.bcap at this
  cases hb : b.buf with
  | none => simp
  | some s => simp [hb] at this ⊢; exact this

theorem Buffer.Seek_end (b : Buffer) (h : b.Wf) :
    b.Seek 0 SEEK_END = .ret ({ b with off := b.blen }, b.blen, none) := by
  have h1 := h.len_lt
  have h2 : wrap64 (b.blen : Int) = b.blen := wrap64_of_range (by omega) h1
  simp [Buffer.Seek, h2]

theorem Buffer.Seek_set (b : Buffer) (k : Int) (h0 : 0 ≤ k) (h1 : k ≤ (b.blen : Int)) :
    b.Seek k SEEK_SET = .ret ({ b with off := k }, k, none) := by
  have e1 : ¬ (k > (b.blen : Int)) := by omega
  have e2 : ¬ (k < 0) := by omega
  simp [Buffer.Seek, SEEK_SET, SEEK_END, e1, e2]

theorem Buffer.Seek_spec (b : Buffer) (offset whence : Int) :
    ∃ o : Int, b.Seek offset whence = .ret ({ b with off := o }, o, none) ∧
      0 ≤ o ∧ o ≤ (b.blen : Int) := by
  refine ⟨_, rfl, ?_, ?_⟩ <;> dsimp only <;> split_ifs <;> omega

theorem List.take_splice {α : Type} (arr d : List α) (o len : Nat)
    (h1 : o + d.length ≤ len) (h2 : len ≤ arr.length) :
    (arr.take o ++ d ++ arr.drop (o + d.length)).take len
      = (arr.take len).take o ++ d ++ (arr.take len).drop (o + d.length) := by
  have ho : o ≤ arr.length := by omega
  have e1 : (arr.take len).take o = arr.take o := by
    rw [List.take_take, Nat.min_eq_left (by omega)]
  have e2 : (arr.take len).drop (o + d.length)
      = (arr.drop (o + d.length)).take (len - (o + d.length)) := by
    rw [List.drop_take]
  have e3 : (arr.take o).length = o := by simp; omega
  have e4 : (arr.take o).take len = arr.take o := List.take_of_length_le (by omega)
  have e5 : d.take (len - o) = d := List.take_of_length_le (by omega)
  rw [e1, e2, List.append_assoc, List.append_assoc, List.take_append_eq_append_take,
    List.take_append_eq_append_take, e3, e4, e5]
  congr 3
  omega

theorem Buffer.Write_spec (b : Buffer) (d : List Byte) (h : b.Wf)
    (hroom : b.buf ≠ none ∨ d.length ≤ 64)
    (hfit : b.off + (d.length : Int) < 9223372036854775808) :
    ∃ b' : Buffer, b.Write d = .ret (b', d.length, none) ∧ b'.off = b.off ∧ b'.Wf ∧
      b'.Bytes = b.Bytes.take b.off.toNat ++ d ++ b.Bytes.drop (b.off.toNat + d.length) ∧
      (b.buf ≠ none ∨ d ≠ [] → b'.buf ≠ none) := by
  obtain ⟨buf, off⟩ := b
  obtain ⟨h0, h1, h2, h3⟩ := h
  cases buf with
  | none =>
    simp only [Buffer.blen, Buffer.bcap] at h0 h1 h2 h3 hroom hfit ⊢
    have hoff : off = 0 := by omega
    subst hoff
    simp at hroom
    by_cases hd : d = []
    · subst hd
      refine ⟨⟨none, 0⟩, ?_, rfl, ⟨by simp, by simp [Buffer.blen], by simp [Buffer.blen, Buffer.bcap], by simp [Buffer.blen]⟩, ?_, ?_⟩
      · simp [Buffer.Write, wrap64, Buffer.blen]
      · simp [Buffer.Bytes]
      · simp
    · have hlen : 0 < d.length := List.length_pos.mpr hd
      have hw : wrap64 (d.length : Int) = d.length := wrap64_of_range (by omega) (by omega)
      have hg : (⟨none, 0⟩ : Buffer).grow d.length
          = .ret ⟨some ⟨List.replicate 64 0, d.length⟩, 0⟩ := by
        simp [Buffer.grow, Buffer.blen, Buffer.bcap, hlen]
        omega
      refine ⟨⟨some ⟨d ++ (List.replicate 64 0).drop d.length, d.length⟩, 0⟩, ?_, rfl,
        ⟨by simp, by simp [Buffer.blen], by simp [Buffer.blen, Buffer.bcap],
          by simp [Buffer.blen]; omega⟩, ?_, ?_⟩
      · simp [Buffer.Write, wrap64_of_range, Buffer.blen, hw, hlen, hg]
      · simp [Buffer.Bytes]
      · simp
  | some s =>
    obtain ⟨arr, len⟩ := s
    simp only [Buffer.blen, Buffer.bcap] at h0 h1 h2 h3 hfit ⊢
    obtain ⟨o, rfl⟩ := Int.eq_ofNat_of_zero_le h0
    have ho : o ≤ len := by omega
    have hr : wrap64 ((len : Int) - (o : Int)) = ((len - o : Nat) : Int) :=
      (wrap64_of_range (by omega) (by omega)).trans (by omega)
    simp only [Int.toNat_ofNat]
    by_cases hc : o + d.length ≤ len
    · refine ⟨⟨some ⟨arr.take o ++ d ++ arr.drop (o + d.length), len⟩, o⟩, ?_, rfl,
        ⟨by simp, by simp [Buffer.blen]; omega, ?_, by simp [Buffer.blen]; omega⟩, ?_, ?_⟩
      · have hn : ¬ ((len : Int) - (o : Int) < (d.length : Int)) := by omega
        have hn2 : ¬ ((len : Int) < (o : Int)) := by omega
        have hm : min (len - o) d.length = d.length := by omega
        have hn3 : ¬ (len - o < d.length) := by omega
        have hn4 : ¬ ((o : Int) < 0) := by omega
        have hm2 : min ((len - o : Nat) : Int) (d.length : Int) = d.length := by omega
        simp [Buffer.Write, hr, Buffer.blen, hn, hn2, hn3, hn4, hm, hm2]
      · simp [Buffer.blen, Buffer.bcap]; omega
      · simp only [Buffer.Bytes]
        exact List.take_splice arr d o len hc h2
      · simp
    · have hlt : (len : Int) - (o : Int) < (d.length : Int) := by omega
      have hlt3 : len - o < d.length := by omega
      have hg : (wrap64 ((d.length : Int) - ((len - o : Nat) : Int))).toNat
          = o + d.length - len := by
        rw [wrap64_of_range (by omega) (by omega)]
        omega
      have hn4 : ¬ ((o : Int) < 0) := by omega
      have hsum : len + (o + d.length - len) = o + d.length := by omega
      have hm2 : min ((o + d.length - o : Nat) : Int) (d.length : Int) = d.length := by omega
      have hm : min (o + d.length - o) d.length = d.length := by omega
      have hn5 : ¬ (o + d.length < o) := by omega
      have key : ∀ arr1 : List Byte, o + d.length ≤ arr1.length → arr1.take o = arr.take o →
          (⟨some ⟨arr, len⟩, o⟩ : Buffer).grow (o + d.length - len)
            = .ret ⟨some ⟨arr1, o + d.length⟩, o⟩ →
          ∃ b' : Buffer, (⟨some ⟨arr, len⟩, o⟩ : Buffer).Write d = .ret (b', d.length, none) ∧
            b'.off = o ∧ b'.Wf ∧
            b'.Bytes = (arr.take len).take o ++ d ++ (arr.take len).drop (o + d.length) ∧
            (True → b'.buf ≠ none) := by
        intro arr1 hl1 ht hgrow
        refine ⟨⟨some ⟨arr1.take o ++ d ++ arr1.drop (o + d.length), o + d.length⟩, o⟩, ?_, rfl,
          ⟨by simp, by simp [Buffer.blen], ?_, by simp [Buffer.blen]; omega⟩, ?_, ?_⟩
        · simp [Buffer.Write, hr, Buffer.blen, hlt, hlt3, hg, hgrow, hn4, hn5, hm, hm2]
        · simp [Buffer.blen, Buffer.bcap]; omega
        · simp only [Buffer.Bytes]
          rw [List.take_splice arr1 d o (o + d.length) (le_refl _) hl1, List.take_take,
            List.take_take, Nat.min_eq_left (by omega), Nat.min_eq_left (by omega), ht,
            List.drop_of_length_le (by simp), List.drop_of_length_le (by simp; omega)]
        · simp
      have fin : ∃ b' : Buffer,
          (⟨some ⟨arr, len⟩, o⟩ : Buffer).Write d = .ret (b', d.length, none) ∧
            b'.off = o ∧ b'.Wf ∧
            b'.Bytes = (arr.take len).take o ++ d ++ (arr.take len).drop (o + d.length) ∧
            (True → b'.buf ≠ none) := by
        by_cases hcap : o + d.length ≤ arr.length
        · have hcap2 : ¬ (arr.length < o + d.length) := by omega
          exact key arr hcap rfl (by simp [Buffer.grow, Buffer.blen, Buffer.bcap, hsum, hcap2])
        · have hl : (arr.take len).length = len := by simp; omega
          have hcap2 : arr.length < o + d.length := by omega
          refine key (arr.take len ++ List.replicate ((o + d.length - len) * 2) 0) ?_ ?_ ?_
          · rw [List.length_append, hl, List.length_replicate]; omega
          · rw [List.take_append_of_le_length (by omega), List.take_take,
              Nat.min_eq_left ho]
          · have e2 : ¬ (len + (o + d.length - len) * 2 < o + d.length) := by omega
            simp [Buffer.grow, Buffer.blen, Buffer.bcap, hsum, hcap2, hl, e2]
      obtain ⟨b', e1, e2, e3, e4, e5⟩ := fin
      exact ⟨b', e1, e2, e3, e4, fun _ => e5 trivial⟩

theorem Buffer.Read_spec (b : Buffer) (d : List Byte) (h : b.Wf)
    (hlt : b.off < (b.blen : Int)) :
    b.Read d = .ret ({ b with off := b.off + (min d.length (b.blen - b.off.toNat) : Nat) },
      (b.Bytes.drop b.off.toNat).take (min d.length (b.blen - b.off.toNat))
        ++ d.drop (min d.length (b.blen - b.off.toNat)),
      (min d.length (b.blen - b.off.toNat) : Nat), none) := by
  obtain ⟨buf, off⟩ := b
  obtain ⟨h0, h1, h2, h3⟩ := h
  cases buf with
  | none => simp [Buffer.blen] at hlt h0; omega
  | some s =>
    obtain ⟨arr, len⟩ := s
    simp only [Buffer.blen, Buffer.bcap] at h0 h1 h2 h3 hlt ⊢
    obtain ⟨o, rfl⟩ := Int.eq_ofNat_of_zero_le h0
    have c1 : ¬ ((len : Int) ≤ (o : Int)) := by omega
    have c2 : ¬ ((o : Int) < 0) := by omega
    have hl : (arr.take len).length = len := by simp; omega
    have hw : wrap64 ((o : Int) + ((min d.length (len - o) : Nat) : Int))
        = (o : Int) + ((min d.length (len - o) : Nat) : Int) :=
      wrap64_of_range (by omega) (by omega)
    have hm : min d.length (min len arr.length - o) = min d.length (len - o) := by
      rw [Nat.min_eq_left h2]
    simp only [Buffer.Read, Buffer.Bytes, Buffer.blen, List.length_drop, hl, Int.toNat_ofNat]
    simp [c1, c2, hw]
    exact wrap64_of_range (by omega) (by omega)

theorem Buffer.Read_eof (b : Buffer) (d : List Byte) (hge : (b.blen : Int) ≤ b.off) :
    b.Read d = .ret (b, d, 0, some .EOF) := by
  simp [Buffer.Read, hge]

theorem zeroValue_good : zeroValue.Good :=
  ⟨⟨rfl, rfl, rfl⟩, ⟨by simp [zeroValue], by simp [zeroValue, Buffer.blen],
    by simp [zeroValue, Buffer.blen, Buffer.bcap], by simp [zeroValue, Buffer.blen]⟩⟩

theorem NewReadWriteSeekable_good (c : List Byte)
    (hc : (c.length : Int) < 9223372036854775808) : (NewReadWriteSeekable c).Good :=
  ⟨⟨rfl, rfl, rfl⟩, ⟨by simp [NewReadWriteSeekable], by simp [NewReadWriteSeekable, Buffer.blen],
    by simp [NewReadWriteSeekable, Buffer.blen, Buffer.bcap],
    by simpa [NewReadWriteSeekable, Buffer.blen] using hc⟩⟩

theorem ReadWriteSeekable.length_Bytes (s : ReadWriteSeekable) (h : s.Good) :
    s.Bytes.length = s.blen :=
  Buffer.bytes_length _ h.wf

theorem ReadWriteSeekable.setOff_good (s : ReadWriteSeekable) (h : s.Good) (o : Int)
    (h0 : 0 ≤ o) (h1 : o ≤ (s.blen : Int)) : (s.setOff o).Good :=
  ⟨h.plain, ⟨h0, h1, h.wf.len_le_cap, h.wf.len_lt⟩⟩

theorem ReadWriteSeekable.Seek_good (s : ReadWriteSeekable) (h : s.Good) (offset whence : Int) :
    ∃ o : Int, ReadWriteSeeker.Seek s offset whence = .ret (s.setOff o, o, none) ∧
      0 ≤ o ∧ o ≤ (s.blen : Int) := by
  obtain ⟨o, e, h0, h1⟩ := Buffer.Seek_spec s.toBuffer offset whence
  refine ⟨o, ?_, h0, h1⟩
  show ReadWriteSeekable.Seek s offset whence = _
  simp [ReadWriteSeekable.Seek, h.plain.2.2, e, ReadWriteSeekable.setOff]

theorem ReadWriteSeekable.Seek_end_good (s : ReadWriteSeekable) (h : s.Good) :
    ReadWriteSeeker.Seek s 0 SEEK_END = .ret (s.setOff s.blen, s.blen, none) := by
  show ReadWriteSeekable.Seek s 0 SEEK_END = _
  simp [ReadWriteSeekable.Seek, h.plain.2.2, Buffer.Seek_end _ h.wf, ReadWriteSeekable.setOff]

theorem ReadWriteSeekable.Seek_set_good (s : ReadWriteSeekable) (h : s.Good) (k : Int)
    (h0 : 0 ≤ k) (h1 : k ≤ (s.blen : Int)) :
    ReadWriteSeeker.Seek s k SEEK_SET = .ret (s.setOff k, k, none) := by
  show ReadWriteSeekable.Seek s k SEEK_SET = _
  simp [ReadWriteSeekable.Seek, h.plain.2.2, Buffer.Seek_set _ k h0 h1, ReadWriteSeekable.setOff]

theorem ReadWriteSeekable.store_Write_good (s : ReadWriteSeekable) (d : List Byte) (h : s.Good)
    (hroom : s.Room d.length)
    (hfit : s.off + (d.length : Int) < 9223372036854775808) :
    ∃ s' : ReadWriteSeekable, ReadWriteSeeker.Write s d = .ret (s', d.length, none) ∧
      s'.Good ∧ s'.off = s.off ∧
      s'.Bytes = s.Bytes.take s.off.toNat ++ d ++ s.Bytes.drop (s.off.toNat + d.length) ∧
      (s.buf ≠ none ∨ d ≠ [] → s'.buf ≠ none) := by
  obtain ⟨b', e, ho, hwf, hb, hn⟩ := Buffer.Write_spec s.toBuffer d h.wf hroom hfit
  refine ⟨{ s with toBuffer := b' }, ?_, ⟨h.plain, hwf⟩, ho, hb, hn⟩
  show ReadWriteSeekable.Write s d = _
  simp [ReadWriteSeekable.Write, h.plain.2.1, e]

theorem ReadWriteSeekable.store_Read_good (s : ReadWriteSeekable) (d : List Byte) (h : s.Good)
    (hlt : s.off < (s.blen : Int)) :
    ReadWriteSeeker.Read s d
      = .ret (s.setOff (s.off + (min d.length (s.blen - s.off.toNat) : Nat)),
          (s.Bytes.drop s.off.toNat).take (min d.length (s.blen - s.off.toNat))
            ++ d.drop (min d.length (s.blen - s.off.toNat)),
          (min d.length (s.blen - s.off.toNat) : Nat), none) := by
  show ReadWriteSeekable.Read s d = _
  simp [ReadWriteSeekable.Read, h.plain.1, Buffer.Read_spec _ d h.wf hlt, ReadWriteSeekable.setOff]

@[simp] theorem ReadWriteSeekable.setOff_Bytes (s : ReadWriteSeekable) (o : Int) :
    (s.setOff o).Bytes = s.Bytes := rfl

@[simp] theorem ReadWriteSeekable.setOff_blen (s : ReadWriteSeekable) (o : Int) :
    (s.setOff o).blen = s.blen := rfl

@[simp] theorem ReadWriteSeekable.setOff_off (s : ReadWriteSeekable) (o : Int) :
    (s.setOff o).off = o := rfl

@[simp] theorem ReadWriteSeekable.setOff_buf (s : ReadWriteSeekable) (o : Int) :
    (s.setOff o).buf = s.buf := rfl

end Mock

/-! ## The pipe over any store -/

namespace Pipe

variable {σ : Type} [ReadWriteSeeker σ]

theorem Read_blocks (l : Pipe σ) (d : List Byte) (hr : l.rerr = none) (hw : l.werr = none)
    (h : l.size ≤ l.readIndex) : l.Read d = .block := by
  have : ¬ (l.readIndex < l.size) := by omega
  simp [Read, readLocked, hr, hw, this]

theorem Read_rerr (l : Pipe σ) (d : List Byte) (e : Error) (hr : l.rerr = some e) :
    l.Read d = .ret ({ l with rerr := some .ErrClosedPipe }, d, 0, some .ErrClosedPipe) := by
  simp [Read, readLocked, hr]

theorem Read_werr (l : Pipe σ) (d : List Byte) (e : Error) (hr : l.rerr = none)
    (hw : l.werr = some e) :
    l.Read d = .ret ({ l with rerr := some e }, d, 0, some e) := by
  simp [Read, readLocked, hr, hw]

theorem Write_rerr (l : Pipe σ) (d : List Byte) (e : Error) (hr : l.rerr = some e) :
    l.Write d = .ret ({ l with werr := some e }, 0, some e) := by
  simp [Write, writeLocked, hr]

theorem Write_werr (l : Pipe σ) (d : List Byte) (e : Error) (hr : l.rerr = none)
    (hw : l.werr = some e) :
    l.Write d = .ret ({ l with werr := some .ErrClosedPipe }, 0, some .ErrClosedPipe) := by
  simp [Write, writeLocked, hr, hw]

end Pipe

/-! ## The pipe over the mock store -/

namespace Pipe

open Mock

theorem syncWriter_mock (s : ReadWriteSeekable) : syncWriter s = .ret (s, none) := rfl

theorem NewPipe_good (s : ReadWriteSeekable) (h : s.Good) :
    NewPipe s = .ret { data := s.setOff s.blen, readIndex := 0, size := s.blen,
                       rerr := none, werr := none } := by
  simp [NewPipe, ReadWriteSeekable.Seek_end_good s h]

theorem NewPipe_ok (s : ReadWriteSeekable) (h : s.Good) :
    ∃ l : Pipe ReadWriteSeekable, NewPipe s = .ret l ∧ l.Ok ∧ l.Open ∧ l.readIndex = 0 ∧
      l.data.Bytes = s.Bytes ∧ l.data.buf = s.buf := by
  refine ⟨_, NewPipe_good s h, ⟨?_, ?_⟩, ⟨rfl, rfl⟩, rfl, rfl, rfl⟩
  · exact s.setOff_good h _ (by omega) (by simp)
  · simp [s.length_Bytes h]

theorem Write_good (l : Pipe ReadWriteSeekable) (d : List Byte) (hok : l.Ok) (hopen : l.Open)
    (hroom : l.data.Room d.length)
    (hfit : l.size + (d.length : Int) < 9223372036854775808) :
    ∃ l' : Pipe ReadWriteSeekable, l.Write d = .ret (l', d.length, none) ∧ l'.Ok ∧ l'.Open ∧
      l'.data.Bytes = l.data.Bytes ++ d ∧ l'.size = l.size + d.length ∧
      l'.readIndex = l.readIndex ∧ (l.data.buf ≠ none ∨ d ≠ [] → l'.data.buf ≠ none) := by
  obtain ⟨hg, hs⟩ := hok
  obtain ⟨hr, hw⟩ := hopen
  have hlen := l.data.length_Bytes hg
  have hg1 := l.data.setOff_good hg l.data.blen (by omega) (by simp)
  obtain ⟨s', e, hg', ho, hb, hn⟩ := ReadWriteSeekable.store_Write_good (l.data.setOff l.data.blen) d hg1
    hroom (by simp; omega)
  have hb' : s'.Bytes = l.data.Bytes ++ d := by
    rw [hb]
    simp only [ReadWriteSeekable.setOff_Bytes, ReadWriteSeekable.setOff_off, Int.toNat_ofNat]
    rw [List.take_of_length_le (by omega), List.drop_of_length_le (by omega), List.append_nil]
  have hwr : wrap64 (l.size + (d.length : Int)) = l.size + d.length :=
    wrap64_of_range (by omega) hfit
  refine ⟨{ l with data := s', size := l.size + d.length }, ?_, ⟨hg', ?_⟩, ⟨hr, hw⟩, hb', rfl, rfl,
    hn⟩
  · simp [Write, writeLocked, hr, hw, ReadWriteSeekable.Seek_end_good _ hg, e, syncWriter_mock,
      hwr]
  · simp [hb', hs]

theorem Read_good (l : Pipe ReadWriteSeekable) (d : List Byte) (hok : l.Ok) (hopen : l.Open)
    (h0 : 0 ≤ l.readIndex) (h1 : l.readIndex < l.size) :
    ∃ l' : Pipe ReadWriteSeekable,
      l.Read d = .ret (l', (l.data.Bytes.drop l.readIndex.toNat).take
          (min d.length (l.data.Bytes.length - l.readIndex.toNat))
            ++ d.drop (min d.length (l.data.Bytes.length - l.readIndex.toNat)),
        (min d.length (l.data.Bytes.length - l.readIndex.toNat) : Nat), none) ∧
      l'.Ok ∧ l'.Open ∧ l'.data.Bytes = l.data.Bytes ∧ l'.size = l.size ∧
      l'.readIndex = l.readIndex + (min d.length (l.data.Bytes.length - l.readIndex.toNat) : Nat) ∧
      l'.data.buf = l.data.buf := by
  obtain ⟨hg, hs⟩ := hok
  obtain ⟨hr, hw⟩ := hopen
  have hlen := l.data.length_Bytes hg
  have hlt := hg.wf.len_lt
  have hg1 := l.data.setOff_good hg l.readIndex h0 (by omega)
  have e1 := ReadWriteSeekable.Seek_set_good l.data hg l.readIndex h0 (by omega)
  have e2 := ReadWriteSeekable.store_Read_good (l.data.setOff l.readIndex) d hg1 (by simp; omega)
  simp only [ReadWriteSeekable.setOff_Bytes, ReadWriteSeekable.setOff_off,
    ReadWriteSeekable.setOff_blen] at e2
  rw [← hlen] at e2
  have hb : min d.length (l.data.Bytes.length - l.readIndex.toNat) ≤ l.data.Bytes.length
      - l.readIndex.toNat := Nat.min_le_right _ _
  generalize min d.length (l.data.Bytes.length - l.readIndex.toNat) = n at e2 hb ⊢
  have hwr : wrap64 (l.readIndex + (n : Int)) = l.readIndex + (n : Int) :=
    wrap64_of_range (by omega) (by omega)
  refine ⟨{ l with data := (l.data.setOff l.readIndex).setOff (l.readIndex + (n : Int)),
                   readIndex := l.readIndex + (n : Int) },
    ?_, ⟨?_, ?_⟩, ⟨hr, hw⟩, rfl, rfl, rfl, rfl⟩
  · simp [Read, readLocked, hr, hw, h1, e1, e2, hwr]
  · exact ReadWriteSeekable.setOff_good _ hg1 _ (by omega) (by simp; omega)
  · simpa using hs

end Pipe

/-! ## Round trip, close, seek -/

namespace Pipe

open Mock

/-- C1 (counterexample): on a new pipe over the empty zero-value store, `Write` of the empty
byte sequence returns `(0, nil)` and the following `Read` into a buffer of length 0 does not
return: it waits for data. -/
theorem roundtrip_empty_waits :
    ∃ l l1 : Pipe ReadWriteSeekable, NewPipe zeroValue = .ret l ∧
      l.Write [] = .ret (l1, 0, none) ∧ l1.Read [] = .block :=
  ⟨_, _, rfl, rfl, rfl⟩

/-- C1 (amended): for every non-empty byte sequence `b`, on a pipe newly constructed over an
empty mock store without overrides (whose buffer is allocated, or else `b` has at most 64
bytes), `Write(b)` returns `(len(b), nil)` and a following `Read` into a buffer of length
`len(b)` returns `len(b)` bytes that are exactly `b`. -/
theorem write_read_roundtrip (s : ReadWriteSeekable) (b d : List Byte) (hs : s.Good)
    (hempty : s.Bytes = []) (hb : b ≠ []) (hroom : s.Room b.length)
    (hfit : (b.length : Int) < 9223372036854775808) (hd : d.length = b.length) :
    ∃ l l1 l2 : Pipe ReadWriteSeekable, NewPipe s = .ret l ∧ l.readIndex = 0 ∧
      l.Write b = .ret (l1, b.length, none) ∧ l1.Read d = .ret (l2, b, b.length, none) := by
  obtain ⟨l, e, hok, hopen, hri, hbytes, hbuf⟩ := NewPipe_ok s hs
  have hsz : l.size = 0 := by rw [hok.size_eq, hbytes, hempty]; rfl
  obtain ⟨l1, e1, hok1, hopen1, hb1, hs1, hri1, -⟩ := Write_good l b hok hopen
    (by unfold ReadWriteSeekable.Room at *; rw [hbuf]; exact hroom) (by omega)
  have hpos : 0 < b.length := List.length_pos.mpr hb
  obtain ⟨l2, e2, -⟩ := Read_good l1 d hok1 hopen1 (by omega) (by omega)
  refine ⟨l, l1, l2, e, hri, e1, ?_⟩
  rw [e2, hb1, hbytes, hempty, hri1, hri]
  simp [hd]

/-- C1 (witness): the round trip of three bytes through the zero-value store. -/
theorem write_read_roundtrip_witness :
    ∃ l l1 l2 : Pipe ReadWriteSeekable, NewPipe zeroValue = .ret l ∧ l.readIndex = 0 ∧
      l.Write [1, 2, 3] = .ret (l1, 3, none) ∧ l1.Read [0, 0, 0] = .ret (l2, [1, 2, 3], 3, none) :=
  write_read_roundtrip zeroValue [1, 2, 3] [0, 0, 0] zeroValue_good rfl (by simp)
    (Or.inr (by simp)) (by simp) rfl

end Pipe

/-- Right after `close`, whatever the state was before (unread data, recorded errors), `Read`
and `Write` of the base pipe and of the line-indexed pipe return `(0, io.ErrClosedPipe)`;
none of them waits, and each leaves the pipe (its stores included) exactly in the closed
state. -/
theorem closed_pipe_read_write {σ τ : Type} [ReadWriteSeeker σ] [ReadWriteSeeker τ]
    (l : Pipe σ) (li : LineIndexedPipe σ τ) (d : List Byte) :
    l.close.Read d = .ret (l.close, d, 0, some .ErrClosedPipe) ∧
    l.close.Write d = .ret (l.close, 0, some .ErrClosedPipe) ∧
    li.close.Read d = .ret (li.close, d, 0, some .ErrClosedPipe) ∧
    li.close.Write d = .ret (li.close, 0, some .ErrClosedPipe) := by
  refine ⟨?_, ?_, ?_, ?_⟩
  · simp [Pipe.Read, Pipe.readLocked, Pipe.close]
  · simp [Pipe.Write, Pipe.writeLocked, Pipe.close]
  · simp [LineIndexedPipe.Read, LineIndexedPipe.close, Pipe.Read, Pipe.readLocked, Pipe.close]
  · simp [LineIndexedPipe.Write, LineIndexedPipe.writeLocked, LineIndexedPipe.close, Pipe.close]

/-- C7: when `size ≥ 0`, the origin is start, current or end, and the target (`offset`,
`readIndex + offset`, `size - offset`) fits an `int64`, `Seek` returns the target clamped
into `[0, size]` with a nil error and sets the read index to it. -/
theorem seek_clamps {σ : Type} [ReadWriteSeeker σ] (l : Pipe σ) (offset whence : Int)
    (hs : 0 ≤ l.size)
    (hw : whence = SEEK_SET ∨ whence = SEEK_CUR ∨ whence = SEEK_END)
    (h0 : -9223372036854775808 ≤ l.seekTarget offset whence)
    (h1 : l.seekTarget offset whence < 9223372036854775808) :
    l.Seek offset whence
      = ({ l with readIndex := clampTo l.size (l.seekTarget offset whence) },
         clampTo l.size (l.seekTarget offset whence), none) := by
  have key : ∀ t : Int, (if (if t > l.size then l.size else t) < 0 then 0
      else (if t > l.size then l.size else t)) = clampTo l.size t := by
    intro t
    unfold clampTo
    split_ifs <;> omega
  have hwr := wrap64_of_range h0 h1
  rcases hw with rfl | rfl | rfl
  · simp only [Pipe.Seek, Pipe.seekTarget, SEEK_SET, SEEK_CUR, SEEK_END]
    simp [key]
  · simp only [Pipe.Seek, Pipe.seekTarget, SEEK_SET, SEEK_CUR, SEEK_END] at hwr ⊢
    simp at hwr
    simp [key, hwr]
  · simp only [Pipe.Seek, Pipe.seekTarget, SEEK_SET, SEEK_CUR, SEEK_END] at hwr ⊢
    simp at hwr
    simp [key, hwr]

/-- C7 (witness): with `size = 13`, `Seek(22, start)` gives 13, then `Seek(22, end)` gives 0,
then `Seek(5, current)` gives 5. -/
theorem seek_clamps_witness :
    (0 : Int) ≤ 13 ∧
    (Pipe.Seek (⟨Mock.zeroValue, 13, 13, none, none⟩ : Pipe Mock.ReadWriteSeekable) 22 SEEK_SET
      = (⟨Mock.zeroValue, 13, 13, none, none⟩, 13, none)) ∧
    (Pipe.Seek (⟨Mock.zeroValue, 13, 13, none, none⟩ : Pipe Mock.ReadWriteSeekable) 22 SEEK_END
      = (⟨Mock.zeroValue, 0, 13, none, none⟩, 0, none)) ∧
    (Pipe.Seek (⟨Mock.zeroValue, 0, 13, none, none⟩ : Pipe Mock.ReadWriteSeekable) 5 SEEK_CUR
      = (⟨Mock.zeroValue, 5, 13, none, none⟩, 5, none)) :=
  ⟨by decide,
   seek_clamps ⟨Mock.zeroValue, 13, 13, none, none⟩ 22 SEEK_SET (by decide) (Or.inl rfl)
     (by decide) (by decide),
   seek_clamps ⟨Mock.zeroValue, 13, 13, none, none⟩ 22 SEEK_END (by decide)
     (Or.inr (Or.inr rfl)) (by decide) (by decide),
   seek_clamps ⟨Mock.zeroValue, 0, 13, none, none⟩ 5 SEEK_CUR (by decide)
     (Or.inr (Or.inl rfl)) (by decide) (by decide)⟩

/-! ## Sequences of calls on a pipe over the mock store -/

namespace Pipe

open Mock

theorem step_good (l : Pipe ReadWriteSeekable) (op : Op) (hok : l.Ok) (hopen : l.Open)
    (h0 : 0 ≤ l.readIndex) (h1 : l.readIndex ≤ l.size)
    (hroom : l.data.buf ≠ none ∨ Op.small [op])
    (hfit : l.size + ((Op.writes [op]).length : Int) < 9223372036854775808) :
    l.step op = .block ∨
    ∃ (l' : Pipe ReadWriteSeekable) (ev : Event), l.step op = .ret (l', ev) ∧
      l'.Ok ∧ l'.Open ∧ 0 ≤ l'.readIndex ∧ l'.readIndex ≤ l'.size ∧
      l'.data.Bytes = l.data.Bytes ++ Op.writes [op] ∧
      l'.size = l.size + ev.written ∧ ev.written = ((Op.writes [op]).length : Int) ∧ ev.ok ∧
      (l.data.buf ≠ none → l'.data.buf ≠ none) := by
  cases op with
  | read d =>
    by_cases hlt : l.readIndex < l.size
    · obtain ⟨l1, e1, hok1, hopen1, hb1, hs1, hri1, hbuf1⟩ := Read_good l d hok hopen h0 hlt
      have hlen : (l.data.Bytes.length : Int) = l.size := hok.size_eq.symm
      have hn : min d.length (l.data.Bytes.length - l.readIndex.toNat)
          ≤ l.data.Bytes.length - l.readIndex.toNat := Nat.min_le_right _ _
      right
      refine ⟨l1, _, by simp only [step, e1, Outcome.bind_ret]; rfl, hok1, hopen1, by omega, by omega,
        by simp [hb1, Op.writes], by simp [hs1, Event.written], by simp [Event.written, Op.writes],
        by simp [Event.ok], by rw [hbuf1]; exact id⟩
    · left
      simp [step, Read_blocks l d hopen.1 hopen.2 (by omega)]
  | write d =>
    have hr : l.data.Room d.length := by
      rcases hroom with h | h
      · exact Or.inl h
      · exact Or.inr h.1
    have hf : l.size + (d.length : Int) < 9223372036854775808 := by
      simpa [Op.writes] using hfit
    obtain ⟨l1, e1, hok1, hopen1, hb1, hs1, hri1, hbuf1⟩ := Write_good l d hok hopen hr hf
    right
    refine ⟨l1, _, by simp only [step, e1, Outcome.bind_ret]; rfl, hok1, hopen1, by omega, by omega,
      by simp [hb1, Op.writes], by simp [hs1, Event.written], by simp [Event.written, Op.writes],
      by simp [Event.ok], fun h => hbuf1 (Or.inl h)⟩
  | seek offset whence =>
    right
    have hs0 : 0 ≤ l.size := by omega
    refine ⟨(l.Seek offset whence).1, _, rfl, ⟨hok.good, hok.size_eq⟩, hopen, ?_, ?_,
      by simp [Op.writes, Seek], by simp [Event.written, Seek],
      by simp [Event.written, Op.writes], by simp [Event.ok, Seek], fun h => h⟩
    · simp only [Seek]; split_ifs <;> omega
    · simp only [Seek]; split_ifs <;> omega

theorem Op.writes_cons (op : Op) (ops : List Op) :
    Op.writes (op :: ops) = Op.writes [op] ++ Op.writes ops := by
  cases op <;> simp [Op.writes]

theorem Op.small_cons (op : Op) (ops : List Op) :
    Op.small (op :: ops) ↔ Op.small [op] ∧ Op.small ops := by
  cases op <;> simp [Op.small]

theorem run_good (ops : List Op) : ∀ (l : Pipe ReadWriteSeekable), l.Ok → l.Open →
    0 ≤ l.readIndex → l.readIndex ≤ l.size →
    (l.data.buf ≠ none ∨ Op.small ops) →
    l.size + ((Op.writes ops).length : Int) < 9223372036854775808 →
    l.run ops = .block ∨
    ∃ (l' : Pipe ReadWriteSeekable) (log : List Event), l.run ops = .ret (l', log) ∧
      l'.Ok ∧ l'.Open ∧ 0 ≤ l'.readIndex ∧ l'.readIndex ≤ l'.size ∧
      l'.data.Bytes = l.data.Bytes ++ Op.writes ops ∧
      l'.size = l.size + (log.map Event.written).sum ∧
      (log.map Event.written).sum = ((Op.writes ops).length : Int) ∧
      (∀ ev ∈ log, ev.ok) := by
  induction ops with
  | nil =>
    intro l hok hopen h0 h1 _ _
    exact Or.inr ⟨l, [], rfl, hok, hopen, h0, h1, by simp [Op.writes], by simp, by simp [Op.writes],
      by simp⟩
  | cons op ops ih =>
    intro l hok hopen h0 h1 hroom hfit
    rw [Op.writes_cons, List.length_append] at hfit
    push_cast at hfit
    have hroom1 : l.data.buf ≠ none ∨ Op.small [op] :=
      hroom.imp id fun h => ((Op.small_cons op ops).mp h).1
    rcases step_good l op hok hopen h0 h1 hroom1 (by omega) with
      hb | ⟨l1, ev, e1, hok1, hopen1, h01, h11, hb1, hs1, hw1, hev1, hbuf1⟩
    · left
      simp [run, hb]
    · have hroom2 : l1.data.buf ≠ none ∨ Op.small ops :=
        hroom.imp hbuf1 fun h => ((Op.small_cons op ops).mp h).2
      rcases ih l1 hok1 hopen1 h01 h11 hroom2 (by omega) with
        hb | ⟨l2, log, e2, hok2, hopen2, h02, h12, hb2, hs2, hsum, hall⟩
      · left
        simp [run, e1, hb]
      · right
        refine ⟨l2, ev :: log, by simp [run, e1, e2], hok2, hopen2, h02, h12, ?_, ?_, ?_, ?_⟩
        · rw [hb2, hb1, Op.writes_cons op ops, List.append_assoc]
        · rw [hs2, hs1]; simp; omega
        · rw [Op.writes_cons op ops]; simp [hsum, hw1]
        · intro ev' hev
          rcases List.mem_cons.mp hev with rfl | hev
          · exact hev1
          · exact hall ev' hev

end Pipe

namespace Pipe

open Mock

theorem Read_size {σ : Type} [ReadWriteSeeker σ] (l l' : Pipe σ) (d : List Byte)
    (r : List Byte × Int × Option Error) (h : l.Read d = .ret (l', r)) : l'.size = l.size := by
  unfold Read readLocked at h
  by_cases hr : l.rerr = none
  · by_cases hw : l.werr = none
    · by_cases hlt : l.readIndex < l.size
      · simp only [hr, hw, hlt, ne_eq, not_true_eq_false, if_false, if_true, Outcome.bind_eq,
          Outcome.pure_eq] at h
        cases hs : ReadWriteSeeker.Seek l.data l.readIndex SEEK_SET with
        | ret x =>
          obtain ⟨data, pos, err⟩ := x
          simp only [hs, Outcome.bind_ret] at h
          cases err with
          | some e =>
            simp at h
            rw [← h.1]
          | none =>
            simp only [not_true_eq_false, if_false] at h
            cases hrd : ReadWriteSeeker.Read data d with
            | ret y =>
              obtain ⟨data', d', n, err'⟩ := y
              simp only [hrd, Outcome.bind_ret] at h
              cases err' <;> simp at h <;> rw [← h.1]
            | panic v => simp [hrd] at h
            | block => simp [hrd] at h
            | nofuel => simp [hrd] at h
        | panic v => simp [hs] at h
        | block => simp [hs] at h
        | nofuel => simp [hs] at h
      · simp [hr, hw, hlt] at h
    · obtain ⟨e, he⟩ := Option.ne_none_iff_exists'.mp hw
      simp [hr, he] at h
      rw [← h.1]
  · obtain ⟨e, he⟩ := Option.ne_none_iff_exists'.mp hr
    simp [he] at h
    rw [← h.1]

/-- C8: on a pipe over a mock store without overrides holding `c` (buffer allocated, or
every write of at most 64 bytes), a sequence of `Read`, `Seek` and `Write` calls either
stops at a `Read` that waits for data, or every call returns a nil error and the store
then holds `c` followed by the written byte sequences in call order: each `Write` lands
right after the one before, wherever the reads and seeks left the store's cursor. -/
theorem writes_append_in_order (s : ReadWriteSeekable) (ops : List Op) (hs : s.Good)
    (hroom : s.buf ≠ none ∨ Op.small ops)
    (hfit : (s.Bytes.length : Int) + ((Op.writes ops).length : Int) < 9223372036854775808) :
    ∃ l0 : Pipe ReadWriteSeekable, NewPipe s = .ret l0 ∧
      (l0.run ops = .block ∨
       ∃ (l : Pipe ReadWriteSeekable) (log : List Event), l0.run ops = .ret (l, log) ∧
         (∀ ev ∈ log, ev.ok) ∧ l.data.Bytes = s.Bytes ++ Op.writes ops) := by
  obtain ⟨l0, e, hok, hopen, hri, hbytes, hbuf⟩ := NewPipe_ok s hs
  refine ⟨l0, e, ?_⟩
  have hsz : l0.size = (s.Bytes.length : Int) := by rw [hok.size_eq, hbytes]
  rcases run_good ops l0 hok hopen (by omega) (by omega) (by rw [hbuf]; exact hroom)
    (by omega) with hb | ⟨l, log, e2, -, -, -, -, hb2, -, -, hall⟩
  · exact Or.inl hb
  · exact Or.inr ⟨l, log, e2, hall, by rw [hb2, hbytes]⟩

/-- C8 (witness): content 0..9, `Read` of 10 bytes, `Seek(5, start)`, `Write [8,7,6]`, then
`Read` returns the 8 bytes `[5,6,7,8,9,8,7,6]`; the store holds 0..9 followed by 8,7,6. -/
theorem writes_append_in_order_witness :
    (∃ l0 : Pipe ReadWriteSeekable,
      NewPipe (NewReadWriteSeekable [0, 1, 2, 3, 4, 5, 6, 7, 8, 9]) = .ret l0 ∧
      (l0.run [.read (List.replicate 10 0), .seek 5 SEEK_SET, .write [8, 7, 6],
          .read (List.replicate 10 0)] = .block ∨
       ∃ (l : Pipe ReadWriteSeekable) (log : List Event),
         l0.run [.read (List.replicate 10 0), .seek 5 SEEK_SET, .write [8, 7, 6],
           .read (List.replicate 10 0)] = .ret (l, log) ∧
         (∀ ev ∈ log, ev.ok) ∧
         l.data.Bytes = (NewReadWriteSeekable [0, 1, 2, 3, 4, 5, 6, 7, 8, 9]).Bytes
           ++ Op.writes [.read (List.replicate 10 0), .seek 5 SEEK_SET, .write [8, 7, 6],
                .read (List.replicate 10 0)])) ∧
    (∃ l0 l : Pipe ReadWriteSeekable,
      NewPipe (NewReadWriteSeekable [0, 1, 2, 3, 4, 5, 6, 7, 8, 9]) = .ret l0 ∧
      l0.run [.read (List.replicate 10 0), .seek 5 SEEK_SET, .write [8, 7, 6],
          .read (List.replicate 10 0)]
        = .ret (l, [.read [0, 1, 2, 3, 4, 5, 6, 7, 8, 9] 10 none, .seek 5 none, .write 3 none,
                    .read [5, 6, 7, 8, 9, 8, 7, 6] 8 none]) ∧
      l.data.Bytes = [0, 1, 2, 3, 4, 5, 6, 7, 8, 9, 8, 7, 6]) :=
  ⟨writes_append_in_order (NewReadWriteSeekable [0, 1, 2, 3, 4, 5, 6, 7, 8, 9]) _
      (NewReadWriteSeekable_good _ (by simp)) (Or.inl (by simp [NewReadWriteSeekable]))
      (by simp [NewReadWriteSeekable, Buffer.Bytes, Op.writes]),
   ⟨_, _, rfl, rfl, rfl⟩⟩

/-- C9: `DataSize()` of a pipe newly constructed over a mock store (without overrides) is the
store's length `L`; after a sequence of calls in which every call returned (none waits),
every call has a nil error and `DataSize()` is `L` plus the sum of the counts the `Write`
calls returned; a `Read` in any state leaves `DataSize()` unchanged. -/
theorem data_size_counts (s : ReadWriteSeekable) (ops : List Op) (hs : s.Good)
    (hroom : s.buf ≠ none ∨ Op.small ops)
    (hfit : (s.Bytes.length : Int) + ((Op.writes ops).length : Int) < 9223372036854775808) :
    ∃ l0 : Pipe ReadWriteSeekable, NewPipe s = .ret l0 ∧
      l0.DataSize = ((s.Bytes.length : Int), none) ∧
      (l0.run ops = .block ∨
       ∃ (l : Pipe ReadWriteSeekable) (log : List Event), l0.run ops = .ret (l, log) ∧
         (∀ ev ∈ log, ev.ok) ∧
         l.DataSize = ((s.Bytes.length : Int) + (log.map Event.written).sum, none)) ∧
      (∀ (l l' : Pipe ReadWriteSeekable) (d : List Byte) (r : List Byte × Int × Option Error),
         l.Read d = .ret (l', r) → l'.DataSize = l.DataSize) := by
  obtain ⟨l0, e, hok, hopen, hri, hbytes, hbuf⟩ := NewPipe_ok s hs
  have hsz : l0.size = (s.Bytes.length : Int) := by rw [hok.size_eq, hbytes]
  refine ⟨l0, e, by simp [DataSize, hsz], ?_, ?_⟩
  · rcases run_good ops l0 hok hopen (by omega) (by omega) (by rw [hbuf]; exact hroom)
      (by omega) with hb | ⟨l, log, e2, -, -, -, -, -, hs2, -, hall⟩
    · exact Or.inl hb
    · exact Or.inr ⟨l, log, e2, hall, by simp [DataSize, hs2, hsz]⟩
  · intro l l' d r h
    simp [DataSize, Read_size l l' d r h]

/-- C9 (witness): a store pre-populated with 10 bytes gives `DataSize() = 10`, and 13 after
writes of 2 and 1 bytes around a read; the zero-value store gives `DataSize() = 0`. -/
theorem data_size_counts_witness :
    (∃ l0 : Pipe ReadWriteSeekable,
      NewPipe (NewReadWriteSeekable [0, 1, 2, 3, 4, 5, 6, 7, 8, 9]) = .ret l0 ∧
      l0.DataSize = (((NewReadWriteSeekable [0, 1, 2, 3, 4, 5, 6, 7, 8, 9]).Bytes.length : Int),
        none) ∧
      (l0.run [.write [7, 7], .read [0, 0, 0], .write [9]] = .block ∨
       ∃ (l : Pipe ReadWriteSeekable) (log : List Event),
         l0.run [.write [7, 7], .read [0, 0, 0], .write [9]] = .ret (l, log) ∧
         (∀ ev ∈ log, ev.ok) ∧
         l.DataSize = (((NewReadWriteSeekable [0, 1, 2, 3, 4, 5, 6, 7, 8, 9]).Bytes.length : Int)
           + (log.map Event.written).sum, none)) ∧
      (∀ (l l' : Pipe ReadWriteSeekable) (d : List Byte) (r : List Byte × Int × Option Error),
         l.Read d = .ret (l', r) → l'.DataSize = l.DataSize)) ∧
    (∃ l0 l : Pipe ReadWriteSeekable,
      NewPipe (NewReadWriteSeekable [0, 1, 2, 3, 4, 5, 6, 7, 8, 9]) = .ret l0 ∧
      l0.DataSize = (10, none) ∧
      l0.run [.write [7, 7], .read [0, 0, 0], .write [9]]
        = .ret (l, [.write 2 none, .read [0, 1, 2] 3 none, .write 1 none]) ∧
      l.DataSize = (13, none)) ∧
    (∃ l0 : Pipe ReadWriteSeekable, NewPipe zeroValue = .ret l0 ∧ l0.DataSize = (0, none)) :=
  ⟨data_size_counts (NewReadWriteSeekable [0, 1, 2, 3, 4, 5, 6, 7, 8, 9]) _
      (NewReadWriteSeekable_good _ (by simp)) (Or.inl (by simp [NewReadWriteSeekable]))
      (by simp [NewReadWriteSeekable, Buffer.Bytes, Op.writes]),
   ⟨_, _, rfl, rfl, rfl, rfl⟩, ⟨_, rfl, rfl⟩⟩

end Pipe

/-! ## The index records -/

theorem getUintLE_putUintLE (k u : Nat) : getUintLE (putUintLE k u) = u % 256 ^ k := by
  induction k generalizing u with
  | zero => simp [putUintLE, getUintLE, Nat.mod_one]
  | succ k ih =>
    simp only [putUintLE, getUintLE, ih, pow_succ', Nat.mod_mul]
    simp [Fin.ofNat]

theorem length_putUintLE (k u : Nat) : (putUintLE k u).length = k := by
  induction k generalizing u with
  | zero => rfl
  | succ k ih => simp [putUintLE, ih]

theorem length_putInt64LE (v : Int) : (putInt64LE v).length = 8 :=
  length_putUintLE 8 _

theorem getInt64LE_putInt64LE (v : Int) (h0 : -9223372036854775808 ≤ v)
    (h1 : v < 9223372036854775808) : getInt64LE (putInt64LE v) = v := by
  unfold getInt64LE putInt64LE
  rw [getUintLE_putUintLE]
  have e : (256 : Nat) ^ 8 = 18446744073709551616 := by norm_num
  rw [e]
  unfold wrap64
  omega

namespace Mock

theorem readAtLeast_good (s : ReadWriteSeekable) (h : s.Good) (fuel : Nat)
    (buf : List Byte) (hbuf : buf.length = 8) (havail : s.off + 8 ≤ (s.blen : Int)) :
    readAtLeastLoop 8 (fuel + 1 + 1) s buf 0 none
      = .ret (s.setOff (s.off + 8), (s.Bytes.drop s.off.toNat).take 8, 8, none) := by
  have h0 := h.wf.off_nonneg
  have hlt := h.wf.len_lt
  have hm : min 8 (s.blen - s.off.toNat) = 8 := by omega
  have e := ReadWriteSeekable.store_Read_good s buf h (by omega)
  simp only [hbuf, hm] at e
  have hd : buf.drop 8 = [] := List.drop_of_length_le (by omega)
  have hw : wrap64 8 = 8 := by decide
  simp [readAtLeastLoop, e, hw, hd, hbuf]

theorem ReadFull_good (s : ReadWriteSeekable) (h : s.Good)
    (buf : List Byte) (hbuf : buf.length = 8) (havail : s.off + 8 ≤ (s.blen : Int)) :
    ReadFull s buf
      = .ret (s.setOff (s.off + 8), (s.Bytes.drop s.off.toNat).take 8, 8, none) := by
  have hlen := s.length_Bytes h
  have h0 := h.wf.off_nonneg
  have e := readAtLeast_good s h 14 buf hbuf havail
  have hl : ((s.Bytes.drop s.off.toNat).take 8).length = 8 := by simp; omega
  unfold ReadFull
  simp only [hbuf, readFullFuel]
  have e8 : ((8 : Nat) : Int) = 8 := rfl
  rw [e8, show (16 : Nat) = 14 + 1 + 1 from rfl, e]
  simp [hl]

theorem binaryRead_good (s : ReadWriteSeekable) (h : s.Good)
    (havail : s.off + 8 ≤ (s.blen : Int)) :
    binaryRead s = .ret (s.setOff (s.off + 8),
      some (getInt64LE ((s.Bytes.drop s.off.toNat).take 8)), none) := by
  unfold binaryRead
  rw [ReadFull_good s h _ (List.length_replicate _ _) havail]
  rfl

end Mock

namespace LineIndexedPipe

open Mock

theorem CountLines_good (l : LineIndexedPipe ReadWriteSeekable ReadWriteSeekable)
    (hidx : l.index.Good) :
    l.CountLines = .ret ({ l with index := l.index.setOff l.index.blen },
      (l.index.Bytes.length : Int).tdiv 8, none) := by
  simp [CountLines, IndexSize, ReadWriteSeekable.Seek_end_good _ hidx, int64Size,
    l.index.length_Bytes hidx]

theorem SeekLine_good (l : LineIndexedPipe ReadWriteSeekable ReadWriteSeekable) (k : Nat)
    (hidx : l.index.Good) (hk : 8 * (k + 1) ≤ l.index.Bytes.length) :
    l.SeekLine k = .ret ({ l with index := (l.index.setOff (8 * (k : Int))).setOff
                                    (8 * (k : Int) + 8),
                                  pipe := { l.pipe with readIndex := indexRecord l.index.Bytes k } },
                         none) := by
  have hlen := l.index.length_Bytes hidx
  have hlt := hidx.wf.len_lt
  have hw : wrap64 ((k : Int) * 8) = 8 * (k : Int) :=
    (wrap64_of_range (by omega) (by omega)).trans (by ring)
  have hg := l.index.setOff_good hidx (8 * (k : Int)) (by omega) (by omega)
  have e1 := ReadWriteSeekable.Seek_set_good l.index hidx (8 * (k : Int)) (by omega) (by omega)
  have e2 := binaryRead_good (l.index.setOff (8 * (k : Int))) hg (by simp; omega)
  have ht : (8 * (k : Int)).toNat = 8 * k := by omega
  simp only [ReadWriteSeekable.setOff_off, ReadWriteSeekable.setOff_Bytes, ht] at e2
  simp [SeekLine, int64Size, hw, e1, e2, indexRecord]

/-- On a line-indexed pipe whose index is a mock store without overrides, for every `k`
with `0 ≤ k < CountLines()`, `SeekLine(k)` returns nil and sets the read index to the value
of index record `k` (data store, size and error slots stay as they are); when the pipe is
open over a mock data store and that value is an offset with data after it, the following
`Read` returns the data-store bytes that start exactly at that offset. -/
theorem SeekLine_then_Read (l lc : LineIndexedPipe ReadWriteSeekable ReadWriteSeekable)
    (k c : Int) (ec : Option Error) (hidx : l.index.Good) (h0 : 0 ≤ k)
    (hc : l.CountLines = .ret (lc, c, ec)) (hk : k < c) :
    l.SeekLine k = .ret (afterSeekLine l k.toNat, none) ∧
    (l.pipe.Ok → l.pipe.Open → 0 ≤ indexRecord l.index.Bytes k.toNat →
      indexRecord l.index.Bytes k.toNat < l.pipe.size →
      ∀ d : List Byte, ∃ l'' : LineIndexedPipe ReadWriteSeekable ReadWriteSeekable,
        (afterSeekLine l k.toNat).Read d = .ret (l'',
          (l.pipe.data.Bytes.drop (indexRecord l.index.Bytes k.toNat).toNat).take
              (min d.length (l.pipe.data.Bytes.length - (indexRecord l.index.Bytes k.toNat).toNat))
            ++ d.drop (min d.length
                (l.pipe.data.Bytes.length - (indexRecord l.index.Bytes k.toNat).toNat)),
          (min d.length (l.pipe.data.Bytes.length - (indexRecord l.index.Bytes k.toNat).toNat) : Nat),
          none)) := by
  rw [CountLines_good l hidx] at hc
  simp only [Outcome.ret.injEq, Prod.mk.injEq] at hc
  obtain ⟨-, rfl, -⟩ := hc
  obtain ⟨n, rfl⟩ := Int.eq_ofNat_of_zero_le h0
  have hk' : 8 * (n + 1) ≤ l.index.Bytes.length := by
    rw [Int.tdiv_eq_ediv (by omega) (by omega)] at hk
    omega
  simp only [Int.toNat_ofNat]
  refine ⟨SeekLine_good l n hidx hk', ?_⟩
  unfold afterSeekLine
  generalize indexRecord l.index.Bytes n = v
  intro hok hopen hv0 hv1 d
  obtain ⟨p', e, -⟩ := Pipe.Read_good
    { l.pipe with readIndex := v } d ⟨hok.good, hok.size_eq⟩ ⟨hopen.1, hopen.2⟩ hv0 hv1
  refine ⟨{ l with index := (l.index.setOff (8 * (n : Int))).setOff (8 * (n : Int) + 8),
                   pipe := p' }, ?_⟩
  simp only [Read, e, Outcome.bind_eq, Outcome.bind_ret, Outcome.pure_eq]

end LineIndexedPipe

/-! ## The scanner -/

theorem IndexByte_not_mem (data : List Byte) (c : Byte) (h : c ∉ data) :
    IndexByte data c = -1 := by
  induction data with
  | nil => rfl
  | cons b bs ih =>
    have hb : b ≠ c := fun e => h (by simp [e])
    have hbs : c ∉ bs := fun e => h (by simp [e])
    simp [IndexByte, hb, ih hbs]

theorem IndexByte_append (pre rest : List Byte) (c : Byte) (h : c ∉ pre) :
    IndexByte (pre ++ c :: rest) c = pre.length := by
  induction pre with
  | nil => simp [IndexByte]
  | cons b bs ih =>
    have hb : b ≠ c := fun e => h (by simp [e])
    have hbs : c ∉ bs := fun e => h (by simp [e])
    have : ¬ ((bs.length : Int) < 0) := by omega
    simp [IndexByte, hb, ih hbs, this]

theorem scanLines_line (pre rest : List Byte) (atEOF : Bool) (h : newline ∉ pre) :
    scanLines (pre ++ newline :: rest) atEOF
      = ((pre.length : Int) + 1, some (pre ++ [newline]), none) := by
  have h1 : ¬ ((pre.length : Int) + 1 < 0) := by omega
  have h2 : ((pre.length : Int) + 1).toNat = pre.length + 1 := by omega
  have h3 : (0 : Int) ≤ pre.length := by omega
  simp [scanLines, IndexByte_append pre rest newline h, h2, h3, List.take_append_eq_append_take]

theorem scanLines_more (data : List Byte) (h : newline ∉ data) :
    scanLines data false = (0, none, none) := by
  simp [scanLines, IndexByte_not_mem data newline h]

theorem scanLines_rest (data : List Byte) (h : newline ∉ data) (hne : data ≠ []) :
    scanLines data true = ((data.length : Int), some data, none) := by
  simp [scanLines, IndexByte_not_mem data newline h, hne]

theorem scanLines_done (atEOF : Bool) : scanLines [] atEOF = (0, none, none) := by
  cases atEOF <;> simp [scanLines, IndexByte]

namespace Scanner

theorem trySplit_line (s : Scanner) (pre rest : List Byte) (h : newline ∉ pre)
    (hh : s.held = pre ++ newline :: rest) :
    s.trySplit = .inl (true, { s with start := s.start + (pre.length + 1), held := rest,
                                      token := some (pre ++ [newline]) }) := by
  have h1 : ¬ ((pre.length : Int) + 1 < 0) := by omega
  have h2 : ((pre.length : Int) + 1).toNat = pre.length + 1 := by omega
  have h3 : ¬ ((pre.length : Int) + 1 > ((pre ++ newline :: rest).length : Int)) := by
    simp
  simp only [trySplit, hh, scanLines_line pre rest _ h]
  simp [h1, h2, h3]

theorem trySplit_more (s : Scanner) (h : newline ∉ s.held) (he : s.err = none) :
    ∃ s' : Scanner, s.trySplit = .inr s' ∧ s'.held = s.held ∧ s'.r = s.r ∧
      s'.start = s.start ∧ s'.bufLen = s.bufLen ∧ s'.err = none := by
  by_cases hne : s.held = []
  · exact ⟨s, by simp [trySplit, hne, he], rfl, rfl, rfl, rfl, he⟩
  · refine ⟨{ s with token := none }, ?_, rfl, rfl, rfl, rfl, he⟩
    simp [trySplit, hne, scanLines_more s.held h, he]

theorem trySplit_rest (s : Scanner) (h : newline ∉ s.held) (hne : s.held ≠ [])
    (he : s.err = some .EOF) :
    s.trySplit = .inl (true, { s with start := s.start + s.held.length, held := [],
                                      token := some s.held }) := by
  simp [trySplit, hne, he, scanLines_rest s.held h hne]

theorem trySplit_done (s : Scanner) (hh : s.held = []) (e : Error) (he : s.err = some e) :
    s.trySplit = .inr { s with token := none } := by
  simp [trySplit, hh, he, scanLines_done]

end Scanner

namespace Scanner

theorem refill (s : Scanner) (hinv : s.Inv) (he : s.err = none)
    (hlt : s.held.length < MaxScanTokenSize) :
    ∃ s1 : Scanner, s.shift.resize = some s1 ∧ s1.held = s.held ∧ s1.r = s.r ∧
      s1.err = none ∧ s1.Inv ∧ s1.start + s1.held.length < s1.bufLen := by
  obtain ⟨h1, h2⟩ := hinv
  have hM : MaxScanTokenSize = 65536 := rfl
  have hS : startBufSize = 4096 := rfl
  by_cases hsh : s.start > 0 ∧ (s.bufEnd = s.bufLen ∨ s.start > s.bufLen / 2)
  · have e1 : s.shift = { s with start := 0 } := by simp [shift, hsh]
    have hpos : 0 < s.start := hsh.1
    have e2 : ({ s with start := 0 } : Scanner).resize = some { s with start := 0 } := by
      have : ¬ (s.held.length = s.bufLen) := by omega
      simp [resize, bufEnd, this]
    exact ⟨{ s with start := 0 }, by rw [e1, e2], rfl, rfl, he, ⟨by simp; omega, h2⟩,
      by simp; omega⟩
  · have e1 : s.shift = s := by simp [shift, hsh]
    rw [e1]
    by_cases hfull : s.bufEnd = s.bufLen
    · have hst : s.start = 0 := by
        by_contra hne
        exact hsh ⟨Nat.pos_of_ne_zero hne, Or.inl hfull⟩
      have hlen : ¬ (s.bufLen ≥ MaxScanTokenSize) := by
        unfold bufEnd at hfull
        omega
      have hres : s.resize = some { s with
          bufLen := (if (if s.bufLen * 2 = 0 then startBufSize else s.bufLen * 2) > MaxScanTokenSize
            then MaxScanTokenSize else (if s.bufLen * 2 = 0 then startBufSize else s.bufLen * 2)),
          start := 0 } := by
        rw [resize, if_pos hfull, if_neg hlen]
      unfold bufEnd at hfull
      refine ⟨_, hres, rfl, rfl, he, ⟨?_, ?_⟩, ?_⟩ <;> dsimp only <;> split_ifs <;> omega
    · refine ⟨s, by simp [resize, hfull], rfl, rfl, he, ⟨h1, h2⟩, ?_⟩
      unfold bufEnd at hfull
      omega

theorem fill_more (s : Scanner) (hr : s.r ≠ []) (hroom : s.start + s.held.length < s.bufLen) :
    s.fill = { s with held := s.held ++ s.r.take (min (s.bufLen - s.bufEnd) s.r.length),
                      r := s.r.drop (min (s.bufLen - s.bufEnd) s.r.length) } ∧
    0 < min (s.bufLen - s.bufEnd) s.r.length := by
  have hpos : 0 < s.r.length := List.length_pos.mpr hr
  have hn : 0 < min (s.bufLen - s.bufEnd) s.r.length := by
    unfold bufEnd
    omega
  refine ⟨?_, hn⟩
  have hn' : ¬ (min (s.bufLen - s.bufEnd) s.r.length = 0) := by omega
  simp only [fill, hr, if_false, hn']

theorem fill_eof (s : Scanner) (hr : s.r = []) (he : s.err = none) :
    s.fill = { s with err := some .EOF } := by
  simp [fill, hr, setErr, he]

theorem Scan_more (fuel : Nat) (s s0 s1 : Scanner) (h0 : s.trySplit = .inr s0)
    (he : s0.err = none) (h1 : s0.shift.resize = some s1) :
    Scan (fuel + 1) s = Scan fuel s1.fill := by
  simp [Scan, h0, he, h1]

end Scanner

namespace Scanner

theorem Scan_token (fuel : Nat) (s : Scanner) (res : Bool × Scanner)
    (h : s.trySplit = .inl res) : Scan (fuel + 1) s = some res := by
  simp [Scan, h]

theorem Scan_line (fuel : Nat) : ∀ (s : Scanner) (pre rest : List Byte), s.Inv → s.err = none →
    s.held ++ s.r = pre ++ newline :: rest → newline ∉ pre →
    pre.length + 1 ≤ MaxScanTokenSize → s.r.length < fuel →
    ∃ s' : Scanner, Scan fuel s = some (true, s') ∧ s'.token = some (pre ++ [newline]) ∧
      s'.held ++ s'.r = rest ∧ s'.Inv ∧ s'.err = none ∧ s'.r.length ≤ s.r.length := by
  induction fuel with
  | zero => intro s pre rest _ _ _ _ _ hf; omega
  | succ fuel ih =>
    intro s pre rest hinv he heq hpre hfit hf
    by_cases hmem : newline ∈ s.held
    · -- the line is in the buffer already
      have hsplit : ∃ c, s.held = pre ++ newline :: c ∧ rest = c ++ s.r := by
        rcases List.append_eq_append_iff.mp heq with ⟨a', h1, h2⟩ | ⟨c', h1, h2⟩
        · exact absurd (h1 ▸ List.mem_append_left a' hmem) hpre
        · cases c' with
          | nil =>
            rw [h1, List.append_nil] at hmem
            exact absurd hmem hpre
          | cons x c =>
            simp only [List.cons_append, List.cons.injEq] at h2
            exact ⟨c, by rw [h1, ← h2.1], h2.2⟩
      obtain ⟨c, hc, hrest⟩ := hsplit
      refine ⟨_, Scan_token fuel s _ (trySplit_line s pre c hpre hc), rfl, hrest.symm, ⟨?_, hinv.len_le⟩,
        he, le_refl _⟩
      have := hinv.end_le
      rw [hc] at this
      simp at this ⊢
      omega
    · -- more input is needed
      have hsplit : ∃ a, pre = s.held ++ a ∧ s.r = a ++ newline :: rest := by
        rcases List.append_eq_append_iff.mp heq with ⟨a', h1, h2⟩ | ⟨c', h1, h2⟩
        · exact ⟨a', h1, h2⟩
        · cases c' with
          | nil => exact ⟨[], by simpa using h1.symm, by simpa using h2.symm⟩
          | cons x c =>
            simp only [List.cons_append, List.cons.injEq] at h2
            exact absurd (by rw [h1, ← h2.1]; simp) hmem
      obtain ⟨a, ha, hr⟩ := hsplit
      have hrne : s.r ≠ [] := by rw [hr]; simp
      have hlen : s.held.length < MaxScanTokenSize := by
        have : pre.length = s.held.length + a.length := by rw [ha]; simp
        omega
      obtain ⟨s0, e0, hh0, hr0, hs0, hb0, he0⟩ := trySplit_more s hmem he
      have hinv0 : s0.Inv := ⟨by rw [hs0, hh0, hb0]; exact hinv.end_le, by rw [hb0]; exact hinv.len_le⟩
      obtain ⟨s1, e1, hh1, hr1, he1, hinv1, hroom1⟩ := refill s0 hinv0 he0 (by rw [hh0]; exact hlen)
      obtain ⟨e2, hn⟩ := fill_more s1 (by rw [hr1, hr0]; exact hrne) hroom1
      rw [Scan_more fuel s s0 s1 e0 he0 e1, e2]
      have hnle : min (s1.bufLen - s1.bufEnd) s1.r.length ≤ s1.bufLen - s1.bufEnd :=
        Nat.min_le_left _ _
      generalize min (s1.bufLen - s1.bufEnd) s1.r.length = n at hn hnle ⊢
      have hr1' : s1.r = s.r := by rw [hr1, hr0]
      have hh1' : s1.held = s.held := by rw [hh1, hh0]
      have hpos : 0 < s.r.length := List.length_pos.mpr hrne
      obtain ⟨s', es, ht, hrest, hinv', he', hl'⟩ := ih
        { s1 with held := s1.held ++ s1.r.take n, r := s1.r.drop n } pre rest
        ⟨by unfold bufEnd at hnle; simp; have := hinv1.end_le; omega, hinv1.len_le⟩ he1
        (by simp only [List.append_assoc, List.take_append_drop]; rw [hh1', hr1']; exact heq)
        hpre hfit (by simp [hr1']; omega)
      exact ⟨s', es, ht, hrest, hinv', he', by simp [hr1'] at hl'; omega⟩

theorem Scan_rest (fuel : Nat) : ∀ (s : Scanner), s.Inv → s.err = none →
    newline ∉ s.held ++ s.r → s.held ++ s.r ≠ [] →
    (s.held ++ s.r).length < MaxScanTokenSize → s.r.length + 1 < fuel →
    ∃ s' : Scanner, Scan fuel s = some (true, s') ∧ s'.token = some (s.held ++ s.r) ∧
      s'.held = [] ∧ s'.r = [] ∧ s'.err = some .EOF ∧ s'.Inv := by
  induction fuel with
  | zero => intro s _ _ _ _ _ hf; omega
  | succ fuel ih =>
    intro s hinv he hnl hne hlen hf
    have hmem : newline ∉ s.held := fun h => hnl (List.mem_append_left _ h)
    have hlen' : s.held.length < MaxScanTokenSize := by
      simp at hlen; omega
    obtain ⟨s0, e0, hh0, hr0, hs0, hb0, he0⟩ := trySplit_more s hmem he
    have hinv0 : s0.Inv := ⟨by rw [hs0, hh0, hb0]; exact hinv.end_le, by rw [hb0]; exact hinv.len_le⟩
    obtain ⟨s1, e1, hh1, hr1, he1, hinv1, hroom1⟩ := refill s0 hinv0 he0 (by rw [hh0]; exact hlen')
    have hr1' : s1.r = s.r := by rw [hr1, hr0]
    have hh1' : s1.held = s.held := by rw [hh1, hh0]
    rw [Scan_more fuel s s0 s1 e0 he0 e1]
    by_cases hr : s.r = []
    · rw [fill_eof s1 (by rw [hr1', hr]) he1]
      obtain ⟨f, rfl⟩ : ∃ f, fuel = f + 1 := ⟨fuel - 1, by simp [hr] at hf; omega⟩
      have hhne : s.held ≠ [] := by simpa [hr] using hne
      refine ⟨_, Scan_token f _ _ (trySplit_rest { s1 with err := some .EOF }
        (by simpa [hh1'] using hmem) (by simpa [hh1'] using hhne) rfl), ?_, rfl, ?_, rfl, ?_⟩
      · simp [hh1', hr]
      · simp [hr1', hr]
      · exact ⟨by simp; have := hinv1.end_le; omega, hinv1.len_le⟩
    · obtain ⟨e2, hn⟩ := fill_more s1 (by rw [hr1']; exact hr) hroom1
      rw [e2]
      have hnle : min (s1.bufLen - s1.bufEnd) s1.r.length ≤ s1.bufLen - s1.bufEnd :=
        Nat.min_le_left _ _
      generalize min (s1.bufLen - s1.bufEnd) s1.r.length = n at hn hnle ⊢
      have hpos : 0 < s.r.length := List.length_pos.mpr hr
      have hcat : (s1.held ++ s1.r.take n) ++ s1.r.drop n = s.held ++ s.r := by
        simp only [List.append_assoc, List.take_append_drop]; rw [hh1', hr1']
      obtain ⟨s', es, ht, hh', hr', he', hinv'⟩ := ih
        { s1 with held := s1.held ++ s1.r.take n, r := s1.r.drop n }
        ⟨by unfold bufEnd at hnle; simp; have := hinv1.end_le; omega, hinv1.len_le⟩ he1
        (by show newline ∉ (s1.held ++ s1.r.take n) ++ s1.r.drop n; rw [hcat]; exact hnl)
        (by show (s1.held ++ s1.r.take n) ++ s1.r.drop n ≠ []; rw [hcat]; exact hne)
        (by show ((s1.held ++ s1.r.take n) ++ s1.r.drop n).length < _; rw [hcat]; exact hlen)
        (by simp [hr1']; omega)
      exact ⟨s', es, by rw [ht]; exact congrArg some hcat, hh', hr', he', hinv'⟩

end Scanner

namespace Scanner

theorem Scan_stop (fuel : Nat) (s : Scanner) (hh : s.held = []) (e : Error)
    (he : s.err = some e) :
    Scan (fuel + 1) s = some (false, { s with start := 0, held := [], token := none }) := by
  simp [Scan, trySplit_done s hh e he, he]

theorem Scan_done (fuel : Nat) (s : Scanner) (hinv : s.Inv) (hh : s.held = []) (hr : s.r = [])
    (he : s.err = none ∨ s.err = some .EOF) (hf : 2 ≤ fuel) :
    ∃ s' : Scanner, Scan fuel s = some (false, s') ∧ s'.Err = none := by
  obtain ⟨f, rfl⟩ : ∃ f, fuel = f + 1 + 1 := ⟨fuel - 2, by omega⟩
  rcases he with he | he
  · obtain ⟨s0, e0, hh0, hr0, hs0, hb0, he0⟩ := trySplit_more s (by simp [hh]) he
    have hinv0 : s0.Inv := ⟨by rw [hs0, hh0, hb0]; exact hinv.end_le, by rw [hb0]; exact hinv.len_le⟩
    obtain ⟨s1, e1, hh1, hr1, he1, hinv1, hroom1⟩ := refill s0 hinv0 he0
      (by rw [hh0, hh]; decide)
    rw [Scan_more (f + 1) s s0 s1 e0 he0 e1, fill_eof s1 (by rw [hr1, hr0, hr]) he1,
      Scan_stop f _ (by simp [hh1, hh0, hh]) .EOF rfl]
    exact ⟨_, rfl, by simp [Err]⟩
  · rw [Scan_stop (f + 1) s hh .EOF he]
    exact ⟨_, rfl, by simp [Err, he]⟩

theorem Scan_toolong (fuel : Nat) : ∀ (s : Scanner), s.Inv → s.err = none →
    newline ∉ (s.held ++ s.r).take MaxScanTokenSize →
    MaxScanTokenSize ≤ (s.held ++ s.r).length → s.r.length < fuel →
    ∃ s' : Scanner, Scan fuel s = some (false, s') ∧ s'.Err = some .ErrTooLong := by
  induction fuel with
  | zero => intro s _ _ _ _ hf; omega
  | succ fuel ih =>
    intro s hinv he hnl hlen hf
    have hle : s.held.length ≤ MaxScanTokenSize := by
      have := hinv.end_le
      have := hinv.len_le
      omega
    have hmem : newline ∉ s.held := by
      intro h
      apply hnl
      rw [List.take_append_eq_append_take]
      apply List.mem_append_left
      rw [List.take_of_length_le hle]
      exact h
    obtain ⟨s0, e0, hh0, hr0, hs0, hb0, he0⟩ := trySplit_more s hmem he
    have hinv0 : s0.Inv := ⟨by rw [hs0, hh0, hb0]; exact hinv.end_le, by rw [hb0]; exact hinv.len_le⟩
    by_cases hfull : s.held.length < MaxScanTokenSize
    · obtain ⟨s1, e1, hh1, hr1, he1, hinv1, hroom1⟩ := refill s0 hinv0 he0 (by rw [hh0]; exact hfull)
      have hr1' : s1.r = s.r := by rw [hr1, hr0]
      have hh1' : s1.held = s.held := by rw [hh1, hh0]
      have hrne : s.r ≠ [] := by
        intro h
        simp [h] at hlen
        omega
      obtain ⟨e2, hn⟩ := fill_more s1 (by rw [hr1']; exact hrne) hroom1
      rw [Scan_more fuel s s0 s1 e0 he0 e1, e2]
      have hnle : min (s1.bufLen - s1.bufEnd) s1.r.length ≤ s1.bufLen - s1.bufEnd :=
        Nat.min_le_left _ _
      generalize min (s1.bufLen - s1.bufEnd) s1.r.length = n at hn hnle ⊢
      have hpos : 0 < s.r.length := List.length_pos.mpr hrne
      have hcat : (s1.held ++ s1.r.take n) ++ s1.r.drop n = s.held ++ s.r := by
        simp only [List.append_assoc, List.take_append_drop]; rw [hh1', hr1']
      exact ih { s1 with held := s1.held ++ s1.r.take n, r := s1.r.drop n }
        ⟨by unfold bufEnd at hnle; simp; have := hinv1.end_le; omega, hinv1.len_le⟩ he1
        (by show newline ∉ ((s1.held ++ s1.r.take n) ++ s1.r.drop n).take _; rw [hcat]; exact hnl)
        (by show _ ≤ ((s1.held ++ s1.r.take n) ++ s1.r.drop n).length; rw [hcat]; exact hlen)
        (by simp [hr1']; omega)
    · have hst : s0.start = 0 := by
        have := hinv.end_le
        have := hinv.len_le
        omega
      have hbl : s0.bufLen = MaxScanTokenSize := by
        have := hinv.end_le
        have := hinv.len_le
        omega
      have hsh : s0.shift = s0 := by simp [shift, hst]
      have hres : s0.resize = none := by
        have h1 : s0.bufEnd = s0.bufLen := by
          unfold bufEnd
          rw [hst, hh0, hbl]
          omega
        simp [resize, h1, hbl]
      refine ⟨s0.setErr .ErrTooLong, ?_, ?_⟩
      · simp [Scan, e0, he0, hsh, hres]
      · simp [setErr, he0, Err]

end Scanner

/-! ## The tokens of a write -/

theorem splitLines_rest (x : List Byte) (h : newline ∉ x) (hne : x ≠ []) :
    splitLines x = [x] := by
  induction x with
  | nil => exact absurd rfl hne
  | cons b bs ih =>
    have hb : b ≠ newline := fun e => h (by simp [e])
    have hbs : newline ∉ bs := fun e => h (by simp [e])
    by_cases hnil : bs = []
    · subst hnil
      simp [splitLines, hb]
    · simp [splitLines, hb, ih hbs hnil]

theorem splitLines_line (pre rest : List Byte) (h : newline ∉ pre) :
    splitLines (pre ++ newline :: rest) = (pre ++ [newline]) :: splitLines rest := by
  induction pre with
  | nil => simp [splitLines]
  | cons b bs ih =>
    have hb : b ≠ newline := fun e => h (by simp [e])
    have hbs : newline ∉ bs := fun e => h (by simp [e])
    simp [splitLines, hb, ih hbs]

theorem first_newline (p : List Byte) (h : newline ∈ p) :
    ∃ pre rest, p = pre ++ newline :: rest ∧ newline ∉ pre := by
  induction p with
  | nil => simp at h
  | cons b bs ih =>
    by_cases hb : b = newline
    · exact ⟨[], bs, by simp [hb], by simp⟩
    · have hbs : newline ∈ bs := by
        rcases List.mem_cons.mp h with e | e
        · exact absurd e.symm hb
        · exact e
      obtain ⟨pre, rest, e, hpre⟩ := ih hbs
      refine ⟨b :: pre, rest, by simp [e], ?_⟩
      intro hm
      rcases List.mem_cons.mp hm with e' | e'
      · exact hb e'.symm
      · exact hpre e'

theorem tokenFits_line (pre : List Byte) :
    tokenFits (pre ++ [newline]) = decide (pre.length + 1 ≤ MaxScanTokenSize) := by
  simp [tokenFits]

theorem getLast_ne_of_not_mem (x : List Byte) (h : newline ∉ x) :
    x.getLast? ≠ some newline := by
  intro e
  exact h (List.mem_of_getLast?_eq_some e)

theorem tokenFits_rest (x : List Byte) (h : newline ∉ x) :
    tokenFits x = decide (x.length < MaxScanTokenSize) := by
  simp [tokenFits, getLast_ne_of_not_mem x h]

theorem scan_line_fits (pre rest : List Byte) (h : newline ∉ pre)
    (hfit : pre.length + 1 ≤ MaxScanTokenSize) :
    scanTokens (pre ++ newline :: rest) = (pre ++ [newline]) :: scanTokens rest ∧
    scanErr (pre ++ newline :: rest) = scanErr rest := by
  simp [scanTokens, scanErr, splitLines_line pre rest h, tokenFits_line, hfit,
    List.takeWhile_cons]

theorem scan_line_long (pre rest : List Byte) (h : newline ∉ pre)
    (hfit : ¬ (pre.length + 1 ≤ MaxScanTokenSize)) :
    scanTokens (pre ++ newline :: rest) = [] ∧
    scanErr (pre ++ newline :: rest) = some .ErrTooLong := by
  simp [scanTokens, scanErr, splitLines_line pre rest h, tokenFits_line, hfit,
    List.takeWhile_cons]

theorem scan_rest_fits (x : List Byte) (h : newline ∉ x) (hne : x ≠ [])
    (hfit : x.length < MaxScanTokenSize) :
    scanTokens x = [x] ∧ scanErr x = none := by
  simp [scanTokens, scanErr, splitLines_rest x h hne, tokenFits_rest x h, hfit,
    List.takeWhile_cons]

theorem scan_rest_long (x : List Byte) (h : newline ∉ x) (hne : x ≠ [])
    (hfit : ¬ (x.length < MaxScanTokenSize)) :
    scanTokens x = [] ∧ scanErr x = some .ErrTooLong := by
  simp [scanTokens, scanErr, splitLines_rest x h hne, tokenFits_rest x h, hfit,
    List.takeWhile_cons]

theorem scan_nil : scanTokens [] = [] ∧ scanErr [] = none := by
  simp [scanTokens, scanErr, splitLines]

namespace LineIndexedPipe

variable {σ τ : Type} [ReadWriteSeeker σ] [ReadWriteSeeker τ]

theorem writeLoop_token (sf fuel : Nat) (l : LineIndexedPipe σ τ) (sc s' : Scanner) (n : Int)
    (tok : List Byte) (h : sc.Scan sf = some (true, s')) (ht : s'.token = some tok) :
    writeLoop sf (fuel + 1) l sc n
      = (writeToken l tok n).bind fun (l, n, err) =>
          if err ≠ none then .ret (l, n, err) else writeLoop sf fuel l s' n := by
  simp [writeLoop, h, Scanner.Bytes, ht]

theorem writeLoop_stop (sf fuel : Nat) (l : LineIndexedPipe σ τ) (sc s' : Scanner) (n : Int)
    (h : sc.Scan sf = some (false, s')) :
    writeLoop sf (fuel + 1) l sc n = .ret (l, n, s'.Err) := by
  simp [writeLoop, h]

/-- The loop of `Write` never exhausts its bounds: it is the fold of the loop body over the
tokens the scanner delivers. -/
theorem writeLoop_eq (sf : Nat) (fuel : Nat) : ∀ (l : LineIndexedPipe σ τ) (sc : Scanner)
    (n : Int), sc.Inv → sc.err = none → sc.r.length + 2 ≤ sf →
    (sc.held ++ sc.r).length < fuel →
    writeLoop sf fuel l sc n
      = writeTokens (scanTokens (sc.held ++ sc.r)) (scanErr (sc.held ++ sc.r)) l n := by
  induction fuel with
  | zero => intro l sc n _ _ _ hf; omega
  | succ fuel ih =>
    intro l sc n hinv he hsf hf
    by_cases hmem : newline ∈ sc.held ++ sc.r
    · obtain ⟨pre, rest, heq, hpre⟩ := first_newline _ hmem
      by_cases hfit : pre.length + 1 ≤ MaxScanTokenSize
      · obtain ⟨s', es, ht, hrest, hinv', he', hl'⟩ :=
          Scanner.Scan_line sf sc pre rest hinv he heq hpre hfit (by omega)
        obtain ⟨e1, e2⟩ := scan_line_fits pre rest hpre hfit
        rw [writeLoop_token sf fuel l sc s' n _ es ht, heq, e1, e2, writeTokens]
        congr 1
        funext x
        obtain ⟨l1, n1, err1⟩ := x
        by_cases herr : err1 = none
        · have hlen : (s'.held ++ s'.r).length < fuel := by
            rw [hrest]
            rw [heq] at hf
            simp at hf
            omega
          simp only [herr, ne_eq, not_true_eq_false, if_false]
          rw [ih l1 s' n1 hinv' he' (by omega) hlen, hrest]
        · simp [herr]
      · obtain ⟨e1, e2⟩ := scan_line_long pre rest hpre hfit
        have hnl : newline ∉ (sc.held ++ sc.r).take MaxScanTokenSize := by
          rw [heq, List.take_append_of_le_length (by omega)]
          exact fun h => hpre (List.mem_of_mem_take h)
        obtain ⟨s', es, herr⟩ := Scanner.Scan_toolong sf sc hinv he hnl
          (by rw [heq]; simp; omega) (by omega)
        rw [writeLoop_stop sf fuel l sc s' n es, herr, heq, e1, e2, writeTokens]
    · by_cases hne : sc.held ++ sc.r = []
      · have hh : sc.held = [] := (List.append_eq_nil.mp hne).1
        have hr : sc.r = [] := (List.append_eq_nil.mp hne).2
        obtain ⟨s', es, herr⟩ := Scanner.Scan_done sf sc hinv hh hr (Or.inl he) (by omega)
        rw [writeLoop_stop sf fuel l sc s' n es, herr, hne, scan_nil.1, scan_nil.2, writeTokens]
      · by_cases hfit : (sc.held ++ sc.r).length < MaxScanTokenSize
        · obtain ⟨s', es, ht, hh', hr', he', hinv'⟩ :=
            Scanner.Scan_rest sf sc hinv he hmem hne hfit (by omega)
          obtain ⟨e1, e2⟩ := scan_rest_fits _ hmem hne hfit
          rw [writeLoop_token sf fuel l sc s' n _ es ht, e1, e2, writeTokens]
          congr 1
          funext x
          obtain ⟨l1, n1, err1⟩ := x
          by_cases herr : err1 = none
          · obtain ⟨f, rfl⟩ : ∃ f, fuel = f + 1 := by
              have : 0 < (sc.held ++ sc.r).length := List.length_pos.mpr hne
              exact ⟨fuel - 1, by omega⟩
            obtain ⟨s'', es', herr'⟩ := Scanner.Scan_done sf s' hinv' hh' hr' (Or.inr he')
              (by omega)
            simp only [herr, ne_eq, not_true_eq_false, if_false]
            rw [writeLoop_stop sf f l1 s' s'' n1 es', herr', writeTokens]
          · simp [herr]
        · obtain ⟨e1, e2⟩ := scan_rest_long _ hmem hne hfit
          obtain ⟨s', es, herr⟩ := Scanner.Scan_toolong sf sc hinv he
            (fun h => hmem (List.mem_of_mem_take h)) (by omega) (by omega)
          rw [writeLoop_stop sf fuel l sc s' n es, herr, e1, e2, writeTokens]

theorem NewScanner_inv (p : List Byte) : (Scanner.NewScanner p).Inv :=
  ⟨by simp [Scanner.NewScanner], by simp [Scanner.NewScanner]⟩

theorem writeLocked_eq (l : LineIndexedPipe σ τ) (p : List Byte) :
    writeLocked l p =
      if l.pipe.rerr ≠ none then .ret (l, 0, l.pipe.rerr)
      else if l.pipe.werr ≠ none then .ret (l, 0, some .ErrClosedPipe)
      else
        (ReadWriteSeeker.Seek l.pipe.data l.pipe.size SEEK_SET).bind fun (data, _, err) =>
          if err ≠ none then .ret ({ l with pipe := { l.pipe with data := data } }, 0, err)
          else writeTokens (scanTokens p) (scanErr p)
            { l with pipe := { l.pipe with data := data } } 0 := by
  unfold writeLocked
  split_ifs with h1 h2
  · rfl
  · rfl
  · simp only [Outcome.bind_eq, Outcome.pure_eq]
    congr 1
    funext x
    obtain ⟨data, pos, err⟩ := x
    by_cases herr : err = none
    · simp only [herr, ne_eq, not_true_eq_false, if_false]
      exact writeLoop_eq (p.length + 2) (p.length + 1) _ (Scanner.NewScanner p) 0
        (NewScanner_inv p) rfl (by simp [Scanner.NewScanner])
        (by simp [Scanner.NewScanner])
    · simp [herr]

end LineIndexedPipe

/-! ## The line-indexed pipe over the mock stores -/

namespace LineIndexedPipe

open Mock

theorem binaryWrite_good (s : ReadWriteSeekable) (v : Int) (h : s.Good)
    (hend : s.off = (s.blen : Int)) (hfit : (s.blen : Int) + 8 < 9223372036854775808) :
    ∃ s' : ReadWriteSeekable, binaryWrite s v = .ret (s', none) ∧ s'.Good ∧
      s'.Bytes = s.Bytes ++ putInt64LE v ∧ s'.buf ≠ none := by
  have hlen := s.length_Bytes h
  obtain ⟨s', e, hg, ho, hb, hn⟩ := ReadWriteSeekable.store_Write_good s (putInt64LE v) h
    (Or.inr (by rw [length_putInt64LE]; decide)) (by rw [length_putInt64LE, hend]; exact hfit)
  refine ⟨s', by simp [binaryWrite, e], hg, ?_, hn (Or.inr ?_)⟩
  · rw [hb, hend, Int.toNat_ofNat, List.take_of_length_le (by omega),
      List.drop_of_length_le (by omega), List.append_nil]
  · intro h0
    have := length_putInt64LE v
    rw [h0] at this
    simp at this

theorem writeIndex_good (l : LineIndexedPipe ReadWriteSeekable ReadWriteSeekable)
    (hd : l.pipe.data.Good) (hi : l.index.Good)
    (hfit : (l.index.Bytes.length : Int) + 8 < 9223372036854775808) :
    ∃ idx : ReadWriteSeekable,
      l.writeIndex = .ret ({ l with index := idx,
                                    pipe := { l.pipe with
                                      data := l.pipe.data.setOff l.pipe.data.blen },
                                    lastIndex := l.pipe.data.blen }, none) ∧
      idx.Good ∧ idx.Bytes = l.index.Bytes ++ putInt64LE l.lastIndex ∧ idx.buf ≠ none := by
  have hlen := l.index.length_Bytes hi
  have hg1 := l.index.setOff_good hi l.index.blen (by omega) (by simp)
  obtain ⟨idx, e, hg, hb, hn⟩ := binaryWrite_good (l.index.setOff l.index.blen) l.lastIndex hg1
    rfl (by simp; omega)
  refine ⟨idx, ?_, hg, hb, hn⟩
  simp [writeIndex, ReadWriteSeekable.Seek_end_good _ hi, e, Pipe.syncWriter_mock,
    ReadWriteSeekable.Seek_end_good _ hd]

end LineIndexedPipe

/-! ## Index records of appended bytes -/

theorem newlineOffsets_append (base : Nat) (a b : List Byte) :
    newlineOffsets base (a ++ b) = newlineOffsets base a ++ newlineOffsets (base + a.length) b := by
  induction a generalizing base with
  | nil => simp [newlineOffsets]
  | cons x xs ih =>
    by_cases hx : x = newline
    · simp [newlineOffsets, hx, ih, Nat.add_assoc, Nat.add_comm 1]
    · simp [newlineOffsets, hx, ih, Nat.add_assoc, Nat.add_comm 1]

theorem newlineOffsets_not_mem (base : Nat) (a : List Byte) (h : newline ∉ a) :
    newlineOffsets base a = [] := by
  induction a generalizing base with
  | nil => rfl
  | cons x xs ih =>
    have hx : x ≠ newline := fun e => h (by simp [e])
    have hxs : newline ∉ xs := fun e => h (by simp [e])
    simp [newlineOffsets, hx, ih _ hxs]

theorem newlineOffsets_line (base : Nat) (pre : List Byte) (h : newline ∉ pre) :
    newlineOffsets base (pre ++ [newline]) = [base + pre.length] := by
  rw [newlineOffsets_append, newlineOffsets_not_mem base pre h]
  simp [newlineOffsets]

theorem take_boundaries (L : Int) (xs ys : List Int) :
    (L :: (xs ++ ys)).take (xs.length + ys.length)
      = (L :: xs).take xs.length ++ ((L :: xs).getLastD L :: ys).take ys.length := by
  induction xs generalizing L with
  | nil => simp
  | cons x xs ih =>
    have := ih x
    simp only [List.cons_append, List.length_cons, List.take_succ_cons] at this ⊢
    rw [Nat.add_right_comm, List.take_succ_cons, this]
    rfl

theorem getLastD_boundaries (L : Int) (xs ys : List Int) :
    (L :: (xs ++ ys)).getLastD L = (((L :: xs).getLastD L) :: ys).getLastD ((L :: xs).getLastD L) := by
  induction xs generalizing L with
  | nil => simp
  | cons x xs ih =>
    have := ih x
    simp only [List.cons_append, List.getLastD_cons] at this ⊢
    exact this

theorem recordsFor_append (L : Int) (base : Nat) (a b : List Byte) :
    recordsFor L base (a ++ b)
      = recordsFor L base a ++ recordsFor (boundaryAfter L base a) (base + a.length) b := by
  simp only [recordsFor, boundaries, boundaryAfter, newlineOffsets_append, List.map_append,
    List.length_append]
  have := take_boundaries L ((newlineOffsets base a).map fun (o : Nat) => (o : Int) + 1)
    ((newlineOffsets (base + a.length) b).map fun (o : Nat) => (o : Int) + 1)
  simpa using this

theorem boundaryAfter_append (L : Int) (base : Nat) (a b : List Byte) :
    boundaryAfter L base (a ++ b)
      = boundaryAfter (boundaryAfter L base a) (base + a.length) b := by
  simp only [boundaries, boundaryAfter, newlineOffsets_append, List.map_append]
  exact getLastD_boundaries L _ _

theorem encodeRecords_append (xs ys : List Int) :
    encodeRecords (xs ++ ys) = encodeRecords xs ++ encodeRecords ys := by
  induction xs with
  | nil => rfl
  | cons x xs ih => simp [encodeRecords, ih]

theorem records_line (L : Int) (base : Nat) (pre : List Byte) (h : newline ∉ pre) :
    recordsFor L base (pre ++ [newline]) = [L] ∧
    boundaryAfter L base (pre ++ [newline]) = ((base + (pre ++ [newline]).length : Nat) : Int) := by
  simp [recordsFor, boundaryAfter, boundaries, newlineOffsets_line base pre h]
  omega

theorem records_rest (L : Int) (base : Nat) (x : List Byte) (h : newline ∉ x) :
    recordsFor L base x = [] ∧ boundaryAfter L base x = L := by
  simp [recordsFor, boundaryAfter, boundaries, newlineOffsets_not_mem base x h]

namespace LineIndexedPipe

open Mock

theorem Wrote.refl (l : LineIndexedPipe ReadWriteSeekable ReadWriteSeekable)
    (hd : l.pipe.data.Good) (hi : l.index.Good) : Wrote l l [] :=
  ⟨hd, hi, by simp, by simp [recordsFor, boundaries, newlineOffsets, encodeRecords],
    by simp [boundaryAfter, boundaries, newlineOffsets], by simp, rfl, rfl, rfl,
    fun h => h.elim id (fun h => absurd rfl h)⟩

theorem Wrote.trans {l l1 l2 : LineIndexedPipe ReadWriteSeekable ReadWriteSeekable}
    {a b : List Byte} (h1 : Wrote l l1 a) (h2 : Wrote l1 l2 b) : Wrote l l2 (a ++ b) := by
  have hlen : l1.pipe.data.Bytes.length = l.pipe.data.Bytes.length + a.length := by
    rw [h1.data_bytes, List.length_append]
  refine ⟨h2.data_good, h2.index_good, ?_, ?_, ?_, ?_, ?_, ?_, ?_, ?_⟩
  · rw [h2.data_bytes, h1.data_bytes, List.append_assoc]
  · rw [h2.index_bytes, h1.index_bytes, recordsFor_append, encodeRecords_append,
      List.append_assoc, h1.last, hlen]
  · rw [h2.last, h1.last, hlen, boundaryAfter_append]
  · rw [h2.size, h1.size, List.length_append]; push_cast; ring
  · rw [h2.readIndex, h1.readIndex]
  · rw [h2.rerr, h1.rerr]
  · rw [h2.werr, h1.werr]
  · intro h
    apply h2.data_buf
    rcases h with h | h
    · exact Or.inl (h1.data_buf (Or.inl h))
    · by_cases ha : a = []
      · subst ha
        exact Or.inr (by simpa using h)
      · exact Or.inl (h1.data_buf (Or.inr ha))

theorem writeToken_wrote (l : LineIndexedPipe ReadWriteSeekable ReadWriteSeekable)
    (t : List Byte) (n : Int) (hl : l.Ready) (hne : t ≠ [])
    (htok : (∃ pre, t = pre ++ [newline] ∧ newline ∉ pre) ∨ newline ∉ t)
    (hroom : l.pipe.data.Room t.length)
    (hD : (l.pipe.data.Bytes.length : Int) + t.length < 9223372036854775808)
    (hI : (l.index.Bytes.length : Int) + 8 < 9223372036854775808)
    (hn0 : 0 ≤ n) (hn : n + t.length < 9223372036854775808)
    (hs0 : 0 ≤ l.pipe.size) (hs : l.pipe.size + t.length < 9223372036854775808) :
    ∃ l' : LineIndexedPipe ReadWriteSeekable ReadWriteSeekable,
      l.writeToken t n = .ret (l', n + t.length, none) ∧ Wrote l l' t ∧
      (t.getLast? = some newline → l'.Ready) := by
  obtain ⟨hd, hi, hend⟩ := hl
  have hlen := l.pipe.data.length_Bytes hd
  obtain ⟨s', e, hg', ho, hb, hbuf⟩ := ReadWriteSeekable.store_Write_good l.pipe.data t hd hroom
    (by rw [hend, ← hlen]; exact hD)
  have hb' : s'.Bytes = l.pipe.data.Bytes ++ t := by
    rw [hb, hend, Int.toNat_ofNat, List.take_of_length_le (by omega),
      List.drop_of_length_le (by omega), List.append_nil]
  have hlen' := s'.length_Bytes hg'
  have hwn : wrap64 (n + (t.length : Int)) = n + t.length := wrap64_of_range (by omega) hn
  have hws : wrap64 (l.pipe.size + (t.length : Int)) = l.pipe.size + t.length :=
    wrap64_of_range (by omega) hs
  have hbuf' : s'.buf ≠ none := hbuf (Or.inr hne)
  rcases htok with ⟨pre, rfl, hpre⟩ | hfrag
  · -- a terminated line: the index gets a record
    obtain ⟨idx, ei, hgi, hbi, hni⟩ := writeIndex_good
      { l with pipe := { l.pipe with data := s' } } hg' hi hI
    have hlast : (pre ++ [newline]).getLast? = some newline := by simp
    obtain ⟨r1, r2⟩ := records_line l.lastIndex l.pipe.data.Bytes.length pre hpre
    refine ⟨{ l with index := idx,
                     pipe := { l.pipe with data := s'.setOff s'.blen,
                                           size := l.pipe.size + (pre ++ [newline]).length },
                     lastIndex := s'.blen }, ?_, ?_, ?_⟩
    · simp only [writeToken, e, Outcome.bind_ret, hlast]
      simp [ei]
      exact ⟨by simpa using hws, by simpa using hwn⟩
    · refine ⟨s'.setOff_good hg' _ (by omega) (by simp), hgi, hb', ?_, ?_, rfl, rfl, rfl, rfl,
        fun _ => hbuf'⟩
      · rw [hbi, r1]; simp [encodeRecords]
      · rw [r2, ← hlen', hb', List.length_append]
    · intro _
      exact ⟨s'.setOff_good hg' _ (by omega) (by simp), hgi, rfl⟩
  · -- an unterminated rest: no record
    obtain ⟨c, hc⟩ : ∃ c, t.getLast? = some c := by
      cases h : t.getLast? with
      | none => exact absurd (List.getLast?_eq_none_iff.mp h) hne
      | some c => exact ⟨c, rfl⟩
    have hcn : c ≠ newline := fun e => getLast_ne_of_not_mem t hfrag (e ▸ hc)
    obtain ⟨r1, r2⟩ := records_rest l.lastIndex l.pipe.data.Bytes.length t hfrag
    refine ⟨{ l with pipe := { l.pipe with data := s', size := l.pipe.size + t.length } },
      ?_, ?_, ?_⟩
    · simp only [writeToken, e, Outcome.bind_ret, hc]
      simp [hcn, hwn, hws]
    · exact ⟨hg', hi, hb', by rw [r1]; simp [encodeRecords], by rw [r2], rfl, rfl, rfl, rfl,
        fun _ => hbuf'⟩
    · intro h
      exact absurd (Option.some.inj (hc.symm.trans h)) hcn

end LineIndexedPipe

namespace LineIndexedPipe

open Mock

theorem writeTokens_wrote (k : Nat) : ∀ (rem : List Byte)
    (l : LineIndexedPipe ReadWriteSeekable ReadWriteSeekable) (n : Int), rem.length ≤ k →
    l.Ready → (l.pipe.data.buf ≠ none ∨ ∀ t ∈ (scanTokens rem).head?, t.length ≤ 64) →
    (l.pipe.data.Bytes.length : Int) + rem.length < 9223372036854775808 →
    (l.index.Bytes.length : Int) + 8 * rem.length < 9223372036854775808 →
    0 ≤ n → n + rem.length < 9223372036854775808 →
    0 ≤ l.pipe.size → l.pipe.size + rem.length < 9223372036854775808 →
    ∃ l' : LineIndexedPipe ReadWriteSeekable ReadWriteSeekable,
      writeTokens (scanTokens rem) (scanErr rem) l n
        = .ret (l', n + (scanned rem).length, scanErr rem) ∧
      Wrote l l' (scanned rem) ∧ (scanned rem).length ≤ rem.length := by
  induction k with
  | zero =>
    intro rem l n hk hl _ _ _ _ _ _ _
    have hrem : rem = [] := List.length_eq_zero.mp (by omega)
    subst hrem
    refine ⟨l, ?_, ?_, ?_⟩
    · simp [scan_nil.1, scan_nil.2, scanned, writeTokens]
    · simpa [scanned, scan_nil.1] using Wrote.refl l hl.data_good hl.index_good
    · simp [scanned, scan_nil.1]
  | succ k ih =>
    intro rem l n hk hl hroom hD hI hn0 hn hs0 hs
    have stop : scanTokens rem = [] →
        ∃ l' : LineIndexedPipe ReadWriteSeekable ReadWriteSeekable,
          writeTokens (scanTokens rem) (scanErr rem) l n
            = .ret (l', n + (scanned rem).length, scanErr rem) ∧
          Wrote l l' (scanned rem) ∧ (scanned rem).length ≤ rem.length := by
      intro e1
      refine ⟨l, ?_, ?_, ?_⟩
      · simp [e1, scanned, writeTokens]
      · simpa [scanned, e1] using Wrote.refl l hl.data_good hl.index_good
      · simp [scanned, e1]
    by_cases hmem : newline ∈ rem
    · obtain ⟨pre, rest, heq, hpre⟩ := first_newline _ hmem
      by_cases hfit : pre.length + 1 ≤ MaxScanTokenSize
      · obtain ⟨e1, e2⟩ := scan_line_fits pre rest hpre hfit
        subst heq
        have hpos : (pre ++ [newline]).length = pre.length + 1 := by simp
        have hlenrem : (pre ++ newline :: rest).length
            = (pre ++ [newline]).length + rest.length := by
          simp; omega
        have hsc : scanned (pre ++ newline :: rest) = (pre ++ [newline]) ++ scanned rest := by
          rw [scanned, e1]; simp [scanned]
        have hr1 : l.pipe.data.Room (pre ++ [newline]).length := by
          rcases hroom with h | h
          · exact Or.inl h
          · exact Or.inr (h _ (by rw [e1]; simp))
        obtain ⟨l1, et, hw1, hready⟩ := writeToken_wrote l (pre ++ [newline]) n hl (by simp)
          (Or.inl ⟨pre, rfl, hpre⟩) hr1 (by omega) (by omega) hn0 (by omega) hs0 (by omega)
        have hD1 : l1.pipe.data.Bytes.length
            = l.pipe.data.Bytes.length + (pre ++ [newline]).length := by
          rw [hw1.data_bytes, List.length_append]
        have hI1 : l1.index.Bytes.length = l.index.Bytes.length + 8 := by
          rw [hw1.index_bytes, (records_line _ _ pre hpre).1]
          simp [encodeRecords, length_putInt64LE]
        obtain ⟨l2, e3, hw2, hle⟩ := ih rest l1 (n + (pre ++ [newline]).length)
          (by omega) (hready (by simp))
          (Or.inl (hw1.data_buf (Or.inr (by simp))))
          (by rw [hD1]; push_cast; omega) (by rw [hI1]; push_cast; omega)
          (by omega) (by omega) (by rw [hw1.size]; omega) (by rw [hw1.size]; omega)
        refine ⟨l2, ?_, ?_, ?_⟩
        · rw [e1, e2, writeTokens, et]
          simp only [Outcome.bind_ret, ne_eq, not_true_eq_false, if_false]
          have hh : n + ((pre ++ [newline]).length : Int) + ((scanned rest).length : Int)
              = n + (((pre ++ [newline]) ++ scanned rest).length : Int) := by
            rw [List.length_append (pre ++ [newline])]
            push_cast
            omega
          rw [e3, hsc, hh]
        · rw [hsc]; exact hw1.trans hw2
        · rw [hsc, List.length_append, hlenrem]; omega
      · exact stop (scan_line_long pre rest hpre hfit |>.1 |> fun h => by rw [heq]; exact h)
    · by_cases hne : rem = []
      · exact stop (by rw [hne]; exact scan_nil.1)
      · by_cases hfit : rem.length < MaxScanTokenSize
        · obtain ⟨e1, e2⟩ := scan_rest_fits rem hmem hne hfit
          have hsc : scanned rem = rem := by rw [scanned, e1]; simp
          have hr1 : l.pipe.data.Room rem.length := by
            rcases hroom with h | h
            · exact Or.inl h
            · exact Or.inr (h _ (by rw [e1]; simp))
          obtain ⟨l1, et, hw1, -⟩ := writeToken_wrote l rem n hl hne (Or.inr hmem) hr1 hD
            (by have : 0 < rem.length := List.length_pos.mpr hne; omega) hn0 hn hs0 hs
          refine ⟨l1, ?_, by rw [hsc]; exact hw1, by rw [hsc]⟩
          rw [e1, e2, writeTokens, et]
          simp [writeTokens, hsc]
        · exact stop (scan_rest_long rem hmem hne hfit).1

end LineIndexedPipe

theorem scanErr_eq_none (p : List Byte) : scanErr p = none ↔ LinesFit p := by
  simp [scanErr, LinesFit]

theorem scanTokens_of_fits (p : List Byte) (h : LinesFit p) : scanTokens p = splitLines p := by
  unfold scanTokens
  exact List.takeWhile_eq_self_iff.mpr h

theorem flatten_splitLines (p : List Byte) : (splitLines p).flatten = p := by
  induction p with
  | nil => rfl
  | cons b bs ih =>
    by_cases hb : b = newline
    · simp [splitLines, hb, ih]
    · rw [splitLines]
      simp only [hb, if_false]
      cases hs : splitLines bs with
      | nil =>
        rw [hs] at ih
        simp at ih
        simp [← ih]
      | cons t ts =>
        rw [hs] at ih
        simp at ih
        simp [← ih]

theorem scanned_of_fits (p : List Byte) (h : LinesFit p) : scanned p = p := by
  rw [scanned, scanTokens_of_fits p h, flatten_splitLines]

namespace LineIndexedPipe

open Mock

/-- `Write` on an open line-indexed pipe over mock stores: the tokens the scanner delivers
are appended and indexed, the count is their total length and the error is the scanner's. -/
theorem Write_wrote (l : LineIndexedPipe ReadWriteSeekable ReadWriteSeekable) (p : List Byte)
    (hok : l.Ok) (hopen : l.pipe.Open)
    (hroom : l.pipe.data.buf ≠ none ∨ ∀ t ∈ (scanTokens p).head?, t.length ≤ 64)
    (hD : (l.pipe.data.Bytes.length : Int) + p.length < 9223372036854775808)
    (hI : (l.index.Bytes.length : Int) + 8 * p.length < 9223372036854775808) :
    ∃ l' : LineIndexedPipe ReadWriteSeekable ReadWriteSeekable,
      Wrote l l' (scanned p) ∧
      l.Write p = .ret
        (if scanErr p = none then l' else { l' with pipe := { l'.pipe with werr := scanErr p } },
         (scanned p).length, scanErr p) := by
  obtain ⟨hd, hi, hs⟩ := hok
  obtain ⟨hr, hw⟩ := hopen
  have hlen := l.pipe.data.length_Bytes hd
  have hseek := ReadWriteSeekable.Seek_set_good l.pipe.data hd l.pipe.size (by omega) (by omega)
  have hready : ({ l with pipe := { l.pipe with data := l.pipe.data.setOff l.pipe.size } }
      : LineIndexedPipe ReadWriteSeekable ReadWriteSeekable).Ready :=
    ⟨l.pipe.data.setOff_good hd _ (by omega) (by omega), hi, by simp; omega⟩
  obtain ⟨l', e, hw', -⟩ := writeTokens_wrote p.length p
    { l with pipe := { l.pipe with data := l.pipe.data.setOff l.pipe.size } } 0 (le_refl _)
    hready hroom hD hI (le_refl _) (by omega) (by simp only; omega) (by simp only; omega)
  simp only [hr, hw, Int.zero_add] at e
  refine ⟨l', ?_, ?_⟩
  · exact ⟨hw'.data_good, hw'.index_good, hw'.data_bytes, hw'.index_bytes, hw'.last, hw'.size,
      hw'.readIndex, hw'.rerr, hw'.werr, hw'.data_buf⟩
  · simp only [Write, writeLocked_eq, hr, hw, hseek, Outcome.bind_eq, Outcome.bind_ret,
      ne_eq, not_true_eq_false, if_false, Outcome.pure_eq]
    rw [e]
    by_cases herr : scanErr p = none
    · simp [herr]
    · simp [herr]

end LineIndexedPipe

namespace LineIndexedPipe

open Mock

theorem emptyPipe_new : NewLineIndexedPipe zeroValue zeroValue = .ret emptyPipe := rfl

theorem emptyPipe_ok : emptyPipe.Ok :=
  ⟨zeroValue_good, zeroValue_good, rfl⟩

theorem longLine_length : longLine.length = 65537 := by
  unfold longLine
  rw [List.length_append, List.length_replicate]
  rfl

theorem longLine_scan : scanTokens longLine = [] ∧ scanErr longLine = some .ErrTooLong := by
  have h : newline ∉ List.replicate 65536 (97 : Byte) := by
    intro hm
    exact absurd (List.mem_replicate.mp hm).2 (by decide)
  exact scan_line_long (List.replicate 65536 97) [] h
    (by rw [List.length_replicate]; decide)

/-- C3 (counterexample): a line of 65536 bytes and its terminator written to a new
line-indexed pipe over empty stores is refused: `Write` returns `(0, bufio.ErrTooLong)`,
the data store stays empty and `DataSize()` stays 0. -/
theorem write_long_line_refused :
    ∃ l l' : LineIndexedPipe ReadWriteSeekable ReadWriteSeekable,
      NewLineIndexedPipe zeroValue zeroValue = .ret l ∧
      l.Write longLine = .ret (l', 0, some .ErrTooLong) ∧
      l'.pipe.data.Bytes = [] ∧ l'.pipe.DataSize = (0, none) := by
  obtain ⟨l', hw, e⟩ := Write_wrote emptyPipe longLine emptyPipe_ok ⟨rfl, rfl⟩
    (Or.inr (by rw [longLine_scan.1]; simp)) (by rw [longLine_length]; decide)
    (by rw [longLine_length]; decide)
  have hsc : scanned longLine = [] := by rw [scanned, longLine_scan.1]; rfl
  rw [longLine_scan.2, hsc] at e
  rw [hsc] at hw
  refine ⟨emptyPipe, _, emptyPipe_new, e, ?_, ?_⟩
  · simp only [reduceCtorEq, if_false]
    rw [hw.data_bytes]
    rfl
  · simp only [reduceCtorEq, if_false, Pipe.DataSize]
    rw [hw.size]
    rfl

theorem Write_fits (l : LineIndexedPipe ReadWriteSeekable ReadWriteSeekable) (p : List Byte)
    (hok : l.Ok) (hopen : l.pipe.Open) (hfit : LinesFit p)
    (hroom : l.pipe.data.buf ≠ none ∨ ∀ t ∈ (splitLines p).head?, t.length ≤ 64)
    (hD : (l.pipe.data.Bytes.length : Int) + p.length < 9223372036854775808)
    (hI : (l.index.Bytes.length : Int) + 8 * p.length < 9223372036854775808) :
    ∃ l' : LineIndexedPipe ReadWriteSeekable ReadWriteSeekable,
      l.Write p = .ret (l', p.length, none) ∧ Wrote l l' p := by
  have hsc := scanned_of_fits p hfit
  have herr := (scanErr_eq_none p).mpr hfit
  obtain ⟨l', hw, e⟩ := Write_wrote l p hok hopen
    (by rw [scanTokens_of_fits p hfit]; exact hroom) hD hI
  rw [hsc] at hw
  rw [hsc, herr] at e
  exact ⟨l', by simpa using e, hw⟩

/-- C3 (amended): for every byte sequence `p` whose lines fit the scanner's buffer (a
terminated line of at most 65536 bytes with its terminator, an unterminated last line of
fewer than 65536 bytes), `Write(p)` on an open line-indexed pipe over mock stores without
overrides returns `(len(p), nil)`, appends exactly the bytes of `p` to the data store and
increases `DataSize()` by `len(p)`. -/
theorem write_appends (l : LineIndexedPipe ReadWriteSeekable ReadWriteSeekable) (p : List Byte)
    (hok : l.Ok) (hopen : l.pipe.Open) (hfit : LinesFit p)
    (hroom : l.pipe.data.buf ≠ none ∨ ∀ t ∈ (splitLines p).head?, t.length ≤ 64)
    (hD : (l.pipe.data.Bytes.length : Int) + p.length < 9223372036854775808)
    (hI : (l.index.Bytes.length : Int) + 8 * p.length < 9223372036854775808) :
    ∃ l' : LineIndexedPipe ReadWriteSeekable ReadWriteSeekable,
      l.Write p = .ret (l', p.length, none) ∧
      l'.pipe.data.Bytes = l.pipe.data.Bytes ++ p ∧
      l'.pipe.DataSize = (l.pipe.DataSize.1 + p.length, none) ∧
      Wrote l l' p := by
  obtain ⟨l', e, hw⟩ := Write_fits l p hok hopen hfit hroom hD hI
  refine ⟨l', e, hw.data_bytes, ?_, hw⟩
  simp [Pipe.DataSize, hw.size]

/-- C3 (witness): `"\\nHello World\\n\\n"` written to the new pipe over two zero-value stores. -/
theorem write_appends_witness :
    ∃ l' : LineIndexedPipe ReadWriteSeekable ReadWriteSeekable,
      emptyPipe.Write helloWorld = .ret (l', helloWorld.length, none) ∧
      l'.pipe.data.Bytes = emptyPipe.pipe.data.Bytes ++ helloWorld ∧
      l'.pipe.DataSize = (emptyPipe.pipe.DataSize.1 + helloWorld.length, none) ∧
      Wrote emptyPipe l' helloWorld :=
  write_appends emptyPipe helloWorld emptyPipe_ok ⟨rfl, rfl⟩ (by decide)
    (Or.inr (by decide)) (by decide) (by decide)

end LineIndexedPipe

/-! ## The index after a sequence of writes -/

theorem length_newlineOffsets (base : Nat) (c : List Byte) :
    (newlineOffsets base c).length = c.count newline := by
  induction c generalizing base with
  | nil => rfl
  | cons b bs ih =>
    by_cases hb : b = newline
    · simp [newlineOffsets, hb, ih]
    · simp [newlineOffsets, hb, ih, List.count_cons_of_ne (Ne.symm hb)]

theorem newlineOffsets_bound (base : Nat) (c : List Byte) :
    ∀ o ∈ newlineOffsets base c, base ≤ o ∧ o < base + c.length := by
  induction c generalizing base with
  | nil => simp [newlineOffsets]
  | cons b bs ih =>
    intro o ho
    by_cases hb : b = newline
    · simp only [newlineOffsets, hb, if_true, List.mem_cons] at ho
      rcases ho with rfl | ho
      · simp
      · have := ih (base + 1) o ho
        simp
        omega
    · simp only [newlineOffsets, hb, if_false] at ho
      have := ih (base + 1) o ho
      simp
      omega

theorem length_encodeRecords (rs : List Int) : (encodeRecords rs).length = 8 * rs.length := by
  induction rs with
  | nil => rfl
  | cons r rs ih => simp [encodeRecords, length_putInt64LE, ih]; omega

theorem indexRecord_encodeRecords (rs : List Int)
    (hr : ∀ r ∈ rs, -9223372036854775808 ≤ r ∧ r < 9223372036854775808) :
    ∀ (i : Nat) (h : i < rs.length), indexRecord (encodeRecords rs) i = rs[i] := by
  induction rs with
  | nil => intro i h; simp at h
  | cons r rs ih =>
    intro i h
    cases i with
    | zero =>
      have hr0 := hr r (by simp)
      simp only [indexRecord, encodeRecords, Nat.mul_zero, List.drop_zero, List.getElem_cons_zero]
      rw [List.take_append_of_le_length (by rw [length_putInt64LE]),
        List.take_of_length_le (by rw [length_putInt64LE]), getInt64LE_putInt64LE r hr0.1 hr0.2]
    | succ i =>
      have := ih (fun r hr' => hr r (List.mem_cons_of_mem _ hr')) i (by simpa using h)
      simp only [indexRecord, encodeRecords, List.getElem_cons_succ] at this ⊢
      rw [← this]
      congr 2

theorem length_lineStarts (c : List Byte) : (lineStarts c).length = c.count newline := by
  simp [lineStarts, recordsFor, boundaries, length_newlineOffsets]

theorem lineStarts_getElem (c : List Byte) (i : Nat) (h : i < (lineStarts c).length) :
    (lineStarts c)[i]
      = if i = 0 then 0 else (((newlineOffsets 0 c)[i - 1]?.getD 0 : Nat) : Int) + 1 := by
  have hlen : i < (newlineOffsets 0 c).length := by
    simpa [lineStarts, recordsFor, boundaries] using h
  simp only [lineStarts, recordsFor, boundaries, List.getElem_take]
  cases i with
  | zero => simp
  | succ j =>
    have hj : j < (newlineOffsets 0 c).length := by omega
    simp [List.getElem?_eq_getElem hj]

theorem lineStarts_range (c : List Byte) (hc : (c.length : Int) < 9223372036854775808) :
    ∀ r ∈ lineStarts c, -9223372036854775808 ≤ r ∧ r < 9223372036854775808 := by
  intro r hr
  have hr' := List.mem_of_mem_take hr
  simp only [boundaries, List.mem_cons, List.mem_map] at hr'
  rcases hr' with rfl | ⟨o, ho, rfl⟩
  · omega
  · have := newlineOffsets_bound 0 c o ho
    omega

namespace LineIndexedPipe

open Mock

theorem Wrote.ok {l l' : LineIndexedPipe ReadWriteSeekable ReadWriteSeekable} {bytes : List Byte}
    (h : Wrote l l' bytes) (hok : l.Ok) (hopen : l.pipe.Open) : l'.Ok ∧ l'.pipe.Open := by
  refine ⟨⟨h.data_good, h.index_good, ?_⟩, ⟨by rw [h.rerr]; exact hopen.1, by rw [h.werr]; exact hopen.2⟩⟩
  rw [h.size, h.data_bytes, hok.size_eq, List.length_append]
  push_cast
  rfl

theorem writeAll_wrote (ps : List (List Byte)) :
    ∀ (l : LineIndexedPipe ReadWriteSeekable ReadWriteSeekable), l.Ok → l.pipe.Open →
    (∀ p ∈ ps, LinesFit p) →
    (l.pipe.data.buf ≠ none ∨ ∀ p ∈ ps, ∀ t ∈ (splitLines p).head?, t.length ≤ 64) →
    (l.pipe.data.Bytes.length : Int) + ps.flatten.length < 9223372036854775808 →
    (l.index.Bytes.length : Int) + 8 * ps.flatten.length < 9223372036854775808 →
    ∃ l' : LineIndexedPipe ReadWriteSeekable ReadWriteSeekable,
      l.writeAll ps = .ret (l', ps.map fun p => ((p.length : Int), none)) ∧
      Wrote l l' ps.flatten := by
  induction ps with
  | nil =>
    intro l hok _ _ _ _ _
    exact ⟨l, rfl, by simpa using Wrote.refl l hok.data_good hok.index_good⟩
  | cons p ps ih =>
    intro l hok hopen hfit hroom hD hI
    simp only [List.flatten_cons, List.length_append] at hD hI ⊢
    push_cast at hD hI
    obtain ⟨l1, e1, hw1⟩ := Write_fits l p hok hopen (hfit p (by simp))
      (hroom.imp id fun h => h p (by simp)) (by omega) (by omega)
    obtain ⟨hok1, hopen1⟩ := hw1.ok hok hopen
    have hD1 : l1.pipe.data.Bytes.length = l.pipe.data.Bytes.length + p.length := by
      rw [hw1.data_bytes, List.length_append]
    have hI1 : l1.index.Bytes.length ≤ l.index.Bytes.length + 8 * p.length := by
      rw [hw1.index_bytes, List.length_append, length_encodeRecords]
      have : (recordsFor l.lastIndex l.pipe.data.Bytes.length p).length ≤ p.length := by
        simp only [recordsFor, List.length_take, length_newlineOffsets]
        have := List.count_le_length newline p
        omega
      omega
    have hroom1 : l1.pipe.data.buf ≠ none ∨
        ∀ q ∈ ps, ∀ t ∈ (splitLines q).head?, t.length ≤ 64 := by
      rcases hroom with h | h
      · exact Or.inl (hw1.data_buf (Or.inl h))
      · exact Or.inr fun q hq => h q (List.mem_cons_of_mem _ hq)
    obtain ⟨l2, e2, hw2⟩ := ih l1 hok1 hopen1 (fun q hq => hfit q (List.mem_cons_of_mem _ hq))
      hroom1 (by rw [hD1]; push_cast; omega) (by omega)
    exact ⟨l2, by simp [writeAll, e1, e2], hw1.trans hw2⟩

end LineIndexedPipe

namespace LineIndexedPipe

open Mock

/-- C2: on a line-indexed pipe constructed over empty mock stores without overrides, the
writes `p1..pk` (each with lines that fit the scanner's buffer, which is when `Write`
succeeds) all return `(len(pi), nil)`; afterwards the data store holds `p1 ++ ... ++ pk`
and the index store holds exactly one 8-byte little-endian record per `'\n'` of it, in
order: record 0 is 0 and record `i > 0` is 1 + the offset of the `(i-1)`-th `'\n'`. -/
theorem index_holds_line_starts (data index : ReadWriteSeekable) (ps : List (List Byte))
    (hd : data.Good) (hi : index.Good) (hde : data.Bytes = []) (hie : index.Bytes = [])
    (hfit : ∀ p ∈ ps, LinesFit p)
    (hroom : data.buf ≠ none ∨ ∀ p ∈ ps, ∀ t ∈ (splitLines p).head?, t.length ≤ 64)
    (hlen : 8 * (ps.flatten.length : Int) < 9223372036854775808) :
    ∃ l0 l : LineIndexedPipe ReadWriteSeekable ReadWriteSeekable,
      NewLineIndexedPipe data index = .ret l0 ∧
      l0.writeAll ps = .ret (l, ps.map fun p => ((p.length : Int), none)) ∧
      l.pipe.data.Bytes = ps.flatten ∧
      l.index.Bytes = encodeRecords (lineStarts ps.flatten) ∧
      l.index.Bytes.length = 8 * ps.flatten.count newline ∧
      ∀ i, i < ps.flatten.count newline →
        indexRecord l.index.Bytes i
          = if i = 0 then 0
            else (((newlineOffsets 0 ps.flatten)[i - 1]?.getD 0 : Nat) : Int) + 1 := by
  obtain ⟨pipe, e, hok, hopen, hri, hbytes, hbuf⟩ := Pipe.NewPipe_ok data hd
  have hD0 : pipe.data.Bytes.length = 0 := by rw [hbytes, hde]; rfl
  have hI0 : index.Bytes.length = 0 := by rw [hie]; rfl
  obtain ⟨l, e2, hw⟩ := writeAll_wrote ps ⟨pipe, index, 0⟩ ⟨hok.good, hi, hok.size_eq⟩ hopen hfit
    (by rw [hbuf]; exact hroom) (by simp only [hD0]; omega) (by simp only [hI0]; omega)
  have hidx : l.index.Bytes = encodeRecords (lineStarts ps.flatten) := by
    rw [hw.index_bytes]
    simp only [hie, hD0, List.nil_append]
    rfl
  refine ⟨⟨pipe, index, 0⟩, l, by simp [NewLineIndexedPipe, e], e2, ?_, hidx, ?_, ?_⟩
  · rw [hw.data_bytes]
    simp only [hbytes, hde, List.nil_append]
  · rw [hidx, length_encodeRecords, length_lineStarts]
  · intro i hi'
    have hlt : i < (lineStarts ps.flatten).length := by rw [length_lineStarts]; exact hi'
    rw [hidx, indexRecord_encodeRecords _ (lineStarts_range _ (by omega)) i hlt,
      lineStarts_getElem _ i hlt]

/-- C2 (witness): writing `"\\nHello World\\n\\n"` yields the three records 0, 1, 13 (24
index bytes) and a data store of length 14. -/
theorem index_holds_line_starts_witness :
    (∃ l0 l : LineIndexedPipe ReadWriteSeekable ReadWriteSeekable,
      NewLineIndexedPipe zeroValue zeroValue = .ret l0 ∧
      l0.writeAll [helloWorld] = .ret (l, [helloWorld].map fun p => ((p.length : Int), none)) ∧
      l.pipe.data.Bytes = [helloWorld].flatten ∧
      l.index.Bytes = encodeRecords (lineStarts [helloWorld].flatten) ∧
      l.index.Bytes.length = 8 * [helloWorld].flatten.count newline ∧
      ∀ i, i < [helloWorld].flatten.count newline →
        indexRecord l.index.Bytes i
          = if i = 0 then 0
            else (((newlineOffsets 0 [helloWorld].flatten)[i - 1]?.getD 0 : Nat) : Int) + 1) ∧
    emptyPipe.writeAll [helloWorld] = .ret (helloPipe, [(14, none)]) ∧
    helloPipe.index.Bytes
      = [0, 0, 0, 0, 0, 0, 0, 0, 1, 0, 0, 0, 0, 0, 0, 0, 13, 0, 0, 0, 0, 0, 0, 0] ∧
    lineStarts helloWorld = [0, 1, 13] ∧
    helloPipe.pipe.data.Bytes.length = 14 :=
  ⟨index_holds_line_starts zeroValue zeroValue [helloWorld] zeroValue_good zeroValue_good rfl rfl
      (by decide) (Or.inr (by decide)) (by decide),
    rfl, rfl, rfl, rfl⟩

end LineIndexedPipe

/-! ## A write that fails at a token -/

theorem wrap64_idem (x : Int) : wrap64 (wrap64 x) = wrap64 x := by
  unfold wrap64
  omega

theorem wrap64_add_sub (a b : Int) : wrap64 (wrap64 (a + b) - b) = wrap64 a := by
  unfold wrap64
  omega

theorem wrap64_step (n s s0 wn : Int) (h : n = wrap64 (s - s0)) :
    wrap64 (n + wn) = wrap64 (wrap64 (s + wn) - s0) := by
  subst h
  unfold wrap64
  omega

namespace LineIndexedPipe

variable {σ τ : Type} [ReadWriteSeeker σ] [ReadWriteSeeker τ]

theorem IndexFails.writeIndex {l l' : LineIndexedPipe σ τ} {e : Error} (h : IndexFails l e l') :
    l.writeIndex = .ret (l', some e) ∧ l'.pipe.size = l.pipe.size ∧
      l'.pipe.readIndex = l.pipe.readIndex ∧ l'.pipe.rerr = l.pipe.rerr ∧
      l'.pipe.werr = l.pipe.werr := by
  cases h with
  | seek i1 pos e h1 => simp [LineIndexedPipe.writeIndex, h1]
  | write i1 i2 pos e h1 h2 => simp [LineIndexedPipe.writeIndex, h1, h2]
  | sync i1 i2 i3 pos e h1 h2 h3 => simp [LineIndexedPipe.writeIndex, h1, h2, h3]
  | dataSeek i1 i2 i3 d1 pos last e h1 h2 h3 h4 =>
    simp [LineIndexedPipe.writeIndex, h1, h2, h3, h4]

end LineIndexedPipe

theorem Outcome.bind_eq_ret {α β : Type} (x : Outcome α) (f : α → Outcome β) (b : β) :
    x.bind f = .ret b ↔ ∃ a, x = .ret a ∧ f a = .ret b := by
  cases x <;> simp [Outcome.bind]

namespace LineIndexedPipe

variable {σ τ : Type} [ReadWriteSeeker σ] [ReadWriteSeeker τ]

theorem writeIndex_size (l l' : LineIndexedPipe σ τ) (err : Option Error)
    (h : l.writeIndex = .ret (l', err)) : l'.pipe.size = l.pipe.size := by
  simp only [writeIndex, Outcome.bind_eq, Outcome.pure_eq, Outcome.bind_eq_ret] at h
  obtain ⟨⟨i1, pos, e1⟩, -, h⟩ := h
  dsimp only at h
  split_ifs at h with c1
  · simp only [Outcome.ret.injEq, Prod.mk.injEq] at h
    rw [← h.1]
  · simp only [Outcome.bind_eq_ret] at h
    obtain ⟨⟨i2, e2⟩, -, h⟩ := h
    dsimp only at h
    split_ifs at h with c2
    · simp only [Outcome.ret.injEq, Prod.mk.injEq] at h
      rw [← h.1]
    · simp only [Outcome.bind_eq_ret] at h
      obtain ⟨⟨i3, e3⟩, -, h⟩ := h
      dsimp only at h
      split_ifs at h with c3
      · simp only [Outcome.ret.injEq, Prod.mk.injEq] at h
        rw [← h.1]
      · simp only [Outcome.bind_eq_ret] at h
        obtain ⟨⟨d1, last, e4⟩, -, h⟩ := h
        simp only [Outcome.ret.injEq, Prod.mk.injEq] at h
        rw [← h.1]

theorem writeToken_ok (l l' : LineIndexedPipe σ τ) (t : List Byte) (n n' : Int)
    (h : l.writeToken t n = .ret (l', n', none)) :
    ∃ wn : Int, n' = wrap64 (n + wn) ∧ l'.pipe.size = wrap64 (l.pipe.size + wn) := by
  simp only [writeToken, Outcome.bind_eq_ret] at h
  obtain ⟨⟨d', wn, e1⟩, -, h⟩ := h
  dsimp only at h
  split_ifs at h with c1
  · simp at h
    exact absurd h.2.2 c1
  · cases hg : t.getLast? with
    | none => simp [hg] at h
    | some c =>
      simp only [hg, Outcome.bind_eq_ret] at h
      obtain ⟨⟨l2, e2⟩, hidx, h⟩ := h
      dsimp only at h
      split_ifs at h with c2
      · simp at h
        exact absurd h.2.2 c2
      · simp only [Outcome.ret.injEq, Prod.mk.injEq] at h
        refine ⟨wn, h.2.1.symm, ?_⟩
        rw [← h.1]
        have hs : l2.pipe.size = l.pipe.size := by
          split_ifs at hidx with c3
          · exact writeIndex_size _ _ _ hidx ▸ rfl
          · simp only [Outcome.ret.injEq, Prod.mk.injEq] at hidx
            rw [← hidx.1]
        simp [hs]

theorem writeTokens_done (toks : List (List Byte)) : ∀ (l l1 : LineIndexedPipe σ τ) (n n1 : Int),
    writeTokens toks none l n = .ret (l1, n1, none) →
    (∀ rest e, writeTokens (toks ++ rest) e l n = writeTokens rest e l1 n1) ∧
    (∀ s0 : Int, n = wrap64 (l.pipe.size - s0) → n1 = wrap64 (l1.pipe.size - s0)) := by
  induction toks with
  | nil =>
    intro l l1 n n1 h
    simp only [writeTokens, Outcome.ret.injEq, Prod.mk.injEq] at h
    obtain ⟨rfl, rfl, -⟩ := h
    exact ⟨fun rest e => rfl, fun s0 h => h⟩
  | cons t ts ih =>
    intro l l1 n n1 h
    simp only [writeTokens, Outcome.bind_eq_ret] at h
    obtain ⟨⟨l', n', err⟩, ht, h⟩ := h
    dsimp only at h
    split_ifs at h with c
    · simp at h
      exact absurd h.2.2 c
    · have herr : err = none := by simpa using c
      subst herr
      obtain ⟨h1, h2⟩ := ih l' l1 n' n1 h
      obtain ⟨wn, hn', hs'⟩ := writeToken_ok l l' t n n' ht
      refine ⟨fun rest e => ?_, fun s0 h0 => ?_⟩
      · simp only [List.cons_append, writeTokens, ht, Outcome.bind_ret]
        simpa using h1 rest e
      · apply h2 s0
        rw [hn', hs']
        exact wrap64_step n l.pipe.size s0 wn h0

end LineIndexedPipe

namespace LineIndexedPipe

open Mock

/-- C10 (failing input): with a data store whose `Write` takes one byte and then fails,
`Write("ab\\n")` on a new line-indexed pipe fails at its first token, the only token the
scanner delivers.  No token has been completed and `DataSize()` has not grown (it is 0
before and after), yet the call returns the count 1, not 0: `Write` adds the byte count
the failing data write reported (`n += wn`) before it tests the error and does not take it
back, as it does (`n = n - wn`) when the index step fails.  For comparison, the same
`Write` on the pipe of `TestWriteReadIndexedPipe` after `index.SeekFunc = unseekableFunc`:
the data write takes the 3 bytes, the index step fails at its seek, and the call returns
the count 0 with `DataSize()` still 14. -/
theorem failed_data_write_counted :
    (∃ l l' : LineIndexedPipe ReadWriteSeekable ReadWriteSeekable,
      NewLineIndexedPipe shortWriteStore zeroValue = .ret l ∧
      scanTokens [97, 98, 10] = [[97, 98, 10]] ∧
      l.Write [97, 98, 10] = .ret (l', 1, some .ErrUnexpectedEOF) ∧
      l.pipe.DataSize = (0, none) ∧ l'.pipe.DataSize = (0, none)) ∧
    (∃ l' : LineIndexedPipe ReadWriteSeekable ReadWriteSeekable,
      helloUnseekable.Write [97, 98, 10] = .ret (l', 0, some errUnseekable) ∧
      helloUnseekable.pipe.DataSize = (14, none) ∧ l'.pipe.DataSize = (14, none)) :=
  ⟨⟨_, _, rfl, by decide, rfl, rfl, rfl⟩, ⟨_, rfl, rfl, rfl⟩⟩

end LineIndexedPipe

namespace LineIndexedPipe

variable {σ τ : Type} [ReadWriteSeeker σ] [ReadWriteSeeker τ]

/-- The count a failing `Write` returns, as the code computes it.  Let `Write(p)` on an
open pipe get past its first seek, let the scanner deliver the tokens `toks₁`, then `t`,
and let the tokens `toks₁` be completed, with count `n1` and pipe `l1` after them.  Then `n1` is the amount by which `DataSize()` has grown (in
`int64` arithmetic), and:
* if the data write of `t` fails with `e`, reporting `wn` bytes, `Write` returns
  `(n1 + wn, e)` and `DataSize()` keeps the value it had after `toks₁`;
* if the data write of `t` succeeds and the index step fails with `e` (at the index seek,
  the index write, the index sync or the data seek inside the step), `Write` returns
  `(n1, e)`: the count excludes the failing token, and `DataSize()` keeps the value it had
  after `toks₁`.
In both cases the error is recorded as the write-side error. -/
theorem failing_token_count (l l1 : LineIndexedPipe σ τ) (p : List Byte)
    (toks₁ toks₂ : List (List Byte)) (t : List Byte) (d0 : σ) (pos n1 : Int)
    (hopen : l.pipe.Open)
    (hseek : ReadWriteSeeker.Seek l.pipe.data l.pipe.size SEEK_SET = .ret (d0, pos, none))
    (hsplit : scanTokens p = toks₁ ++ t :: toks₂)
    (hdone : writeTokens toks₁ none { l with pipe := { l.pipe with data := d0 } } 0
      = .ret (l1, n1, none)) :
    n1 = wrap64 (l1.pipe.size - l.pipe.size) ∧
    (∀ (d' : σ) (wn : Int) (e : Error),
      ReadWriteSeeker.Write l1.pipe.data t = .ret (d', wn, some e) →
      l.Write p = .ret ({ l1 with pipe := { l1.pipe with data := d', werr := some e } },
        wrap64 (n1 + wn), some e)) ∧
    (∀ (d' : σ) (wn : Int) (e : Error) (l2 : LineIndexedPipe σ τ),
      ReadWriteSeeker.Write l1.pipe.data t = .ret (d', wn, none) →
      t.getLast? = some newline →
      IndexFails { l1 with pipe := { l1.pipe with data := d' } } e l2 →
      l.Write p = .ret ({ l2 with pipe := { l2.pipe with werr := some e } }, n1, some e) ∧
      l2.pipe.size = l1.pipe.size) := by
  obtain ⟨hr, hw⟩ := hopen
  obtain ⟨h1, h2⟩ := writeTokens_done toks₁ _ l1 0 n1 hdone
  have hn1 : n1 = wrap64 (l1.pipe.size - l.pipe.size) := by
    apply h2 l.pipe.size
    simp only [sub_self]
    rfl
  have hW : ∀ r, writeTokens (t :: toks₂) (scanErr p) l1 n1 = .ret r →
      l.Write p = (Outcome.ret r : Outcome _).bind fun (l, n, err) =>
        if err ≠ none then .ret ({ l with pipe := { l.pipe with werr := err } }, n, err)
        else .ret (l, n, err) := by
    intro r hret
    have h1' := h1 (t :: toks₂) (scanErr p)
    simp only [hr, hw] at h1'
    simp only [Write, writeLocked_eq, hr, hw, hseek, hsplit, Outcome.bind_eq,
      Outcome.bind_ret, ne_eq, not_true_eq_false, if_false, Outcome.pure_eq]
    rw [h1', hret]
    simp
  refine ⟨hn1, ?_, ?_⟩
  · intro d' wn e hwr
    rw [hW (⟨{ l1 with pipe := { l1.pipe with data := d' } }, wrap64 (n1 + wn), some e⟩)]
    · simp
    · simp [writeTokens, writeToken, hwr]
  · intro d' wn e l2 hwr hlast hfail
    obtain ⟨hwi, hs2, -⟩ := hfail.writeIndex
    refine ⟨?_, hs2⟩
    rw [hW (⟨l2, n1, some e⟩)]
    · simp
    · have : wrap64 (wrap64 (n1 + wn) - wn) = n1 := by
        rw [wrap64_add_sub, hn1, wrap64_idem]
      simp [writeTokens, writeToken, hwr, hlast, hwi, this]

end LineIndexedPipe

namespace LineIndexedPipe

open Mock

/-- An instance: `"\nHello World\n\n"` written to a pipe whose data store fails once it
holds data: the first token `"\n"` is completed, the data write of `"Hello World\n"`
fails reporting 0 bytes, and `Write` returns `(1, io.ErrUnexpectedEOF)` with
`DataSize() = 1`. -/
theorem failing_token_count_witness :
    ∃ (l1 l' : LineIndexedPipe ReadWriteSeekable ReadWriteSeekable) (d0 : ReadWriteSeekable)
      (pos : Int),
      NewLineIndexedPipe fullStore zeroValue = .ret fullPipe ∧
      ReadWriteSeeker.Seek fullPipe.pipe.data fullPipe.pipe.size SEEK_SET
        = .ret (d0, pos, none) ∧
      writeTokens [[10]] none { fullPipe with pipe := { fullPipe.pipe with data := d0 } } 0
        = .ret (l1, 1, none) ∧
      (1 = wrap64 (l1.pipe.size - fullPipe.pipe.size) ∧
       (∀ (d' : ReadWriteSeekable) (wn : Int) (e : Error),
         ReadWriteSeeker.Write l1.pipe.data (helloWorld.drop 1).dropLast = .ret (d', wn, some e) →
         fullPipe.Write helloWorld
           = .ret ({ l1 with pipe := { l1.pipe with data := d', werr := some e } },
               wrap64 (1 + wn), some e)) ∧
       (∀ (d' : ReadWriteSeekable) (wn : Int) (e : Error)
          (l2 : LineIndexedPipe ReadWriteSeekable ReadWriteSeekable),
         ReadWriteSeeker.Write l1.pipe.data (helloWorld.drop 1).dropLast = .ret (d', wn, none) →
         ((helloWorld.drop 1).dropLast).getLast? = some newline →
         IndexFails { l1 with pipe := { l1.pipe with data := d' } } e l2 →
         fullPipe.Write helloWorld
             = .ret ({ l2 with pipe := { l2.pipe with werr := some e } }, 1, some e) ∧
           l2.pipe.size = l1.pipe.size)) ∧
      ReadWriteSeeker.Write l1.pipe.data (helloWorld.drop 1).dropLast
        = .ret (l1.pipe.data, 0, some .ErrUnexpectedEOF) ∧
      fullPipe.Write helloWorld = .ret (l', 1, some .ErrUnexpectedEOF) ∧
      l'.pipe.DataSize = (1, none) :=
  ⟨_, _, _, _, rfl, rfl, rfl,
    failing_token_count fullPipe _ helloWorld [[10]] [[10]] ((helloWorld.drop 1).dropLast) _ _ 1
      ⟨rfl, rfl⟩ rfl (by decide) rfl,
    rfl, rfl, rfl⟩

end LineIndexedPipe

/-! ## Store failures in `Read` and `Write` -/

namespace Pipe

variable {σ : Type} [ReadWriteSeeker σ]

/-- C15: when the store's seek fails with `e` during `Pipe.Write` on an open pipe, the call
returns `(0, e)`; the store is left as the failing seek left it (its `Write` is not called),
`DataSize()` is unchanged, `e` is the write-side error, and the `Write` that follows
returns `(0, io.ErrClosedPipe)`. -/
theorem write_seek_failure (l : Pipe σ) (d d' : List Byte) (data : σ) (pos : Int) (e : Error)
    (hopen : l.Open)
    (hseek : ReadWriteSeeker.Seek l.data 0 SEEK_END = .ret (data, pos, some e)) :
    l.Write d = .ret ({ l with data := data, werr := some e }, 0, some e) ∧
    ({ l with data := data, werr := some e } : Pipe σ).DataSize = l.DataSize ∧
    ({ l with data := data, werr := some e } : Pipe σ).Write d' =
      .ret ({ l with data := data, werr := some .ErrClosedPipe }, 0, some .ErrClosedPipe) := by
  obtain ⟨hr, hw⟩ := hopen
  refine ⟨?_, rfl, ?_⟩
  · simp [Write, writeLocked, hr, hw, hseek]
  · simp [Write, writeLocked, hr]

/-- C15 (witness): `TestLateSeekFailWritePipe`: the store holds the bytes 0..9 and its seek
fails; `Write([1])` returns `(0, errUnseekable)`, the store still holds the bytes 0..9, and
the second `Write([1])` returns `(0, io.ErrClosedPipe)`. -/
theorem write_seek_failure_witness :
    lateSeekFail.Write [1] =
      .ret ({ lateSeekFail with werr := some errUnseekable }, 0, some errUnseekable) ∧
    ({ lateSeekFail with werr := some errUnseekable } : Pipe Mock.ReadWriteSeekable).DataSize =
      lateSeekFail.DataSize ∧
    ({ lateSeekFail with werr := some errUnseekable } : Pipe Mock.ReadWriteSeekable).Write [1] =
      .ret ({ lateSeekFail with werr := some .ErrClosedPipe }, 0, some .ErrClosedPipe) :=
  write_seek_failure lateSeekFail [1] [1] lateSeekFail.data 0 errUnseekable ⟨rfl, rfl⟩ rfl

/-- C16: when the store's seek fails with `e` during `Read` on an open pipe with unread data,
the call returns `(0, e)` and leaves the buffer and the read index as they were, `e` is the
read-side error, and the `Read` that follows returns `(0, io.ErrClosedPipe)`. -/
theorem read_seek_failure (l : Pipe σ) (d d' : List Byte) (data : σ) (pos : Int) (e : Error)
    (hopen : l.Open) (havail : l.readIndex < l.size)
    (hseek : ReadWriteSeeker.Seek l.data l.readIndex SEEK_SET = .ret (data, pos, some e)) :
    l.Read d = .ret ({ l with data := data, rerr := some e }, d, 0, some e) ∧
    ({ l with data := data, rerr := some e } : Pipe σ).readIndex = l.readIndex ∧
    ({ l with data := data, rerr := some e } : Pipe σ).Read d' =
      .ret ({ l with data := data, rerr := some .ErrClosedPipe }, d', 0,
        some .ErrClosedPipe) := by
  obtain ⟨hr, hw⟩ := hopen
  refine ⟨?_, rfl, ?_⟩
  · simp [Read, readLocked, hr, hw, havail, hseek]
  · simp [Read, readLocked]

/-- C16 (witness): `TestLateSeekFailReadPipe`: the store holds the bytes 0..9 and its seek
fails; `Read` into a one-byte buffer returns `(0, errUnseekable)` and the second `Read`
returns `(0, io.ErrClosedPipe)`. -/
theorem read_seek_failure_witness :
    lateSeekFail.Read [0] =
      .ret ({ lateSeekFail with rerr := some errUnseekable }, [0], 0, some errUnseekable) ∧
    ({ lateSeekFail with rerr := some errUnseekable } : Pipe Mock.ReadWriteSeekable).readIndex =
      lateSeekFail.readIndex ∧
    ({ lateSeekFail with rerr := some errUnseekable } : Pipe Mock.ReadWriteSeekable).Read [0] =
      .ret ({ lateSeekFail with rerr := some .ErrClosedPipe }, [0], 0,
        some .ErrClosedPipe) :=
  read_seek_failure lateSeekFail [0] [0] lateSeekFail.data 0 errUnseekable ⟨rfl, rfl⟩
    (by decide) rfl

end Pipe

/-! ## What `Write` leaves alone -/

namespace Pipe

variable {σ : Type} [ReadWriteSeeker σ]

theorem Write_slots (l l' : Pipe σ) (d : List Byte) (n : Int) (err : Option Error)
    (h : l.Write d = .ret (l', n, err)) :
    l'.rerr = l.rerr ∧ l'.readIndex = l.readIndex ∧
      l'.werr = if err ≠ none then err else l.werr := by
  simp only [Write, Outcome.bind_eq, Outcome.pure_eq, Outcome.bind_eq_ret] at h
  obtain ⟨⟨l1, n1, e1⟩, hl, h⟩ := h
  have h1 : l1.rerr = l.rerr ∧ l1.readIndex = l.readIndex ∧ l1.werr = l.werr := by
    unfold writeLocked at hl
    split_ifs at hl with c1 c2
    · simp only [Outcome.pure_eq, Outcome.ret.injEq, Prod.mk.injEq] at hl
      rw [← hl.1]
      exact ⟨rfl, rfl, rfl⟩
    · simp only [Outcome.pure_eq, Outcome.ret.injEq, Prod.mk.injEq] at hl
      rw [← hl.1]
      exact ⟨rfl, rfl, rfl⟩
    · simp only [Outcome.bind_eq, Outcome.pure_eq, Outcome.bind_eq_ret] at hl
      obtain ⟨⟨d1, pos, e2⟩, -, hl⟩ := hl
      dsimp only at hl
      split_ifs at hl with c3
      · simp only [Outcome.ret.injEq, Prod.mk.injEq] at hl
        rw [← hl.1]
        exact ⟨rfl, rfl, rfl⟩
      · simp only [Outcome.bind_eq_ret] at hl
        obtain ⟨⟨d2, n2, e3⟩, -, ⟨d3, e4⟩, -, hl⟩ := hl
        simp only [Outcome.ret.injEq, Prod.mk.injEq] at hl
        rw [← hl.1]
        exact ⟨rfl, rfl, rfl⟩
  dsimp only at h
  split_ifs at h with c
  · simp only [Outcome.ret.injEq, Prod.mk.injEq] at h
    obtain ⟨rfl, -, rfl⟩ := h
    simp [c, h1.1, h1.2.1]
  · simp only [Outcome.ret.injEq, Prod.mk.injEq] at h
    obtain ⟨rfl, -, rfl⟩ := h
    simp [c, h1]

end Pipe

namespace LineIndexedPipe

variable {σ τ : Type} [ReadWriteSeeker σ] [ReadWriteSeeker τ]

theorem writeIndex_slots (l l' : LineIndexedPipe σ τ) (err : Option Error)
    (h : l.writeIndex = .ret (l', err)) : l'.slots = l.slots := by
  simp only [writeIndex, Outcome.bind_eq, Outcome.pure_eq, Outcome.bind_eq_ret] at h
  obtain ⟨⟨i1, pos, e1⟩, -, h⟩ := h
  dsimp only at h
  split_ifs at h with c1
  · simp only [Outcome.ret.injEq, Prod.mk.injEq] at h
    rw [← h.1]
    rfl
  · simp only [Outcome.bind_eq_ret] at h
    obtain ⟨⟨i2, e2⟩, -, h⟩ := h
    dsimp only at h
    split_ifs at h with c2
    · simp only [Outcome.ret.injEq, Prod.mk.injEq] at h
      rw [← h.1]
      rfl
    · simp only [Outcome.bind_eq_ret] at h
      obtain ⟨⟨i3, e3⟩, -, h⟩ := h
      dsimp only at h
      split_ifs at h with c3
      · simp only [Outcome.ret.injEq, Prod.mk.injEq] at h
        rw [← h.1]
        rfl
      · simp only [Outcome.bind_eq_ret] at h
        obtain ⟨⟨d1, last, e4⟩, -, h⟩ := h
        simp only [Outcome.ret.injEq, Prod.mk.injEq] at h
        rw [← h.1]
        rfl

theorem writeToken_slots (l l' : LineIndexedPipe σ τ) (t : List Byte) (n n' : Int)
    (err : Option Error) (h : l.writeToken t n = .ret (l', n', err)) : l'.slots = l.slots := by
  simp only [writeToken, Outcome.bind_eq_ret] at h
  obtain ⟨⟨d', wn, e1⟩, -, h⟩ := h
  dsimp only at h
  split_ifs at h with c1
  · simp only [Outcome.ret.injEq, Prod.mk.injEq] at h
    rw [← h.1]
    rfl
  · cases hg : t.getLast? with
    | none => simp [hg] at h
    | some c =>
      simp only [hg, Outcome.bind_eq_ret] at h
      obtain ⟨⟨l2, e2⟩, hidx, h⟩ := h
      have hs : l2.slots = l.slots := by
        split_ifs at hidx with c3
        · exact (writeIndex_slots _ l2 _ hidx).trans rfl
        · simp only [Outcome.ret.injEq, Prod.mk.injEq] at hidx
          rw [← hidx.1]
          rfl
      dsimp only at h
      split_ifs at h with c2
      · simp only [Outcome.ret.injEq, Prod.mk.injEq] at h
        rw [← h.1]
        exact hs
      · simp only [Outcome.ret.injEq, Prod.mk.injEq] at h
        rw [← h.1, ← hs]
        rfl

theorem writeTokens_slots (toks : List (List Byte)) (e : Option Error) :
    ∀ (l l' : LineIndexedPipe σ τ) (n n' : Int) (err : Option Error),
      writeTokens toks e l n = .ret (l', n', err) → l'.slots = l.slots := by
  induction toks with
  | nil =>
    intro l l' n n' err h
    simp only [writeTokens, Outcome.ret.injEq, Prod.mk.injEq] at h
    rw [← h.1]
  | cons t ts ih =>
    intro l l' n n' err h
    simp only [writeTokens, Outcome.bind_eq_ret] at h
    obtain ⟨⟨l1, n1, e1⟩, ht, h⟩ := h
    have h1 := writeToken_slots l l1 t n n1 e1 ht
    dsimp only at h
    split_ifs at h with c
    · simp only [Outcome.ret.injEq, Prod.mk.injEq] at h
      rw [← h.1]
      exact h1
    · rw [ih l1 l' n1 n' err h, h1]

theorem indexed_Write_slots (l l' : LineIndexedPipe σ τ) (p : List Byte) (n : Int) (err : Option Error)
    (h : l.Write p = .ret (l', n, err)) :
    l'.pipe.rerr = l.pipe.rerr ∧ l'.pipe.readIndex = l.pipe.readIndex ∧
      l'.pipe.werr = if err ≠ none then err else l.pipe.werr := by
  simp only [Write, Outcome.bind_eq, Outcome.pure_eq, Outcome.bind_eq_ret] at h
  obtain ⟨⟨l1, n1, e1⟩, hl, h⟩ := h
  have h1 : l1.slots = l.slots := by
    rw [writeLocked_eq] at hl
    split_ifs at hl with c1 c2
    · simp only [Outcome.ret.injEq, Prod.mk.injEq] at hl
      rw [← hl.1]
    · simp only [Outcome.ret.injEq, Prod.mk.injEq] at hl
      rw [← hl.1]
    · simp only [Outcome.bind_eq_ret] at hl
      obtain ⟨⟨d1, pos, e2⟩, -, hl⟩ := hl
      dsimp only at hl
      split_ifs at hl with c3
      · simp only [Outcome.ret.injEq, Prod.mk.injEq] at hl
        rw [← hl.1]
        rfl
      · exact (writeTokens_slots _ _ _ l1 _ _ _ hl).trans rfl
  simp only [slots, Prod.mk.injEq] at h1
  dsimp only at h
  split_ifs at h with c
  · simp only [Outcome.ret.injEq, Prod.mk.injEq] at h
    obtain ⟨rfl, -, rfl⟩ := h
    simp [c, h1.1, h1.2.2]
  · simp only [Outcome.ret.injEq, Prod.mk.injEq] at h
    obtain ⟨rfl, -, rfl⟩ := h
    simp [c, h1]

end LineIndexedPipe

/-! ## A failed write, as the reader and the next writer see it -/

/-- C17: after a `Write` on an open pipe (base or line-indexed) has failed with the error
`e`, the next `Read` returns `(0, e)` whether or not unread data is there, and leaves its
buffer alone; the `Write` issued after that `Read` returns `(0, e)` as well. -/
theorem failed_write_reaches_reader {σ τ : Type} [ReadWriteSeeker σ] [ReadWriteSeeker τ]
    (l l1 : Pipe σ) (li li1 : LineIndexedPipe σ τ) (d buf d' : List Byte) (n : Int)
    (e : Error) :
    (l.Open → l.Write d = .ret (l1, n, some e) →
      l1.Read buf = .ret ({ l1 with rerr := some e }, buf, 0, some e) ∧
      ({ l1 with rerr := some e } : Pipe σ).Write d' =
        .ret ({ l1 with rerr := some e, werr := some e }, 0, some e)) ∧
    (li.pipe.Open → li.Write d = .ret (li1, n, some e) →
      li1.Read buf =
        .ret ({ li1 with pipe := { li1.pipe with rerr := some e } }, buf, 0, some e) ∧
      ({ li1 with pipe := { li1.pipe with rerr := some e } } : LineIndexedPipe σ τ).Write d' =
        .ret ({ li1 with pipe := { li1.pipe with rerr := some e, werr := some e } }, 0,
          some e)) := by
  constructor
  · intro hopen hw
    obtain ⟨hr, -, hwe⟩ := Pipe.Write_slots l l1 d n _ hw
    rw [hopen.1] at hr
    simp only [ne_eq, reduceCtorEq, not_false_eq_true, if_true] at hwe
    exact ⟨Pipe.Read_werr l1 buf e hr hwe, Pipe.Write_rerr _ d' e rfl⟩
  · intro hopen hw
    obtain ⟨hr, -, hwe⟩ := LineIndexedPipe.indexed_Write_slots li li1 d n _ hw
    rw [hopen.1] at hr
    simp only [ne_eq, reduceCtorEq, not_false_eq_true, if_true] at hwe
    constructor
    · simp [LineIndexedPipe.Read, Pipe.Read_werr li1.pipe buf e hr hwe]
    · simp [LineIndexedPipe.Write, LineIndexedPipe.writeLocked]

/-- C17 (witness): `TestLateDataSeekFailWriteIndexedPipe` and its base-pipe counterpart,
over a store that holds the unread bytes 0..9 and whose seek fails: `Write` returns
`(0, errUnseekable)`, then `Read` returns `(0, errUnseekable)`, then `Write` returns
`(0, errUnseekable)`. -/
theorem failed_write_reaches_reader_witness :
    (Pipe.lateSeekFail.Write helloWorld =
        .ret ({ Pipe.lateSeekFail with werr := some errUnseekable }, 0, some errUnseekable) ∧
      ({ Pipe.lateSeekFail with werr := some errUnseekable } :
          Pipe Mock.ReadWriteSeekable).Read helloWorld =
        .ret ({ Pipe.lateSeekFail with werr := some errUnseekable,
                                       rerr := some errUnseekable },
          helloWorld, 0, some errUnseekable) ∧
      ({ Pipe.lateSeekFail with werr := some errUnseekable, rerr := some errUnseekable } :
          Pipe Mock.ReadWriteSeekable).Write helloWorld =
        .ret ({ Pipe.lateSeekFail with werr := some errUnseekable,
                                       rerr := some errUnseekable },
          0, some errUnseekable)) ∧
    (LineIndexedPipe.lateSeekFail.Write helloWorld =
        .ret (⟨{ Pipe.lateSeekFail with werr := some errUnseekable }, Mock.zeroValue, 0⟩,
          0, some errUnseekable) ∧
      (⟨{ Pipe.lateSeekFail with werr := some errUnseekable }, Mock.zeroValue, 0⟩ :
          LineIndexedPipe Mock.ReadWriteSeekable Mock.ReadWriteSeekable).Read helloWorld =
        .ret (⟨{ Pipe.lateSeekFail with werr := some errUnseekable,
                                        rerr := some errUnseekable }, Mock.zeroValue, 0⟩,
          helloWorld, 0, some errUnseekable) ∧
      (⟨{ Pipe.lateSeekFail with werr := some errUnseekable, rerr := some errUnseekable },
          Mock.zeroValue, 0⟩ :
          LineIndexedPipe Mock.ReadWriteSeekable Mock.ReadWriteSeekable).Write helloWorld =
        .ret (⟨{ Pipe.lateSeekFail with werr := some errUnseekable,
                                        rerr := some errUnseekable }, Mock.zeroValue, 0⟩,
          0, some errUnseekable)) :=
  have h := failed_write_reaches_reader Pipe.lateSeekFail
    { Pipe.lateSeekFail with werr := some errUnseekable } LineIndexedPipe.lateSeekFail
    ⟨{ Pipe.lateSeekFail with werr := some errUnseekable }, Mock.zeroValue, 0⟩
    helloWorld helloWorld helloWorld 0 errUnseekable
  ⟨⟨rfl, h.1 ⟨rfl, rfl⟩ rfl⟩, ⟨rfl, h.2 ⟨rfl, rfl⟩ rfl⟩⟩

/-! ## The durability barrier of `Pipe.Write` -/

theorem syncWriter_some {σ : Type} [ReadWriteSeeker σ] (sync : σ → Outcome (σ × Option Error))
    (hs : (ReadWriteSeeker.Sync : Option (σ → Outcome (σ × Option Error))) = some sync)
    (w : σ) : syncWriter w = sync w := by
  unfold syncWriter
  rw [hs]

theorem syncWriter_none {σ : Type} [ReadWriteSeeker σ]
    (hs : (ReadWriteSeeker.Sync : Option (σ → Outcome (σ × Option Error))) = none)
    (w : σ) : syncWriter w = .ret (w, none) := by
  unfold syncWriter
  rw [hs]

namespace Pipe

variable {σ : Type} [ReadWriteSeeker σ]

theorem Write_ok_inv (l l' : Pipe σ) (d : List Byte) (m : Int)
    (h : l.Write d = .ret (l', m, none)) :
    ∃ (d1 d2 d3 : σ) (pos : Int),
      ReadWriteSeeker.Seek l.data 0 SEEK_END = .ret (d1, pos, none) ∧
      ReadWriteSeeker.Write d1 d = .ret (d2, m, none) ∧
      syncWriter d2 = .ret (d3, none) ∧ l'.data = d3 := by
  simp only [Write, Outcome.bind_eq, Outcome.pure_eq, Outcome.bind_eq_ret] at h
  obtain ⟨⟨l1, n1, e1⟩, hl, h⟩ := h
  dsimp only at h
  split_ifs at h with c
  · simp only [Outcome.ret.injEq, Prod.mk.injEq] at h
    exact absurd h.2.2 c
  · simp only [Outcome.ret.injEq, Prod.mk.injEq] at h
    obtain ⟨rfl, rfl, rfl⟩ := h
    unfold writeLocked at hl
    split_ifs at hl with c1 c2
    · simp only [Outcome.pure_eq, Outcome.ret.injEq, Prod.mk.injEq] at hl
      exact absurd hl.2.2 c1
    · simp at hl
    · simp only [Outcome.bind_eq, Outcome.pure_eq, Outcome.bind_eq_ret] at hl
      obtain ⟨⟨d1, pos, e2⟩, hseek, hl⟩ := hl
      dsimp only at hl
      split_ifs at hl with c3
      · simp only [Outcome.ret.injEq, Prod.mk.injEq] at hl
        exact absurd hl.2.2 c3
      · have he2 : e2 = none := by simpa using c3
        subst he2
        simp only [Outcome.bind_eq_ret] at hl
        obtain ⟨⟨d2, n2, e3⟩, hwrite, ⟨d3, e4⟩, hsync, hl⟩ := hl
        simp only [Outcome.ret.injEq, Prod.mk.injEq] at hl
        obtain ⟨rfl, rfl, rfl⟩ := hl
        dsimp only at hsync
        split_ifs at hsync with c4
        · subst c4
          exact ⟨d1, d2, d3, pos, hseek, hwrite, hsync, rfl⟩
        · simp only [Outcome.ret.injEq, Prod.mk.injEq] at hsync
          exact absurd hsync.2 c4

/-- C19: on an open pipe whose store has taken the bytes (its seek and its write returned a
nil error), `Write` on a store with `Sync` calls `Sync` once, on the store as the write left
it, and returns what `Sync` returns: `(n, nil)` when `Sync` returns nil, and `(n, e)` with
`e` recorded as the write-side error when `Sync` fails with `e`.  A nil error from `Write`
on such a store always comes with a `Sync` that returned nil after the store's write.  On a
store without `Sync`, `Write` returns `(n, nil)` and the store is as the write left it. -/
theorem write_syncs_store (l : Pipe σ) (d : List Byte) :
    (∀ (sync : σ → Outcome (σ × Option Error)) (d1 d2 d3 : σ) (pos n : Int)
        (serr : Option Error),
      (ReadWriteSeeker.Sync : Option (σ → Outcome (σ × Option Error))) = some sync →
      l.Open →
      ReadWriteSeeker.Seek l.data 0 SEEK_END = .ret (d1, pos, none) →
      ReadWriteSeeker.Write d1 d = .ret (d2, n, none) →
      sync d2 = .ret (d3, serr) →
      l.Write d =
        .ret ({ l with data := d3, size := wrap64 (l.size + n), werr := serr }, n, serr)) ∧
    (∀ (sync : σ → Outcome (σ × Option Error)) (l' : Pipe σ) (n : Int),
      (ReadWriteSeeker.Sync : Option (σ → Outcome (σ × Option Error))) = some sync →
      l.Write d = .ret (l', n, none) →
      ∃ (d1 d2 : σ) (pos : Int),
        ReadWriteSeeker.Seek l.data 0 SEEK_END = .ret (d1, pos, none) ∧
        ReadWriteSeeker.Write d1 d = .ret (d2, n, none) ∧
        sync d2 = .ret (l'.data, none)) ∧
    (∀ (d1 d2 : σ) (pos n : Int),
      (ReadWriteSeeker.Sync : Option (σ → Outcome (σ × Option Error))) = none →
      l.Open →
      ReadWriteSeeker.Seek l.data 0 SEEK_END = .ret (d1, pos, none) →
      ReadWriteSeeker.Write d1 d = .ret (d2, n, none) →
      l.Write d = .ret ({ l with data := d2, size := wrap64 (l.size + n) }, n, none)) := by
  refine ⟨?_, ?_, ?_⟩
  · intro sync d1 d2 d3 pos n serr hs hopen hseek hwrite hsync
    obtain ⟨hr, hw⟩ := hopen
    cases serr with
    | none =>
      simp [Write, writeLocked, hr, hw, hseek, hwrite, syncWriter_some sync hs, hsync]
    | some e =>
      simp [Write, writeLocked, hr, hw, hseek, hwrite, syncWriter_some sync hs, hsync]
  · intro sync l' n hs h
    obtain ⟨d1, d2, d3, pos, hseek, hwrite, hsync, rfl⟩ := Write_ok_inv l l' d n h
    rw [syncWriter_some sync hs] at hsync
    exact ⟨d1, d2, pos, hseek, hwrite, hsync⟩
  · intro d1 d2 pos n hs hopen hseek hwrite
    obtain ⟨hr, hw⟩ := hopen
    simp [Write, writeLocked, hr, hw, hseek, hwrite, syncWriter_none hs]

end Pipe

namespace Pipe

/-- C19 (witness): `TestSyncPipe`: ten bytes written to a new pipe over a store with `Sync`
give `(10, nil)` when the callback returns nil and `(10, io.ErrUnexpectedEOF)`, recorded
as the write-side error, when it fails; over the plain mock store, which has no `Sync`, they
give `(10, nil)`. -/
theorem write_syncs_store_witness :
    (∃ d3 : Mock.SyncReadWriteSeekable,
      (⟨Mock.syncStore, 0, 0, none, none⟩ : Pipe Mock.SyncReadWriteSeekable).Write
          [0, 1, 2, 3, 4, 5, 6, 7, 8, 9] =
        .ret (⟨d3, 0, wrap64 (0 + 10), none, none⟩, 10, none) ∧
      d3.rws.Bytes = [0, 1, 2, 3, 4, 5, 6, 7, 8, 9]) ∧
    (∃ d3 : Mock.SyncReadWriteSeekable,
      (⟨Mock.syncFailStore, 0, 0, none, none⟩ : Pipe Mock.SyncReadWriteSeekable).Write
          [0, 1, 2, 3, 4, 5, 6, 7, 8, 9] =
        .ret (⟨d3, 0, wrap64 (0 + 10), none, some .ErrUnexpectedEOF⟩, 10,
          some .ErrUnexpectedEOF) ∧
      d3.rws.Bytes = [0, 1, 2, 3, 4, 5, 6, 7, 8, 9]) ∧
    (∃ d2 : Mock.ReadWriteSeekable,
      (⟨Mock.zeroValue, 0, 0, none, none⟩ : Pipe Mock.ReadWriteSeekable).Write
          [0, 1, 2, 3, 4, 5, 6, 7, 8, 9] =
        .ret (⟨d2, 0, wrap64 (0 + 10), none, none⟩, 10, none) ∧
      d2.Bytes = [0, 1, 2, 3, 4, 5, 6, 7, 8, 9]) :=
  ⟨⟨_, (write_syncs_store (⟨Mock.syncStore, 0, 0, none, none⟩ :
        Pipe Mock.SyncReadWriteSeekable) [0, 1, 2, 3, 4, 5, 6, 7, 8, 9]).1
      Mock.SyncReadWriteSeekable.Sync _ _ _ _ _ _ rfl ⟨rfl, rfl⟩ rfl rfl rfl, rfl⟩,
   ⟨_, (write_syncs_store (⟨Mock.syncFailStore, 0, 0, none, none⟩ :
        Pipe Mock.SyncReadWriteSeekable) [0, 1, 2, 3, 4, 5, 6, 7, 8, 9]).1
      Mock.SyncReadWriteSeekable.Sync _ _ _ _ _ _ rfl ⟨rfl, rfl⟩ rfl rfl rfl, rfl⟩,
   ⟨_, (write_syncs_store (⟨Mock.zeroValue, 0, 0, none, none⟩ :
        Pipe Mock.ReadWriteSeekable) [0, 1, 2, 3, 4, 5, 6, 7, 8, 9]).2.2
      _ _ _ _ rfl ⟨rfl, rfl⟩ rfl rfl, rfl⟩⟩

end Pipe

/-! ## The calls that follow a failed write -/

namespace Pipe

variable {σ : Type} [ReadWriteSeeker σ]

theorem run_after_failure (e : Error) (calls : List Call) :
    ∀ (ph : Phase) (l : Pipe σ), ph.slots e l.rerr l.werr →
    ∃ l' : Pipe σ, l.run (calls.map Call.op) = .ret (l', repliesAfter e ph calls) ∧
      l'.data = l.data ∧ l'.size = l.size ∧ l'.readIndex = l.readIndex := by
  induction calls with
  | nil =>
    intro ph l _
    exact ⟨l, by cases ph <;> rfl, rfl, rfl, rfl⟩
  | cons c calls ih =>
    intro ph l h
    cases c with
    | read d =>
      cases ph with
      | fresh =>
        obtain ⟨hr, hw⟩ := h
        obtain ⟨l', hrun, h1, h2, h3⟩ := ih .handed { l with rerr := some e }
          ⟨rfl, hw⟩
        exact ⟨l', by simp [run, step, Call.op, Read_werr l d e hr hw, hrun, repliesAfter],
          h1, h2, h3⟩
      | handed =>
        obtain ⟨hr, -⟩ := h
        obtain ⟨l', hrun, h1, h2, h3⟩ := ih .closed { l with rerr := some .ErrClosedPipe }
          (Or.inr rfl)
        exact ⟨l', by simp [run, step, Call.op, Read_rerr l d e hr, hrun, repliesAfter],
          h1, h2, h3⟩
      | closed =>
        obtain ⟨l', hrun, h1, h2, h3⟩ := ih .closed { l with rerr := some .ErrClosedPipe }
          (Or.inr rfl)
        rcases h with ⟨hr, hw⟩ | hr
        · exact ⟨l', by simp [run, step, Call.op, Read_werr l d _ hr hw, hrun, repliesAfter],
            h1, h2, h3⟩
        · exact ⟨l', by simp [run, step, Call.op, Read_rerr l d _ hr, hrun, repliesAfter],
            h1, h2, h3⟩
    | write d =>
      cases ph with
      | fresh =>
        obtain ⟨hr, hw⟩ := h
        obtain ⟨l', hrun, h1, h2, h3⟩ := ih .closed { l with werr := some .ErrClosedPipe }
          (Or.inl ⟨hr, rfl⟩)
        exact ⟨l', by simp [run, step, Call.op, Write_werr l d e hr hw, hrun, repliesAfter],
          h1, h2, h3⟩
      | handed =>
        obtain ⟨hr, -⟩ := h
        obtain ⟨l', hrun, h1, h2, h3⟩ := ih .handed { l with werr := some e }
          ⟨hr, rfl⟩
        exact ⟨l', by simp [run, step, Call.op, Write_rerr l d e hr, hrun, repliesAfter],
          h1, h2, h3⟩
      | closed =>
        rcases h with ⟨hr, hw⟩ | hr
        · obtain ⟨l', hrun, h1, h2, h3⟩ := ih .closed { l with werr := some .ErrClosedPipe }
            (Or.inl ⟨hr, rfl⟩)
          exact ⟨l', by simp [run, step, Call.op, Write_werr l d _ hr hw, hrun, repliesAfter],
            h1, h2, h3⟩
        · obtain ⟨l', hrun, h1, h2, h3⟩ := ih .closed { l with werr := some .ErrClosedPipe }
            (Or.inr hr)
          exact ⟨l', by simp [run, step, Call.op, Write_rerr l d _ hr, hrun, repliesAfter],
            h1, h2, h3⟩

end Pipe

namespace LineIndexedPipe

theorem Read_eq {σ τ : Type} [ReadWriteSeeker σ] (l : LineIndexedPipe σ τ) (d : List Byte)
    (pipe : Pipe σ) (d' : List Byte)
    (n : Int) (err : Option Error) (h : l.pipe.Read d = .ret (pipe, d', n, err)) :
    l.Read d = .ret ({ l with pipe := pipe }, d', n, err) := by
  simp [Read, h]

variable {σ τ : Type} [ReadWriteSeeker σ] [ReadWriteSeeker τ]

theorem indexed_Write_rerr (l : LineIndexedPipe σ τ) (p : List Byte) (e : Error)
    (hr : l.pipe.rerr = some e) :
    l.Write p = .ret ({ l with pipe := { l.pipe with werr := some e } }, 0, some e) := by
  simp [Write, writeLocked, hr]

theorem indexed_Write_werr (l : LineIndexedPipe σ τ) (p : List Byte) (e : Error)
    (hr : l.pipe.rerr = none) (hw : l.pipe.werr = some e) :
    l.Write p = .ret ({ l with pipe := { l.pipe with werr := some .ErrClosedPipe } }, 0,
      some .ErrClosedPipe) := by
  simp [Write, writeLocked, hr, hw]

theorem indexed_run_after_failure (e : Error) (calls : List Pipe.Call) :
    ∀ (ph : Pipe.Phase) (l : LineIndexedPipe σ τ), ph.slots e l.pipe.rerr l.pipe.werr →
    ∃ l' : LineIndexedPipe σ τ,
      l.run (calls.map Pipe.Call.indexedOp) =
        .ret (l', (Pipe.repliesAfter e ph calls).map Event.io) ∧
      l'.pipe.data = l.pipe.data ∧ l'.index = l.index ∧ l'.pipe.size = l.pipe.size ∧
      l'.pipe.readIndex = l.pipe.readIndex ∧ l'.lastIndex = l.lastIndex := by
  induction calls with
  | nil =>
    intro ph l _
    exact ⟨l, by cases ph <;> rfl, rfl, rfl, rfl, rfl, rfl⟩
  | cons c calls ih =>
    intro ph l h
    cases c with
    | read d =>
      cases ph with
      | fresh =>
        obtain ⟨hr, hw⟩ := h
        obtain ⟨l', hrun, h1⟩ := ih .handed { l with pipe := { l.pipe with rerr := some e } }
          ⟨rfl, hw⟩
        exact ⟨l', by simp [run, step, Pipe.Call.indexedOp,
          Read_eq l d _ _ _ _ (Pipe.Read_werr l.pipe d e hr hw), hrun, Pipe.repliesAfter], h1⟩
      | handed =>
        obtain ⟨hr, -⟩ := h
        obtain ⟨l', hrun, h1⟩ := ih .closed
          { l with pipe := { l.pipe with rerr := some .ErrClosedPipe } } (Or.inr rfl)
        exact ⟨l', by simp [run, step, Pipe.Call.indexedOp,
          Read_eq l d _ _ _ _ (Pipe.Read_rerr l.pipe d e hr), hrun, Pipe.repliesAfter], h1⟩
      | closed =>
        obtain ⟨l', hrun, h1⟩ := ih .closed
          { l with pipe := { l.pipe with rerr := some .ErrClosedPipe } } (Or.inr rfl)
        rcases h with ⟨hr, hw⟩ | hr
        · exact ⟨l', by simp [run, step, Pipe.Call.indexedOp,
            Read_eq l d _ _ _ _ (Pipe.Read_werr l.pipe d _ hr hw), hrun, Pipe.repliesAfter], h1⟩
        · exact ⟨l', by simp [run, step, Pipe.Call.indexedOp,
            Read_eq l d _ _ _ _ (Pipe.Read_rerr l.pipe d _ hr), hrun, Pipe.repliesAfter], h1⟩
    | write d =>
      cases ph with
      | fresh =>
        obtain ⟨hr, hw⟩ := h
        obtain ⟨l', hrun, h1⟩ := ih .closed
          { l with pipe := { l.pipe with werr := some .ErrClosedPipe } } (Or.inl ⟨hr, rfl⟩)
        exact ⟨l', by simp [run, step, Pipe.Call.indexedOp, indexed_Write_werr l d e hr hw, hrun,
          Pipe.repliesAfter], h1⟩
      | handed =>
        obtain ⟨hr, -⟩ := h
        obtain ⟨l', hrun, h1⟩ := ih .handed { l with pipe := { l.pipe with werr := some e } }
          ⟨hr, rfl⟩
        exact ⟨l', by simp [run, step, Pipe.Call.indexedOp, indexed_Write_rerr l d e hr, hrun,
          Pipe.repliesAfter], h1⟩
      | closed =>
        rcases h with ⟨hr, hw⟩ | hr
        · obtain ⟨l', hrun, h1⟩ := ih .closed
            { l with pipe := { l.pipe with werr := some .ErrClosedPipe } } (Or.inl ⟨hr, rfl⟩)
          exact ⟨l', by simp [run, step, Pipe.Call.indexedOp, indexed_Write_werr l d _ hr hw, hrun,
            Pipe.repliesAfter], h1⟩
        · obtain ⟨l', hrun, h1⟩ := ih .closed
            { l with pipe := { l.pipe with werr := some .ErrClosedPipe } } (Or.inr hr)
          exact ⟨l', by simp [run, step, Pipe.Call.indexedOp, indexed_Write_rerr l d _ hr, hrun,
            Pipe.repliesAfter], h1⟩

end LineIndexedPipe

/-- C14 (counterexample): `TestLateSeekFailWritePipe`: the first `Write` fails with the
store's `errUnseekable`, which is recorded as the write-side error; the second `Write`
returns `io.ErrClosedPipe`, a different error, and so does the `Read` made after it. -/
theorem write_error_not_repeated :
    ∃ l1 l2 l3 : Pipe Mock.ReadWriteSeekable,
      Pipe.lateSeekFail.Write [1] = .ret (l1, 0, some errUnseekable) ∧
      l1.werr = some errUnseekable ∧
      l1.Write [1] = .ret (l2, 0, some .ErrClosedPipe) ∧
      l2.Read [0] = .ret (l3, [0], 0, some .ErrClosedPipe) ∧
      Error.ErrClosedPipe ≠ errUnseekable :=
  ⟨_, _, _, rfl, rfl, rfl, rfl, by decide⟩

/-! ## `SeekLine` beyond the last record -/

namespace Mock

theorem ReadWriteSeekable.Seek_set_beyond (s : ReadWriteSeekable) (h : s.Good) (k : Int)
    (hk : (s.blen : Int) ≤ k) :
    ReadWriteSeeker.Seek s k SEEK_SET = .ret (s.setOff s.blen, s.blen, none) := by
  show ReadWriteSeekable.Seek s k SEEK_SET = _
  have h1 : ¬ ((s.blen : Int) < 0) := by omega
  by_cases hkl : k = (s.blen : Int)
  · subst hkl
    simp [ReadWriteSeekable.Seek, h.plain.2.2, Buffer.Seek, SEEK_SET, SEEK_END,
      ReadWriteSeekable.setOff, h1]
  · have h2 : (s.blen : Int) < k := by omega
    simp [ReadWriteSeekable.Seek, h.plain.2.2, Buffer.Seek, SEEK_SET, SEEK_END,
      ReadWriteSeekable.setOff, h1, h2]

theorem ReadWriteSeekable.store_Read_eof (s : ReadWriteSeekable) (d : List Byte) (h : s.Good)
    (hge : (s.blen : Int) ≤ s.off) :
    ReadWriteSeeker.Read s d = .ret (s, d, 0, some .EOF) := by
  obtain ⟨hp, -, -⟩ := h.plain
  obtain ⟨b, rf, wf, sf⟩ := s
  simp only at hp
  subst hp
  show ReadWriteSeekable.Read _ d = _
  simp [ReadWriteSeekable.Read, Buffer.Read_eof b d hge]

theorem readAtLeast_eof (s : ReadWriteSeekable) (h : s.Good) (fuel : Nat)
    (buf : List Byte) (hge : (s.blen : Int) ≤ s.off) :
    readAtLeastLoop 8 (fuel + 1 + 1) s buf 0 none = .ret (s, buf, 0, some .EOF) := by
  have e := ReadWriteSeekable.store_Read_eof s buf h hge
  have hw : wrap64 0 = 0 := by decide
  simp [readAtLeastLoop, e, hw]

theorem binaryRead_eof (s : ReadWriteSeekable) (h : s.Good) (hge : (s.blen : Int) ≤ s.off) :
    binaryRead s = .ret (s, none, some .EOF) := by
  have e := readAtLeast_eof s h 14 (List.replicate 8 0) hge
  have e8 : ((8 : Nat) : Int) = 8 := rfl
  unfold binaryRead ReadFull
  simp only [readFullFuel, List.length_replicate]
  rw [e8, show (16 : Nat) = 14 + 1 + 1 from rfl, e]
  rfl

end Mock

namespace LineIndexedPipe

open Mock

theorem CountLines_index {σ : Type} (l : LineIndexedPipe σ ReadWriteSeekable) (hidx : l.index.Good) :
    l.CountLines = .ret ({ l with index := l.index.setOff l.index.blen },
      (l.index.Bytes.length : Int).tdiv 8, none) := by
  simp [CountLines, IndexSize, ReadWriteSeekable.Seek_end_good _ hidx, int64Size,
    l.index.length_Bytes hidx]

theorem SeekLine_eof {σ : Type} (l : LineIndexedPipe σ ReadWriteSeekable) (k : Int) (hidx : l.index.Good)
    (hk : (l.index.Bytes.length : Int) ≤ k * 8) (hk' : k * 8 < 9223372036854775808) :
    l.SeekLine k = .ret ({ l with index := l.index.setOff l.index.blen,
                                  pipe := { l.pipe with rerr := some .EOF } }, some .EOF) := by
  have hlen := l.index.length_Bytes hidx
  have hw : wrap64 (k * 8) = k * 8 := wrap64_of_range (by omega) (by omega)
  have e1 := ReadWriteSeekable.Seek_set_beyond l.index hidx (k * 8) (by omega)
  have hg := l.index.setOff_good hidx (l.index.blen : Int) (by omega) (le_refl _)
  have e2 := binaryRead_eof (l.index.setOff l.index.blen) hg (by simp)
  simp [SeekLine, int64Size, hw, e1, e2]

end LineIndexedPipe

namespace LineIndexedPipe

open Mock

/-- C13 (counterexample): after `"\\nHello World\\n\\n"` has been written (three lines),
`SeekLine(3)` on the open pipe returns `io.EOF`, and the `Write` of a further line made
afterwards does not succeed: it returns `(0, io.EOF)` and the data store keeps its 14
bytes. -/
theorem seekLine_past_end_is_final :
    ∃ lc l1 l2 : LineIndexedPipe ReadWriteSeekable ReadWriteSeekable,
      helloPipe.pipe.Open ∧
      helloPipe.CountLines = .ret (lc, 3, none) ∧
      helloPipe.SeekLine 3 = .ret (l1, some .EOF) ∧
      l1.Write [104, 105, 10] = .ret (l2, 0, some .EOF) ∧
      l2.pipe.data.Bytes = helloWorld :=
  ⟨_, _, _, ⟨rfl, rfl⟩, rfl, rfl, rfl, rfl⟩

variable {σ : Type} [ReadWriteSeeker σ]

/-- C13 (amended): on a line-indexed pipe whose index is a mock store without overrides
holding whole records, for `k ≥ CountLines()` (with `8k` within `int64`), `SeekLine(k)` does
not panic: it returns `io.EOF`, leaves the read index as it is and records `io.EOF` as the
read-side error.  A `Read` issued afterwards returns `(0, io.ErrClosedPipe)` and no data,
and a later `Write` returns `(0, io.EOF)` (or `(0, io.ErrClosedPipe)` once that `Read` has
been made) without calling the stores. -/
theorem seekLine_past_end (l : LineIndexedPipe σ ReadWriteSeekable) (k : Int)
    (d p : List Byte) (hidx : l.index.Good) (hwhole : l.index.Bytes.length % 8 = 0)
    (hk : (l.index.Bytes.length : Int).tdiv 8 ≤ k) (hk' : k * 8 < 9223372036854775808) :
    l.CountLines = .ret ({ l with index := l.index.setOff l.index.blen },
      (l.index.Bytes.length : Int).tdiv 8, none) ∧
    l.SeekLine k = .ret (l.afterSeekPastEnd, some .EOF) ∧
    l.afterSeekPastEnd.pipe.readIndex = l.pipe.readIndex ∧
    l.afterSeekPastEnd.Read d =
      .ret ({ l.afterSeekPastEnd with
              pipe := { l.afterSeekPastEnd.pipe with rerr := some .ErrClosedPipe } },
        d, 0, some .ErrClosedPipe) ∧
    l.afterSeekPastEnd.Write p =
      .ret ({ l.afterSeekPastEnd with
              pipe := { l.afterSeekPastEnd.pipe with werr := some .EOF } }, 0, some .EOF) ∧
    ({ l.afterSeekPastEnd with
       pipe := { l.afterSeekPastEnd.pipe with rerr := some .ErrClosedPipe } } :
        LineIndexedPipe σ ReadWriteSeekable).Write p =
      .ret ({ l.afterSeekPastEnd with
              pipe := { l.afterSeekPastEnd.pipe with rerr := some .ErrClosedPipe,
                                                     werr := some .ErrClosedPipe } },
        0, some .ErrClosedPipe) := by
  have hle : (l.index.Bytes.length : Int) ≤ k * 8 := by
    rw [Int.tdiv_eq_ediv (by omega) (by omega)] at hk
    omega
  refine ⟨CountLines_index l hidx, SeekLine_eof l k hidx hle hk', rfl, ?_, ?_, ?_⟩
  · exact Read_eq _ d _ _ _ _ (Pipe.Read_rerr _ d .EOF rfl)
  · exact indexed_Write_rerr _ p .EOF rfl
  · exact indexed_Write_rerr _ p .ErrClosedPipe rfl

/-- C13 (witness): the pipe holding `"\\nHello World\\n\\n"` and `k = 3`. -/
theorem seekLine_past_end_witness :
    helloPipe.CountLines = .ret ({ helloPipe with index := helloPipe.index.setOff 24 },
      3, none) ∧
    helloPipe.SeekLine 3 = .ret (helloPipe.afterSeekPastEnd, some .EOF) ∧
    helloPipe.afterSeekPastEnd.pipe.readIndex = 0 ∧
    helloPipe.afterSeekPastEnd.Read [0] =
      .ret ({ helloPipe.afterSeekPastEnd with
              pipe := { helloPipe.afterSeekPastEnd.pipe with rerr := some .ErrClosedPipe } },
        [0], 0, some .ErrClosedPipe) ∧
    helloPipe.afterSeekPastEnd.Write [104, 105, 10] =
      .ret ({ helloPipe.afterSeekPastEnd with
              pipe := { helloPipe.afterSeekPastEnd.pipe with werr := some .EOF } },
        0, some .EOF) ∧
    ({ helloPipe.afterSeekPastEnd with
       pipe := { helloPipe.afterSeekPastEnd.pipe with rerr := some .ErrClosedPipe } } :
        LineIndexedPipe ReadWriteSeekable ReadWriteSeekable).Write [104, 105, 10] =
      .ret ({ helloPipe.afterSeekPastEnd with
              pipe := { helloPipe.afterSeekPastEnd.pipe with rerr := some .ErrClosedPipe,
                                                             werr := some .ErrClosedPipe } },
        0, some .ErrClosedPipe) :=
  seekLine_past_end helloPipe 3 [0] [104, 105, 10]
    ⟨⟨rfl, rfl, rfl⟩, ⟨by decide, by decide, by decide, by decide⟩⟩ (by decide) (by decide)
    (by decide)

end LineIndexedPipe

/-! ## A failed `SeekLine` -/

namespace LineIndexedPipe

theorem SeekLine_frame {σ τ : Type} [ReadWriteSeeker τ] (l l' : LineIndexedPipe σ τ)
    (line : Int) (err : Option Error)
    (h : l.SeekLine line = .ret (l', err)) :
    l'.pipe.data = l.pipe.data ∧ l'.pipe.size = l.pipe.size ∧ l'.pipe.werr = l.pipe.werr ∧
      l'.lastIndex = l.lastIndex ∧
      l'.pipe.rerr = (if err ≠ none then err else l.pipe.rerr) ∧
      (err ≠ none → l'.pipe.readIndex = l.pipe.readIndex) := by
  simp only [SeekLine, Outcome.bind_eq, Outcome.pure_eq, Outcome.bind_eq_ret] at h
  obtain ⟨⟨i1, pos, e1⟩, -, ⟨l1, e2⟩, h1, h⟩ := h
  have hf : l1.pipe.data = l.pipe.data ∧ l1.pipe.size = l.pipe.size ∧
      l1.pipe.werr = l.pipe.werr ∧ l1.lastIndex = l.lastIndex ∧ l1.pipe.rerr = l.pipe.rerr ∧
      (e2 ≠ none → l1.pipe.readIndex = l.pipe.readIndex) := by
    dsimp only at h1
    split_ifs at h1 with c1
    · simp only [Outcome.ret.injEq, Prod.mk.injEq] at h1
      rw [← h1.1]
      exact ⟨rfl, rfl, rfl, rfl, rfl, fun _ => rfl⟩
    · simp only [Outcome.bind_eq_ret] at h1
      obtain ⟨⟨i2, v, e3⟩, hb, h1⟩ := h1
      cases v with
      | none =>
        simp only [Outcome.ret.injEq, Prod.mk.injEq] at h1
        rw [← h1.1]
        exact ⟨rfl, rfl, rfl, rfl, rfl, fun _ => rfl⟩
      | some v =>
        simp only [Outcome.ret.injEq, Prod.mk.injEq] at h1
        obtain ⟨rfl, rfl⟩ := h1
        refine ⟨rfl, rfl, rfl, rfl, rfl, fun hne => ?_⟩
        exfalso
        simp only [binaryRead, Outcome.bind_eq_ret] at hb
        obtain ⟨⟨i3, bs, n, e4⟩, -, hb⟩ := hb
        cases e4 with
        | none =>
          simp only [Outcome.ret.injEq, Prod.mk.injEq] at hb
          exact hne hb.2.2.symm
        | some e4 => simp at hb
  dsimp only at h
  split_ifs at h with c
  · simp only [Outcome.ret.injEq, Prod.mk.injEq] at h
    obtain ⟨rfl, rfl⟩ := h
    exact ⟨hf.1, hf.2.1, hf.2.2.1, hf.2.2.2.1, (if_pos c).symm, fun _ => hf.2.2.2.2.2 c⟩
  · simp only [Outcome.ret.injEq, Prod.mk.injEq] at h
    obtain ⟨rfl, rfl⟩ := h
    exact ⟨hf.1, hf.2.1, hf.2.2.1, hf.2.2.2.1, hf.2.2.2.2.1.trans (if_neg c).symm,
      fun hne => absurd hne c⟩

theorem SeekLineFails.seekLine {σ τ : Type} [ReadWriteSeeker τ] {l : LineIndexedPipe σ τ}
    {line : Int} {e : Error} {index : τ} (h : l.SeekLineFails line e index) :
    l.SeekLine line =
      .ret ({ l with index := index, pipe := { l.pipe with rerr := some e } }, some e) := by
  cases h with
  | seek i1 pos e h1 => simp [SeekLine, h1]
  | read i1 i2 pos n bs e h1 h2 =>
    simp only [SeekLine, binaryRead, h1, h2, Outcome.bind_eq, Outcome.pure_eq, Outcome.bind_ret]
    simp

variable {σ τ : Type} [ReadWriteSeeker σ] [ReadWriteSeeker τ]

theorem step_rerr (l l' : LineIndexedPipe σ τ) (op : Op) (ev : Event)
    (hr : l.pipe.rerr ≠ none) (h : l.step op = .ret (l', ev)) : l'.pipe.rerr ≠ none := by
  cases op with
  | read d =>
    obtain ⟨e, he⟩ := Option.ne_none_iff_exists'.mp hr
    rw [step, Read_eq l d _ _ _ _ (Pipe.Read_rerr l.pipe d e he)] at h
    simp only [Outcome.bind_ret, Outcome.ret.injEq, Prod.mk.injEq] at h
    rw [← h.1]
    simp
  | write p =>
    simp only [step, Outcome.bind_eq_ret] at h
    obtain ⟨⟨l1, n, err⟩, hw, h⟩ := h
    simp only [Outcome.ret.injEq, Prod.mk.injEq] at h
    rw [← h.1, (indexed_Write_slots l l1 p n err hw).1]
    exact hr
  | seek offset whence =>
    simp only [step, Seek, Pipe.Seek, Outcome.ret.injEq, Prod.mk.injEq] at h
    rw [← h.1]
    exact hr
  | seekLine line =>
    simp only [step, Outcome.bind_eq_ret] at h
    obtain ⟨⟨l1, err⟩, hs, h⟩ := h
    simp only [Outcome.ret.injEq, Prod.mk.injEq] at h
    rw [← h.1, (SeekLine_frame l l1 line err hs).2.2.2.2.1]
    split_ifs with c
    · exact c
    · exact hr
  | close =>
    simp only [step, Outcome.ret.injEq, Prod.mk.injEq] at h
    rw [← h.1]
    simp [close, Pipe.close]

theorem run_rerr (ops : List Op) : ∀ (l l' : LineIndexedPipe σ τ) (evs : List Event),
    l.pipe.rerr ≠ none → l.run ops = .ret (l', evs) → l'.pipe.rerr ≠ none := by
  induction ops with
  | nil =>
    intro l l' evs hr h
    simp only [run, Outcome.ret.injEq, Prod.mk.injEq] at h
    rw [← h.1]
    exact hr
  | cons op ops ih =>
    intro l l' evs hr h
    simp only [run, Outcome.bind_eq_ret] at h
    obtain ⟨⟨l1, ev⟩, hs, ⟨l2, evs2⟩, hrun, h⟩ := h
    simp only [Outcome.ret.injEq, Prod.mk.injEq] at h
    rw [← h.1]
    exact ih l1 l2 evs2 (step_rerr l l1 op ev hr hs) hrun

/-- C18: when `SeekLine` fails with `e`, at the seek of the index or at the read of the
record, it returns `e`, leaves the read index unchanged and records `e` as the read-side
error.  From then on, whatever state the index store is put in and whatever calls are made
(`Read`, `Write`, `Seek`, `SeekLine`, `close`), every `Read` returns
`(0, io.ErrClosedPipe)` without waiting and without touching its buffer, unread data or
not. -/
theorem seekLine_failure_is_permanent (l : LineIndexedPipe σ τ) (line : Int) (e : Error)
    (index : τ) (hfail : l.SeekLineFails line e index) :
    l.SeekLine line =
      .ret ({ l with index := index, pipe := { l.pipe with rerr := some e } }, some e) ∧
    ({ l with index := index, pipe := { l.pipe with rerr := some e } } :
      LineIndexedPipe σ τ).pipe.readIndex = l.pipe.readIndex ∧
    ∀ (index' : τ) (ops : List Op) (l2 : LineIndexedPipe σ τ) (evs : List Event),
      run { l with index := index', pipe := { l.pipe with rerr := some e } } ops
        = .ret (l2, evs) →
      ∀ d : List Byte, l2.Read d =
        .ret ({ l2 with pipe := { l2.pipe with rerr := some .ErrClosedPipe } }, d, 0,
          some .ErrClosedPipe) := by
  refine ⟨hfail.seekLine, rfl, fun index' ops l2 evs hrun d => ?_⟩
  have hr := run_rerr ops _ l2 evs (by simp) hrun
  obtain ⟨e2, he2⟩ := Option.ne_none_iff_exists'.mp hr
  exact Read_eq l2 d _ _ _ _ (Pipe.Read_rerr l2.pipe d e2 he2)

end LineIndexedPipe

namespace LineIndexedPipe

open Mock

/-- C18 (witness): `TestWriteReadIndexedPipe`: with the index seek failing, `SeekLine(1)`
returns `errUnseekable` and leaves the read index at 0; with the index store working again,
after a `Seek` to the start of the 14 unread bytes, `Read` returns
`(0, io.ErrClosedPipe)`. -/
theorem seekLine_failure_is_permanent_witness :
    helloUnseekable.SeekLine 1 =
      .ret ({ helloUnseekable with
              pipe := { helloUnseekable.pipe with rerr := some errUnseekable } },
        some errUnseekable) ∧
    helloUnseekable.pipe.readIndex = 0 ∧ helloUnseekable.pipe.size = 14 ∧
    ({ helloPipe with pipe := { helloPipe.pipe with rerr := some errUnseekable } } :
      LineIndexedPipe ReadWriteSeekable ReadWriteSeekable).Read helloWorld =
      .ret ({ helloPipe with pipe := { helloPipe.pipe with rerr := some .ErrClosedPipe } },
        helloWorld, 0, some .ErrClosedPipe) :=
  have h := seekLine_failure_is_permanent helloUnseekable 1 errUnseekable
    helloUnseekable.index (.seek _ 0 _ rfl)
  ⟨h.1, rfl, rfl, h.2.2 helloPipe.index [.seek 0 SEEK_SET] _ _ rfl helloWorld⟩

end LineIndexedPipe

/-! ## The index holds whole records -/

namespace Mock

theorem ReadWriteSeekable.store_Read_total (s : ReadWriteSeekable) (d : List Byte)
    (h : s.Good) :
    ∃ (s' : ReadWriteSeekable) (d' : List Byte) (n : Int) (e : Option Error),
      ReadWriteSeeker.Read s d = .ret (s', d', n, e) ∧ s'.Good ∧ s'.Bytes = s.Bytes := by
  by_cases hlt : s.off < (s.blen : Int)
  · have h0 := h.wf.off_nonneg
    exact ⟨_, _, _, _, ReadWriteSeekable.store_Read_good s d h hlt,
      s.setOff_good h _ (by omega) (by simp; omega), rfl⟩
  · exact ⟨_, _, _, _, ReadWriteSeekable.store_Read_eof s d h (by omega), h, rfl⟩

theorem readAtLeast_total (min : Int) (fuel : Nat) :
    ∀ (s : ReadWriteSeekable) (buf : List Byte) (n : Int) (err : Option Error)
      (r : ReadWriteSeekable × List Byte × Int × Option Error),
      s.Good → readAtLeastLoop min fuel s buf n err = .ret r →
      r.1.Good ∧ r.1.Bytes = s.Bytes := by
  induction fuel with
  | zero =>
    intro s buf n err r hg h
    unfold readAtLeastLoop at h
    split_ifs at h
    simp only [Outcome.ret.injEq] at h
    rw [← h]
    exact ⟨hg, rfl⟩
  | succ fuel ih =>
    intro s buf n err r hg h
    unfold readAtLeastLoop at h
    split_ifs at h with c1 c2
    · obtain ⟨s', d', n', e', hr, hg', hb'⟩ :=
        ReadWriteSeekable.store_Read_total s (buf.drop n.toNat) hg
      rw [hr] at h
      simp only [Outcome.bind_ret] at h
      obtain ⟨h1, h2⟩ := ih s' _ _ _ r hg' h
      exact ⟨h1, h2.trans hb'⟩
    · simp only [Outcome.ret.injEq] at h
      rw [← h]
      exact ⟨hg, rfl⟩

theorem binaryRead_total (s s' : ReadWriteSeekable) (v : Option Int) (e : Option Error)
    (h : s.Good) (hr : binaryRead s = .ret (s', v, e)) : s'.Good ∧ s'.Bytes = s.Bytes := by
  simp only [binaryRead, ReadFull, Outcome.bind_eq_ret] at hr
  obtain ⟨⟨s1, bs, n, e1⟩, ⟨⟨s2, bs2, n2, e2⟩, hloop, hfull⟩, hr⟩ := hr
  have h2 := readAtLeast_total _ _ s _ _ _ _ h hloop
  have h12 : s1 = s2 := by
    dsimp only at hfull
    split_ifs at hfull <;>
      · simp only [Outcome.ret.injEq, Prod.mk.injEq] at hfull
        exact hfull.1.symm
  have h1' : s' = s1 := by
    cases e1 <;>
      · simp only [Outcome.ret.injEq, Prod.mk.injEq] at hr
        exact hr.1.symm
  rw [h1', h12]
  exact h2

end Mock

theorem length_splitLines_le (p : List Byte) : (splitLines p).length ≤ p.length := by
  induction p with
  | nil => simp [splitLines]
  | cons b bs ih =>
    unfold splitLines
    split_ifs with c
    · simp only [List.length_cons]
      omega
    · cases hs : splitLines bs with
      | nil => simp
      | cons t ts =>
        rw [hs] at ih
        simp only [List.length_cons] at ih ⊢
        omega

theorem length_scanTokens_le (p : List Byte) : (scanTokens p).length ≤ p.length :=
  le_trans (List.takeWhile_sublist _).length_le (length_splitLines_le p)

namespace LineIndexedPipe

open Mock

variable {σ : Type} [ReadWriteSeeker σ]

theorem writeIndex_whole (l l' : LineIndexedPipe σ ReadWriteSeekable) (err : Option Error)
    (h : l.Whole) (hfit : (l.index.Bytes.length : Int) + 8 < 9223372036854775808)
    (hret : l.writeIndex = .ret (l', err)) :
    l'.Whole ∧ l'.index.Bytes.length = l.index.Bytes.length + 8 := by
  obtain ⟨hi, h8⟩ := h
  have hlen := l.index.length_Bytes hi
  have hg1 := l.index.setOff_good hi l.index.blen (by omega) (by simp)
  obtain ⟨idx, e, hg, hb, -⟩ := binaryWrite_good (l.index.setOff l.index.blen) l.lastIndex hg1
    rfl (by simp; omega)
  have hl : idx.Bytes.length = l.index.Bytes.length + 8 := by
    rw [hb, List.length_append, length_putInt64LE]
    rfl
  simp only [writeIndex, ReadWriteSeekable.Seek_end_good _ hi, e, Pipe.syncWriter_mock,
    Outcome.bind_eq, Outcome.pure_eq, Outcome.bind_ret, ne_eq, not_true_eq_false, if_false,
    Outcome.bind_eq_ret] at hret
  obtain ⟨⟨d1, last, e4⟩, -, hret⟩ := hret
  simp only [Outcome.ret.injEq, Prod.mk.injEq] at hret
  rw [← hret.1]
  exact ⟨⟨hg, by rw [hl]; omega⟩, hl⟩

theorem writeToken_whole (l l' : LineIndexedPipe σ ReadWriteSeekable) (t : List Byte)
    (n n' : Int) (err : Option Error)
    (h : l.Whole) (hfit : (l.index.Bytes.length : Int) + 8 < 9223372036854775808)
    (hret : l.writeToken t n = .ret (l', n', err)) :
    l'.Whole ∧ l'.index.Bytes.length ≤ l.index.Bytes.length + 8 := by
  simp only [writeToken, Outcome.bind_eq_ret] at hret
  obtain ⟨⟨d', wn, e1⟩, -, hret⟩ := hret
  dsimp only at hret
  split_ifs at hret with c1
  · simp only [Outcome.ret.injEq, Prod.mk.injEq] at hret
    rw [← hret.1]
    exact ⟨⟨h.index_good, h.whole⟩, by simp⟩
  · cases hg : t.getLast? with
    | none => simp [hg] at hret
    | some c =>
      simp only [hg, Outcome.bind_eq_ret] at hret
      obtain ⟨⟨l2, e2⟩, hidx, hret⟩ := hret
      have hs : l2.Whole ∧ l2.index.Bytes.length ≤ l.index.Bytes.length + 8 := by
        split_ifs at hidx with c3
        · obtain ⟨h1, h2⟩ := writeIndex_whole _ l2 _
            (⟨h.index_good, h.whole⟩ : ({ l with pipe := { l.pipe with data := d' } } :
              LineIndexedPipe σ ReadWriteSeekable).Whole) hfit hidx
          exact ⟨h1, le_of_eq h2⟩
        · simp only [Outcome.ret.injEq, Prod.mk.injEq] at hidx
          rw [← hidx.1]
          exact ⟨⟨h.index_good, h.whole⟩, by simp⟩
      dsimp only at hret
      split_ifs at hret with c2
      · simp only [Outcome.ret.injEq, Prod.mk.injEq] at hret
        rw [← hret.1]
        exact hs
      · simp only [Outcome.ret.injEq, Prod.mk.injEq] at hret
        rw [← hret.1]
        exact ⟨⟨hs.1.index_good, hs.1.whole⟩, hs.2⟩

theorem writeTokens_whole (toks : List (List Byte)) (e : Option Error) :
    ∀ (l l' : LineIndexedPipe σ ReadWriteSeekable) (n n' : Int) (err : Option Error),
      l.Whole → (l.index.Bytes.length : Int) + 8 * toks.length < 9223372036854775808 →
      writeTokens toks e l n = .ret (l', n', err) →
      l'.Whole ∧ l'.index.Bytes.length ≤ l.index.Bytes.length + 8 * toks.length := by
  induction toks with
  | nil =>
    intro l l' n n' err h _ hret
    simp only [writeTokens, Outcome.ret.injEq, Prod.mk.injEq] at hret
    rw [← hret.1]
    exact ⟨h, by simp⟩
  | cons t ts ih =>
    intro l l' n n' err h hfit hret
    simp only [List.length_cons] at hfit ⊢
    push_cast at hfit
    simp only [writeTokens, Outcome.bind_eq_ret] at hret
    obtain ⟨⟨l1, n1, e1⟩, ht, hret⟩ := hret
    obtain ⟨h1, hl1⟩ := writeToken_whole l l1 t n n1 e1 h (by omega) ht
    dsimp only at hret
    split_ifs at hret with c
    · simp only [Outcome.ret.injEq, Prod.mk.injEq] at hret
      rw [← hret.1]
      exact ⟨h1, by omega⟩
    · obtain ⟨h2, hl2⟩ := ih l1 l' n1 n' err h1 (by omega) hret
      exact ⟨h2, by omega⟩

theorem Write_whole (l l' : LineIndexedPipe σ ReadWriteSeekable) (p : List Byte) (n : Int)
    (err : Option Error) (h : l.Whole)
    (hfit : (l.index.Bytes.length : Int) + 8 * p.length < 9223372036854775808)
    (hret : l.Write p = .ret (l', n, err)) :
    l'.Whole ∧ l'.index.Bytes.length ≤ l.index.Bytes.length + 8 * p.length := by
  simp only [Write, Outcome.bind_eq, Outcome.pure_eq, Outcome.bind_eq_ret] at hret
  obtain ⟨⟨l1, n1, e1⟩, hl, hret⟩ := hret
  have h1 : l1.Whole ∧ l1.index.Bytes.length ≤ l.index.Bytes.length + 8 * p.length := by
    rw [writeLocked_eq] at hl
    split_ifs at hl with c1 c2
    · simp only [Outcome.ret.injEq, Prod.mk.injEq] at hl
      rw [← hl.1]
      exact ⟨h, by simp⟩
    · simp only [Outcome.ret.injEq, Prod.mk.injEq] at hl
      rw [← hl.1]
      exact ⟨h, by simp⟩
    · simp only [Outcome.bind_eq_ret] at hl
      obtain ⟨⟨d1, pos, e2⟩, -, hl⟩ := hl
      dsimp only at hl
      split_ifs at hl with c3
      · simp only [Outcome.ret.injEq, Prod.mk.injEq] at hl
        rw [← hl.1]
        exact ⟨⟨h.index_good, h.whole⟩, by simp⟩
      · have hle := length_scanTokens_le p
        obtain ⟨h2, hl2⟩ := writeTokens_whole (scanTokens p) (scanErr p)
          ({ l with pipe := { l.pipe with data := d1 } } : LineIndexedPipe σ ReadWriteSeekable)
          l1 0 n1 e1 ⟨h.index_good, h.whole⟩ (by simp only; omega) hl
        exact ⟨h2, by simp only at hl2; omega⟩
  dsimp only at hret
  split_ifs at hret with c
  · simp only [Outcome.ret.injEq, Prod.mk.injEq] at hret
    rw [← hret.1]
    exact ⟨⟨h1.1.index_good, h1.1.whole⟩, h1.2⟩
  · simp only [Outcome.ret.injEq, Prod.mk.injEq] at hret
    rw [← hret.1]
    exact h1

end LineIndexedPipe

namespace LineIndexedPipe

open Mock

theorem SeekLine_whole {σ : Type} (l l' : LineIndexedPipe σ ReadWriteSeekable) (line : Int)
    (err : Option Error) (h : l.Whole) (hret : l.SeekLine line = .ret (l', err)) :
    l'.Whole ∧ l'.index.Bytes = l.index.Bytes := by
  obtain ⟨o, e1, h0, h1⟩ :=
    ReadWriteSeekable.Seek_good l.index h.index_good (wrap64 (line * int64Size)) SEEK_SET
  have hg := l.index.setOff_good h.index_good o h0 h1
  simp only [SeekLine, e1, Outcome.bind_eq, Outcome.pure_eq, Outcome.bind_ret, ne_eq,
    not_true_eq_false, if_false, Outcome.bind_eq_ret] at hret
  obtain ⟨⟨l1, e2⟩, ⟨⟨i2, v, e3⟩, hb, hl1⟩, hret⟩ := hret
  obtain ⟨hg2, hb2⟩ := binaryRead_total _ i2 v e3 hg hb
  have h1 : l1.index = i2 := by
    cases v <;>
      · simp only [Outcome.ret.injEq, Prod.mk.injEq] at hl1
        rw [← hl1.1]
  have h2 : l'.index = l1.index := by
    dsimp only at hret
    split_ifs at hret <;>
      · simp only [Outcome.ret.injEq, Prod.mk.injEq] at hret
        rw [← hret.1]
  have hbytes : l'.index.Bytes = l.index.Bytes := by
    rw [h2, h1, hb2]
    rfl
  refine ⟨⟨?_, ?_⟩, hbytes⟩
  · rw [h2, h1]
    exact hg2
  · rw [hbytes]
    exact h.whole

variable {σ : Type} [ReadWriteSeeker σ]

theorem step_whole (l l' : LineIndexedPipe σ ReadWriteSeekable) (op : Op) (ev : Event)
    (h : l.Whole)
    (hfit : (l.index.Bytes.length : Int) + 8 * Op.asked [op] < 9223372036854775808)
    (hret : l.step op = .ret (l', ev)) :
    l'.Whole ∧ l'.index.Bytes.length ≤ l.index.Bytes.length + 8 * Op.asked [op] := by
  cases op with
  | read d =>
    simp only [step, Read, Outcome.bind_eq, Outcome.pure_eq, Outcome.bind_eq_ret] at hret
    obtain ⟨⟨l1, d1, n1, e1⟩, ⟨⟨pipe, d2, n2, e2⟩, -, h1⟩, hret⟩ := hret
    simp only [Outcome.ret.injEq, Prod.mk.injEq] at h1 hret
    rw [← hret.1, ← h1.1]
    exact ⟨⟨h.index_good, h.whole⟩, by simp⟩
  | write p =>
    simp only [step, Outcome.bind_eq_ret] at hret
    obtain ⟨⟨l1, n, err⟩, hw, hret⟩ := hret
    simp only [Outcome.ret.injEq, Prod.mk.injEq] at hret
    rw [← hret.1]
    simp only [Op.asked, Nat.add_zero] at hfit ⊢
    exact Write_whole l l1 p n err h hfit hw
  | seek offset whence =>
    simp only [step, Seek, Pipe.Seek, Outcome.ret.injEq, Prod.mk.injEq] at hret
    rw [← hret.1]
    exact ⟨⟨h.index_good, h.whole⟩, by simp⟩
  | seekLine line =>
    simp only [step, Outcome.bind_eq_ret] at hret
    obtain ⟨⟨l1, err⟩, hs, hret⟩ := hret
    simp only [Outcome.ret.injEq, Prod.mk.injEq] at hret
    rw [← hret.1]
    obtain ⟨h1, h2⟩ := SeekLine_whole l l1 line err h hs
    exact ⟨h1, by rw [h2]; simp⟩
  | close =>
    simp only [step, Outcome.ret.injEq, Prod.mk.injEq] at hret
    rw [← hret.1]
    exact ⟨⟨h.index_good, h.whole⟩, by simp [close]⟩

theorem Op.asked_cons (op : Op) (ops : List Op) :
    Op.asked (op :: ops) = Op.asked [op] + Op.asked ops := by
  cases op <;> simp [Op.asked]

theorem run_whole (ops : List Op) : ∀ (l l' : LineIndexedPipe σ ReadWriteSeekable)
    (evs : List Event), l.Whole →
    (l.index.Bytes.length : Int) + 8 * Op.asked ops < 9223372036854775808 →
    l.run ops = .ret (l', evs) → l'.Whole := by
  induction ops with
  | nil =>
    intro l l' evs h _ hret
    simp only [run, Outcome.ret.injEq, Prod.mk.injEq] at hret
    rw [← hret.1]
    exact h
  | cons op ops ih =>
    intro l l' evs h hfit hret
    rw [Op.asked_cons] at hfit
    push_cast at hfit
    simp only [run, Outcome.bind_eq_ret] at hret
    obtain ⟨⟨l1, ev⟩, hs, ⟨l2, evs2⟩, hrun, hret⟩ := hret
    simp only [Outcome.ret.injEq, Prod.mk.injEq] at hret
    rw [← hret.1]
    obtain ⟨h1, hl1⟩ := step_whole l l1 op ev h (by omega) hs
    exact ih l1 l2 evs2 h1 (by omega) hrun

/-- C12: let the index store of a line-indexed pipe be a mock store without overrides (it
never writes short) whose length is a multiple of 8, and let the data store be any store.
After any sequence of `Write`, `Read`, `Seek`, `SeekLine` and `close` calls that have
returned, with or without an error, `IndexSize()` returns a multiple of 8 and `CountLines()`
returns that size divided by 8. -/
theorem index_size_is_whole (l l' : LineIndexedPipe σ ReadWriteSeekable) (ops : List Op)
    (evs : List Event) (hidx : l.index.Good) (hwhole : l.index.Bytes.length % 8 = 0)
    (hfit : (l.index.Bytes.length : Int) + 8 * Op.asked ops < 9223372036854775808)
    (hrun : l.run ops = .ret (l', evs)) :
    ∃ (size count : Int) (after : LineIndexedPipe σ ReadWriteSeekable),
      l'.IndexSize = .ret (after, size, none) ∧
      l'.CountLines = .ret (after, count, none) ∧
      size % 8 = 0 ∧ count = size.tdiv 8 ∧ size = 8 * count ∧
      size = (l'.index.Bytes.length : Int) := by
  obtain ⟨hg, h8⟩ := run_whole ops l l' evs ⟨hidx, hwhole⟩ hfit hrun
  have hlen := l'.index.length_Bytes hg
  refine ⟨l'.index.Bytes.length, (l'.index.Bytes.length : Int).tdiv 8,
    { l' with index := l'.index.setOff l'.index.blen }, ?_, CountLines_index l' hg,
    by omega, rfl, ?_, rfl⟩
  · simp [IndexSize, ReadWriteSeekable.Seek_end_good _ hg, hlen]
  · rw [Int.tdiv_eq_ediv (by omega) (by omega)]
    omega

end LineIndexedPipe

namespace LineIndexedPipe

open Mock

/-- C12 (witness): on a new pipe over two empty stores: `Write("\\nHello World\\n\\n")`,
`SeekLine(1)`, a `Read`, a `Seek`, `SeekLine(7)` (which fails) and a `Write` (which fails);
afterwards `IndexSize()` is 24 and `CountLines()` is 3. -/
theorem index_size_is_whole_witness :
    ∃ (l' : LineIndexedPipe ReadWriteSeekable ReadWriteSeekable) (evs : List Event),
      emptyPipe.run [.write helloWorld, .seekLine 1, .read [0, 0, 0], .seek 0 SEEK_SET,
        .seekLine 7, .write [104, 105, 10]] = .ret (l', evs) ∧
      evs = [.io (.write 14 none), .seekLine none, .io (.read [72, 101, 108] 3 none),
        .io (.seek 0 none), .seekLine (some .EOF), .io (.write 0 (some .EOF))] ∧
      l'.index.Bytes.length = 24 ∧
      ∃ (size count : Int) (after : LineIndexedPipe ReadWriteSeekable ReadWriteSeekable),
        l'.IndexSize = .ret (after, size, none) ∧
        l'.CountLines = .ret (after, count, none) ∧
        size % 8 = 0 ∧ count = size.tdiv 8 ∧ size = 8 * count ∧
        size = (l'.index.Bytes.length : Int) :=
  ⟨_, _, rfl, rfl, rfl,
    index_size_is_whole emptyPipe _ [.write helloWorld, .seekLine 1, .read [0, 0, 0],
      .seek 0 SEEK_SET, .seekLine 7, .write [104, 105, 10]] _ zeroValue_good rfl
      (by decide) rfl⟩

end LineIndexedPipe

/-! ## A pipe constructed over stores that already hold lines -/

namespace LineIndexedPipe

open Mock

/-- C11 (what the code does at a restart): for a line-indexed pipe constructed over mock
stores without overrides that already hold data and index records, the first `Write` of a
complete line succeeds and appends the line to the data store, and the record it appends
to the index is 0, whatever the data length at construction: `NewLineIndexedPipe` reads
the size back from the data store but starts the line boundary at 0. -/
theorem restart_record_is_zero (data index : ReadWriteSeekable) (line : List Byte)
    (hd : data.Good) (hi : index.Good) (hnl : newline ∉ line)
    (hlen : line.length + 1 ≤ MaxScanTokenSize)
    (hroom : data.buf ≠ none ∨ line.length + 1 ≤ 64)
    (hD : (data.Bytes.length : Int) + (line.length + 1 : Nat) < 9223372036854775808)
    (hI : (index.Bytes.length : Int) + 8 * (line.length + 1 : Nat) < 9223372036854775808) :
    ∃ l l' : LineIndexedPipe ReadWriteSeekable ReadWriteSeekable,
      NewLineIndexedPipe data index = .ret l ∧
      l.pipe.DataSize = ((data.Bytes.length : Int), none) ∧
      l.Write (line ++ [newline]) = .ret (l', ((line.length + 1 : Nat) : Int), none) ∧
      l'.pipe.data.Bytes = data.Bytes ++ (line ++ [newline]) ∧
      l'.index.Bytes = index.Bytes ++ putInt64LE 0 := by
  obtain ⟨pipe, e, hok, hopen, -, hbytes, hbuf⟩ := Pipe.NewPipe_ok data hd
  have hsplit : splitLines (line ++ [newline]) = [line ++ [newline]] := by
    have := splitLines_line line [] hnl
    simpa [splitLines] using this
  have hfit : LinesFit (line ++ [newline]) := by
    intro t ht
    rw [hsplit, List.mem_singleton] at ht
    rw [ht, tokenFits_line]
    exact decide_eq_true hlen
  have hl : (line ++ [newline]).length = line.length + 1 := by simp
  obtain ⟨l', e2, hw⟩ := Write_fits ⟨pipe, index, 0⟩ (line ++ [newline])
    ⟨hok.good, hi, hok.size_eq⟩ hopen hfit
    (by
      rw [hsplit]
      simp only [hbuf, List.head?_cons, Option.mem_def, Option.some.injEq, forall_eq', hl]
      exact hroom)
    (by simp only [hbytes, hl]; exact hD) (by simp only [hl]; exact hI)
  refine ⟨⟨pipe, index, 0⟩, l', by simp [NewLineIndexedPipe, e], ?_, ?_, ?_, ?_⟩
  · simp [Pipe.DataSize, hok.size_eq, hbytes]
  · rw [e2, hl]
  · rw [hw.data_bytes, hbytes]
  · rw [hw.index_bytes, (records_line 0 _ line hnl).1]
    simp [encodeRecords]

/-- C11 (failing input): an earlier pipe wrote the line `"a\\n"`; a pipe constructed over the
stores it left (2 data bytes, the record 0) has `DataSize()` 2, and its first `Write`, of
`"b\\n"`, appends the record 0 although that line starts at offset 2: the index then holds
the records 0, 0 where the line starts are 0, 2. -/
theorem restart_record_is_zero_witness :
    (∃ l l' : LineIndexedPipe ReadWriteSeekable ReadWriteSeekable,
      NewLineIndexedPipe (NewReadWriteSeekable [97, 10])
          (NewReadWriteSeekable [0, 0, 0, 0, 0, 0, 0, 0]) = .ret l ∧
      l.pipe.DataSize = (((NewReadWriteSeekable [97, 10]).Bytes.length : Int), none) ∧
      l.Write ([98] ++ [newline]) = .ret (l', ((([98] : List Byte).length + 1 : Nat) : Int), none) ∧
      l'.pipe.data.Bytes = (NewReadWriteSeekable [97, 10]).Bytes ++ ([98] ++ [newline]) ∧
      l'.index.Bytes = (NewReadWriteSeekable [0, 0, 0, 0, 0, 0, 0, 0]).Bytes ++ putInt64LE 0) ∧
    (∃ l0 : LineIndexedPipe ReadWriteSeekable ReadWriteSeekable,
      emptyPipe.Write [97, 10] = .ret (l0, 2, none) ∧
      l0.pipe.data.Bytes = [97, 10] ∧ l0.index.Bytes = [0, 0, 0, 0, 0, 0, 0, 0]) ∧
    (NewReadWriteSeekable [0, 0, 0, 0, 0, 0, 0, 0]).Bytes ++ putInt64LE 0
      = encodeRecords [0, 0] ∧
    lineStarts [97, 10, 98, 10] = [0, 2] :=
  ⟨restart_record_is_zero (NewReadWriteSeekable [97, 10])
      (NewReadWriteSeekable [0, 0, 0, 0, 0, 0, 0, 0]) [98]
      (NewReadWriteSeekable_good _ (by decide)) (NewReadWriteSeekable_good _ (by decide))
      (by decide) (by decide) (Or.inl (by decide)) (by decide) (by decide),
    ⟨_, rfl, rfl, rfl⟩, rfl, rfl⟩

end LineIndexedPipe

/-! ## The data store's barrier during a line-indexed `Write` -/

namespace Mock

theorem SyncProbe.Write_synced (s s' : SyncProbe) (b : List Byte) (n : Int)
    (e : Option Error) (h : ReadWriteSeeker.Write s b = .ret (s', n, e)) :
    s'.synced = s.synced := by
  change (s.rws.Write b).bind _ = _ at h
  simp only [Outcome.bind_eq_ret] at h
  obtain ⟨⟨r, n1, e1⟩, -, h⟩ := h
  simp only [Outcome.ret.injEq, Prod.mk.injEq] at h
  rw [← h.1]

theorem SyncProbe.Seek_synced (s s' : SyncProbe) (o w n : Int)
    (e : Option Error) (h : ReadWriteSeeker.Seek s o w = .ret (s', n, e)) :
    s'.synced = s.synced := by
  change (s.rws.Seek o w).bind _ = _ at h
  simp only [Outcome.bind_eq_ret] at h
  obtain ⟨⟨r, n1, e1⟩, -, h⟩ := h
  simp only [Outcome.ret.injEq, Prod.mk.injEq] at h
  rw [← h.1]

end Mock

namespace LineIndexedPipe

open Mock

variable {τ : Type} [ReadWriteSeeker τ]

theorem writeIndex_synced (l l' : LineIndexedPipe SyncProbe τ) (err : Option Error)
    (h : l.writeIndex = .ret (l', err)) : l'.pipe.data.synced = l.pipe.data.synced := by
  simp only [writeIndex, Outcome.bind_eq, Outcome.pure_eq, Outcome.bind_eq_ret] at h
  obtain ⟨⟨i1, pos, e1⟩, -, h⟩ := h
  dsimp only at h
  split_ifs at h with c1
  · simp only [Outcome.ret.injEq, Prod.mk.injEq] at h
    rw [← h.1]
  · simp only [Outcome.bind_eq_ret] at h
    obtain ⟨⟨i2, e2⟩, -, h⟩ := h
    dsimp only at h
    split_ifs at h with c2
    · simp only [Outcome.ret.injEq, Prod.mk.injEq] at h
      rw [← h.1]
    · simp only [Outcome.bind_eq_ret] at h
      obtain ⟨⟨i3, e3⟩, -, h⟩ := h
      dsimp only at h
      split_ifs at h with c3
      · simp only [Outcome.ret.injEq, Prod.mk.injEq] at h
        rw [← h.1]
      · simp only [Outcome.bind_eq_ret] at h
        obtain ⟨⟨d1, last, e4⟩, hseek, h⟩ := h
        simp only [Outcome.ret.injEq, Prod.mk.injEq] at h
        rw [← h.1]
        exact SyncProbe.Seek_synced _ _ _ _ _ _ hseek

theorem writeToken_synced (l l' : LineIndexedPipe SyncProbe τ) (t : List Byte) (n n' : Int)
    (err : Option Error) (h : l.writeToken t n = .ret (l', n', err)) :
    l'.pipe.data.synced = l.pipe.data.synced := by
  simp only [writeToken, Outcome.bind_eq_ret] at h
  obtain ⟨⟨d', wn, e1⟩, hwrite, h⟩ := h
  have hd := SyncProbe.Write_synced _ _ _ _ _ hwrite
  dsimp only at h
  split_ifs at h with c1
  · simp only [Outcome.ret.injEq, Prod.mk.injEq] at h
    rw [← h.1]
    exact hd
  · cases hg : t.getLast? with
    | none => simp [hg] at h
    | some c =>
      simp only [hg, Outcome.bind_eq_ret] at h
      obtain ⟨⟨l2, e2⟩, hidx, h⟩ := h
      have hs : l2.pipe.data.synced = l.pipe.data.synced := by
        split_ifs at hidx with c3
        · exact (writeIndex_synced _ l2 _ hidx).trans hd
        · simp only [Outcome.ret.injEq, Prod.mk.injEq] at hidx
          rw [← hidx.1]
          exact hd
      dsimp only at h
      split_ifs at h with c2
      · simp only [Outcome.ret.injEq, Prod.mk.injEq] at h
        rw [← h.1]
        exact hs
      · simp only [Outcome.ret.injEq, Prod.mk.injEq] at h
        rw [← h.1]
        exact hs

theorem writeTokens_synced (toks : List (List Byte)) (e : Option Error) :
    ∀ (l l' : LineIndexedPipe SyncProbe τ) (n n' : Int) (err : Option Error),
      writeTokens toks e l n = .ret (l', n', err) →
      l'.pipe.data.synced = l.pipe.data.synced := by
  induction toks with
  | nil =>
    intro l l' n n' err h
    simp only [writeTokens, Outcome.ret.injEq, Prod.mk.injEq] at h
    rw [← h.1]
  | cons t ts ih =>
    intro l l' n n' err h
    simp only [writeTokens, Outcome.bind_eq_ret] at h
    obtain ⟨⟨l1, n1, e1⟩, ht, h⟩ := h
    have h1 := writeToken_synced l l1 t n n1 e1 ht
    dsimp only at h
    split_ifs at h with c
    · simp only [Outcome.ret.injEq, Prod.mk.injEq] at h
      rw [← h.1]
      exact h1
    · rw [ih l1 l' n1 n' err h, h1]

/-- C20 (what the code does): over a data store with a durability barrier that counts its
calls, a line-indexed `Write` that returns, with or without an error and whatever index
records it has appended, leaves the count as it was: `LineIndexedPipe.Write` writes the data
with the store's `Write` alone and never calls the data store's `Sync`. -/
theorem indexed_write_never_syncs_data (l l' : LineIndexedPipe SyncProbe τ) (p : List Byte)
    (n : Int) (err : Option Error) (h : l.Write p = .ret (l', n, err)) :
    l'.pipe.data.synced = l.pipe.data.synced := by
  simp only [Write, Outcome.bind_eq, Outcome.pure_eq, Outcome.bind_eq_ret] at h
  obtain ⟨⟨l1, n1, e1⟩, hl, h⟩ := h
  have h1 : l1.pipe.data.synced = l.pipe.data.synced := by
    rw [writeLocked_eq] at hl
    split_ifs at hl with c1 c2
    · simp only [Outcome.ret.injEq, Prod.mk.injEq] at hl
      rw [← hl.1]
    · simp only [Outcome.ret.injEq, Prod.mk.injEq] at hl
      rw [← hl.1]
    · simp only [Outcome.bind_eq_ret] at hl
      obtain ⟨⟨d1, pos, e2⟩, hseek, hl⟩ := hl
      have hd := SyncProbe.Seek_synced _ _ _ _ _ _ hseek
      dsimp only at hl
      split_ifs at hl with c3
      · simp only [Outcome.ret.injEq, Prod.mk.injEq] at hl
        rw [← hl.1]
        exact hd
      · exact (writeTokens_synced _ _ _ l1 _ _ _ hl).trans hd
  dsimp only at h
  split_ifs at h with c
  · simp only [Outcome.ret.injEq, Prod.mk.injEq] at h
    rw [← h.1]
    exact h1
  · simp only [Outcome.ret.injEq, Prod.mk.injEq] at h
    rw [← h.1]
    exact h1

end LineIndexedPipe

namespace LineIndexedPipe

open Mock

/-- C20 (failing input): `"\\nHello World\\n\\n"` written to a new line-indexed pipe over
two counting stores: the records 0, 1 and 13 are appended and the index store's barrier is
called three times, while the data store's barrier is not called at all, so the records 1
and 13 point behind data bytes no barrier call followed.  The same bytes written through
`Pipe.Write` call the data store's barrier once. -/
theorem indexed_write_never_syncs_data_witness :
    ∃ (l' : LineIndexedPipe SyncProbe SyncProbe) (b' : Pipe SyncProbe),
      (⟨⟨probe, 0, 0, none, none⟩, probe, 0⟩ : LineIndexedPipe SyncProbe SyncProbe).Write
        helloWorld = .ret (l', 14, none) ∧
      l'.pipe.data.synced = probe.synced ∧
      l'.pipe.data.rws.Bytes = helloWorld ∧
      l'.index.rws.Bytes = encodeRecords [0, 1, 13] ∧
      l'.index.synced = 3 ∧
      (⟨probe, 0, 0, none, none⟩ : Pipe SyncProbe).Write helloWorld = .ret (b', 14, none) ∧
      b'.data.synced = 1 :=
  ⟨_, _, rfl,
    indexed_write_never_syncs_data
      (⟨⟨probe, 0, 0, none, none⟩, probe, 0⟩ : LineIndexedPipe SyncProbe SyncProbe) _
      helloWorld 14 none rfl,
    rfl, rfl, rfl, rfl, rfl⟩

end LineIndexedPipe

/-! ## `close` twice, and `Seek` with any argument -/

/-- C23: `close` is idempotent on the base pipe and on the line-indexed pipe: the state after
two calls is the state after one, in which both error slots hold `io.ErrClosedPipe`; the
size, the read index, the stores and the line boundary are those of the state before. -/
theorem close_idempotent {σ τ : Type} [ReadWriteSeeker σ] [ReadWriteSeeker τ]
    (l : Pipe σ) (li : LineIndexedPipe σ τ) :
    (l.close.close = l.close ∧
      l.close.rerr = some .ErrClosedPipe ∧ l.close.werr = some .ErrClosedPipe ∧
      l.close.size = l.size ∧ l.close.readIndex = l.readIndex ∧ l.close.data = l.data) ∧
    (li.close.close = li.close ∧
      li.close.pipe.rerr = some .ErrClosedPipe ∧ li.close.pipe.werr = some .ErrClosedPipe ∧
      li.close.pipe.size = li.pipe.size ∧ li.close.pipe.readIndex = li.pipe.readIndex ∧
      li.close.pipe.data = li.pipe.data ∧ li.close.index = li.index ∧
      li.close.lastIndex = li.lastIndex) :=
  ⟨⟨rfl, rfl, rfl, rfl, rfl, rfl⟩, ⟨rfl, rfl, rfl, rfl, rfl, rfl, rfl, rfl⟩⟩

namespace Pipe

theorem Seek_within {σ : Type} (l : Pipe σ) (offset whence : Int) (hsize : 0 ≤ l.size) :
    ∃ pos : Int, l.Seek offset whence = ({ l with readIndex := pos }, pos, none) ∧
      0 ≤ pos ∧ pos ≤ l.size := by
  refine ⟨_, rfl, ?_, ?_⟩ <;> dsimp only <;> split_ifs <;> omega

/-- C26: on a pipe with `size ≥ 0`, for every offset and every value of `whence` (the three
origins or any other number, with or without wrap-around of `readIndex + offset` or
`size - offset`), `Seek` returns a nil error and a position within `[0, size]`, which is the
new read index; nothing else changes. -/
theorem seek_never_leaves_range {σ : Type} (l : Pipe σ) (offset whence : Int) (hsize : 0 ≤ l.size) :
    ∃ pos : Int, l.Seek offset whence = ({ l with readIndex := pos }, pos, none) ∧
      0 ≤ pos ∧ pos ≤ l.size :=
  Seek_within l offset whence hsize

/-- C26 (witness): read index 5, size 13: `Seek(2^63 - 1, current)` wraps around to a
negative position and gives 0, `Seek(-2^63, end)` wraps around as well and gives 0, and
`Seek(99, 7)` with the unknown origin 7 leaves the read index at 5. -/
theorem seek_never_leaves_range_witness :
    (∃ pos : Int, (⟨Mock.zeroValue, 5, 13, none, none⟩ : Pipe Mock.ReadWriteSeekable).Seek
        9223372036854775807 SEEK_CUR
        = ({ (⟨Mock.zeroValue, 5, 13, none, none⟩ : Pipe Mock.ReadWriteSeekable) with
             readIndex := pos }, pos, none) ∧ 0 ≤ pos ∧ pos ≤ 13) ∧
    (⟨Mock.zeroValue, 5, 13, none, none⟩ : Pipe Mock.ReadWriteSeekable).Seek
        9223372036854775807 SEEK_CUR = (⟨Mock.zeroValue, 0, 13, none, none⟩, 0, none) ∧
    (⟨Mock.zeroValue, 5, 13, none, none⟩ : Pipe Mock.ReadWriteSeekable).Seek
        (-9223372036854775808) SEEK_END = (⟨Mock.zeroValue, 0, 13, none, none⟩, 0, none) ∧
    (⟨Mock.zeroValue, 5, 13, none, none⟩ : Pipe Mock.ReadWriteSeekable).Seek 99 7
        = (⟨Mock.zeroValue, 5, 13, none, none⟩, 5, none) :=
  ⟨seek_never_leaves_range ⟨Mock.zeroValue, 5, 13, none, none⟩ 9223372036854775807 SEEK_CUR
      (by decide), rfl, rfl, rfl⟩

end Pipe

/-! ## No call clears an error slot -/

namespace Pipe

variable {σ : Type} [ReadWriteSeeker σ]

theorem Read_slots (l l' : Pipe σ) (d d' : List Byte) (n : Int) (err : Option Error)
    (h : l.Read d = .ret (l', d', n, err)) :
    l'.werr = l.werr ∧ l'.size = l.size ∧
      l'.rerr = if err ≠ none then err else l.rerr := by
  simp only [Read, Outcome.bind_eq, Outcome.pure_eq, Outcome.bind_eq_ret] at h
  obtain ⟨⟨l1, d1, n1, e1⟩, hl, h⟩ := h
  have h1 : l1.werr = l.werr ∧ l1.size = l.size ∧ l1.rerr = l.rerr := by
    unfold readLocked at hl
    split_ifs at hl with c1 c2 c3
    · simp only [Outcome.pure_eq, Outcome.ret.injEq, Prod.mk.injEq] at hl
      rw [← hl.1]
      exact ⟨rfl, rfl, rfl⟩
    · simp only [Outcome.pure_eq, Outcome.ret.injEq, Prod.mk.injEq] at hl
      rw [← hl.1]
      exact ⟨rfl, rfl, rfl⟩
    · simp only [Outcome.bind_eq, Outcome.pure_eq, Outcome.bind_eq_ret] at hl
      obtain ⟨⟨d2, pos, e2⟩, -, hl⟩ := hl
      dsimp only at hl
      split_ifs at hl with c4
      · simp only [Outcome.ret.injEq, Prod.mk.injEq] at hl
        rw [← hl.1]
        exact ⟨rfl, rfl, rfl⟩
      · simp only [Outcome.bind_eq_ret] at hl
        obtain ⟨⟨d3, b3, n3, e3⟩, -, hl⟩ := hl
        simp only [Outcome.ret.injEq, Prod.mk.injEq] at hl
        rw [← hl.1]
        exact ⟨rfl, rfl, rfl⟩
  dsimp only at h
  split_ifs at h with c
  · simp only [Outcome.ret.injEq, Prod.mk.injEq] at h
    obtain ⟨rfl, -, -, rfl⟩ := h
    simp [c, h1.1, h1.2.1]
  · simp only [Outcome.ret.injEq, Prod.mk.injEq] at h
    obtain ⟨rfl, -, -, rfl⟩ := h
    simp [c, h1]

theorem step_keeps (l l' : Pipe σ) (op : Op) (ev : Event) (h : l.step op = .ret (l', ev)) :
    l.KeepsErrors l' := by
  cases op with
  | read d =>
    simp only [step, Outcome.bind_eq_ret] at h
    obtain ⟨⟨l1, d1, n, err⟩, hr, h⟩ := h
    simp only [Outcome.ret.injEq, Prod.mk.injEq] at h
    obtain ⟨hw, -, hre⟩ := Read_slots l l1 d d1 n err hr
    rw [← h.1]
    refine ⟨fun hs => ?_, fun hs => by rw [hw]; exact hs⟩
    rw [hre]
    split_ifs with c
    · exact c
    · exact hs
  | write d =>
    simp only [step, Outcome.bind_eq_ret] at h
    obtain ⟨⟨l1, n, err⟩, hw, h⟩ := h
    simp only [Outcome.ret.injEq, Prod.mk.injEq] at h
    obtain ⟨hr, -, hwe⟩ := Write_slots l l1 d n err hw
    rw [← h.1]
    refine ⟨fun hs => by rw [hr]; exact hs, fun hs => ?_⟩
    rw [hwe]
    split_ifs with c
    · exact c
    · exact hs
  | seek offset whence =>
    simp only [step, Seek, Outcome.ret.injEq, Prod.mk.injEq] at h
    rw [← h.1]
    exact ⟨id, id⟩

end Pipe

namespace LineIndexedPipe

theorem IndexSize_pipe {σ τ : Type} [ReadWriteSeeker τ] (l l' : LineIndexedPipe σ τ)
    (size : Int) (err : Option Error)
    (h : l.IndexSize = .ret (l', size, err)) : l'.pipe = l.pipe ∧ l'.lastIndex = l.lastIndex := by
  simp only [IndexSize, Outcome.bind_eq, Outcome.pure_eq, Outcome.bind_eq_ret] at h
  obtain ⟨⟨i1, s1, e1⟩, -, h⟩ := h
  simp only [Outcome.ret.injEq, Prod.mk.injEq] at h
  rw [← h.1]
  exact ⟨rfl, rfl⟩

theorem CountLines_pipe {σ τ : Type} [ReadWriteSeeker τ] (l l' : LineIndexedPipe σ τ)
    (n : Int) (err : Option Error)
    (h : l.CountLines = .ret (l', n, err)) : l'.pipe = l.pipe ∧ l'.lastIndex = l.lastIndex := by
  simp only [CountLines, Outcome.bind_eq, Outcome.pure_eq, Outcome.bind_eq_ret] at h
  obtain ⟨⟨l1, s1, e1⟩, h1, h⟩ := h
  simp only [Outcome.ret.injEq, Prod.mk.injEq] at h
  rw [← h.1]
  exact IndexSize_pipe l l1 s1 e1 h1

variable {σ τ : Type} [ReadWriteSeeker σ] [ReadWriteSeeker τ]

theorem indexed_step_keeps (l l' : LineIndexedPipe σ τ) (op : Op) (ev : Event)
    (h : l.step op = .ret (l', ev)) : l.pipe.KeepsErrors l'.pipe := by
  cases op with
  | read d =>
    simp only [step, Read, Outcome.bind_eq, Outcome.pure_eq, Outcome.bind_eq_ret] at h
    obtain ⟨⟨l1, d1, n, err⟩, ⟨⟨p1, d2, n2, e2⟩, hr, h1⟩, h⟩ := h
    simp only [Outcome.ret.injEq, Prod.mk.injEq] at h1 h
    rw [← h.1, ← h1.1]
    exact Pipe.step_keeps l.pipe p1 (.read d) (.read (d2.take n2.toNat) n2 e2)
      (by simp [Pipe.step, hr])
  | write p =>
    simp only [step, Outcome.bind_eq_ret] at h
    obtain ⟨⟨l1, n, err⟩, hw, h⟩ := h
    simp only [Outcome.ret.injEq, Prod.mk.injEq] at h
    obtain ⟨hr, -, hwe⟩ := indexed_Write_slots l l1 p n err hw
    rw [← h.1]
    refine ⟨fun hs => by rw [hr]; exact hs, fun hs => ?_⟩
    rw [hwe]
    split_ifs with c
    · exact c
    · exact hs
  | seek offset whence =>
    simp only [step, Seek, Pipe.Seek, Outcome.ret.injEq, Prod.mk.injEq] at h
    rw [← h.1]
    exact ⟨id, id⟩
  | seekLine line =>
    simp only [step, Outcome.bind_eq_ret] at h
    obtain ⟨⟨l1, err⟩, hs, h⟩ := h
    simp only [Outcome.ret.injEq, Prod.mk.injEq] at h
    obtain ⟨-, -, hw, -, hr, -⟩ := SeekLine_frame l l1 line err hs
    rw [← h.1]
    refine ⟨fun hs => ?_, fun hs => by rw [hw]; exact hs⟩
    rw [hr]
    split_ifs with c
    · exact c
    · exact hs
  | close =>
    simp only [step, Outcome.ret.injEq, Prod.mk.injEq] at h
    rw [← h.1]
    exact ⟨fun _ => by simp [close, Pipe.close], fun _ => by simp [close, Pipe.close]⟩

end LineIndexedPipe

/-- C21: no call clears an error slot.  For every state and every call that returns (`Read`,
`Write` and `Seek` on the base pipe; `Read`, `Write`, `Seek`, `SeekLine` and `close` on the
line-indexed pipe; `close` on the base pipe; `IndexSize` and `CountLines`), a read-side or
write-side error that is set before the call is set after it.  `DataSize` returns the size
and has no effect on the state. -/
theorem errors_never_cleared {σ τ : Type} [ReadWriteSeeker σ] [ReadWriteSeeker τ]
    (l l' : Pipe σ) (li li' : LineIndexedPipe σ τ) :
    (∀ (op : Pipe.Op) (ev : Pipe.Event), l.step op = .ret (l', ev) → l.KeepsErrors l') ∧
    l.KeepsErrors l.close ∧
    l.DataSize = (l.size, none) ∧
    (∀ (op : LineIndexedPipe.Op) (ev : LineIndexedPipe.Event),
      li.step op = .ret (li', ev) → li.pipe.KeepsErrors li'.pipe) ∧
    (∀ (size : Int) (err : Option Error),
      li.IndexSize = .ret (li', size, err) → li.pipe.KeepsErrors li'.pipe) ∧
    (∀ (n : Int) (err : Option Error),
      li.CountLines = .ret (li', n, err) → li.pipe.KeepsErrors li'.pipe) := by
  refine ⟨fun op ev h => Pipe.step_keeps l l' op ev h, ?_, rfl,
    fun op ev h => LineIndexedPipe.indexed_step_keeps li li' op ev h, fun size err h => ?_,
    fun n err h => ?_⟩
  · exact ⟨fun _ => by simp [Pipe.close], fun _ => by simp [Pipe.close]⟩
  · rw [(LineIndexedPipe.IndexSize_pipe li li' size err h).1]
    exact ⟨id, id⟩
  · rw [(LineIndexedPipe.CountLines_pipe li li' n err h).1]
    exact ⟨id, id⟩

/-- C21 (witness): the pipe of `TestLateSeekFailWritePipe` after its failed `Write`: the
second `Write` replaces the recorded `errUnseekable` by `io.ErrClosedPipe`, and the slot is
still set; on the pipe holding `"\\nHello World\\n\\n"`, closed, `SeekLine(1)` succeeds and
both slots are still set. -/
theorem errors_never_cleared_witness :
    (({ Pipe.lateSeekFail with werr := some errUnseekable } : Pipe Mock.ReadWriteSeekable).step
        (.write [1])
        = .ret ({ Pipe.lateSeekFail with werr := some .ErrClosedPipe },
            .write 0 (some .ErrClosedPipe)) ∧
      ({ Pipe.lateSeekFail with werr := some errUnseekable }
          : Pipe Mock.ReadWriteSeekable).KeepsErrors
        { Pipe.lateSeekFail with werr := some .ErrClosedPipe }) ∧
    (LineIndexedPipe.helloPipe.close.step (.seekLine 1)
        = .ret (LineIndexedPipe.helloPipe.close.afterSeekLine 1, .seekLine none) ∧
      LineIndexedPipe.helloPipe.close.pipe.KeepsErrors
        (LineIndexedPipe.helloPipe.close.afterSeekLine 1).pipe) :=
  have h := errors_never_cleared
    ({ Pipe.lateSeekFail with werr := some errUnseekable } : Pipe Mock.ReadWriteSeekable)
    { Pipe.lateSeekFail with werr := some .ErrClosedPipe }
    LineIndexedPipe.helloPipe.close (LineIndexedPipe.helloPipe.close.afterSeekLine 1)
  ⟨⟨rfl, h.1 (.write [1]) _ rfl⟩, ⟨rfl, h.2.2.2.1 (.seekLine 1) _ rfl⟩⟩

/-! ## What a `Read` with data available returns -/

namespace Pipe

open Mock

/-- C25: on an open pipe over a mock store without overrides whose size is the store's
length, with read index `c`, `0 ≤ c < size`, and a buffer of length `m`, `Read` returns
`(n, nil)` with `n = min(m, size - c)`; the first `n` bytes of the buffer are the store bytes
`[c, c+n)`, the rest of the buffer is as it was, the read index becomes `c + n`, which is
at most `size`, and the size and the store's contents are unchanged. -/
theorem read_returns_available (l : Pipe ReadWriteSeekable) (d : List Byte) (hok : l.Ok)
    (hopen : l.Open) (h0 : 0 ≤ l.readIndex) (h1 : l.readIndex < l.size) :
    ∃ (l' : Pipe ReadWriteSeekable) (d' : List Byte) (n : Nat),
      l.Read d = .ret (l', d', (n : Int), none) ∧
      (n : Int) = min (d.length : Int) (l.size - l.readIndex) ∧
      d'.length = d.length ∧
      d'.take n = (l.data.Bytes.drop l.readIndex.toNat).take n ∧
      d'.drop n = d.drop n ∧
      l'.readIndex = l.readIndex + n ∧ l'.readIndex ≤ l'.size ∧
      l'.size = l.size ∧ l'.data.Bytes = l.data.Bytes := by
  obtain ⟨l', e, -, -, hb, hs, hri, -⟩ := Read_good l d hok hopen h0 h1
  have hsz := hok.size_eq
  set n := min d.length (l.data.Bytes.length - l.readIndex.toNat) with hn
  have hlen : ((l.data.Bytes.drop l.readIndex.toNat).take n).length = n := by
    simp only [List.length_take, List.length_drop]
    omega
  refine ⟨l', _, n, e, by omega, ?_, ?_, ?_, hri, by omega, hs, hb⟩
  · simp only [List.length_append, hlen, List.length_drop]
    omega
  · rw [List.take_append_of_le_length (by omega), List.take_of_length_le (by omega)]
  · rw [List.drop_append_of_le_length (by omega), List.drop_of_length_le (by omega),
      List.nil_append]

/-- C25 (witness): the store holds `0..9` followed by `8, 7, 6`; read index 5, size 13 and a
buffer of 10 give `n = 8`, the bytes `5, 6, 7, 8, 9, 8, 7, 6`, and the read index 13. -/
theorem read_returns_available_witness :
    (∃ (l' : Pipe ReadWriteSeekable) (d' : List Byte) (n : Nat),
      (⟨NewReadWriteSeekable [0, 1, 2, 3, 4, 5, 6, 7, 8, 9, 8, 7, 6], 5, 13, none, none⟩ :
          Pipe ReadWriteSeekable).Read [0, 0, 0, 0, 0, 0, 0, 0, 0, 0]
        = .ret (l', d', (n : Int), none) ∧
      (n : Int) = min (([0, 0, 0, 0, 0, 0, 0, 0, 0, 0] : List Byte).length : Int) (13 - 5) ∧
      d'.length = ([0, 0, 0, 0, 0, 0, 0, 0, 0, 0] : List Byte).length ∧
      d'.take n
        = ((NewReadWriteSeekable [0, 1, 2, 3, 4, 5, 6, 7, 8, 9, 8, 7, 6]).Bytes.drop
            (5 : Int).toNat).take n ∧
      d'.drop n = ([0, 0, 0, 0, 0, 0, 0, 0, 0, 0] : List Byte).drop n ∧
      l'.readIndex = 5 + n ∧ l'.readIndex ≤ l'.size ∧ l'.size = 13 ∧
      l'.data.Bytes = (NewReadWriteSeekable [0, 1, 2, 3, 4, 5, 6, 7, 8, 9, 8, 7, 6]).Bytes) ∧
    (∃ l' : Pipe ReadWriteSeekable,
      (⟨NewReadWriteSeekable [0, 1, 2, 3, 4, 5, 6, 7, 8, 9, 8, 7, 6], 5, 13, none, none⟩ :
          Pipe ReadWriteSeekable).Read [0, 0, 0, 0, 0, 0, 0, 0, 0, 0]
        = .ret (l', [5, 6, 7, 8, 9, 8, 7, 6, 0, 0], 8, none) ∧ l'.readIndex = 13) :=
  ⟨read_returns_available
      ⟨NewReadWriteSeekable [0, 1, 2, 3, 4, 5, 6, 7, 8, 9, 8, 7, 6], 5, 13, none, none⟩
      [0, 0, 0, 0, 0, 0, 0, 0, 0, 0] ⟨NewReadWriteSeekable_good _ (by decide), rfl⟩
      ⟨rfl, rfl⟩ (by decide) (by decide),
    ⟨_, rfl, rfl⟩⟩

end Pipe

/-! ## The mock store's `Write` -/

namespace Mock

theorem Buffer.grow_nil_panics (n : Nat) (hlong : 64 < n) :
    Buffer.grow ⟨none, 0⟩ n = .panic .ErrTooLarge := by
  have hpos : 0 + n > 0 := by omega
  have hbig : 0 + n > 64 := by omega
  unfold Buffer.grow
  simp only [Buffer.blen, Buffer.bcap]
  rw [if_pos hpos]
  simp only [List.length_replicate]
  rw [if_pos hbig]

theorem Buffer.Write_nil_panics (b : List Byte) (hlong : 64 < b.length)
    (hfit : (b.length : Int) < 9223372036854775808) :
    Buffer.Write ⟨none, 0⟩ b = .panic .ErrTooLarge := by
  have hw0 : wrap64 (0 - 0) = 0 := by decide
  have hw : wrap64 ((b.length : Int) - 0) = b.length :=
    wrap64_of_range (by omega) (by simpa using hfit)
  have hlt : (0 : Int) < (b.length : Int) := by omega
  unfold Buffer.Write
  simp only [Buffer.blen, Nat.cast_zero]
  rw [hw0, if_pos hlt, hw, Int.toNat_ofNat, Buffer.grow_nil_panics _ hlong]
  rfl

/-- C28 (what the code does): on a mock store without overrides that only its own methods
have touched, `Write(b)` returns `(len(b), nil)`, puts `b` at `[off, off + len(b))`, keeps
the bytes before `off` and makes the length `max(old length, off + len(b))`, provided the
buffer is allocated or `len(b) ≤ 64`.  On a store whose buffer is nil, a `Write` of more than
64 bytes panics with `bytes.ErrTooLarge`: `grow` allocates 64 bytes for a nil buffer,
whatever is asked for, and the slice expression that follows is out of range. -/
theorem first_write_over_64_panics (s : ReadWriteSeekable) (b : List Byte) (hs : s.Good)
    (hfit : s.off + (b.length : Int) < 9223372036854775808) :
    (s.buf ≠ none ∨ b.length ≤ 64 →
      ∃ s' : ReadWriteSeekable,
        ReadWriteSeeker.Write s b = .ret (s', (b.length : Int), none) ∧ s'.off = s.off ∧
        s'.Bytes = s.Bytes.take s.off.toNat ++ b ++ s.Bytes.drop (s.off.toNat + b.length) ∧
        s'.Bytes.length = max s.Bytes.length (s.off.toNat + b.length)) ∧
    (s.buf = none → 64 < b.length → ReadWriteSeeker.Write s b = .panic .ErrTooLarge) := by
  constructor
  · intro hroom
    obtain ⟨s', e, -, ho, hb, -⟩ := ReadWriteSeekable.store_Write_good s b hs hroom hfit
    refine ⟨s', e, ho, hb, ?_⟩
    have h0 := hs.wf.off_nonneg
    have h1 := hs.wf.off_le
    have hlen := s.length_Bytes hs
    rw [hb]
    simp only [List.length_append, List.length_take, List.length_drop]
    omega
  · intro hnil hlong
    obtain ⟨hp, hwf⟩ := hs
    obtain ⟨⟨buf, off⟩, rf, wf, sf⟩ := s
    simp only at hnil
    subst hnil
    obtain ⟨-, hp2, -⟩ := hp
    simp only at hp2
    subst hp2
    have h0 := hwf.off_nonneg
    have h1 := hwf.off_le
    simp only [Buffer.blen, Nat.cast_zero] at h0 h1
    have hoff : off = 0 := by omega
    subst hoff
    show ReadWriteSeekable.Write _ b = _
    simp only [ReadWriteSeekable.Write]
    rw [Buffer.Write_nil_panics b hlong (by simpa using hfit)]
    rfl

/-- C28 (failing input): the zero-value store and 65 zero bytes: `Write` panics with
`bytes.ErrTooLarge`, where 64 bytes are written. -/
theorem first_write_over_64_panics_witness :
    ReadWriteSeeker.Write zeroValue (List.replicate 65 0) = .panic .ErrTooLarge ∧
    ∃ s' : ReadWriteSeekable,
      ReadWriteSeeker.Write zeroValue (List.replicate 64 0) = .ret (s', 64, none) :=
  ⟨(first_write_over_64_panics zeroValue (List.replicate 65 0) zeroValue_good
      (by decide)).2 rfl (by decide), ⟨_, rfl⟩⟩

end Mock

/-! ## The scan delivers the lines -/

namespace Scanner

/-- The scan never exhausts its bounds: it delivers the pieces of the input up to the first
one that does not fit the buffer. -/
theorem scanAll_eq (sf : Nat) (fuel : Nat) : ∀ (sc : Scanner),
    sc.Inv → sc.err = none → sc.r.length + 2 ≤ sf → (sc.held ++ sc.r).length < fuel →
    scanAll sf fuel sc = some (scanTokens (sc.held ++ sc.r), scanErr (sc.held ++ sc.r)) := by
  induction fuel with
  | zero => intro sc _ _ _ hf; omega
  | succ fuel ih =>
    intro sc hinv he hsf hf
    by_cases hmem : newline ∈ sc.held ++ sc.r
    · obtain ⟨pre, rest, heq, hpre⟩ := first_newline _ hmem
      by_cases hfit : pre.length + 1 ≤ MaxScanTokenSize
      · obtain ⟨s', es, ht, hrest, hinv', he', hl'⟩ :=
          Scanner.Scan_line sf sc pre rest hinv he heq hpre hfit (by omega)
        obtain ⟨e1, e2⟩ := scan_line_fits pre rest hpre hfit
        have hlen : (s'.held ++ s'.r).length < fuel := by
          rw [hrest]
          rw [heq] at hf
          simp at hf
          omega
        rw [heq, e1, e2]
        simp only [scanAll, es, ih s' hinv' he' (by omega) hlen, hrest, Option.map_some',
          Scanner.Bytes, ht, Option.getD_some]
      · obtain ⟨e1, e2⟩ := scan_line_long pre rest hpre hfit
        have hnl : newline ∉ (sc.held ++ sc.r).take MaxScanTokenSize := by
          rw [heq, List.take_append_of_le_length (by omega)]
          exact fun h => hpre (List.mem_of_mem_take h)
        obtain ⟨s', es, herr⟩ := Scanner.Scan_toolong sf sc hinv he hnl
          (by rw [heq]; simp; omega) (by omega)
        rw [heq, e1, e2]
        simp only [scanAll, es, herr]
    · by_cases hne : sc.held ++ sc.r = []
      · have hh : sc.held = [] := (List.append_eq_nil.mp hne).1
        have hr : sc.r = [] := (List.append_eq_nil.mp hne).2
        obtain ⟨s', es, herr⟩ := Scanner.Scan_done sf sc hinv hh hr (Or.inl he) (by omega)
        rw [hne, scan_nil.1, scan_nil.2]
        simp only [scanAll, es, herr]
      · by_cases hfit : (sc.held ++ sc.r).length < MaxScanTokenSize
        · obtain ⟨s', es, ht, hh', hr', he', hinv'⟩ :=
            Scanner.Scan_rest sf sc hinv he hmem hne hfit (by omega)
          obtain ⟨e1, e2⟩ := scan_rest_fits _ hmem hne hfit
          obtain ⟨f, rfl⟩ : ∃ f, fuel = f + 1 := by
            have : 0 < (sc.held ++ sc.r).length := List.length_pos.mpr hne
            exact ⟨fuel - 1, by omega⟩
          obtain ⟨s'', es', herr'⟩ := Scanner.Scan_done sf s' hinv' hh' hr' (Or.inr he')
            (by omega)
          rw [e1, e2]
          simp only [scanAll, es, es', herr', Option.map_some', Scanner.Bytes, ht,
            Option.getD_some]
        · obtain ⟨e1, e2⟩ := scan_rest_long _ hmem hne hfit
          obtain ⟨s', es, herr⟩ := Scanner.Scan_toolong sf sc hinv he
            (fun h => hmem (List.mem_of_mem_take h)) (by omega) (by omega)
          rw [e1, e2]
          simp only [scanAll, es, herr]

theorem scanAll_new (p : List Byte) :
    scanAll (p.length + 2) (p.length + 1) (NewScanner p) = some (scanTokens p, scanErr p) := by
  have h := scanAll_eq (p.length + 2) (p.length + 1) (NewScanner p)
    (LineIndexedPipe.NewScanner_inv p) rfl (by simp [NewScanner]) (by simp [NewScanner])
  simpa [NewScanner] using h

end Scanner

theorem splitLines_ne_nil (p : List Byte) (h : p ≠ []) : splitLines p ≠ [] := by
  intro e
  have := flatten_splitLines p
  rw [e] at this
  exact h this.symm

theorem getLast?_cons_of_ne_nil {α : Type} (a : α) (l : List α) (h : l ≠ []) :
    (a :: l).getLast? = l.getLast? := by
  cases l with
  | nil => exact absurd rfl h
  | cons b bs => exact List.getLast?_cons_cons

theorem splitLines_shape (k : Nat) : ∀ p : List Byte, p.length ≤ k →
    (∀ t ∈ splitLines p, t ≠ []) ∧
    (∀ t ∈ (splitLines p).dropLast, IsLine t) ∧
    (∀ t, (splitLines p).getLast? = some t → IsLine t ∨ newline ∉ t) ∧
    p.getLast? = (splitLines p).getLast?.bind List.getLast? := by
  induction k with
  | zero =>
    intro p hp
    have : p = [] := List.length_eq_zero.mp (by omega)
    subst this
    simp [splitLines]
  | succ k ih =>
    intro p hp
    by_cases hmem : newline ∈ p
    · obtain ⟨pre, rest, heq, hpre⟩ := first_newline p hmem
      have hs := splitLines_line pre rest hpre
      have hlen : rest.length ≤ k := by
        rw [heq] at hp
        simp at hp
        omega
      obtain ⟨h1, h2, h3, h4⟩ := ih rest hlen
      have hline : IsLine (pre ++ [newline]) := ⟨pre, rfl, hpre⟩
      rw [heq, hs]
      by_cases hr : rest = []
      · subst hr
        simp only [splitLines, List.mem_singleton, forall_eq, List.dropLast_single,
          List.not_mem_nil, false_implies, implies_true, List.getLast?_singleton,
          Option.some.injEq, forall_eq', Option.some_bind, true_and]
        refine ⟨by simp, Or.inl hline, ?_⟩
        simp [List.getLast?_append]
      · have hne := splitLines_ne_nil rest hr
        refine ⟨?_, ?_, ?_, ?_⟩
        · intro t ht
          rcases List.mem_cons.mp ht with rfl | ht
          · simp
          · exact h1 t ht
        · intro t ht
          rw [List.dropLast_cons_of_ne_nil hne] at ht
          rcases List.mem_cons.mp ht with rfl | ht
          · exact hline
          · exact h2 t ht
        · intro t ht
          rw [getLast?_cons_of_ne_nil _ _ hne] at ht
          exact h3 t ht
        · rw [getLast?_cons_of_ne_nil _ _ hne, ← h4]
          have : pre ++ newline :: rest = (pre ++ [newline]) ++ rest := by simp
          rw [this, List.getLast?_append_of_ne_nil _ hr]
    · by_cases hne : p = []
      · subst hne
        simp [splitLines]
      · rw [splitLines_rest p hmem hne]
        simp only [List.mem_singleton, forall_eq, List.dropLast_single, List.not_mem_nil,
          false_implies, implies_true, List.getLast?_singleton, Option.some.injEq, forall_eq',
          Option.some_bind, and_true, true_and]
        exact ⟨hne, Or.inr hmem⟩

/-- C24 (counterexample): the scan of a line of 65536 bytes and its terminator, as `Write`
runs it, stops with `bufio.ErrTooLong` and delivers no token: the tokens do not add up to
the input. -/
theorem scan_stops_at_long_line :
    Scanner.scanAll (longLine.length + 2) (longLine.length + 1) (Scanner.NewScanner longLine)
      = some ([], some .ErrTooLong) ∧
    ([] : List (List Byte)).flatten ≠ longLine := by
  refine ⟨?_, fun h => ?_⟩
  · rw [Scanner.scanAll_new, LineIndexedPipe.longLine_scan.1, LineIndexedPipe.longLine_scan.2]
  · have := congrArg List.length h
    rw [LineIndexedPipe.longLine_length] at this
    simp at this

/-- C24 (amended): for every byte sequence `p` whose lines fit the scanner's buffer, the scan
`Write` runs (a `bufio.Scanner` with `scanLines`) ends without an error and delivers tokens
whose concatenation is `p`; every token is non-empty, every token but the last is a
terminated line (bytes other than `'\n'` followed by one `'\n'`), the last is a terminated
line or has no `'\n'` at all, and the last token lacks a terminator exactly when `p` is
non-empty and does not end in `'\n'`. -/
theorem scan_splits_lines (p : List Byte) (hfit : LinesFit p) :
    ∃ toks : List (List Byte),
      Scanner.scanAll (p.length + 2) (p.length + 1) (Scanner.NewScanner p)
        = some (toks, none) ∧
      toks.flatten = p ∧
      (∀ t ∈ toks, t ≠ []) ∧
      (∀ t ∈ toks.dropLast, IsLine t) ∧
      (∀ t, toks.getLast? = some t → IsLine t ∨ newline ∉ t) ∧
      ((∃ t, toks.getLast? = some t ∧ t.getLast? ≠ some newline) ↔
        (p ≠ [] ∧ p.getLast? ≠ some newline)) := by
  obtain ⟨h1, h2, h3, h4⟩ := splitLines_shape p.length p (le_refl _)
  refine ⟨splitLines p, ?_, flatten_splitLines p, h1, h2, h3, ?_⟩
  · rw [Scanner.scanAll_new, scanTokens_of_fits p hfit, (scanErr_eq_none p).mpr hfit]
  · constructor
    · rintro ⟨t, ht, hlast⟩
      have hp : p.getLast? = t.getLast? := by rw [h4, ht]; rfl
      refine ⟨fun hnil => ?_, by rw [hp]; exact hlast⟩
      subst hnil
      simp [splitLines] at ht
    · rintro ⟨hne, hlast⟩
      obtain ⟨t, ht⟩ := Option.ne_none_iff_exists'.mp
        (fun h => splitLines_ne_nil p hne (List.getLast?_eq_none_iff.mp h))
      refine ⟨t, ht, ?_⟩
      rw [h4, ht] at hlast
      exact hlast

/-- C24 (witness): `"a\\nb"` is split into `"a\\n"` and `"b"`, the last token lacking a
terminator; single steps of the split function: `scanLines("H\\n", atEOF) = (2, "H\\n")`,
`scanLines("H", atEOF) = (1, "H")`, `scanLines("", _) = (0, nil)`. -/
theorem scan_splits_lines_witness :
    (∃ toks : List (List Byte),
      Scanner.scanAll (([97, 10, 98] : List Byte).length + 2)
          (([97, 10, 98] : List Byte).length + 1) (Scanner.NewScanner [97, 10, 98])
        = some (toks, none) ∧
      toks.flatten = [97, 10, 98] ∧
      (∀ t ∈ toks, t ≠ []) ∧
      (∀ t ∈ toks.dropLast, IsLine t) ∧
      (∀ t, toks.getLast? = some t → IsLine t ∨ newline ∉ t) ∧
      ((∃ t, toks.getLast? = some t ∧ t.getLast? ≠ some newline) ↔
        (([97, 10, 98] : List Byte) ≠ [] ∧
          ([97, 10, 98] : List Byte).getLast? ≠ some newline))) ∧
    Scanner.scanAll 5 4 (Scanner.NewScanner [97, 10, 98]) = some ([[97, 10], [98]], none) ∧
    scanLines [72, 10] true = (2, some [72, 10], none) ∧
    scanLines [72] true = (1, some [72], none) ∧
    scanLines [] true = (0, none, none) ∧ scanLines [] false = (0, none, none) :=
  ⟨scan_splits_lines [97, 10, 98] (by decide), rfl, rfl, rfl, rfl, rfl⟩

/-! ## Lines that fit, and concatenation -/

theorem fitsFrom_iff (p : List Byte) : ∀ pre : List Byte, newline ∉ pre →
    (fitsFrom pre.length p = true ↔ LinesFit (pre ++ p)) := by
  induction p with
  | nil =>
    intro pre hpre
    by_cases hne : pre = []
    · subst hne
      simp [fitsFrom, LinesFit, splitLines, MaxScanTokenSize]
    · simp [fitsFrom, LinesFit, splitLines_rest pre hpre hne, tokenFits_rest pre hpre]
  | cons b bs ih =>
    intro pre hpre
    by_cases hb : b = newline
    · subst hb
      have h0 := ih [] (by simp)
      simp only [List.length_nil, List.nil_append] at h0
      simp only [fitsFrom, if_true, Bool.and_eq_true, decide_eq_true_eq, h0, LinesFit,
        splitLines_line pre bs hpre, List.mem_cons, forall_eq_or_imp, tokenFits_line]
    · have hpre' : newline ∉ pre ++ [b] := by
        simp only [List.mem_append, List.mem_singleton, not_or]
        exact ⟨hpre, fun e => hb e.symm⟩
      have h1 := ih (pre ++ [b]) hpre'
      simp only [List.length_append, List.length_singleton, List.append_assoc,
        List.singleton_append] at h1
      simp only [fitsFrom, hb, if_false, h1]

theorem fitsFrom_lt (p : List Byte) : ∀ r : Nat, fitsFrom r p = true → r < MaxScanTokenSize := by
  induction p with
  | nil => intro r h; simpa [fitsFrom] using h
  | cons b bs ih =>
    intro r h
    by_cases hb : b = newline
    · simp only [fitsFrom, hb, if_true, Bool.and_eq_true, decide_eq_true_eq] at h
      omega
    · simp only [fitsFrom, hb, if_false] at h
      have := ih (r + 1) h
      omega

theorem fitsFrom_mono (p : List Byte) : ∀ r r' : Nat, r' ≤ r → fitsFrom r p = true →
    fitsFrom r' p = true := by
  induction p with
  | nil =>
    intro r r' hle h
    simp only [fitsFrom, decide_eq_true_eq] at h ⊢
    omega
  | cons b bs ih =>
    intro r r' hle h
    by_cases hb : b = newline
    · simp only [fitsFrom, hb, if_true, Bool.and_eq_true, decide_eq_true_eq] at h ⊢
      exact ⟨by omega, h.2⟩
    · simp only [fitsFrom, hb, if_false] at h ⊢
      exact ih (r + 1) (r' + 1) (by omega) h

theorem fitsFrom_init (a b : List Byte) : ∀ r : Nat, fitsFrom r (a ++ b) = true →
    fitsFrom r a = true := by
  induction a with
  | nil =>
    intro r h
    have := fitsFrom_lt b r (by simpa using h)
    simpa [fitsFrom] using this
  | cons c a ih =>
    intro r h
    by_cases hc : c = newline
    · simp only [List.cons_append, fitsFrom, hc, if_true, Bool.and_eq_true,
        decide_eq_true_eq] at h ⊢
      exact ⟨h.1, ih 0 h.2⟩
    · simp only [List.cons_append, fitsFrom, hc, if_false] at h ⊢
      exact ih (r + 1) h

theorem fitsFrom_suffix (a b : List Byte) : ∀ r : Nat, fitsFrom r (a ++ b) = true →
    fitsFrom 0 b = true := by
  induction a with
  | nil =>
    intro r h
    exact fitsFrom_mono b r 0 (by omega) (by simpa using h)
  | cons c a ih =>
    intro r h
    by_cases hc : c = newline
    · simp only [List.cons_append, fitsFrom, hc, if_true, Bool.and_eq_true,
        decide_eq_true_eq] at h
      exact ih 0 h.2
    · simp only [List.cons_append, fitsFrom, hc, if_false] at h
      exact ih (r + 1) h

theorem LinesFit_of_append (a b : List Byte) (h : LinesFit (a ++ b)) :
    LinesFit a ∧ LinesFit b := by
  have h0 : fitsFrom 0 (a ++ b) = true := (fitsFrom_iff (a ++ b) [] (by simp)).mpr h
  exact ⟨(fitsFrom_iff a [] (by simp)).mp (fitsFrom_init a b 0 h0),
    (fitsFrom_iff b [] (by simp)).mp (fitsFrom_suffix a b 0 h0)⟩

/-! ## One write or two -/

namespace LineIndexedPipe

open Mock

theorem longRest_length : longRest.length = 65535 := by
  unfold longRest
  rw [List.length_replicate]

theorem longRest_no_newline : newline ∉ longRest := by
  intro hm
  exact absurd (List.mem_replicate.mp hm).2 (by decide)

theorem longRest_fits : LinesFit longRest := by
  have hne : longRest ≠ [] := by
    intro e
    have := congrArg List.length e
    rw [longRest_length] at this
    simp at this
  intro t ht
  rw [splitLines_rest longRest longRest_no_newline hne, List.mem_singleton] at ht
  rw [ht, tokenFits_rest longRest longRest_no_newline, longRest_length]
  decide

theorem longRest_scan :
    scanTokens (longRest ++ [97]) = [] ∧ scanErr (longRest ++ [97]) = some .ErrTooLong := by
  have hnl : newline ∉ longRest ++ [97] := by
    simp only [List.mem_append, List.mem_singleton, not_or]
    exact ⟨longRest_no_newline, by decide⟩
  exact scan_rest_long (longRest ++ [97]) hnl (by simp)
    (by rw [List.length_append, longRest_length]; decide)

theorem allocPipe_ok : allocPipe.Ok :=
  ⟨NewReadWriteSeekable_good [] (by decide), zeroValue_good, rfl⟩

/-- C27 (counterexample): on a new pipe over empty stores, `Write` of 65535 bytes `'a'` and
then `Write` of one more `'a'` both succeed, while the single `Write` of the 65536 bytes
fails with `bufio.ErrTooLong` and writes nothing. -/
theorem split_write_succeeds_alone :
    ∃ l1 l2 l12 : LineIndexedPipe ReadWriteSeekable ReadWriteSeekable,
      allocPipe.Write longRest = .ret (l1, 65535, none) ∧
      l1.Write [97] = .ret (l2, 1, none) ∧
      l2.pipe.DataSize = (65536, none) ∧
      allocPipe.Write (longRest ++ [97]) = .ret (l12, 0, some .ErrTooLong) ∧
      l12.pipe.DataSize = (0, none) := by
  obtain ⟨l1, e1, hw1⟩ := Write_fits allocPipe longRest allocPipe_ok ⟨rfl, rfl⟩ longRest_fits
    (Or.inl (by decide)) (by rw [longRest_length]; decide) (by rw [longRest_length]; decide)
  obtain ⟨hok1, hopen1⟩ := hw1.ok allocPipe_ok ⟨rfl, rfl⟩
  have hD1 : l1.pipe.data.Bytes.length = 65535 := by
    rw [hw1.data_bytes, List.length_append, longRest_length]
    rfl
  have hI1 : l1.index.Bytes.length = 0 := by
    rw [hw1.index_bytes, (records_rest _ _ longRest longRest_no_newline).1]
    rfl
  obtain ⟨l2, e2, hw2⟩ := Write_fits l1 [97] hok1 hopen1 (by decide)
    (Or.inl (hw1.data_buf (Or.inl (by decide)))) (by rw [hD1]; decide) (by rw [hI1]; decide)
  obtain ⟨l', hw, e⟩ := Write_wrote allocPipe (longRest ++ [97]) allocPipe_ok ⟨rfl, rfl⟩
    (Or.inl (by decide)) (by rw [List.length_append, longRest_length]; decide)
    (by rw [List.length_append, longRest_length]; decide)
  have hsc : scanned (longRest ++ [97]) = [] := by rw [scanned, longRest_scan.1]; rfl
  rw [longRest_scan.2, hsc] at e
  rw [hsc] at hw
  rw [longRest_length] at e1
  refine ⟨l1, l2, _, e1, e2, ?_, e, ?_⟩
  · simp only [Pipe.DataSize, hw2.size, hw1.size, longRest_length]
    rfl
  · simp only [reduceCtorEq, if_false, Pipe.DataSize]
    rw [hw.size]
    rfl

/-- C27 (amended): on an open line-indexed pipe over mock stores without overrides (data
buffer allocated), for all `a` and `b` such that the lines of `a ++ b` fit the scanner's
buffer, `Write(a)` followed by `Write(b)` and the single `Write(a ++ b)` all succeed, and
the two ways leave the same data store contents, index store contents, `DataSize()` and line
boundary, wherever the split falls. -/
theorem split_write_same (l : LineIndexedPipe ReadWriteSeekable ReadWriteSeekable)
    (a b : List Byte) (hok : l.Ok) (hopen : l.pipe.Open) (hbuf : l.pipe.data.buf ≠ none)
    (hfit : LinesFit (a ++ b))
    (hD : (l.pipe.data.Bytes.length : Int) + (a ++ b).length < 9223372036854775808)
    (hI : (l.index.Bytes.length : Int) + 8 * (a ++ b).length < 9223372036854775808) :
    ∃ l1 l2 l12 : LineIndexedPipe ReadWriteSeekable ReadWriteSeekable,
      l.Write a = .ret (l1, a.length, none) ∧
      l1.Write b = .ret (l2, b.length, none) ∧
      l.Write (a ++ b) = .ret (l12, (a ++ b).length, none) ∧
      l2.pipe.data.Bytes = l12.pipe.data.Bytes ∧
      l2.index.Bytes = l12.index.Bytes ∧
      l2.pipe.DataSize = l12.pipe.DataSize ∧
      l2.lastIndex = l12.lastIndex := by
  obtain ⟨hfa, hfb⟩ := LinesFit_of_append a b hfit
  simp only [List.length_append] at hD hI
  push_cast at hD hI
  obtain ⟨l1, e1, hw1⟩ := Write_fits l a hok hopen hfa (Or.inl hbuf) (by omega) (by omega)
  obtain ⟨hok1, hopen1⟩ := hw1.ok hok hopen
  have hD1 : l1.pipe.data.Bytes.length = l.pipe.data.Bytes.length + a.length := by
    rw [hw1.data_bytes, List.length_append]
  have hI1 : l1.index.Bytes.length ≤ l.index.Bytes.length + 8 * a.length := by
    rw [hw1.index_bytes, List.length_append, length_encodeRecords]
    have : (recordsFor l.lastIndex l.pipe.data.Bytes.length a).length ≤ a.length := by
      simp only [recordsFor, List.length_take, length_newlineOffsets]
      have := List.count_le_length newline a
      omega
    omega
  obtain ⟨l2, e2, hw2⟩ := Write_fits l1 b hok1 hopen1 hfb
    (Or.inl (hw1.data_buf (Or.inl hbuf))) (by rw [hD1]; push_cast; omega) (by omega)
  obtain ⟨l12, e12, hw12⟩ := Write_fits l (a ++ b) hok hopen hfit (Or.inl hbuf)
    (by simp only [List.length_append]; push_cast; omega)
    (by simp only [List.length_append]; push_cast; omega)
  have hw := hw1.trans hw2
  refine ⟨l1, l2, l12, e1, e2, e12, ?_, ?_, ?_, ?_⟩
  · rw [hw.data_bytes, hw12.data_bytes]
  · rw [hw.index_bytes, hw12.index_bytes]
  · simp only [Pipe.DataSize, hw.size, hw12.size]
  · rw [hw.last, hw12.last]

/-- C27 (witness): `"\\nHello World\\n\\n"` split in the middle of its second line, written
to the new pipe over empty stores. -/
theorem split_write_same_witness :
    ∃ l1 l2 l12 : LineIndexedPipe ReadWriteSeekable ReadWriteSeekable,
      allocPipe.Write (helloWorld.take 5) = .ret (l1, (helloWorld.take 5).length, none) ∧
      l1.Write (helloWorld.drop 5) = .ret (l2, (helloWorld.drop 5).length, none) ∧
      allocPipe.Write (helloWorld.take 5 ++ helloWorld.drop 5)
        = .ret (l12, (helloWorld.take 5 ++ helloWorld.drop 5).length, none) ∧
      l2.pipe.data.Bytes = l12.pipe.data.Bytes ∧
      l2.index.Bytes = l12.index.Bytes ∧
      l2.pipe.DataSize = l12.pipe.DataSize ∧
      l2.lastIndex = l12.lastIndex :=
  split_write_same allocPipe (helloWorld.take 5) (helloWorld.drop 5) allocPipe_ok ⟨rfl, rfl⟩
    (by decide) (by decide) (by decide) (by decide)

end LineIndexedPipe

/-! ## The read cursor stays within the committed size -/

theorem recordsFor_range (last : Int) (base : Nat) (bytes : List Byte) :
    ∀ r ∈ recordsFor last base bytes,
      r = last ∨ ((base : Int) < r ∧ r ≤ (base : Int) + bytes.length) := by
  intro r hr
  have hr' := List.mem_of_mem_take hr
  simp only [boundaries, List.mem_cons, List.mem_map] at hr'
  rcases hr' with rfl | ⟨o, ho, rfl⟩
  · exact Or.inl rfl
  · have := newlineOffsets_bound base bytes o ho
    exact Or.inr ⟨by omega, by omega⟩

theorem recordsFor_lt (bytes : List Byte) :
    ∀ (last : Int) (base : Nat), last ≤ (base : Int) →
      ∀ r ∈ recordsFor last base bytes, last ≤ r ∧ r < (base : Int) + bytes.length := by
  induction bytes with
  | nil =>
    intro last base _ r hr
    simp [recordsFor, newlineOffsets] at hr
  | cons b bs ih =>
    intro last base hl r hr
    by_cases hb : b = newline
    · have e : recordsFor last base (b :: bs)
          = last :: recordsFor ((base + 1 : Nat) : Int) (base + 1) bs := by
        simp [recordsFor, boundaries, newlineOffsets, hb]
      rw [e, List.mem_cons] at hr
      simp only [List.length_cons]
      push_cast
      rcases hr with rfl | hr
      · exact ⟨le_refl _, by omega⟩
      · have := ih ((base + 1 : Nat) : Int) (base + 1) (le_refl _) r hr
        push_cast at this
        omega
    · have e : recordsFor last base (b :: bs) = recordsFor last (base + 1) bs := by
        simp [recordsFor, boundaries, newlineOffsets, hb]
      rw [e] at hr
      simp only [List.length_cons]
      have := ih last (base + 1) (by push_cast; omega) r hr
      push_cast at this ⊢
      omega

theorem boundaryAfter_range (last : Int) (base : Nat) (bytes : List Byte) :
    boundaryAfter last base bytes = last ∨
      ((base : Int) < boundaryAfter last base bytes ∧
        boundaryAfter last base bytes ≤ (base : Int) + bytes.length) := by
  have hm : boundaryAfter last base bytes ∈ last :: boundaries last base bytes :=
    List.getLastD_mem_cons _ _
  simp only [boundaries, List.mem_cons, List.mem_map] at hm
  rcases hm with h | h | ⟨o, ho, h⟩
  · exact Or.inl h
  · exact Or.inl h
  · have := newlineOffsets_bound base bytes o ho
    exact Or.inr ⟨by omega, by omega⟩

theorem length_scanned_le (p : List Byte) : (scanned p).length ≤ p.length := by
  have h := List.takeWhile_append_dropWhile tokenFits (splitLines p)
  have h2 := congrArg (fun x => (List.flatten x).length) h
  simp only [List.flatten_append, List.length_append, flatten_splitLines] at h2
  simp only [scanned, scanTokens]
  omega

theorem head_scanTokens (p : List Byte) (t : List Byte) (h : t ∈ (scanTokens p).head?) :
    t ∈ (splitLines p).head? := by
  unfold scanTokens at h
  cases hs : splitLines p with
  | nil => simp [hs] at h
  | cons x xs =>
    rw [hs] at h
    by_cases hx : tokenFits x = true
    · simpa [List.takeWhile_cons, hx] using h
    · simp [List.takeWhile_cons, hx] at h

theorem wrap64_mul8 (k : Int) : wrap64 (k * 8) % 8 = 0 := by
  unfold wrap64
  omega

namespace Mock

theorem ReadWriteSeekable.Seek_set_clamp (s : ReadWriteSeekable) (h : s.Good) (k : Int) :
    ReadWriteSeeker.Seek s k SEEK_SET
      = .ret (s.setOff (clampTo s.blen k), clampTo s.blen k, none) := by
  show ReadWriteSeekable.Seek s k SEEK_SET = _
  have hc : (if (if k > (s.blen : Int) then (s.blen : Int) else k) < 0 then 0
      else (if k > (s.blen : Int) then (s.blen : Int) else k)) = clampTo s.blen k := by
    unfold clampTo
    split_ifs <;> omega
  simp only [ReadWriteSeekable.Seek, h.plain.2.2, Buffer.Seek, SEEK_SET, SEEK_END,
    ReadWriteSeekable.setOff]
  simp only [show ((0 : Int) = 2) = False from by simp, if_false, if_true, hc]
  rfl

end Mock

namespace LineIndexedPipe

open Mock

theorem Wrote.sound {l l' : LineIndexedPipe ReadWriteSeekable ReadWriteSeekable}
    {bytes : List Byte} (hw : Wrote l l' bytes) (hs : l.Sound) : l'.Sound := by
  obtain ⟨rs, hrs, hrange⟩ := hs.records
  have hsz := hs.size_eq
  have hc0 := hs.cursor_nonneg
  have hc1 := hs.cursor_le
  have hl0 := hs.last_nonneg
  have hl1 := hs.last_le
  have hsize := hw.size
  refine ⟨hw.data_good, hw.index_good, ?_, ?_, ?_, ?_, ?_, ?_⟩
  · rw [hw.size, hw.data_bytes, List.length_append, hsz]
    push_cast
    rfl
  · rw [hw.readIndex]
    exact hc0
  · rw [hw.readIndex]
    omega
  · rw [hw.last]
    rcases boundaryAfter_range l.lastIndex l.pipe.data.Bytes.length bytes with h | h
    · rw [h]
      exact hl0
    · omega
  · rw [hw.last]
    rcases boundaryAfter_range l.lastIndex l.pipe.data.Bytes.length bytes with h | h
    · rw [h]
      omega
    · omega
  · refine ⟨rs ++ recordsFor l.lastIndex l.pipe.data.Bytes.length bytes, ?_, ?_⟩
    · rw [hw.index_bytes, hrs, encodeRecords_append]
    · intro r hr
      rcases List.mem_append.mp hr with h | h
      · have := hrange r h
        omega
      · have := recordsFor_lt bytes l.lastIndex l.pipe.data.Bytes.length (by omega) r h
        omega

theorem Read_sound (l l' : LineIndexedPipe ReadWriteSeekable ReadWriteSeekable)
    (d d' : List Byte) (n : Int) (err : Option Error) (hs : l.Sound)
    (hret : l.Read d = .ret (l', d', n, err)) :
    l'.Sound ∧ l'.pipe.data.Bytes = l.pipe.data.Bytes ∧ l'.index = l.index ∧
      l'.pipe.data.buf = l.pipe.data.buf := by
  have keep : ∀ e : Option Error,
      ({ l with pipe := { l.pipe with rerr := e } } :
        LineIndexedPipe ReadWriteSeekable ReadWriteSeekable).Sound :=
    fun _ => ⟨hs.data_good, hs.index_good, hs.size_eq, hs.cursor_nonneg, hs.cursor_le,
      hs.last_nonneg, hs.last_le, hs.records⟩
  cases hr : l.pipe.rerr with
  | some e =>
    rw [Read_eq l d _ _ _ _ (Pipe.Read_rerr l.pipe d e hr)] at hret
    simp only [Outcome.ret.injEq, Prod.mk.injEq] at hret
    rw [← hret.1]
    exact ⟨keep _, rfl, rfl, rfl⟩
  | none =>
    cases hw : l.pipe.werr with
    | some e =>
      rw [Read_eq l d _ _ _ _ (Pipe.Read_werr l.pipe d e hr hw)] at hret
      simp only [Outcome.ret.injEq, Prod.mk.injEq] at hret
      rw [← hret.1]
      exact ⟨keep _, rfl, rfl, rfl⟩
    | none =>
      by_cases hlt : l.pipe.readIndex < l.pipe.size
      · obtain ⟨p', e, hok', -, hb, hsz, hri, hbuf⟩ := Pipe.Read_good l.pipe d
          ⟨hs.data_good, hs.size_eq⟩ ⟨hr, hw⟩ hs.cursor_nonneg hlt
        rw [Read_eq l d _ _ _ _ e] at hret
        simp only [Outcome.ret.injEq, Prod.mk.injEq] at hret
        rw [← hret.1]
        have hsz0 := hs.size_eq
        have hc0 := hs.cursor_nonneg
        obtain ⟨rs, hrs, hrange⟩ := hs.records
        refine ⟨⟨hok'.good, hs.index_good, hok'.size_eq, ?_, ?_, hs.last_nonneg, ?_,
          ⟨rs, hrs, ?_⟩⟩, hb, rfl, hbuf⟩
        · simp only [hri]
          omega
        · simp only [hri, hsz]
          omega
        · simp only [hsz]
          exact hs.last_le
        · simp only [hsz]
          exact hrange
      · have hb := Pipe.Read_blocks l.pipe d hr hw (by omega)
        simp [Read, hb] at hret

theorem Write_sound (l l' : LineIndexedPipe ReadWriteSeekable ReadWriteSeekable)
    (p : List Byte) (n : Int) (err : Option Error) (hs : l.Sound)
    (hroom : l.pipe.data.buf ≠ none ∨ ∀ t ∈ (splitLines p).head?, t.length ≤ 64)
    (hD : (l.pipe.data.Bytes.length : Int) + p.length < 9223372036854775808)
    (hI : (l.index.Bytes.length : Int) + 8 * p.length < 9223372036854775808)
    (hret : l.Write p = .ret (l', n, err)) :
    l'.Sound ∧ l'.pipe.data.Bytes.length ≤ l.pipe.data.Bytes.length + p.length ∧
      l'.index.Bytes.length ≤ l.index.Bytes.length + 8 * p.length ∧
      (l.pipe.data.buf ≠ none → l'.pipe.data.buf ≠ none) := by
  have keep : ∀ e : Option Error,
      ({ l with pipe := { l.pipe with werr := e } } :
        LineIndexedPipe ReadWriteSeekable ReadWriteSeekable).Sound :=
    fun _ => ⟨hs.data_good, hs.index_good, hs.size_eq, hs.cursor_nonneg, hs.cursor_le,
      hs.last_nonneg, hs.last_le, hs.records⟩
  cases hr : l.pipe.rerr with
  | some e =>
    rw [indexed_Write_rerr l p e hr] at hret
    simp only [Outcome.ret.injEq, Prod.mk.injEq] at hret
    rw [← hret.1]
    exact ⟨keep _, by simp, by simp, id⟩
  | none =>
    cases hw : l.pipe.werr with
    | some e =>
      rw [indexed_Write_werr l p e hr hw] at hret
      simp only [Outcome.ret.injEq, Prod.mk.injEq] at hret
      rw [← hret.1]
      exact ⟨keep _, by simp, by simp, id⟩
    | none =>
      obtain ⟨lw, hwr, e⟩ := Write_wrote l p ⟨hs.data_good, hs.index_good, hs.size_eq⟩ ⟨hr, hw⟩
        (hroom.imp id fun h t ht => h t (head_scanTokens p t ht)) hD hI
      have hsw := hwr.sound hs
      have hlen := length_scanned_le p
      have hdl : lw.pipe.data.Bytes.length ≤ l.pipe.data.Bytes.length + p.length := by
        rw [hwr.data_bytes, List.length_append]
        omega
      have hil : lw.index.Bytes.length ≤ l.index.Bytes.length + 8 * p.length := by
        rw [hwr.index_bytes, List.length_append, length_encodeRecords]
        have : (recordsFor l.lastIndex l.pipe.data.Bytes.length (scanned p)).length
            ≤ (scanned p).length := by
          simp only [recordsFor, List.length_take, length_newlineOffsets]
          have := List.count_le_length newline (scanned p)
          omega
        omega
      rw [e] at hret
      simp only [Outcome.ret.injEq, Prod.mk.injEq] at hret
      rw [← hret.1]
      split_ifs
      · exact ⟨hsw, hdl, hil, fun h => hwr.data_buf (Or.inl h)⟩
      · exact ⟨⟨hsw.data_good, hsw.index_good, hsw.size_eq, hsw.cursor_nonneg, hsw.cursor_le,
          hsw.last_nonneg, hsw.last_le, hsw.records⟩, hdl, hil,
          fun h => hwr.data_buf (Or.inl h)⟩

end LineIndexedPipe

theorem clampTo_facts (n : Nat) (w : Int) (hn : n % 8 = 0) (hw : w % 8 = 0) :
    0 ≤ clampTo n w ∧ clampTo n w ≤ (n : Int) ∧ clampTo n w % 8 = 0 := by
  unfold clampTo
  rcases le_total w (n : Int) with h | h
  · rw [min_eq_left h]
    rcases le_total 0 w with h0 | h0
    · rw [max_eq_right h0]
      omega
    · rw [max_eq_left h0]
      omega
  · rw [min_eq_right h, max_eq_right (by omega)]
    omega

namespace LineIndexedPipe

open Mock

theorem Sound.withCursor {l : LineIndexedPipe ReadWriteSeekable ReadWriteSeekable}
    (hs : l.Sound) (idx : ReadWriteSeekable) (v : Int) (e e' : Option Error) (hidx : idx.Good)
    (hb : idx.Bytes = l.index.Bytes) (hv0 : 0 ≤ v) (hv1 : v ≤ l.pipe.size) :
    ({ l with index := idx, pipe := { l.pipe with readIndex := v, rerr := e, werr := e' } } :
      LineIndexedPipe ReadWriteSeekable ReadWriteSeekable).Sound := by
  obtain ⟨rs, hrs, hrange⟩ := hs.records
  exact ⟨hs.data_good, hidx, hs.size_eq, hv0, hv1, hs.last_nonneg, hs.last_le,
    ⟨rs, hb.trans hrs, hrange⟩⟩

theorem SeekLine_sound (l l' : LineIndexedPipe ReadWriteSeekable ReadWriteSeekable)
    (line : Int) (err : Option Error) (hs : l.Sound)
    (hret : l.SeekLine line = .ret (l', err)) :
    l'.Sound ∧ l'.index.Bytes = l.index.Bytes := by
  obtain ⟨rs, hrs, hrange⟩ := hs.records
  have hidx := hs.index_good
  have hlen := l.index.length_Bytes hidx
  have hl8 : l.index.Bytes.length = 8 * rs.length := by rw [hrs, length_encodeRecords]
  have hsize : l.pipe.size < 9223372036854775808 := by
    have h1 := hs.data_good.wf.len_lt
    have h2 := l.pipe.data.length_Bytes hs.data_good
    have h3 := hs.size_eq
    omega
  have hw8 := wrap64_mul8 line
  have e1 := ReadWriteSeekable.Seek_set_clamp l.index hidx (wrap64 (line * 8))
  have ho : 0 ≤ clampTo l.index.blen (wrap64 (line * 8)) ∧
      clampTo l.index.blen (wrap64 (line * 8)) ≤ (l.index.blen : Int) ∧
      clampTo l.index.blen (wrap64 (line * 8)) % 8 = 0 :=
    clampTo_facts l.index.blen (wrap64 (line * 8)) (by omega) hw8
  generalize clampTo l.index.blen (wrap64 (line * 8)) = o at e1 ho
  obtain ⟨ho0, ho1, ho8⟩ := ho
  have hg := l.index.setOff_good hidx o ho0 ho1
  by_cases hfull : o + 8 ≤ (l.index.blen : Int)
  · have e2 := binaryRead_good (l.index.setOff o) hg (by simpa using hfull)
    simp only [ReadWriteSeekable.setOff_off, ReadWriteSeekable.setOff_Bytes] at e2
    have hsl : l.SeekLine line = .ret
        ({ l with index := (l.index.setOff o).setOff (o + 8),
                  pipe := { l.pipe with
                    readIndex := getInt64LE ((l.index.Bytes.drop o.toNat).take 8) } },
          none) := by
      simp [SeekLine, int64Size, e1, e2]
    rw [hsl] at hret
    simp only [Outcome.ret.injEq, Prod.mk.injEq] at hret
    rw [← hret.1]
    have hj : o.toNat = 8 * (o.toNat / 8) := by omega
    have hjlt : o.toNat / 8 < rs.length := by omega
    have hval : getInt64LE ((l.index.Bytes.drop o.toNat).take 8) = rs[o.toNat / 8] := by
      have h := indexRecord_encodeRecords rs
        (fun r hr => by have := hrange r hr; omega) (o.toNat / 8) hjlt
      rw [← h, indexRecord, ← hrs, ← hj]
    have hmem := hrange _ (List.getElem_mem hjlt)
    rw [← hval] at hmem
    have hg2 := (l.index.setOff o).setOff_good hg (o + 8) (by omega) (by simpa using hfull)
    refine ⟨?_, ?_⟩
    · exact Sound.withCursor hs ((l.index.setOff o).setOff (o + 8))
        (getInt64LE ((l.index.Bytes.drop o.toNat).take 8)) l.pipe.rerr l.pipe.werr hg2
        (by simp only [ReadWriteSeekable.setOff_Bytes]) hmem.1 (le_of_lt hmem.2)
    · simp only [ReadWriteSeekable.setOff_Bytes]
  · have hend : (l.index.blen : Int) ≤ o := by omega
    have e2 := binaryRead_eof (l.index.setOff o) hg (by simpa using hend)
    have hsl : l.SeekLine line = .ret
        ({ l with index := l.index.setOff o,
                  pipe := { l.pipe with rerr := some .EOF } }, some .EOF) := by
      simp [SeekLine, int64Size, e1, e2]
    rw [hsl] at hret
    simp only [Outcome.ret.injEq, Prod.mk.injEq] at hret
    rw [← hret.1]
    refine ⟨?_, ?_⟩
    · exact Sound.withCursor hs (l.index.setOff o) l.pipe.readIndex (some .EOF) l.pipe.werr hg
        (by simp only [ReadWriteSeekable.setOff_Bytes]) hs.cursor_nonneg hs.cursor_le
    · simp only [ReadWriteSeekable.setOff_Bytes]

end LineIndexedPipe

namespace LineIndexedPipe

open Mock

theorem Op.roomy_cons (op : Op) (ops : List Op) (h : Op.roomy (op :: ops)) :
    Op.roomy [op] ∧ Op.roomy ops :=
  ⟨fun p hp => h p (by simp only [List.mem_singleton] at hp; simp [hp]),
   fun p hp => h p (List.mem_cons_of_mem _ hp)⟩

theorem step_sound (l l' : LineIndexedPipe ReadWriteSeekable ReadWriteSeekable) (op : Op)
    (ev : Event) (hs : l.Sound) (hroom : l.pipe.data.buf ≠ none ∨ Op.roomy [op])
    (hD : (l.pipe.data.Bytes.length : Int) + Op.asked [op] < 9223372036854775808)
    (hI : (l.index.Bytes.length : Int) + 8 * Op.asked [op] < 9223372036854775808)
    (hret : l.step op = .ret (l', ev)) :
    l'.Sound ∧ l'.pipe.data.Bytes.length ≤ l.pipe.data.Bytes.length + Op.asked [op] ∧
      l'.index.Bytes.length ≤ l.index.Bytes.length + 8 * Op.asked [op] ∧
      (l.pipe.data.buf ≠ none → l'.pipe.data.buf ≠ none) := by
  cases op with
  | read d =>
    simp only [step, Outcome.bind_eq_ret] at hret
    obtain ⟨⟨l1, d1, n, err⟩, hr, hret⟩ := hret
    simp only [Outcome.ret.injEq, Prod.mk.injEq] at hret
    obtain ⟨h1, h2, h3, h4⟩ := Read_sound l l1 d d1 n err hs hr
    rw [← hret.1]
    exact ⟨h1, by rw [h2]; simp, by rw [h3]; simp, fun h => by rw [h4]; exact h⟩
  | write p =>
    simp only [step, Outcome.bind_eq_ret] at hret
    obtain ⟨⟨l1, n, err⟩, hw, hret⟩ := hret
    simp only [Outcome.ret.injEq, Prod.mk.injEq] at hret
    rw [← hret.1]
    simp only [Op.asked, Nat.add_zero] at hD hI ⊢
    exact Write_sound l l1 p n err hs (hroom.imp id fun h => h p (by simp)) hD hI hw
  | seek offset whence =>
    have hsz := hs.size_eq
    obtain ⟨pos, hseek, h0, h1⟩ := Pipe.Seek_within l.pipe offset whence (by omega)
    simp only [step, Seek, hseek, Outcome.ret.injEq, Prod.mk.injEq] at hret
    rw [← hret.1]
    exact ⟨Sound.withCursor hs l.index pos l.pipe.rerr l.pipe.werr hs.index_good rfl h0 h1,
      by simp, by simp, id⟩
  | seekLine line =>
    simp only [step, Outcome.bind_eq_ret] at hret
    obtain ⟨⟨l1, err⟩, hsl, hret⟩ := hret
    simp only [Outcome.ret.injEq, Prod.mk.injEq] at hret
    obtain ⟨h1, h2⟩ := SeekLine_sound l l1 line err hs hsl
    have h3 := (SeekLine_frame l l1 line err hsl).1
    rw [← hret.1]
    exact ⟨h1, by rw [h3]; simp, by rw [h2]; simp, fun h => by rw [h3]; exact h⟩
  | close =>
    simp only [step, Outcome.ret.injEq, Prod.mk.injEq] at hret
    rw [← hret.1]
    exact ⟨Sound.withCursor hs l.index l.pipe.readIndex (some .ErrClosedPipe)
      (some .ErrClosedPipe) hs.index_good rfl hs.cursor_nonneg hs.cursor_le,
      by simp [close, Pipe.close], by simp [close], id⟩

theorem run_sound (ops : List Op) :
    ∀ (l l' : LineIndexedPipe ReadWriteSeekable ReadWriteSeekable) (evs : List Event),
    l.Sound → (l.pipe.data.buf ≠ none ∨ Op.roomy ops) →
    (l.pipe.data.Bytes.length : Int) + Op.asked ops < 9223372036854775808 →
    (l.index.Bytes.length : Int) + 8 * Op.asked ops < 9223372036854775808 →
    l.run ops = .ret (l', evs) → l'.Sound := by
  induction ops with
  | nil =>
    intro l l' evs hs _ _ _ hret
    simp only [run, Outcome.ret.injEq, Prod.mk.injEq] at hret
    rw [← hret.1]
    exact hs
  | cons op ops ih =>
    intro l l' evs hs hroom hD hI hret
    rw [Op.asked_cons] at hD hI
    push_cast at hD hI
    simp only [run, Outcome.bind_eq_ret] at hret
    obtain ⟨⟨l1, ev⟩, hstep, ⟨l2, evs2⟩, hrun, hret⟩ := hret
    simp only [Outcome.ret.injEq, Prod.mk.injEq] at hret
    rw [← hret.1]
    obtain ⟨h1, hd1, hi1, hb1⟩ := step_sound l l1 op ev hs
      (hroom.imp id fun h => (Op.roomy_cons op ops h).1) (by omega) (by omega) hstep
    exact ih l1 l2 evs2 h1
      (hroom.elim (fun h => Or.inl (hb1 h)) fun h => Or.inr (Op.roomy_cons op ops h).2)
      (by omega) (by omega) hrun

end LineIndexedPipe

namespace LineIndexedPipe

open Mock

/-- C22: for a line-indexed pipe constructed over mock stores without overrides, the index
store empty, every state reached by a sequence of `Read`, `Write`, `Seek`, `SeekLine` and
`close` calls that have returned satisfies `0 ≤ readIndex ≤ size`.  (The first write to a
nil data buffer must fit the 64 bytes the mock allocates, and the stores stay within
`int64`.) -/
theorem cursor_within_size (data index : ReadWriteSeekable) (ops : List Op)
    (l' : LineIndexedPipe ReadWriteSeekable ReadWriteSeekable) (evs : List Event)
    (hd : data.Good) (hi : index.Good) (hie : index.Bytes = [])
    (hroom : data.buf ≠ none ∨ Op.roomy ops)
    (hD : (data.Bytes.length : Int) + Op.asked ops < 9223372036854775808)
    (hI : 8 * (Op.asked ops : Int) < 9223372036854775808)
    (hrun : ((NewLineIndexedPipe data index).bind fun l => l.run ops) = .ret (l', evs)) :
    0 ≤ l'.pipe.readIndex ∧ l'.pipe.readIndex ≤ l'.pipe.size := by
  obtain ⟨pipe, e, hok, -, hri, hbytes, hbuf⟩ := Pipe.NewPipe_ok data hd
  have hnew : NewLineIndexedPipe data index = .ret ⟨pipe, index, 0⟩ := by
    simp [NewLineIndexedPipe, e]
  rw [hnew, Outcome.bind_ret] at hrun
  have hsz := hok.size_eq
  have hs0 : (⟨pipe, index, 0⟩ : LineIndexedPipe ReadWriteSeekable ReadWriteSeekable).Sound :=
    ⟨hok.good, hi, hok.size_eq, by simp only [hri]; omega, by simp only [hri]; omega,
      le_refl _, by simp only; omega, ⟨[], hie, by simp⟩⟩
  have hs := run_sound ops ⟨pipe, index, 0⟩ l' evs hs0
    (by simp only [hbuf]; exact hroom) (by simp only [hbytes]; exact hD)
    (by simp only [hie, List.length_nil]; omega) hrun
  exact ⟨hs.cursor_nonneg, hs.cursor_le⟩

/-- C22 (witness): over two zero-value stores: `Write("\\nHello World\\n\\n")`, `SeekLine(2)`,
a `Read` of two bytes, `Seek(100, current)`, `close`, `SeekLine(9)`; the read index ends at
14, the size. -/
theorem cursor_within_size_witness :
    ∃ (l' : LineIndexedPipe ReadWriteSeekable ReadWriteSeekable) (evs : List Event),
      ((NewLineIndexedPipe zeroValue zeroValue).bind fun l =>
        l.run [.write helloWorld, .seekLine 2, .read [0, 0], .seek 100 SEEK_CUR, .close,
          .seekLine 9]) = .ret (l', evs) ∧
      evs = [.io (.write 14 none), .seekLine none, .io (.read [10] 1 none),
        .io (.seek 14 none), .close, .seekLine (some .EOF)] ∧
      l'.pipe.readIndex = 14 ∧ l'.pipe.size = 14 ∧
      0 ≤ l'.pipe.readIndex ∧ l'.pipe.readIndex ≤ l'.pipe.size :=
  ⟨_, _, rfl, rfl, rfl, rfl,
    cursor_within_size zeroValue zeroValue
      [.write helloWorld, .seekLine 2, .read [0, 0], .seek 100 SEEK_CUR, .close, .seekLine 9]
      _ _ zeroValue_good zeroValue_good rfl
      (Or.inr (fun p hp => by
        simp only [List.mem_cons, Op.write.injEq, reduceCtorEq, List.mem_singleton, or_false,
          List.not_mem_nil] at hp
        subst hp
        decide))
      (by decide) (by decide) rfl⟩

end LineIndexedPipe

/-! ## `SeekLine` followed by `Read`, on the pipe's own index -/

namespace LineIndexedPipe

open Mock

theorem sound_of_run (data index : ReadWriteSeekable) (ops : List Op)
    (l' : LineIndexedPipe ReadWriteSeekable ReadWriteSeekable) (evs : List Event)
    (hd : data.Good) (hi : index.Good) (hie : index.Bytes = [])
    (hroom : data.buf ≠ none ∨ Op.roomy ops)
    (hD : (data.Bytes.length : Int) + Op.asked ops < 9223372036854775808)
    (hI : 8 * (Op.asked ops : Int) < 9223372036854775808)
    (hrun : ((NewLineIndexedPipe data index).bind fun l => l.run ops) = .ret (l', evs)) :
    l'.Sound := by
  obtain ⟨pipe, e, hok, -, hri, hbytes, hbuf⟩ := Pipe.NewPipe_ok data hd
  have hnew : NewLineIndexedPipe data index = .ret ⟨pipe, index, 0⟩ := by
    simp [NewLineIndexedPipe, e]
  rw [hnew, Outcome.bind_ret] at hrun
  have hsz := hok.size_eq
  have hs0 : (⟨pipe, index, 0⟩ : LineIndexedPipe ReadWriteSeekable ReadWriteSeekable).Sound :=
    ⟨hok.good, hi, hok.size_eq, by simp only [hri]; omega, by simp only [hri]; omega,
      le_refl _, by simp only; omega, ⟨[], hie, by simp⟩⟩
  exact run_sound ops ⟨pipe, index, 0⟩ l' evs hs0
    (by simp only [hbuf]; exact hroom) (by simp only [hbytes]; exact hD)
    (by simp only [hie, List.length_nil]; omega) hrun

theorem Sound.record_lt {l : LineIndexedPipe ReadWriteSeekable ReadWriteSeekable}
    (hs : l.Sound) (n : Nat) (hn : 8 * (n + 1) ≤ l.index.Bytes.length) :
    0 ≤ indexRecord l.index.Bytes n ∧ indexRecord l.index.Bytes n < l.pipe.size := by
  obtain ⟨rs, hrs, hrange⟩ := hs.records
  have hsize : l.pipe.size < 9223372036854775808 := by
    have h1 := hs.data_good.wf.len_lt
    have h2 := l.pipe.data.length_Bytes hs.data_good
    have h3 := hs.size_eq
    omega
  have hl8 : l.index.Bytes.length = 8 * rs.length := by rw [hrs, length_encodeRecords]
  have hlt : n < rs.length := by omega
  have h := indexRecord_encodeRecords rs (fun r hr => by have := hrange r hr; omega) n hlt
  rw [hrs, h]
  exact hrange _ (List.getElem_mem hlt)

end LineIndexedPipe

namespace LineIndexedPipe

open Mock

theorem min_pos_of_lt (m n : Nat) (v s : Int) (hs : s = (n : Int)) (h0 : 0 ≤ v) (h1 : v < s)
    (hm : 0 < m) : 0 < min m (n - v.toNat) := by
  omega

theorem readIndex_with {σ τ : Type} (l : LineIndexedPipe σ τ) (idx : τ) (v : Int) :
    ({ l with index := idx, pipe := { l.pipe with readIndex := v } } :
      LineIndexedPipe σ τ).pipe.readIndex = v :=
  rfl

theorem afterSeekLine_readIndex (l : LineIndexedPipe ReadWriteSeekable ReadWriteSeekable)
    (k : Nat) : (afterSeekLine l k).pipe.readIndex = indexRecord l.index.Bytes k := by
  unfold afterSeekLine
  exact readIndex_with l _ _

/-- C4 (counterexample): the `Read` that follows a successful `SeekLine` does not always
return data.  On the pipe of `TestWriteReadIndexedPipe` after `close`, `CountLines()` is 3
and `SeekLine(1)` returns nil and sets the read index to record 1, but the following `Read`
returns `(0, io.ErrClosedPipe)` and leaves the buffer as it was.  On a new, open pipe over
the data `"a\n"` and an index store that holds the single record 5, `CountLines()` is 1 and
`SeekLine(0)` returns nil and sets the read index to 5, beyond the size 2, and the
following `Read` waits for data. -/
theorem seekLine_read_not_served :
    (∃ lc l1 l2 : LineIndexedPipe ReadWriteSeekable ReadWriteSeekable,
      helloPipe.close.CountLines = .ret (lc, 3, none) ∧
      helloPipe.close.SeekLine 1 = .ret (l1, none) ∧ l1.pipe.readIndex = 1 ∧
      l1.Read [0, 0] = .ret (l2, [0, 0], 0, some .ErrClosedPipe)) ∧
    (∃ l lc l1 : LineIndexedPipe ReadWriteSeekable ReadWriteSeekable,
      NewLineIndexedPipe (NewReadWriteSeekable [97, 10])
        (NewReadWriteSeekable [5, 0, 0, 0, 0, 0, 0, 0]) = .ret l ∧
      l.pipe.rerr = none ∧ l.pipe.werr = none ∧
      l.CountLines = .ret (lc, 1, none) ∧
      l.SeekLine 0 = .ret (l1, none) ∧ l1.pipe.readIndex = 5 ∧ l1.pipe.size = 2 ∧
      l1.Read [0, 0] = .block) :=
  ⟨⟨_, _, _, rfl, rfl, rfl, rfl⟩, ⟨_, _, _, rfl, rfl, rfl, rfl, rfl, rfl, rfl, rfl⟩⟩

/-- C4 (amended): on a line-indexed pipe whose index is a mock store without overrides, for
every `k` with `0 ≤ k < CountLines()`, `SeekLine(k)` returns nil and sets the read index to
the value of index record `k`.  When moreover the pipe is open (neither error slot set) and
its index has been written by the pipe alone (the state has been reached by calls that
returned on a pipe constructed over mock stores without overrides, the index store empty,
the first write to a nil data buffer within the 64 bytes the mock allocates and the stores
within `int64`), record `k` is an offset of the data store, `0 ≤ record k < size`, and the
following `Read` returns no error and the data-store bytes that start exactly at that
offset: `min(len(d), size - record k)` of them, at least one when `d` is not empty. -/
theorem seekLine_reads_record (l lc : LineIndexedPipe ReadWriteSeekable ReadWriteSeekable)
    (k c : Int) (ec : Option Error) (hidx : l.index.Good) (h0 : 0 ≤ k)
    (hc : l.CountLines = .ret (lc, c, ec)) (hk : k < c) :
    l.SeekLine k = .ret (afterSeekLine l k.toNat, none) ∧
    (afterSeekLine l k.toNat).pipe.readIndex = indexRecord l.index.Bytes k.toNat ∧
    (∀ (data index : ReadWriteSeekable) (ops : List Op) (evs : List Event),
      data.Good → index.Good → index.Bytes = [] →
      (data.buf ≠ none ∨ Op.roomy ops) →
      (data.Bytes.length : Int) + Op.asked ops < 9223372036854775808 →
      8 * (Op.asked ops : Int) < 9223372036854775808 →
      ((NewLineIndexedPipe data index).bind fun l0 => l0.run ops) = .ret (l, evs) →
      l.pipe.rerr = none → l.pipe.werr = none →
      0 ≤ indexRecord l.index.Bytes k.toNat ∧
      indexRecord l.index.Bytes k.toNat < l.pipe.size ∧
      ∀ d : List Byte, ∃ l'' : LineIndexedPipe ReadWriteSeekable ReadWriteSeekable,
        (afterSeekLine l k.toNat).Read d = .ret (l'',
          (l.pipe.data.Bytes.drop (indexRecord l.index.Bytes k.toNat).toNat).take
              (min d.length (l.pipe.data.Bytes.length - (indexRecord l.index.Bytes k.toNat).toNat))
            ++ d.drop (min d.length
                (l.pipe.data.Bytes.length - (indexRecord l.index.Bytes k.toNat).toNat)),
          (min d.length (l.pipe.data.Bytes.length - (indexRecord l.index.Bytes k.toNat).toNat) : Nat),
          none) ∧
        (d ≠ [] →
          0 < min d.length
            (l.pipe.data.Bytes.length - (indexRecord l.index.Bytes k.toNat).toNat))) := by
  obtain ⟨hsl, hrd⟩ := SeekLine_then_Read l lc k c ec hidx h0 hc hk
  refine ⟨hsl, afterSeekLine_readIndex l k.toNat, ?_⟩
  intro data index ops evs hd hi hie hroom hD hI hrun hr hw
  have hs := sound_of_run data index ops l evs hd hi hie hroom hD hI hrun
  rw [CountLines_good l hidx] at hc
  simp only [Outcome.ret.injEq, Prod.mk.injEq] at hc
  obtain ⟨-, rfl, -⟩ := hc
  have hk' : 8 * (k.toNat + 1) ≤ l.index.Bytes.length := by
    rw [Int.tdiv_eq_ediv (by omega) (by omega)] at hk
    omega
  obtain ⟨hv0, hv1⟩ := hs.record_lt k.toNat hk'
  refine ⟨hv0, hv1, fun d => ?_⟩
  obtain ⟨l'', h⟩ := hrd ⟨hs.data_good, hs.size_eq⟩ ⟨hr, hw⟩ hv0 hv1 d
  refine ⟨l'', h, fun hne => ?_⟩
  exact min_pos_of_lt _ _ _ _ hs.size_eq hv0 hv1 (List.length_pos.mpr hne)

end LineIndexedPipe

namespace LineIndexedPipe

open Mock

/-- C4 (witness): the pipe of `TestWriteReadIndexedPipe`, reached from two zero-value stores
by `Write("\nHello World\n\n")`, is open and `CountLines()` is 3; `SeekLine(1)` returns nil
and sets the read index to record 1, which is 1 and lies below the size 14, and the
following `Read` into 16 bytes yields the 13 bytes `"Hello World\n"` and the empty line
`"\n"`. -/
theorem seekLine_reads_record_witness :
    helloPipe.SeekLine 1 = .ret (afterSeekLine helloPipe 1, none) ∧
    (afterSeekLine helloPipe 1).pipe.readIndex = indexRecord helloPipe.index.Bytes 1 ∧
    indexRecord helloPipe.index.Bytes 1 = 1 ∧
    0 ≤ indexRecord helloPipe.index.Bytes 1 ∧
    indexRecord helloPipe.index.Bytes 1 < helloPipe.pipe.size ∧
    (∃ l'' : LineIndexedPipe ReadWriteSeekable ReadWriteSeekable,
      (afterSeekLine helloPipe 1).Read (List.replicate 16 0) = .ret (l'',
        (helloPipe.pipe.data.Bytes.drop (indexRecord helloPipe.index.Bytes 1).toNat).take
            (min (List.replicate 16 (0 : Byte)).length
              (helloPipe.pipe.data.Bytes.length - (indexRecord helloPipe.index.Bytes 1).toNat))
          ++ (List.replicate 16 (0 : Byte)).drop (min (List.replicate 16 (0 : Byte)).length
              (helloPipe.pipe.data.Bytes.length - (indexRecord helloPipe.index.Bytes 1).toNat)),
        (min (List.replicate 16 (0 : Byte)).length
          (helloPipe.pipe.data.Bytes.length - (indexRecord helloPipe.index.Bytes 1).toNat) : Nat),
        none)) ∧
    0 < min (List.replicate 16 (0 : Byte)).length
        (helloPipe.pipe.data.Bytes.length - (indexRecord helloPipe.index.Bytes 1).toNat) ∧
    (∃ l'' : LineIndexedPipe ReadWriteSeekable ReadWriteSeekable,
      (afterSeekLine helloPipe 1).Read (List.replicate 16 0)
        = .ret (l'', [72, 101, 108, 108, 111, 32, 87, 111, 114, 108, 100, 10] ++ [10]
            ++ [0, 0, 0], 13, none)) := by
  obtain ⟨h1, h2, h3⟩ := seekLine_reads_record helloPipe _ 1 3 none
    ⟨⟨rfl, rfl, rfl⟩, ⟨by decide, by decide, by decide, by decide⟩⟩ (by decide) rfl (by decide)
  obtain ⟨h4, h5, h6⟩ := h3 zeroValue zeroValue [.write helloWorld] [.io (.write 14 none)]
    zeroValue_good zeroValue_good rfl
    (Or.inr (fun p hp => by
      simp only [List.mem_singleton, Op.write.injEq] at hp
      subst hp
      decide))
    (by decide) (by decide) rfl rfl rfl
  obtain ⟨l'', h7, h8⟩ := h6 (List.replicate 16 0)
  exact ⟨h1, h2, rfl, h4, h5, ⟨l'', h7⟩, h8 (by decide), ⟨_, rfl⟩⟩

end LineIndexedPipe

/-! ## The calls that follow `close` -/

namespace Pipe

theorem Seek_eq {σ : Type} (l : Pipe σ) (offset whence : Int) :
    ∃ pos : Int, l.Seek offset whence = ({ l with readIndex := pos }, pos, none) :=
  ⟨_, rfl⟩

variable {σ : Type} [ReadWriteSeeker σ]

end Pipe

namespace LineIndexedPipe

variable {σ τ : Type} [ReadWriteSeeker σ] [ReadWriteSeeker τ]

end LineIndexedPipe

namespace Pipe

variable {σ : Type} [ReadWriteSeeker σ]

theorem step_after_failure (e : Error) (ph : Phase) (l : Pipe σ) (c : Call)
    (h : ph.slots e l.rerr l.werr) :
    ∃ (l' : Pipe σ) (ph' : Phase) (ev : Event), l.step c.op = .ret (l', ev) ∧
      ph'.slots e l'.rerr l'.werr ∧ l'.data = l.data ∧ l'.size = l.size ∧
      l'.readIndex = l.readIndex ∧
      Event.replies [ev] = [ev] ∧
      ∀ calls : List Call, repliesAfter e ph (c :: calls) = ev :: repliesAfter e ph' calls := by
  cases c with
  | read d =>
    cases ph with
    | fresh =>
      obtain ⟨hr, hw⟩ := h
      exact ⟨{ l with rerr := some e }, .handed, .read [] 0 (some e),
        by simp [step, Call.op, Read_werr l d e hr hw], ⟨rfl, hw⟩, rfl, rfl, rfl, rfl,
        fun _ => rfl⟩
    | handed =>
      obtain ⟨hr, -⟩ := h
      exact ⟨{ l with rerr := some .ErrClosedPipe }, .closed, .read [] 0 (some .ErrClosedPipe),
        by simp [step, Call.op, Read_rerr l d e hr], Or.inr rfl, rfl, rfl, rfl, rfl,
        fun _ => rfl⟩
    | closed =>
      rcases h with ⟨hr, hw⟩ | hr
      · exact ⟨{ l with rerr := some .ErrClosedPipe }, .closed,
          .read [] 0 (some .ErrClosedPipe),
          by simp [step, Call.op, Read_werr l d _ hr hw], Or.inr rfl, rfl, rfl, rfl, rfl,
          fun _ => rfl⟩
      · exact ⟨{ l with rerr := some .ErrClosedPipe }, .closed,
          .read [] 0 (some .ErrClosedPipe),
          by simp [step, Call.op, Read_rerr l d _ hr], Or.inr rfl, rfl, rfl, rfl, rfl,
          fun _ => rfl⟩
  | write d =>
    cases ph with
    | fresh =>
      obtain ⟨hr, hw⟩ := h
      exact ⟨{ l with werr := some .ErrClosedPipe }, .closed, .write 0 (some .ErrClosedPipe),
        by simp [step, Call.op, Write_werr l d e hr hw], Or.inl ⟨hr, rfl⟩, rfl, rfl, rfl, rfl,
        fun _ => rfl⟩
    | handed =>
      obtain ⟨hr, -⟩ := h
      exact ⟨{ l with werr := some e }, .handed, .write 0 (some e),
        by simp [step, Call.op, Write_rerr l d e hr], ⟨hr, rfl⟩, rfl, rfl, rfl, rfl,
        fun _ => rfl⟩
    | closed =>
      rcases h with ⟨hr, hw⟩ | hr
      · exact ⟨{ l with werr := some .ErrClosedPipe }, .closed,
          .write 0 (some .ErrClosedPipe),
          by simp [step, Call.op, Write_werr l d _ hr hw], Or.inl ⟨hr, rfl⟩, rfl, rfl, rfl,
          rfl, fun _ => rfl⟩
      · exact ⟨{ l with werr := some .ErrClosedPipe }, .closed,
          .write 0 (some .ErrClosedPipe),
          by simp [step, Call.op, Write_rerr l d _ hr], Or.inr hr, rfl, rfl, rfl, rfl,
          fun _ => rfl⟩

theorem Event.replies_cons (ev : Event) (evs : List Event) (h : Event.replies [ev] = [ev]) :
    Event.replies (ev :: evs) = ev :: Event.replies evs := by
  cases ev with
  | read got n err => rfl
  | write n err => rfl
  | seek pos err => simp [Event.replies] at h

theorem run_ops_after_failure (e : Error) (ops : List Op) :
    ∀ (ph : Phase) (l : Pipe σ), ph.slots e l.rerr l.werr →
    ∃ (l' : Pipe σ) (evs : List Event), l.run ops = .ret (l', evs) ∧
      Event.replies evs = repliesAfter e ph (Op.calls ops) ∧
      l'.data = l.data ∧ l'.size = l.size := by
  induction ops with
  | nil =>
    intro ph l _
    exact ⟨l, [], rfl, by cases ph <;> rfl, rfl, rfl⟩
  | cons op ops ih =>
    intro ph l h
    cases op with
    | read d =>
      obtain ⟨l1, ph1, ev, hs, h1, hd1, hz1, -, hev, hrep⟩ :=
        step_after_failure e ph l (.read d) h
      obtain ⟨l2, evs, hrun, hre, hd2, hz2⟩ := ih ph1 l1 h1
      refine ⟨l2, ev :: evs, ?_, ?_, hd2.trans hd1, hz2.trans hz1⟩
      · have hs' : l.step (.read d) = .ret (l1, ev) := hs
        simp only [run, hs', hrun, Outcome.bind_ret]
      · rw [Event.replies_cons ev evs hev, hre]
        exact (hrep (Op.calls ops)).symm
    | write d =>
      obtain ⟨l1, ph1, ev, hs, h1, hd1, hz1, -, hev, hrep⟩ :=
        step_after_failure e ph l (.write d) h
      obtain ⟨l2, evs, hrun, hre, hd2, hz2⟩ := ih ph1 l1 h1
      refine ⟨l2, ev :: evs, ?_, ?_, hd2.trans hd1, hz2.trans hz1⟩
      · have hs' : l.step (.write d) = .ret (l1, ev) := hs
        simp only [run, hs', hrun, Outcome.bind_ret]
      · rw [Event.replies_cons ev evs hev, hre]
        exact (hrep (Op.calls ops)).symm
    | seek offset whence =>
      obtain ⟨pos, hseek⟩ := Seek_eq l offset whence
      obtain ⟨l2, evs, hrun, hre, hd2, hz2⟩ := ih ph { l with readIndex := pos } h
      refine ⟨l2, .seek pos none :: evs, ?_, ?_, hd2, hz2⟩
      · simp only [run, step, hseek, hrun, Outcome.bind_ret]
      · simpa only [Event.replies, Op.calls] using hre

end Pipe

namespace LineIndexedPipe

variable {σ τ : Type} [ReadWriteSeeker σ] [ReadWriteSeeker τ]

theorem indexed_step_after_failure (e : Error) (ph : Pipe.Phase) (l : LineIndexedPipe σ τ)
    (c : Pipe.Call) (h : ph.slots e l.pipe.rerr l.pipe.werr) :
    ∃ (l' : LineIndexedPipe σ τ) (ph' : Pipe.Phase) (ev : Pipe.Event),
      l.step c.indexedOp = .ret (l', .io ev) ∧
      ph'.slots e l'.pipe.rerr l'.pipe.werr ∧ l'.pipe.data = l.pipe.data ∧
      l'.index = l.index ∧ l'.pipe.size = l.pipe.size ∧ l'.lastIndex = l.lastIndex ∧
      Pipe.Event.replies [ev] = [ev] ∧
      ∀ calls : List Pipe.Call,
        Pipe.repliesAfter e ph (c :: calls) = ev :: Pipe.repliesAfter e ph' calls := by
  cases c with
  | read d =>
    cases ph with
    | fresh =>
      obtain ⟨hr, hw⟩ := h
      exact ⟨{ l with pipe := { l.pipe with rerr := some e } }, .handed, .read [] 0 (some e),
        by simp [step, Pipe.Call.indexedOp,
          Read_eq l d _ _ _ _ (Pipe.Read_werr l.pipe d e hr hw)],
        ⟨rfl, hw⟩, rfl, rfl, rfl, rfl, rfl, fun _ => rfl⟩
    | handed =>
      obtain ⟨hr, -⟩ := h
      exact ⟨{ l with pipe := { l.pipe with rerr := some .ErrClosedPipe } }, .closed,
        .read [] 0 (some .ErrClosedPipe),
        by simp [step, Pipe.Call.indexedOp,
          Read_eq l d _ _ _ _ (Pipe.Read_rerr l.pipe d e hr)],
        Or.inr rfl, rfl, rfl, rfl, rfl, rfl, fun _ => rfl⟩
    | closed =>
      rcases h with ⟨hr, hw⟩ | hr
      · exact ⟨{ l with pipe := { l.pipe with rerr := some .ErrClosedPipe } }, .closed,
          .read [] 0 (some .ErrClosedPipe),
          by simp [step, Pipe.Call.indexedOp,
            Read_eq l d _ _ _ _ (Pipe.Read_werr l.pipe d _ hr hw)],
          Or.inr rfl, rfl, rfl, rfl, rfl, rfl, fun _ => rfl⟩
      · exact ⟨{ l with pipe := { l.pipe with rerr := some .ErrClosedPipe } }, .closed,
          .read [] 0 (some .ErrClosedPipe),
          by simp [step, Pipe.Call.indexedOp,
            Read_eq l d _ _ _ _ (Pipe.Read_rerr l.pipe d _ hr)],
          Or.inr rfl, rfl, rfl, rfl, rfl, rfl, fun _ => rfl⟩
  | write d =>
    cases ph with
    | fresh =>
      obtain ⟨hr, hw⟩ := h
      exact ⟨{ l with pipe := { l.pipe with werr := some .ErrClosedPipe } }, .closed,
        .write 0 (some .ErrClosedPipe),
        by simp [step, Pipe.Call.indexedOp, indexed_Write_werr l d e hr hw],
        Or.inl ⟨hr, rfl⟩, rfl, rfl, rfl, rfl, rfl, fun _ => rfl⟩
    | handed =>
      obtain ⟨hr, -⟩ := h
      exact ⟨{ l with pipe := { l.pipe with werr := some e } }, .handed, .write 0 (some e),
        by simp [step, Pipe.Call.indexedOp, indexed_Write_rerr l d e hr],
        ⟨hr, rfl⟩, rfl, rfl, rfl, rfl, rfl, fun _ => rfl⟩
    | closed =>
      rcases h with ⟨hr, hw⟩ | hr
      · exact ⟨{ l with pipe := { l.pipe with werr := some .ErrClosedPipe } }, .closed,
          .write 0 (some .ErrClosedPipe),
          by simp [step, Pipe.Call.indexedOp, indexed_Write_werr l d _ hr hw],
          Or.inl ⟨hr, rfl⟩, rfl, rfl, rfl, rfl, rfl, fun _ => rfl⟩
      · exact ⟨{ l with pipe := { l.pipe with werr := some .ErrClosedPipe } }, .closed,
          .write 0 (some .ErrClosedPipe),
          by simp [step, Pipe.Call.indexedOp, indexed_Write_rerr l d _ hr],
          Or.inr hr, rfl, rfl, rfl, rfl, rfl, fun _ => rfl⟩

theorem indexed_run_ops_after_failure (e : Error) (ops : List Pipe.Op) :
    ∀ (ph : Pipe.Phase) (l : LineIndexedPipe σ τ), ph.slots e l.pipe.rerr l.pipe.werr →
    ∃ (l' : LineIndexedPipe σ τ) (evs : List Pipe.Event),
      l.run (ops.map Pipe.Op.indexed) = .ret (l', evs.map Event.io) ∧
      Pipe.Event.replies evs = Pipe.repliesAfter e ph (Pipe.Op.calls ops) ∧
      l'.pipe.data = l.pipe.data ∧ l'.index = l.index ∧ l'.pipe.size = l.pipe.size ∧
      l'.lastIndex = l.lastIndex := by
  induction ops with
  | nil =>
    intro ph l _
    exact ⟨l, [], rfl, by cases ph <;> rfl, rfl, rfl, rfl, rfl⟩
  | cons op ops ih =>
    intro ph l h
    cases op with
    | read d =>
      obtain ⟨l1, ph1, ev, hs, h1, hd1, hi1, hz1, hl1, hev, hrep⟩ :=
        indexed_step_after_failure e ph l (.read d) h
      obtain ⟨l2, evs, hrun, hre, hd2, hi2, hz2, hl2⟩ := ih ph1 l1 h1
      refine ⟨l2, ev :: evs, ?_, ?_, hd2.trans hd1, hi2.trans hi1, hz2.trans hz1,
        hl2.trans hl1⟩
      · have hs' : l.step (.read d) = .ret (l1, .io ev) := hs
        simp only [List.map_cons, Pipe.Op.indexed, run, hs', hrun, Outcome.bind_ret]
      · rw [Pipe.Event.replies_cons ev evs hev, hre]
        exact (hrep (Pipe.Op.calls ops)).symm
    | write d =>
      obtain ⟨l1, ph1, ev, hs, h1, hd1, hi1, hz1, hl1, hev, hrep⟩ :=
        indexed_step_after_failure e ph l (.write d) h
      obtain ⟨l2, evs, hrun, hre, hd2, hi2, hz2, hl2⟩ := ih ph1 l1 h1
      refine ⟨l2, ev :: evs, ?_, ?_, hd2.trans hd1, hi2.trans hi1, hz2.trans hz1,
        hl2.trans hl1⟩
      · have hs' : l.step (.write d) = .ret (l1, .io ev) := hs
        simp only [List.map_cons, Pipe.Op.indexed, run, hs', hrun, Outcome.bind_ret]
      · rw [Pipe.Event.replies_cons ev evs hev, hre]
        exact (hrep (Pipe.Op.calls ops)).symm
    | seek offset whence =>
      obtain ⟨pos, hseek⟩ := Pipe.Seek_eq l.pipe offset whence
      obtain ⟨l2, evs, hrun, hre, hd2, hi2, hz2, hl2⟩ :=
        ih ph { l with pipe := { l.pipe with readIndex := pos } } h
      refine ⟨l2, .seek pos none :: evs, ?_, ?_, hd2, hi2, hz2, hl2⟩
      · simp only [List.map_cons, Pipe.Op.indexed, run, step, Seek, hseek, hrun,
          Outcome.bind_ret]
      · simpa only [Pipe.Event.replies, Pipe.Op.calls] using hre

theorem indexed_step_failed (l l' : LineIndexedPipe σ τ) (op : Op) (ev : Event)
    (hw : l.pipe.werr ≠ none) (h : l.step op = .ret (l', ev)) :
    l'.pipe.werr ≠ none ∧ l'.pipe.data = l.pipe.data ∧ l'.pipe.size = l.pipe.size ∧
      (∀ got n err, ev = .io (.read got n err) → got = [] ∧ n = 0 ∧ err ≠ none) ∧
      (∀ n err, ev = .io (.write n err) → n = 0 ∧ err ≠ none) := by
  obtain ⟨w, hwe⟩ := Option.ne_none_iff_exists'.mp hw
  cases op with
  | read d =>
    have hread : ∃ e' : Error, l.Read d
        = .ret ({ l with pipe := { l.pipe with rerr := some e' } }, d, 0, some e') := by
      cases hr : l.pipe.rerr with
      | none => exact ⟨w, Read_eq l d _ _ _ _ (Pipe.Read_werr l.pipe d w hr hwe)⟩
      | some r => exact ⟨_, Read_eq l d _ _ _ _ (Pipe.Read_rerr l.pipe d r hr)⟩
    obtain ⟨e', he⟩ := hread
    rw [step, he] at h
    simp only [Outcome.bind_ret, Outcome.ret.injEq, Prod.mk.injEq] at h
    obtain ⟨rfl, rfl⟩ := h
    refine ⟨hw, rfl, rfl, ?_, ?_⟩
    · intro got n err h
      simp only [Event.io.injEq, Pipe.Event.read.injEq] at h
      obtain ⟨rfl, rfl, rfl⟩ := h
      simp
    · intro n err h
      simp at h
  | write p =>
    have hwrite : ∃ e' : Error, l.Write p
        = .ret ({ l with pipe := { l.pipe with werr := some e' } }, 0, some e') := by
      cases hr : l.pipe.rerr with
      | none => exact ⟨_, indexed_Write_werr l p w hr hwe⟩
      | some r => exact ⟨r, indexed_Write_rerr l p r hr⟩
    obtain ⟨e', he⟩ := hwrite
    rw [step, he] at h
    simp only [Outcome.bind_ret, Outcome.ret.injEq, Prod.mk.injEq] at h
    obtain ⟨rfl, rfl⟩ := h
    refine ⟨by simp, rfl, rfl, ?_, ?_⟩
    · intro got n err h
      simp at h
    · intro n err h
      simp only [Event.io.injEq, Pipe.Event.write.injEq] at h
      obtain ⟨rfl, rfl⟩ := h
      simp
  | seek offset whence =>
    obtain ⟨pos, hseek⟩ := Pipe.Seek_eq l.pipe offset whence
    simp only [step, Seek, hseek, Outcome.ret.injEq, Prod.mk.injEq] at h
    obtain ⟨rfl, rfl⟩ := h
    refine ⟨hw, rfl, rfl, ?_, ?_⟩
    · intro got n err h
      simp at h
    · intro n err h
      simp at h
  | seekLine line =>
    simp only [step, Outcome.bind_eq_ret] at h
    obtain ⟨⟨l1, err⟩, hs, h⟩ := h
    simp only [Outcome.ret.injEq, Prod.mk.injEq] at h
    obtain ⟨rfl, rfl⟩ := h
    obtain ⟨hd, hz, hwe', -, -, -⟩ := SeekLine_frame l l1 line err hs
    refine ⟨by rw [hwe']; exact hw, hd, hz, ?_, ?_⟩
    · intro got n err h
      simp at h
    · intro n err h
      simp at h
  | close =>
    simp only [step, Outcome.ret.injEq, Prod.mk.injEq] at h
    obtain ⟨rfl, rfl⟩ := h
    refine ⟨by simp [close, Pipe.close], rfl, rfl, ?_, ?_⟩
    · intro got n err h
      simp at h
    · intro n err h
      simp at h

theorem indexed_run_failed (ops : List Op) :
    ∀ (l l' : LineIndexedPipe σ τ) (evs : List Event), l.pipe.werr ≠ none →
      l.run ops = .ret (l', evs) →
      l'.pipe.werr ≠ none ∧ l'.pipe.data = l.pipe.data ∧ l'.pipe.size = l.pipe.size ∧
      (∀ got n err, Event.io (.read got n err) ∈ evs → got = [] ∧ n = 0 ∧ err ≠ none) ∧
      (∀ n err, Event.io (.write n err) ∈ evs → n = 0 ∧ err ≠ none) := by
  induction ops with
  | nil =>
    intro l l' evs hw h
    simp only [run, Outcome.ret.injEq, Prod.mk.injEq] at h
    obtain ⟨rfl, rfl⟩ := h
    exact ⟨hw, rfl, rfl, by simp, by simp⟩
  | cons op ops ih =>
    intro l l' evs hw h
    simp only [run, Outcome.bind_eq_ret] at h
    obtain ⟨⟨l1, ev⟩, hs, ⟨l2, evs2⟩, hrun, h⟩ := h
    simp only [Outcome.ret.injEq, Prod.mk.injEq] at h
    obtain ⟨rfl, rfl⟩ := h
    obtain ⟨hw1, hd1, hz1, hrd1, hwr1⟩ := indexed_step_failed l l1 op ev hw hs
    obtain ⟨hw2, hd2, hz2, hrd2, hwr2⟩ := ih l1 l2 evs2 hw1 hrun
    refine ⟨hw2, hd2.trans hd1, hz2.trans hz1, ?_, ?_⟩
    · intro got n err h
      rcases List.mem_cons.mp h with h | h
      · exact hrd1 got n err h.symm
      · exact hrd2 got n err h
    · intro n err h
      rcases List.mem_cons.mp h with h | h
      · exact hwr1 n err h.symm
      · exact hwr2 n err h

theorem indexed_failed_replies (l : LineIndexedPipe σ τ) (hw : l.pipe.werr ≠ none)
    (d : List Byte) :
    (∃ e' : Error, l.Read d
      = .ret ({ l with pipe := { l.pipe with rerr := some e' } }, d, 0, some e')) ∧
    (∃ e' : Error, l.Write d
      = .ret ({ l with pipe := { l.pipe with werr := some e' } }, 0, some e')) := by
  obtain ⟨w, hwe⟩ := Option.ne_none_iff_exists'.mp hw
  cases hr : l.pipe.rerr with
  | none =>
    exact ⟨⟨w, Read_eq l d _ _ _ _ (Pipe.Read_werr l.pipe d w hr hwe)⟩,
      ⟨_, indexed_Write_werr l d w hr hwe⟩⟩
  | some r =>
    exact ⟨⟨_, Read_eq l d _ _ _ _ (Pipe.Read_rerr l.pipe d r hr)⟩,
      ⟨r, indexed_Write_rerr l d r hr⟩⟩

end LineIndexedPipe

namespace Pipe

variable {σ : Type} [ReadWriteSeeker σ]

theorem failed_replies (l : Pipe σ) (hw : l.werr ≠ none) (d : List Byte) :
    (∃ e' : Error, l.Read d = .ret ({ l with rerr := some e' }, d, 0, some e')) ∧
    (∃ e' : Error, l.Write d = .ret ({ l with werr := some e' }, 0, some e')) := by
  obtain ⟨w, hwe⟩ := Option.ne_none_iff_exists'.mp hw
  by_cases hr : l.rerr = none
  · exact ⟨⟨w, Read_werr l d w hr hwe⟩, ⟨_, Write_werr l d w hr hwe⟩⟩
  · obtain ⟨r, hr⟩ := Option.ne_none_iff_exists'.mp hr
    exact ⟨⟨_, Read_rerr l d r hr⟩, ⟨r, Write_rerr l d r hr⟩⟩

end Pipe

/-- C14 (amended): once a failure `e` is recorded as the write-side error of a pipe (base or
line-indexed) whose read side is clear, no later `Read` or `Write` waits, succeeds or
touches the data store: each returns the count 0 and a non-nil error.
* Every sequence of `Read`, `Write` and `Seek` calls made from that state returns, on both
  pipes, and the stores and the size stay as they are.  The error is `e` for a `Read` made
  before any other `Read` or `Write`, and for the `Write`s between that `Read` and the
  following `Read`; it is `io.ErrClosedPipe` for every other `Read` and `Write`.
* On the line-indexed pipe, after every sequence of `Read`, `Write`, `Seek`, `SeekLine` and
  `close` calls that has returned, every `Read` and `Write` of the sequence has returned the
  count 0 and a non-nil error, the data store and the size are as they were, and the next
  `Read` and the next `Write` return the count 0 and a non-nil error.
* On the base pipe, in every state in which the write-side error is set, `Read` and `Write`
  return the count 0 and a non-nil error and leave the data store alone, and `Read`, `Write`,
  `Seek` and `close` leave the write-side error set. -/
theorem write_error_replies {σ τ : Type} [ReadWriteSeeker σ] [ReadWriteSeeker τ]
    (l : Pipe σ) (li : LineIndexedPipe σ τ) (e : Error) :
    (l.rerr = none → l.werr = some e →
      ∀ ops : List Pipe.Op, ∃ (l' : Pipe σ) (evs : List Pipe.Event),
        l.run ops = .ret (l', evs) ∧
        Pipe.Event.replies evs = Pipe.repliesAfter e .fresh (Pipe.Op.calls ops) ∧
        l'.data = l.data ∧ l'.size = l.size) ∧
    (li.pipe.rerr = none → li.pipe.werr = some e →
      (∀ ops : List Pipe.Op, ∃ (li' : LineIndexedPipe σ τ) (evs : List Pipe.Event),
        li.run (ops.map Pipe.Op.indexed) = .ret (li', evs.map LineIndexedPipe.Event.io) ∧
        Pipe.Event.replies evs = Pipe.repliesAfter e .fresh (Pipe.Op.calls ops) ∧
        li'.pipe.data = li.pipe.data ∧ li'.index = li.index ∧
        li'.pipe.size = li.pipe.size ∧ li'.lastIndex = li.lastIndex) ∧
      (∀ (ops : List LineIndexedPipe.Op) (li' : LineIndexedPipe σ τ)
          (evs : List LineIndexedPipe.Event),
        li.run ops = .ret (li', evs) →
        li'.pipe.data = li.pipe.data ∧ li'.pipe.size = li.pipe.size ∧
        (∀ got n err, LineIndexedPipe.Event.io (.read got n err) ∈ evs →
          got = [] ∧ n = 0 ∧ err ≠ none) ∧
        (∀ n err, LineIndexedPipe.Event.io (.write n err) ∈ evs → n = 0 ∧ err ≠ none) ∧
        ∀ d : List Byte,
          (∃ e' : Error, li'.Read d
            = .ret ({ li' with pipe := { li'.pipe with rerr := some e' } }, d, 0, some e')) ∧
          (∃ e' : Error, li'.Write d
            = .ret ({ li' with pipe := { li'.pipe with werr := some e' } }, 0, some e')))) ∧
    (∀ l0 : Pipe σ, l0.werr ≠ none →
      (∀ d : List Byte,
        (∃ e' : Error, l0.Read d = .ret ({ l0 with rerr := some e' }, d, 0, some e')) ∧
        (∃ e' : Error, l0.Write d = .ret ({ l0 with werr := some e' }, 0, some e'))) ∧
      (∀ offset whence : Int, ∃ pos : Int,
        l0.Seek offset whence = ({ l0 with readIndex := pos }, pos, none)) ∧
      l0.close.werr ≠ none ∧ l0.close.data = l0.data ∧ l0.close.size = l0.size) := by
  refine ⟨fun hr hw ops => Pipe.run_ops_after_failure e ops .fresh l ⟨hr, hw⟩,
    fun hr hw => ⟨fun ops =>
      LineIndexedPipe.indexed_run_ops_after_failure e ops .fresh li ⟨hr, hw⟩,
      fun ops li' evs hrun => ?_⟩,
    fun l0 h0 => ⟨fun d => Pipe.failed_replies l0 h0 d, fun offset whence =>
      Pipe.Seek_eq l0 offset whence, by simp [Pipe.close], rfl, rfl⟩⟩
  obtain ⟨hw', hd, hz, hrd, hwr⟩ :=
    LineIndexedPipe.indexed_run_failed ops li li' evs (by rw [hw]; simp) hrun
  exact ⟨hd, hz, hrd, hwr, fun d => LineIndexedPipe.indexed_failed_replies li' hw' d⟩

/-- C14 (witness): the pipe of `TestLateSeekFailWritePipe` after its failed `Write`, which
recorded `errUnseekable`.  The calls `Read, Seek, Write, Write, Read, Write` return
`errUnseekable` for the first `Read` and the two `Write`s after it and `io.ErrClosedPipe`
for the second `Read` and the last `Write`.  On the line-indexed pipe with the same slots
the calls `Write, Seek, Read` return `io.ErrClosedPipe` twice; the calls `SeekLine(0)`
(which fails with `io.EOF`, the index being empty), `Write`, `close`, `Read` return
`(0, io.EOF)` for the `Write` and `(0, io.ErrClosedPipe)` for the `Read`, and a further `Read`
and `Write` return the count 0 and an error. -/
theorem write_error_replies_witness :
    (∃ (l' : Pipe Mock.ReadWriteSeekable) (evs : List Pipe.Event),
      ({ Pipe.lateSeekFail with werr := some errUnseekable } : Pipe Mock.ReadWriteSeekable).run
          [.read [0], .seek 3 SEEK_SET, .write [1], .write [2], .read [0], .write [3]]
        = .ret (l', evs) ∧
      Pipe.Event.replies evs = [.read [] 0 (some errUnseekable), .write 0 (some errUnseekable),
          .write 0 (some errUnseekable), .read [] 0 (some .ErrClosedPipe),
          .write 0 (some .ErrClosedPipe)] ∧
      l'.data = Pipe.lateSeekFail.data ∧ l'.size = 10) ∧
    (∃ (li' : LineIndexedPipe Mock.ReadWriteSeekable Mock.ReadWriteSeekable)
        (evs : List Pipe.Event),
      (⟨{ Pipe.lateSeekFail with werr := some errUnseekable }, Mock.zeroValue, 0⟩ :
          LineIndexedPipe Mock.ReadWriteSeekable Mock.ReadWriteSeekable).run
          [.write [1], .seek 0 SEEK_END, .read [0]]
        = .ret (li', evs.map LineIndexedPipe.Event.io) ∧
      Pipe.Event.replies evs = [.write 0 (some .ErrClosedPipe),
          .read [] 0 (some .ErrClosedPipe)] ∧
      li'.pipe.data = Pipe.lateSeekFail.data ∧ li'.index = Mock.zeroValue ∧
      li'.pipe.size = 10 ∧ li'.lastIndex = 0) ∧
    ((⟨{ Pipe.lateSeekFail with werr := some errUnseekable }, Mock.zeroValue, 0⟩ :
          LineIndexedPipe Mock.ReadWriteSeekable Mock.ReadWriteSeekable).run
          [.seekLine 0, .write [1], .close, .read [0]]
        = .ret ((LineIndexedPipe.afterSeekPastEnd
              (⟨{ Pipe.lateSeekFail with werr := some errUnseekable }, Mock.zeroValue, 0⟩ :
                LineIndexedPipe Mock.ReadWriteSeekable Mock.ReadWriteSeekable)).close,
            [.seekLine (some .EOF), .io (.write 0 (some .EOF)), .close,
              .io (.read [] 0 (some .ErrClosedPipe))]) ∧
      (∃ e' : Error, (LineIndexedPipe.afterSeekPastEnd
              (⟨{ Pipe.lateSeekFail with werr := some errUnseekable }, Mock.zeroValue, 0⟩ :
                LineIndexedPipe Mock.ReadWriteSeekable Mock.ReadWriteSeekable)).close.Read [0]
          = .ret ({ (LineIndexedPipe.afterSeekPastEnd
              (⟨{ Pipe.lateSeekFail with werr := some errUnseekable }, Mock.zeroValue, 0⟩ :
                LineIndexedPipe Mock.ReadWriteSeekable Mock.ReadWriteSeekable)).close with
                pipe := { (LineIndexedPipe.afterSeekPastEnd
              (⟨{ Pipe.lateSeekFail with werr := some errUnseekable }, Mock.zeroValue, 0⟩ :
                LineIndexedPipe Mock.ReadWriteSeekable Mock.ReadWriteSeekable)).close.pipe with
                  rerr := some e' } }, [0], 0, some e')) ∧
      (∃ e' : Error, (LineIndexedPipe.afterSeekPastEnd
              (⟨{ Pipe.lateSeekFail with werr := some errUnseekable }, Mock.zeroValue, 0⟩ :
                LineIndexedPipe Mock.ReadWriteSeekable Mock.ReadWriteSeekable)).close.Write [0]
          = .ret ({ (LineIndexedPipe.afterSeekPastEnd
              (⟨{ Pipe.lateSeekFail with werr := some errUnseekable }, Mock.zeroValue, 0⟩ :
                LineIndexedPipe Mock.ReadWriteSeekable Mock.ReadWriteSeekable)).close with
                pipe := { (LineIndexedPipe.afterSeekPastEnd
              (⟨{ Pipe.lateSeekFail with werr := some errUnseekable }, Mock.zeroValue, 0⟩ :
                LineIndexedPipe Mock.ReadWriteSeekable Mock.ReadWriteSeekable)).close.pipe with
                  werr := some e' } }, 0, some e'))) ∧
    ((∃ e' : Error,
        ({ Pipe.lateSeekFail with werr := some errUnseekable } : Pipe Mock.ReadWriteSeekable).Read
            [0]
          = .ret ({ Pipe.lateSeekFail with werr := some errUnseekable, rerr := some e' },
              [0], 0, some e')) ∧
      (∃ e' : Error,
        ({ Pipe.lateSeekFail with werr := some errUnseekable } : Pipe Mock.ReadWriteSeekable).Write
            [0]
          = .ret ({ Pipe.lateSeekFail with werr := some e' }, 0, some e'))) := by
  have h := write_error_replies
    ({ Pipe.lateSeekFail with werr := some errUnseekable } : Pipe Mock.ReadWriteSeekable)
    (⟨{ Pipe.lateSeekFail with werr := some errUnseekable }, Mock.zeroValue, 0⟩ :
      LineIndexedPipe Mock.ReadWriteSeekable Mock.ReadWriteSeekable) errUnseekable
  obtain ⟨h1, h2, h3⟩ := h
  obtain ⟨h2a, h2b⟩ := h2 rfl rfl
  obtain ⟨-, -, -, -, h2c⟩ := h2b [.seekLine 0, .write [1], .close, .read [0]]
    ((LineIndexedPipe.afterSeekPastEnd
      (⟨{ Pipe.lateSeekFail with werr := some errUnseekable }, Mock.zeroValue, 0⟩ :
        LineIndexedPipe Mock.ReadWriteSeekable Mock.ReadWriteSeekable)).close)
    [.seekLine (some .EOF), .io (.write 0 (some .EOF)), .close,
      .io (.read [] 0 (some .ErrClosedPipe))] rfl
  exact ⟨h1 rfl rfl [.read [0], .seek 3 SEEK_SET, .write [1], .write [2], .read [0], .write [3]],
    h2a [.write [1], .seek 0 SEEK_END, .read [0]],
    ⟨rfl, (h2c [0]).1, (h2c [0]).2⟩,
    ((h3 _ (Option.some_ne_none _)).1 [0])⟩

end Bufpipe
